import Mathlib

/-!
# libskylark sketching transforms: FastRFT and RFUT over Elemental matrices

A shallow embedding of `sketch/FRFT_Elemental.hpp` and `sketch/RFUT_Elemental.hpp`.

* Scalars (`value_type`) are an arbitrary commutative ring `α`; `std::sqrt` and the
  cosine readout are carried in `MathFns`, so the same definitions run over `ℤ`, `ℚ`
  and `ℝ` (with `Real.sqrt`, `Real.cos`).
* A local `El::Matrix` is its two dimensions and its entry accessor `Get`; `Set`
  overwrites one entry. A raw buffer access `buf[i + j * LDim]` is the entry `(i, j)`.
* Loops of the source are folds over `List.range`, in the source's order, threading the
  buffers that the loop body mutates. The OpenMP worksharing of the column loop is the
  sequential loop of one thread.
* A distributed `El::DistMatrix` is its distribution pair, its grid, its global dimensions
  and the local matrix of every process, in Elemental's element-cyclic distribution with
  zero alignments. A collective operation is the map of its per-process work.
* Uninitialised storage (fresh scratch and output matrices) holds arbitrary values, passed
  in as `junk` parameters.
-/

namespace El

/-- The local dense matrix `El::Matrix<T>`: `Height()`, `Width()` and `Get(i, j)`. -/
structure Matrix (α : Type) where
  Height : Nat
  Width : Nat
  Get : Nat → Nat → α

namespace Matrix

variable {α : Type}

/-- `M.Set(i, j, v)`: overwrite entry `(i, j)`. -/
def Set (M : El.Matrix α) (i j : Nat) (v : α) : El.Matrix α :=
  { M with Get := fun i' j' => if i' = i ∧ j' = j then v else M.Get i' j' }

/-- Column `j` of `M` as the list of its `Height` entries. -/
def column (M : El.Matrix α) (j : Nat) : List α :=
  (List.range M.Height).map (fun i => M.Get i j)

/-- Row `i` of `M` as the list of its `Width` entries. -/
def row (M : El.Matrix α) (i : Nat) : List α :=
  (List.range M.Width).map (fun j => M.Get i j)

/-- Logical transpose (`El::Transpose` on local data). -/
def transpose (M : El.Matrix α) : El.Matrix α :=
  { Height := M.Width, Width := M.Height, Get := fun i j => M.Get j i }

end Matrix

/-- `El::DiagonalScale(El::LEFT, El::NORMAL, d, W)`: row `i` of `W` is multiplied by `d(i, 0)`. -/
def DiagonalScaleLeft {α : Type} [Mul α] (d W : El.Matrix α) : El.Matrix α :=
  { W with Get := fun i j => d.Get i 0 * W.Get i j }

/-- `El::DiagonalScale(El::RIGHT, El::NORMAL, d, W)`: column `j` of `W` is multiplied by `d(j, 0)`. -/
def DiagonalScaleRight {α : Type} [Mul α] (d W : El.Matrix α) : El.Matrix α :=
  { W with Get := fun i j => d.Get j 0 * W.Get i j }

/-- Elemental's distribution tags (`El::Distribution`). -/
inductive Distribution where
  | MC
  | MD
  | MR
  | VC
  | VR
  | STAR
  | CIRC
  deriving DecidableEq

/-- The process grid `El::Grid`: `Height() x Width()` processes. A process is named by its
rank in the column-major (`VC`) ordering of the grid. -/
structure Grid where
  Height : Nat
  Width : Nat

/-- `Grid::Size()`. -/
def Grid.Size (g : Grid) : Nat := g.Height * g.Width

/-- The stride of a distribution over a grid (`ColStride()` / `RowStride()`): the number
of processes among which the indices of one dimension are dealt. `MD` is not used by the
matrix types of the transforms and is given no partition here. -/
def Stride (g : Grid) : Distribution → Nat
  | .MC => g.Height
  | .MR => g.Width
  | .VC => g.Size
  | .VR => g.Size
  | .STAR => 1
  | .CIRC => 1
  | .MD => 1

/-- The shift of process `q` in a distribution (`ColShift()` / `RowShift()` with zero
alignment): its rank in the communicator the dimension is dealt over. -/
def Shift (g : Grid) (U : Distribution) (q : Nat) : Nat :=
  match U with
  | .MC => q % g.Height
  | .MR => q / g.Height
  | .VC => q
  | .VR => q / g.Height + (q % g.Height) * g.Width
  | .STAR => 0
  | .CIRC => 0
  | .MD => 0

/-- The lowest-ranked process whose shift in distribution `U` is `k`. -/
def RankOf (g : Grid) (U : Distribution) (k : Nat) : Nat :=
  match U with
  | .MC => k
  | .MR => k * g.Height
  | .VC => k
  | .VR => k / g.Width + (k % g.Width) * g.Height
  | .STAR => 0
  | .CIRC => 0
  | .MD => 0

/-- `El::Length(n, shift, stride)`: how many of the indices `0 .. n - 1` are
`shift + k * stride`. -/
def Length (n shift stride : Nat) : Nat :=
  if shift < n then (n - shift - 1) / stride + 1 else 0

/-- A distributed matrix `El::DistMatrix<T, ColDist, RowDist>`: its distribution, grid and
global dimensions, and the local matrix `Matrix()` / `LockedMatrix()` held by each
process. -/
structure DistMatrix (α : Type) where
  ColDist : Distribution
  RowDist : Distribution
  grid : Grid
  Height : Nat
  Width : Nat
  Matrix : Nat → El.Matrix α

namespace DistMatrix

variable {α : Type}

/-- `GlobalRow(iLoc)` on process `q`. -/
def GlobalRow (A : DistMatrix α) (q iLoc : Nat) : Nat :=
  Shift A.grid A.ColDist q + iLoc * Stride A.grid A.ColDist

/-- The process that owns global entry `(i, j)` (for replicated dimensions, the
lowest-ranked of them). -/
def Owner (A : DistMatrix α) (i j : Nat) : Nat :=
  RankOf A.grid A.ColDist (i % Stride A.grid A.ColDist)
    + RankOf A.grid A.RowDist (j % Stride A.grid A.RowDist)

/-- `Get(i, j)`: global entry `(i, j)`, read from its owner. -/
def Get (A : DistMatrix α) (i j : Nat) : α :=
  (A.Matrix (A.Owner i j)).Get (i / Stride A.grid A.ColDist) (j / Stride A.grid A.RowDist)

/-- The logical (global) matrix that a distributed matrix holds. -/
def logical (A : DistMatrix α) : El.Matrix α :=
  { Height := A.Height, Width := A.Width, Get := A.Get }

end DistMatrix

/-- The distributed matrix of distribution `[U, V]` over grid `g` that holds the logical
matrix `M`: process `q` stores the entries `(Shift U q + iLoc * Stride U,
Shift V q + jLoc * Stride V)`. This is what a redistribution (`B = A` between two
`DistMatrix` types) or `El::Transpose` produces for its logical result. -/
def distribute {α : Type} (U V : Distribution) (g : Grid) (M : El.Matrix α) : DistMatrix α :=
  { ColDist := U, RowDist := V, grid := g, Height := M.Height, Width := M.Width,
    Matrix := fun q =>
      { Height := Length M.Height (Shift g U q) (Stride g U),
        Width := Length M.Width (Shift g V q) (Stride g V),
        Get := fun iLoc jLoc =>
          M.Get (Shift g U q + iLoc * Stride g U) (Shift g V q + jLoc * Stride g V) } }

/-- The assignment `B = A` into a `DistMatrix<T, U, V>` on the same grid: the same logical
matrix, redistributed. -/
def redistribute {α : Type} (U V : Distribution) (A : DistMatrix α) : DistMatrix α :=
  distribute U V A.grid A.logical

/-- `El::Transpose(A, A_t)` where `A_t` has the same distribution type as `A`. -/
def Transpose {α : Type} (A : DistMatrix α) : DistMatrix α :=
  distribute A.ColDist A.RowDist A.grid A.logical.transpose

/-- A freshly constructed `DistMatrix<T, U, V>(h, w, grid)`: process `q` holds a local
matrix of the local dimensions with unspecified entries `junk q`. -/
def DistMatrix.alloc {α : Type} (U V : Distribution) (g : Grid) (h w : Nat)
    (junk : Nat → Nat → Nat → α) : DistMatrix α :=
  { ColDist := U, RowDist := V, grid := g, Height := h, Width := w,
    Matrix := fun q =>
      { Height := Length h (Shift g U q) (Stride g U),
        Width := Length w (Shift g V q) (Stride g V),
        Get := junk q } }

end El

namespace skylark

variable {α : Type}

/-- The two scalar library functions the transforms call: `std::sqrt`, and the cosine
readout selected at compile time by `SKYLARK_INEXACT_COSINE` (`std::cos` when it is not
defined). -/
structure MathFns (α : Type) where
  sqrt : α → α
  cos : α → α

/-- A fast unitary transform object (`FUT`, `_fut`; the class is a template parameter of
the transforms): the vector map it applies to one column or row, its inverse, and its
normalisation factor `scale()`. -/
structure FUT_t (α : Type) where
  apply : List α → List α
  apply_inverse : List α → List α
  scale : α

namespace FUT_t

/-- Modelled from the spec: `T.apply(A, columnwise_tag())` of the fast-transform adapter,
which transforms every column of `A` in place. -/
def apply_columnwise (T : FUT_t α) (A : El.Matrix α) : El.Matrix α :=
  { A with Get := fun i j => (T.apply (A.column j)).getD i (A.Get i j) }

/-- Modelled from the spec: `T.apply(A, rowwise_tag())` of the fast-transform adapter,
which transforms every row of `A` in place. -/
def apply_rowwise (T : FUT_t α) (A : El.Matrix α) : El.Matrix α :=
  { A with Get := fun i j => (T.apply (A.row i)).getD j (A.Get i j) }

/-- Modelled from the spec: `T.apply_inverse(A, columnwise_tag())` of the fast-transform
adapter, which inverse-transforms every column of `A` in place. -/
def apply_inverse_columnwise (T : FUT_t α) (A : El.Matrix α) : El.Matrix α :=
  { A with Get := fun i j => (T.apply_inverse (A.column j)).getD i (A.Get i j) }

end FUT_t

namespace sketch

/-- The members of `FastRFT_data_t` that `apply` reads. -/
structure FastRFT_data_t (α : Type) where
  _N : Nat
  _S : Nat
  _NB : Nat
  numblks : Nat
  B : List α
  G : List α
  Sm : List α
  P : List Nat
  shifts : List α
  scale : α

/-- Modelled from the spec: `numblks = ceil(S / NB)`, the value the absent
`FastRFT_data_t` constructor stores in `numblks`. -/
def ceil_div (S NB : Nat) : Nat := (S + NB - 1) / NB

/-- Start `s = i * _NB` of block `i` (columnwise `apply_impl`). -/
def blk_s (NB i : Nat) : Nat := i * NB

/-- End `e = std::min(s + _NB, _S)` of block `i` (columnwise `apply_impl`). -/
def blk_e (NB S i : Nat) : Nat := min (blk_s NB i + NB) S

/-- The output indices `l` with `s <= l < e` visited by the readout loop of block `i`. -/
def blk_range (NB S i : Nat) : List Nat :=
  List.range' (blk_s NB i) (blk_e NB S i - blk_s NB i)

/-- Modelled from the spec: the sub-matrix view `base::ColumnView(A, c, 1)`, the
one-column matrix holding column `c` of `A`. -/
def ColumnView (A : El.Matrix α) (c : Nat) : El.Matrix α :=
  { Height := A.Height, Width := 1, Get := fun i j => A.Get i (c + j) }

/-- Modelled from the spec: `base::DenseCopy(src, dst)`, the copy that loads the input
into the work buffer. Here `dst` is a view of the leading `h` rows and `w` columns of a
buffer `buf` (for the columnwise `Acv`: `h = _N`, `w = 1`, `buf = Ac`; for the rowwise `W`:
the whole of `W`): the viewed entries take the source's values, the rest of the buffer is
untouched. The source is taken to have the view's dimensions. -/
def DenseCopy (src : El.Matrix α) (h w : Nat) (buf : El.Matrix α) : El.Matrix α :=
  { buf with Get := fun i j => if i < h ∧ j < w then src.Get i j else buf.Get i j }

/-- `std::fill(ac + lo, ac + hi, 0)` on the single column of `Ac`. -/
def fill_zero [Zero α] (Ac : El.Matrix α) (lo hi : Nat) : El.Matrix α :=
  { Ac with Get := fun i j => if lo ≤ i ∧ i < hi ∧ j = 0 then 0 else Ac.Get i j }

/-- `std::swap(w[i1 + j1 * LDim], w[i2 + j2 * LDim])` on the buffer of `W`. -/
def swap_entries (W : El.Matrix α) (i1 j1 i2 j2 : Nat) : El.Matrix α :=
  (W.Set i1 j1 (W.Get i2 j2)).Set i2 j2 (W.Get i1 j1)

/-- The three block-local diagonals `B`, `G`, `Sm` of `apply_impl`. -/
structure Diagonals (α : Type) where
  B : El.Matrix α
  G : El.Matrix α
  Sm : El.Matrix α

/-- The loop `for (j = 0; j < n; j++) { B.Set(j, 0, B[i * n + j]); G.Set(j, 0, scal *
G[i * n + j]); Sm.Set(j, 0, scal * Sm[i * n + j]); }` with `n = _NB` (columnwise) or
`n = _N` (rowwise). -/
def set_diagonals [CommRing α] (d : FastRFT_data_t α) (n : Nat) (scal : α) (i : Nat)
    (D : Diagonals α) : Diagonals α :=
  (List.range n).foldl (fun D j =>
    { B := D.B.Set j 0 (d.B.getD (i * n + j) 0),
      G := D.G.Set j 0 (scal * d.G.getD (i * n + j) 0),
      Sm := D.Sm.Set j 0 (scal * d.Sm.getD (i * n + j) 0) }) D

/-- The readout of one entry: `x += shifts[l]; x = cos(x); x = scale * x`. -/
def readout [CommRing α] (d : FastRFT_data_t α) (m : MathFns α) (x : α) (l : Nat) : α :=
  d.scale * m.cos (x + d.shifts.getD l 0)

/-- The mutable state of the columnwise `apply_impl`: the per-thread scratch matrices
`W`, `Ac`, `B`, `G`, `Sm` and the output `sketch_of_A`. -/
structure ColumnwiseState (α : Type) where
  W : El.Matrix α
  Ac : El.Matrix α
  D : Diagonals α
  sketch_of_A : El.Matrix α

/-- The swap loop of the columnwise `apply_impl`:
`for l < _NB - 1: swap(w[_NB - 1 - l], w[P[i * (_NB - 1) + l]])`. -/
def columnwise_scramble (d : FastRFT_data_t α) (i : Nat) (W : El.Matrix α) : El.Matrix α :=
  (List.range (d._NB - 1)).foldl (fun W l =>
    swap_entries W (d._NB - 1 - l) 0 (d.P.getD (i * (d._NB - 1) + l) 0) 0) W

/-- Body of the block loop `for (i = 0; i < numblks; i++)` of the columnwise
`apply_impl`, for column `c`. The store `sac[l] = x` with `sac = sa + ldsa * c` is
`sketch_of_A.Set(l, c, x)`: the output is pre-sized with at least `_S` rows. -/
def columnwise_block [CommRing α] (d : FastRFT_data_t α) (m : MathFns α) (fut : FUT_t α)
    (c : Nat) (st : ColumnwiseState α) (i : Nat) : ColumnwiseState α :=
  let scal := m.sqrt (d._NB : α) * fut.scale
  let s := blk_s d._NB i
  let e := blk_e d._NB d._S i
  let D := set_diagonals d d._NB scal i st.D
  let W := st.Ac
  let W := El.DiagonalScaleLeft D.B W
  let W := fut.apply_columnwise W
  let W := columnwise_scramble d i W
  let W := El.DiagonalScaleLeft D.G W
  let W := fut.apply_columnwise W
  let W := El.DiagonalScaleLeft D.Sm W
  let sk := (List.range' s (e - s)).foldl (fun sk l =>
    sk.Set l c (readout d m (W.Get (l - s) 0) l)) st.sketch_of_A
  { W := W, Ac := st.Ac, D := D, sketch_of_A := sk }

/-- Body of the column loop `for (c = 0; c < Width(A); c++)` of the columnwise
`apply_impl`. -/
def columnwise_column [CommRing α] (d : FastRFT_data_t α) (m : MathFns α) (fut : FUT_t α)
    (A : El.Matrix α) (st : ColumnwiseState α) (c : Nat) : ColumnwiseState α :=
  let Acs := ColumnView A c
  let Ac := DenseCopy Acs d._N 1 st.Ac
  let Ac := fill_zero Ac d._N d._NB
  (List.range d.numblks).foldl (columnwise_block d m fut c) { st with Ac := Ac }

/-- The scratch matrices as allocated at the top of the columnwise `apply_impl`:
`W(_NB, 1)`, `Ac(_NB, 1)`, `B(_NB, 1)`, `G(_NB, 1)`, `Sm(_NB, 1)`. Their entries are
whatever the allocation holds: `junk k` for the `k`-th allocation. -/
def columnwise_alloc (d : FastRFT_data_t α) (junk : Nat → Nat → Nat → α)
    (sketch_of_A : El.Matrix α) : ColumnwiseState α :=
  { W := ⟨d._NB, 1, junk 0⟩, Ac := ⟨d._NB, 1, junk 1⟩,
    D := { B := ⟨d._NB, 1, junk 2⟩, G := ⟨d._NB, 1, junk 3⟩, Sm := ⟨d._NB, 1, junk 4⟩ },
    sketch_of_A := sketch_of_A }

/-- `FastRFT_t<InputType, El::Matrix>::apply_impl(A, sketch_of_A, columnwise_tag)`,
from a given state of the scratch matrices. -/
def apply_impl_columnwise_from [CommRing α] (d : FastRFT_data_t α) (m : MathFns α)
    (fut : FUT_t α) (st : ColumnwiseState α) (A : El.Matrix α) : ColumnwiseState α :=
  (List.range A.Width).foldl (columnwise_column d m fut A) st

/-- `FastRFT_t<InputType, El::Matrix>::apply_impl(A, sketch_of_A, columnwise_tag)`:
the value of `sketch_of_A` on return. -/
def apply_impl_columnwise [CommRing α] (d : FastRFT_data_t α) (m : MathFns α)
    (fut : FUT_t α) (junk : Nat → Nat → Nat → α) (A sketch_of_A : El.Matrix α) :
    El.Matrix α :=
  (apply_impl_columnwise_from d m fut (columnwise_alloc d junk sketch_of_A) A).sketch_of_A

/-- The swap loop of the rowwise `apply_impl`: `for c < Height(W): for l < _N - 1:
swap(w[c + (_N - 1 - l) * LDim], w[c + P[i * (_N - 1) + l] * LDim])`. -/
def rowwise_scramble (d : FastRFT_data_t α) (i : Nat) (W : El.Matrix α) : El.Matrix α :=
  (List.range W.Height).foldl (fun W c =>
    (List.range (d._N - 1)).foldl (fun W l =>
      swap_entries W c (d._N - 1 - l) c (d.P.getD (i * (d._N - 1) + l) 0)) W) W

/-- The mutable state of the rowwise `apply_impl`. -/
structure RowwiseState (α : Type) where
  W : El.Matrix α
  D : Diagonals α
  sketch_of_A : El.Matrix α

/-- Body of the block loop of the rowwise `apply_impl`. The final assignment
`view_sketch_of_A = view_W` copies the leading `e - s` columns of `W` into columns
`s .. e - 1` of `sketch_of_A`. -/
def rowwise_block [CommRing α] (d : FastRFT_data_t α) (m : MathFns α) (fut : FUT_t α)
    (A : El.Matrix α) (st : RowwiseState α) (i : Nat) : RowwiseState α :=
  let s := i * d._N
  let e := min (s + d._N) d._S
  let W := DenseCopy A A.Height A.Width st.W
  let scal := m.sqrt (d._N : α) * fut.scale
  let D := set_diagonals d d._N scal i st.D
  let W := El.DiagonalScaleRight D.B W
  let W := fut.apply_rowwise W
  let W := rowwise_scramble d i W
  let W := El.DiagonalScaleRight D.G W
  let W := fut.apply_rowwise W
  let W := El.DiagonalScaleRight D.Sm W
  let sk : El.Matrix α :=
    { st.sketch_of_A with Get := fun r j =>
        if r < A.Height ∧ s ≤ j ∧ j < e then W.Get r (j - s) else st.sketch_of_A.Get r j }
  { W := W, D := D, sketch_of_A := sk }

/-- The closing loops of the rowwise `apply_impl`: `for j < _S: for i < Height(A):
sketch_of_A.Set(i, j, scale * cos(sketch_of_A.Get(i, j) + shifts[j]))`. -/
def rowwise_readout [CommRing α] (d : FastRFT_data_t α) (m : MathFns α) (A : El.Matrix α)
    (sk : El.Matrix α) : El.Matrix α :=
  (List.range d._S).foldl (fun sk j =>
    (List.range A.Height).foldl (fun sk i =>
      sk.Set i j (readout d m (sk.Get i j) j)) sk) sk

/-- The scratch matrices as allocated by the rowwise `apply_impl`:
`W(Height(A), Width(A))`, `B(_N, 1)`, `G(_N, 1)`, `Sm(_N, 1)`. -/
def rowwise_alloc (d : FastRFT_data_t α) (junk : Nat → Nat → Nat → α)
    (A sketch_of_A : El.Matrix α) : RowwiseState α :=
  { W := ⟨A.Height, A.Width, junk 0⟩,
    D := { B := ⟨d._N, 1, junk 2⟩, G := ⟨d._N, 1, junk 3⟩, Sm := ⟨d._N, 1, junk 4⟩ },
    sketch_of_A := sketch_of_A }

/-- `FastRFT_t<InputType, El::Matrix>::apply_impl(A, sketch_of_A, rowwise_tag)`:
the value of `sketch_of_A` on return. -/
def apply_impl_rowwise [CommRing α] (d : FastRFT_data_t α) (m : MathFns α)
    (fut : FUT_t α) (junk : Nat → Nat → Nat → α) (A sketch_of_A : El.Matrix α) :
    El.Matrix α :=
  rowwise_readout d m A
    ((List.range d.numblks).foldl (rowwise_block d m fut A)
      (rowwise_alloc d junk A sketch_of_A)).sketch_of_A

/-! ### FastRFT on distributed matrices -/

/-- `FastRFT_t<DistMatrix<STAR, RowDist>, ..>::apply_impl_vdist(A, sketch_of_A,
columnwise_tag)`: on every process, `_local.apply(A.LockedMatrix(), sketch_of_A.Matrix(),
tag)`. `junk q` is the content of the scratch allocations of process `q`. -/
def STAR_X_apply_impl_vdist_columnwise [CommRing α] (d : FastRFT_data_t α) (m : MathFns α)
    (fut : FUT_t α) (junk : Nat → Nat → Nat → Nat → α) (A sketch_of_A : El.DistMatrix α) :
    El.DistMatrix α :=
  { sketch_of_A with
    Matrix := fun q =>
      apply_impl_columnwise d m fut (junk q) (A.Matrix q) (sketch_of_A.Matrix q) }

/-- `FastRFT_t<DistMatrix<STAR, RowDist>, ..>::apply_impl_vdist(A, sketch_of_A,
rowwise_tag)`: transposes `A` into `A_t`, allocates `sketch_of_A_t`, calls
`apply_impl_vdist(A_t, sketch_of_A_t, rowwise_tag())` (this same function) and transposes
the result back. `fuel` bounds the depth of the recursion; `none` means that the call did
not return within it. `junk k` is the content of the `sketch_of_A_t` allocated `k` levels
above the bound. -/
def STAR_X_apply_impl_vdist_rowwise (fuel : Nat) (junk : Nat → Nat → Nat → Nat → α)
    (A sketch_of_A : El.DistMatrix α) : Option (El.DistMatrix α) :=
  match fuel with
  | 0 => none
  | fuel + 1 =>
    let A_t := El.Transpose A
    let sketch_of_A_t := El.DistMatrix.alloc sketch_of_A.ColDist sketch_of_A.RowDist
      sketch_of_A.grid sketch_of_A.Width sketch_of_A.Height (junk fuel)
    match STAR_X_apply_impl_vdist_rowwise fuel junk A_t sketch_of_A_t with
    | none => none
    | some r => some (El.Transpose r)

/-- `FastRFT_t<DistMatrix<ColDist, STAR>, ..>::apply_impl_vdist(A, sketch_of_A,
rowwise_tag)`: on every process, `_local.apply(A.LockedMatrix(), sketch_of_A.Matrix(),
tag)`. -/
def X_STAR_apply_impl_vdist_rowwise [CommRing α] (d : FastRFT_data_t α) (m : MathFns α)
    (fut : FUT_t α) (junk : Nat → Nat → Nat → Nat → α) (A sketch_of_A : El.DistMatrix α) :
    El.DistMatrix α :=
  { sketch_of_A with
    Matrix := fun q =>
      apply_impl_rowwise d m fut (junk q) (A.Matrix q) (sketch_of_A.Matrix q) }

/-- `FastRFT_t<DistMatrix<ColDist, STAR>, ..>::apply_impl_vdist(A, sketch_of_A,
columnwise_tag)`: transposes `A` into `A_t`, allocates `sketch_of_A_t(Width, Height)`,
applies the rowwise `apply_impl_vdist` to them and transposes the result into
`sketch_of_A`. `junk_t` is the content of the fresh `sketch_of_A_t`. -/
def X_STAR_apply_impl_vdist_columnwise [CommRing α] (d : FastRFT_data_t α) (m : MathFns α)
    (fut : FUT_t α) (junk : Nat → Nat → Nat → Nat → α) (junk_t : Nat → Nat → Nat → α)
    (A sketch_of_A : El.DistMatrix α) : El.DistMatrix α :=
  let A_t := El.Transpose A
  let sketch_of_A_t := El.DistMatrix.alloc sketch_of_A.ColDist sketch_of_A.RowDist
    sketch_of_A.grid sketch_of_A.Width sketch_of_A.Height junk_t
  let sketch_of_A_t := X_STAR_apply_impl_vdist_rowwise d m fut junk A_t sketch_of_A_t
  El.Transpose sketch_of_A_t

/-- `FastRFT_t<DistMatrix<T>, DistMatrix<T>>::apply(A, sketch_of_A, columnwise_tag)` for
`[MC, MR]`: `A1 = A` into `[STAR, VR]`, a fresh `SA1(_S, A1.Width())` (constructed without
a grid argument, so on the default grid), the `[STAR, VR]` apply (whose `switch` takes the
`VR` case, `apply_impl_vdist`), and `sketch_of_A = SA1`, which redistributes `SA1` into the
`[MC, MR]` output on the output's grid. -/
def MC_MR_apply_columnwise [CommRing α] (d : FastRFT_data_t α) (m : MathFns α)
    (fut : FUT_t α) (DefaultGrid : El.Grid) (junk : Nat → Nat → Nat → Nat → α)
    (junk1 : Nat → Nat → Nat → α) (A sketch_of_A : El.DistMatrix α) : El.DistMatrix α :=
  let A1 := El.redistribute .STAR .VR A
  let SA1 := El.DistMatrix.alloc .STAR .VR DefaultGrid d._S A1.Width junk1
  let SA1 := STAR_X_apply_impl_vdist_columnwise d m fut junk A1 SA1
  El.distribute .MC .MR sketch_of_A.grid SA1.logical

/-- `FastRFT_t<DistMatrix<T>, DistMatrix<T>>::apply(A, sketch_of_A, rowwise_tag)` for
`[MC, MR]`: `A1 = A` into `[VC, STAR]`, a fresh `SA1(A1.Height(), _S)` (on the default
grid), the `[VC, STAR]` apply (whose `switch` takes the `VC` case, `apply_impl_vdist`), and
`sketch_of_A = SA1`, which redistributes `SA1` into the `[MC, MR]` output on the output's
grid. -/
def MC_MR_apply_rowwise [CommRing α] (d : FastRFT_data_t α) (m : MathFns α)
    (fut : FUT_t α) (DefaultGrid : El.Grid) (junk : Nat → Nat → Nat → Nat → α)
    (junk1 : Nat → Nat → Nat → α) (A sketch_of_A : El.DistMatrix α) : El.DistMatrix α :=
  let A1 := El.redistribute .VC .STAR A
  let SA1 := El.DistMatrix.alloc .VC .STAR DefaultGrid A1.Height d._S junk1
  let SA1 := X_STAR_apply_impl_vdist_rowwise d m fut junk A1 SA1
  El.distribute .MC .MR sketch_of_A.grid SA1.logical

/-! ### The transform as the specification words it -/

/-- `pad(a)`: `a` extended with zeros to length `NB`. -/
def spec_pad [Zero α] (NB : Nat) (a : List α) : List α :=
  a ++ List.replicate (NB - a.length) 0

/-- The `i`-th length-`NB` slice of a parameter array. -/
def spec_slice (NB i : Nat) (xs : List α) : List α :=
  (xs.drop (i * NB)).take NB

/-- Swap of positions `p` and `q` of a vector. -/
def spec_swap [Zero α] (w : List α) (p q : Nat) : List α :=
  (w.set p (w.getD q 0)).set q (w.getD p 0)

/-- `scramble_i`: in order for `l = 0 .. NB - 2`, the swap of positions `NB - 1 - l` and
`P[i * (NB - 1) + l]`. -/
def spec_scramble [Zero α] (NB : Nat) (P : List Nat) (i : Nat) (w : List α) : List α :=
  (List.range (NB - 1)).foldl (fun w l =>
    spec_swap w (NB - 1 - l) (P.getD (i * (NB - 1) + l) 0)) w

/-- `c * D ⊙ v`: entrywise product of `v` with the diagonal `D` scaled by `c`. -/
def spec_diag [Mul α] (c : α) (D v : List α) : List α :=
  List.zipWith (fun g x => c * g * x) D v

/-- The block vector of a length-`n` input `v` for block size `n`:
`c * Sm_i ⊙ F(c * G_i ⊙ scramble_i(F(B_i ⊙ v)))` with `c = sqrt(n) * F.scale()`. -/
def spec_w_blk [CommRing α] (n : Nat) (d : FastRFT_data_t α) (m : MathFns α) (fut : FUT_t α)
    (i : Nat) (v : List α) : List α :=
  let c := m.sqrt (n : α) * fut.scale
  spec_diag c (spec_slice n i d.Sm)
    (fut.apply
      (spec_diag c (spec_slice n i d.G)
        (spec_scramble n d.P i
          (fut.apply
            (List.zipWith (fun b x => b * x) (spec_slice n i d.B) v)))))

/-- The block vector `w_i = c * Sm_i ⊙ F(c * G_i ⊙ scramble_i(F(B_i ⊙ pad(a))))` with
`c = sqrt(NB) * F.scale()`. -/
def spec_w [CommRing α] (d : FastRFT_data_t α) (m : MathFns α) (fut : FUT_t α)
    (i : Nat) (a : List α) : List α :=
  spec_w_blk d._NB d m fut i (spec_pad d._NB a)

/-- The parameter arrays are large enough for `numblks` blocks of size `n` (`B`, `G`,
`Sm`: one length-`n` slice per block; `P`: `n - 1` entries per block) and every entry of
`P` is a position inside a block of size `n`: what an `apply_impl` that works with blocks
of size `n` indexes. -/
def FastRFT_data_t.WF_blk (d : FastRFT_data_t α) (n : Nat) : Prop :=
  d.numblks * n ≤ d.B.length ∧ d.numblks * n ≤ d.G.length ∧
  d.numblks * n ≤ d.Sm.length ∧ d.numblks * (n - 1) ≤ d.P.length ∧
  ∀ p, p ∈ d.P → p < n

/-- Well-formed parameter set for the columnwise `apply_impl` (blocks of size `_NB`). -/
def FastRFT_data_t.WF (d : FastRFT_data_t α) : Prop := d.WF_blk d._NB

/-! ### Concrete inputs -/

/-- The matrix with `h` rows whose columns are the given lists. -/
def ofColumns [Zero α] (h : Nat) (cols : List (List α)) : El.Matrix α :=
  { Height := h, Width := cols.length, Get := fun i j => (cols.getD j []).getD i 0 }

/-- The unnormalised 2-point Hadamard butterfly `F0([a, b]) = [a + b, a - b]`, which is
its own unnormalised inverse, with a given `scale()`; vectors of another length are left
as they are. -/
def F0 [CommRing α] (scale : α) : FUT_t α :=
  { apply := fun v => match v with
      | [a, b] => [a + b, a - b]
      | v => v,
    apply_inverse := fun v => match v with
      | [a, b] => [a + b, a - b]
      | v => v,
    scale := scale }

/-- The identity transform, with `scale() = 1`. -/
def Fid [CommRing α] : FUT_t α :=
  { apply := fun v => v, apply_inverse := fun v => v, scale := 1 }

/-- The parameter set of the FastRFT worked example: `N = S = NB = 2`, one block,
`B = [1, -1]`, `G = [1, 1]`, `Sm = [1, 1]`, `shifts = [0, 0]`, `P = [1]`, `scale = 1`. -/
def worked_example [CommRing α] : FastRFT_data_t α :=
  { _N := 2, _S := 2, _NB := 2, numblks := 1, B := [1, -1], G := [1, 1], Sm := [1, 1],
    P := [1], shifts := [0, 0], scale := 1 }

/-- A parameter set whose input dimension is smaller than its block size: `N = 1`,
`NB = 2`, `S = 2`, one block, `B = G = Sm = [1, 1]`, `P = [0]`, `shifts = [0, 0]`,
`scale = 1`. -/
def narrow_example [CommRing α] : FastRFT_data_t α :=
  { _N := 1, _S := 2, _NB := 2, numblks := 1, B := [1, 1], G := [1, 1], Sm := [1, 1],
    P := [0], shifts := [0, 0], scale := 1 }

/-! ### RFUT -/

/-- The members of `RFUT_data_t` that `apply` reads: the dimension `_N` and the random
diagonal `D`. -/
structure RFUT_data_t (α : Type) where
  _N : Nat
  D : List α

/-- The scaling loops `for (j < Width(local_A)) for (i < _N) local_TA.Set(i, j,
scale * D[i] * local_A.Get(i, j))` of the columnwise RFUT apply. -/
def RFUT_scale_columns [CommRing α] (rd : RFUT_data_t α) (scale : α)
    (local_A local_TA : El.Matrix α) : El.Matrix α :=
  (List.range local_A.Width).foldl (fun TA j =>
    (List.range rd._N).foldl (fun TA i =>
      TA.Set i j (scale * rd.D.getD i 0 * local_A.Get i j)) TA) local_TA

/-- The work of one process in `RFUT_t<DistMatrix<STAR, RowDist>, FUT, ..>::
apply_impl_vdist(A, mixed_A, columnwise_tag)`: `FUT T(_N)`, the scaling loops into
`local_TA = mixed_A.Matrix()` with `scale = T.scale()`, then
`T.apply(local_TA, columnwise_tag())`. -/
def RFUT_STAR_X_local_columnwise [CommRing α] (rd : RFUT_data_t α) (FUT : Nat → FUT_t α)
    (local_A local_TA : El.Matrix α) : El.Matrix α :=
  let T := FUT rd._N
  let scale := T.scale
  let local_TA := RFUT_scale_columns rd scale local_A local_TA
  T.apply_columnwise local_TA

/-- `RFUT_t<DistMatrix<STAR, RowDist>, FUT, ..>::apply_impl_vdist(A, mixed_A,
columnwise_tag)`, on every process. -/
def RFUT_STAR_X_apply_impl_vdist_columnwise [CommRing α] (rd : RFUT_data_t α)
    (FUT : Nat → FUT_t α) (A mixed_A : El.DistMatrix α) : El.DistMatrix α :=
  { mixed_A with
    Matrix := fun q => RFUT_STAR_X_local_columnwise rd FUT (A.Matrix q) (mixed_A.Matrix q) }

/-- Sum of the squares of the entries of a vector (the squared Euclidean norm). -/
def sum_sq [CommRing α] (v : List α) : α := (v.map (fun a => a * a)).sum

/-! ### RFUT on `[VC/VR, STAR]` matrices -/

/-- The in-place scaling loops `for (j < Width(local_A)) for (i < _N) local_A.Set(i, j,
scale * D[i] * local_A.Get(i, j))` of the columnwise `[VC/VR, STAR]` RFUT apply and
apply_inverse, which read and overwrite the local matrix of the intermediate. -/
def RFUT_scale_columns_inplace [CommRing α] (rd : RFUT_data_t α) (scale : α)
    (local_A : El.Matrix α) : El.Matrix α :=
  (List.range local_A.Width).foldl (fun M j =>
    (List.range rd._N).foldl (fun M i =>
      M.Set i j (scale * rd.D.getD i 0 * M.Get i j)) M) local_A

/-- The work of one process on `local_A = inter_A.Matrix()` in `RFUT_t<DistMatrix<RowDist,
STAR>, FUT, ..>::apply_impl_vdist(A, mixed_A, columnwise_tag)`: `FUT T(_N)`, the in-place
scaling loops with `scale = T.scale(local_A)` (the normalisation factor of the adapter),
then `T.apply(local_A, columnwise_tag())`. -/
def RFUT_X_STAR_local_columnwise [CommRing α] (rd : RFUT_data_t α) (FUT : Nat → FUT_t α)
    (local_A : El.Matrix α) : El.Matrix α :=
  let T := FUT rd._N
  let scale := T.scale
  let local_A := RFUT_scale_columns_inplace rd scale local_A
  T.apply_columnwise local_A

/-- `RFUT_t<DistMatrix<RowDist, STAR>, FUT, ..>::apply_impl_vdist(A, mixed_A,
columnwise_tag)`: `inter_A = A` into the intermediate type `[STAR, RowDist]` on the grid
of `A`, the local work on every process, and `mixed_A = inter_A`, which redistributes the
intermediate into the output. -/
def RFUT_X_STAR_apply_impl_vdist_columnwise [CommRing α] (rd : RFUT_data_t α)
    (FUT : Nat → FUT_t α) (A mixed_A : El.DistMatrix α) : El.DistMatrix α :=
  let inter_A := El.redistribute .STAR A.ColDist A
  let inter_A : El.DistMatrix α :=
    { inter_A with Matrix := fun q => RFUT_X_STAR_local_columnwise rd FUT (inter_A.Matrix q) }
  El.distribute mixed_A.ColDist mixed_A.RowDist mixed_A.grid inter_A.logical

/-- The work of one process on `local_A = inter_A.Matrix()` in `RFUT_t<DistMatrix<RowDist,
STAR>, FUT, ..>::apply_inverse_impl_vdist(A, mixed_A, columnwise_tag)`: `FUT T(_N)`,
`T.apply_inverse(local_A, columnwise_tag())`, then the in-place scaling loops with
`scale = T.scale(local_A)`. -/
def RFUT_X_STAR_local_inverse_columnwise [CommRing α] (rd : RFUT_data_t α)
    (FUT : Nat → FUT_t α) (local_A : El.Matrix α) : El.Matrix α :=
  let T := FUT rd._N
  let local_A := T.apply_inverse_columnwise local_A
  let scale := T.scale
  RFUT_scale_columns_inplace rd scale local_A

/-- `RFUT_t<DistMatrix<RowDist, STAR>, FUT, ..>::apply_inverse_impl_vdist(A, mixed_A,
columnwise_tag)`: `inter_A = A` into `[STAR, RowDist]`, the local work on every process,
and `mixed_A = inter_A`. -/
def RFUT_X_STAR_apply_inverse_impl_vdist_columnwise [CommRing α] (rd : RFUT_data_t α)
    (FUT : Nat → FUT_t α) (A mixed_A : El.DistMatrix α) : El.DistMatrix α :=
  let inter_A := El.redistribute .STAR A.ColDist A
  let inter_A : El.DistMatrix α :=
    { inter_A with
      Matrix := fun q => RFUT_X_STAR_local_inverse_columnwise rd FUT (inter_A.Matrix q) }
  El.distribute mixed_A.ColDist mixed_A.RowDist mixed_A.grid inter_A.logical

/-- The scaling loops `for (j < _N) for (i < Height(local_A)) local_TA.Set(i, j,
scale * D[j] * local_A.Get(i, j))` of the rowwise RFUT apply. -/
def RFUT_scale_rows [CommRing α] (rd : RFUT_data_t α) (scale : α)
    (local_A local_TA : El.Matrix α) : El.Matrix α :=
  (List.range rd._N).foldl (fun TA j =>
    (List.range local_A.Height).foldl (fun TA i =>
      TA.Set i j (scale * rd.D.getD j 0 * local_A.Get i j)) TA) local_TA

/-- `RFUT_t<DistMatrix<RowDist, STAR>, FUT, ..>::apply_impl_vdist(A, mixed_A,
rowwise_tag)`, on every process: the scaling loops from `A.LockedMatrix()` into
`mixed_A.Matrix()`, then `T.apply(local_TA, rowwise_tag())`. -/
def RFUT_X_STAR_apply_impl_vdist_rowwise [CommRing α] (rd : RFUT_data_t α)
    (FUT : Nat → FUT_t α) (A mixed_A : El.DistMatrix α) : El.DistMatrix α :=
  { mixed_A with
    Matrix := fun q =>
      let T := FUT rd._N
      let scale := T.scale
      let local_TA := RFUT_scale_rows rd scale (A.Matrix q) (mixed_A.Matrix q)
      T.apply_rowwise local_TA }

/-- The inverse map as the specification words it: undo the normalised fast transform
(`scale() * apply_inverse`), then divide coordinate `i` by `D[i]`. -/
def spec_RFUT_inverse [Field α] (D : List α) (T : FUT_t α) (a : List α) : List α :=
  List.zipWith (fun g y => y / g) D ((T.apply_inverse a).map (fun y => T.scale * y))

/-! ### Exceptions and the `apply` dispatchers -/

/-- The exceptions that the collaborators of the transforms (Elemental, the
message-passing layer, the runtime) throw, as far as the `catch` clauses of `apply` tell
them apart: a `std::logic_error`, a `boost::mpi::exception`, or an exception of any other
type. -/
inductive low_level_exception where
  | std_logic_error
  | boost_mpi_exception
  | other
  deriving DecidableEq

/-- What can leave a call: one of the typed exceptions `base::unsupported_matrix_distribution`,
`base::elemental_exception`, `base::mpi_exception`, or a collaborator's exception that
propagates as it was thrown. -/
inductive exception where
  | unsupported_matrix_distribution
  | elemental_exception
  | mpi_exception
  | raw (e : low_level_exception)
  deriving DecidableEq

/-- The result of a call that may throw: the exception that left the call, if any, and the
content of its output argument afterwards. -/
structure outcome (β : Type) where
  thrown : Option exception
  out : β

/-- A body whose collaborators may throw. Without a fault it completes and leaves `v` in
the output; with the fault `(e, s)` a collaborator throws `e` at a moment when the output
holds `s`, and `e` leaves the body. -/
def raising {β : Type} (fault : Option (low_level_exception × β)) (v : β) : outcome β :=
  match fault with
  | none => ⟨none, v⟩
  | some (e, s) => ⟨some (.raw e), s⟩

/-- The handlers `try { .. } catch (std::logic_error e) { throw base::elemental_exception }
catch (boost::mpi::exception e) { throw base::mpi_exception }` that `apply` puts around its
body. -/
def try_catch {β : Type} (o : outcome β) : outcome β :=
  match o.thrown with
  | some (.raw .std_logic_error) => ⟨some .elemental_exception, o.out⟩
  | some (.raw .boost_mpi_exception) => ⟨some .mpi_exception, o.out⟩
  | _ => o

/-- The tag argument `Dimension dimension` of `apply`. -/
inductive dimension_tag where
  | columnwise_tag
  | rowwise_tag
  deriving DecidableEq

/-- The overloads of `FastRFT_t<InputType, El::Matrix>::apply_impl`, selected by the
tag. -/
def apply_impl [CommRing α] (dimension : dimension_tag) (d : FastRFT_data_t α)
    (m : MathFns α) (fut : FUT_t α) (junk : Nat → Nat → Nat → α)
    (A sketch_of_A : El.Matrix α) : El.Matrix α :=
  match dimension with
  | .columnwise_tag => apply_impl_columnwise d m fut junk A sketch_of_A
  | .rowwise_tag => apply_impl_rowwise d m fut junk A sketch_of_A

/-- `FastRFT_t<InputType, El::Matrix>::apply(A, sketch_of_A, dimension)`: `apply_impl`
inside the handlers. -/
def local_apply [CommRing α] (dimension : dimension_tag) (d : FastRFT_data_t α)
    (m : MathFns α) (fut : FUT_t α) (junk : Nat → Nat → Nat → α)
    (fault : Option (low_level_exception × El.Matrix α))
    (A sketch_of_A : El.Matrix α) : outcome (El.Matrix α) :=
  try_catch (raising fault (apply_impl dimension d m fut junk A sketch_of_A))

/-- `FastRFT_t<DistMatrix<STAR, STAR>, ..>::apply(A, sketch_of_A, dimension)` as process
`q` executes it: `_local.apply(A.LockedMatrix(), sketch_of_A.Matrix(), dimension)`. The
result is what process `q` throws and the local matrix of its output. -/
def STAR_STAR_apply [CommRing α] (dimension : dimension_tag) (d : FastRFT_data_t α)
    (m : MathFns α) (fut : FUT_t α) (junk : Nat → Nat → Nat → Nat → α)
    (fault : Nat → Option (low_level_exception × El.Matrix α))
    (A sketch_of_A : El.DistMatrix α) (q : Nat) : outcome (El.Matrix α) :=
  local_apply dimension d m fut (junk q) (fault q) (A.Matrix q) (sketch_of_A.Matrix q)

/-- `FastRFT_t<DistMatrix<CIRC, CIRC>, ..>::apply(A, sketch_of_A, dimension)` as process
`q` executes it, `q` being its rank in the communicator of `A`: `if (get_communicator(A)
.rank() == 0) _local.apply(A.LockedMatrix(), sketch_of_A.Matrix(), dimension)`. -/
def CIRC_CIRC_apply [CommRing α] (dimension : dimension_tag) (d : FastRFT_data_t α)
    (m : MathFns α) (fut : FUT_t α) (junk : Nat → Nat → Nat → Nat → α)
    (fault : Nat → Option (low_level_exception × El.Matrix α))
    (A sketch_of_A : El.DistMatrix α) (q : Nat) : outcome (El.Matrix α) :=
  if q = 0 then
    local_apply dimension d m fut (junk q) (fault q) (A.Matrix q) (sketch_of_A.Matrix q)
  else ⟨none, sketch_of_A.Matrix q⟩

/-- `FastRFT_t<DistMatrix<ColDist, STAR>, ..>::apply(A, sketch_of_A, dimension)`:
`switch (ColDist)`, whose cases `VR` and `VC` run `apply_impl_vdist` inside the handlers
and whose default throws `base::unsupported_matrix_distribution`. (The `_local.apply`
inside `apply_impl_vdist` has the same handlers, so a translated exception passes the
outer ones unchanged.) -/
def X_STAR_apply [CommRing α] (dimension : dimension_tag) (d : FastRFT_data_t α)
    (m : MathFns α) (fut : FUT_t α) (junk : Nat → Nat → Nat → Nat → α)
    (junk_t : Nat → Nat → Nat → α) (fault : Option (low_level_exception × El.DistMatrix α))
    (A sketch_of_A : El.DistMatrix α) : outcome (El.DistMatrix α) :=
  match A.ColDist with
  | .VR | .VC =>
    try_catch (raising fault
      (match dimension with
        | .columnwise_tag =>
          X_STAR_apply_impl_vdist_columnwise d m fut junk junk_t A sketch_of_A
        | .rowwise_tag => X_STAR_apply_impl_vdist_rowwise d m fut junk A sketch_of_A))
  | _ => ⟨some .unsupported_matrix_distribution, sketch_of_A⟩

/-- `FastRFT_t<DistMatrix<STAR, RowDist>, ..>::apply(A, sketch_of_A, columnwise_tag)`:
`switch (RowDist)`, whose cases `VR` and `VC` run `apply_impl_vdist` inside the handlers
and whose default throws `base::unsupported_matrix_distribution`. -/
def STAR_X_apply_columnwise [CommRing α] (d : FastRFT_data_t α)
    (m : MathFns α) (fut : FUT_t α) (junk : Nat → Nat → Nat → Nat → α)
    (fault : Option (low_level_exception × El.DistMatrix α))
    (A sketch_of_A : El.DistMatrix α) : outcome (El.DistMatrix α) :=
  match A.RowDist with
  | .VR | .VC =>
    try_catch (raising fault (STAR_X_apply_impl_vdist_columnwise d m fut junk A sketch_of_A))
  | _ => ⟨some .unsupported_matrix_distribution, sketch_of_A⟩

/-- `FastRFT_t<DistMatrix<STAR, RowDist>, ..>::apply(A, sketch_of_A, rowwise_tag)`: the
same `switch`; in the cases `VR` and `VC` the body is the self-recursive rowwise
`apply_impl_vdist`, which leaves by a collaborator's exception or not at all (`none`: no
return within `fuel`). -/
def STAR_X_apply_rowwise (fuel : Nat) (junk : Nat → Nat → Nat → Nat → α)
    (fault : Option (low_level_exception × El.DistMatrix α))
    (A sketch_of_A : El.DistMatrix α) : Option (outcome (El.DistMatrix α)) :=
  match A.RowDist with
  | .VR | .VC =>
    match fault with
    | some (e, s) => some (try_catch ⟨some (.raw e), s⟩)
    | none =>
      match STAR_X_apply_impl_vdist_rowwise fuel junk A sketch_of_A with
      | none => none
      | some r => some (try_catch ⟨none, r⟩)
  | _ => some ⟨some .unsupported_matrix_distribution, sketch_of_A⟩

/-- `FastRFT_t<DistMatrix<T>, DistMatrix<T>>::apply(A, sketch_of_A, tag)` for `[MC, MR]`,
with the exceptions of its three steps. `redis_type A1 = A` (throwing under `f1`) and
`sketch_of_A = SA1` (throwing under `f3`) are outside any handler; the inner `S1.apply` is
the `[STAR, VR]` apply for `columnwise_tag` and the `[VC, STAR]` apply for `rowwise_tag`
(fault `f2`), and what it throws propagates with `sketch_of_A` not yet assigned. -/
def MC_MR_apply [CommRing α] (dimension : dimension_tag) (d : FastRFT_data_t α)
    (m : MathFns α) (fut : FUT_t α) (DefaultGrid : El.Grid)
    (junk : Nat → Nat → Nat → Nat → α) (junk1 junk_t : Nat → Nat → Nat → α)
    (f1 : Option low_level_exception)
    (f2 f3 : Option (low_level_exception × El.DistMatrix α))
    (A sketch_of_A : El.DistMatrix α) : outcome (El.DistMatrix α) :=
  match f1 with
  | some e => ⟨some (.raw e), sketch_of_A⟩
  | none =>
    let inner := match dimension with
      | .columnwise_tag =>
        let A1 := El.redistribute .STAR .VR A
        let SA1 := El.DistMatrix.alloc .STAR .VR DefaultGrid d._S A1.Width junk1
        STAR_X_apply_columnwise d m fut junk f2 A1 SA1
      | .rowwise_tag =>
        let A1 := El.redistribute .VC .STAR A
        let SA1 := El.DistMatrix.alloc .VC .STAR DefaultGrid A1.Height d._S junk1
        X_STAR_apply .rowwise_tag d m fut junk junk_t f2 A1 SA1
    match inner.thrown with
    | some e => ⟨some e, sketch_of_A⟩
    | none =>
      match f3 with
      | some (e, s) => ⟨some (.raw e), s⟩
      | none => ⟨none, El.distribute .MC .MR sketch_of_A.grid inner.out.logical⟩

/-- `RFUT_t<DistMatrix<STAR, RowDist>, FUT, ..>::apply(A, mixed_A, columnwise_tag)`:
`switch (RowDist)`, whose cases `VC` and `VR` run `apply_impl_vdist` inside the handlers
and whose default throws `base::unsupported_matrix_distribution`. -/
def RFUT_STAR_X_apply [CommRing α] (rd : RFUT_data_t α) (FUT : Nat → FUT_t α)
    (fault : Option (low_level_exception × El.DistMatrix α))
    (A mixed_A : El.DistMatrix α) : outcome (El.DistMatrix α) :=
  match A.RowDist with
  | .VC | .VR =>
    try_catch (raising fault (RFUT_STAR_X_apply_impl_vdist_columnwise rd FUT A mixed_A))
  | _ => ⟨some .unsupported_matrix_distribution, mixed_A⟩

/-- `RFUT_t<DistMatrix<RowDist, STAR>, FUT, ..>::apply(A, mixed_A, dimension)`: the
`switch` on the distribution of the rows of `A` (the first template argument of its
type). -/
def RFUT_X_STAR_apply [CommRing α] (dimension : dimension_tag) (rd : RFUT_data_t α)
    (FUT : Nat → FUT_t α) (fault : Option (low_level_exception × El.DistMatrix α))
    (A mixed_A : El.DistMatrix α) : outcome (El.DistMatrix α) :=
  match A.ColDist with
  | .VC | .VR =>
    try_catch (raising fault
      (match dimension with
        | .columnwise_tag => RFUT_X_STAR_apply_impl_vdist_columnwise rd FUT A mixed_A
        | .rowwise_tag => RFUT_X_STAR_apply_impl_vdist_rowwise rd FUT A mixed_A))
  | _ => ⟨some .unsupported_matrix_distribution, mixed_A⟩

/-- `RFUT_t<DistMatrix<RowDist, STAR>, FUT, ..>::apply_inverse(A, mixed_A,
columnwise_tag)`: the same `switch` around `apply_inverse_impl_vdist`. -/
def RFUT_X_STAR_apply_inverse [CommRing α] (rd : RFUT_data_t α)
    (FUT : Nat → FUT_t α) (fault : Option (low_level_exception × El.DistMatrix α))
    (A mixed_A : El.DistMatrix α) : outcome (El.DistMatrix α) :=
  match A.ColDist with
  | .VC | .VR =>
    try_catch (raising fault
      (RFUT_X_STAR_apply_inverse_impl_vdist_columnwise rd FUT A mixed_A))
  | _ => ⟨some .unsupported_matrix_distribution, mixed_A⟩

/-- What the handlers of `apply` let out: nothing, one of the three typed exceptions, or
an exception of a type that no handler names. A `std::logic_error` or a
`boost::mpi::exception` as a collaborator threw it is not among them. -/
def translated (t : Option exception) : Prop :=
  t = none ∨ t = some .unsupported_matrix_distribution ∨ t = some .elemental_exception ∨
    t = some .mpi_exception ∨ t = some (.raw .other)

/-! ### The low-accuracy cosine (`SKYLARK_INEXACT_COSINE`) -/

/-- The first statement of the low-accuracy cosine: `if (x < -3.14159265) x += 6.28318531;
else if (x > 3.14159265) x -= 6.28318531;`. -/
def inexact_cos_wrap [LinearOrderedField α] (x : α) : α :=
  if x < -3.14159265 then x + 6.28318531
  else if x > 3.14159265 then x - 6.28318531
  else x

/-- The low-accuracy cosine up to the quadratic: the first wrap, then `x += 1.57079632;
if (x > 3.14159265) x -= 6.28318531;`. The result is the value to which the quadratic is
applied. -/
def inexact_cos_arg [LinearOrderedField α] (x : α) : α :=
  let x := inexact_cos_wrap x
  let x := x + 1.57079632
  if x > 3.14159265 then x - 6.28318531 else x

/-- The quadratic of the low-accuracy cosine: `(x < 0) ? 1.27323954 * x + 0.405284735 * x
* x : 1.27323954 * x - 0.405284735 * x * x`. -/
def inexact_cos_poly [LinearOrderedField α] (x : α) : α :=
  if x < 0 then 1.27323954 * x + 0.405284735 * x * x
  else 1.27323954 * x - 0.405284735 * x * x

/-- The cosine of the readout when `SKYLARK_INEXACT_COSINE` is defined (the decimal
constants taken as exact numbers). -/
def inexact_cos [LinearOrderedField α] (x : α) : α :=
  inexact_cos_poly (inexact_cos_arg x)

end sketch

end skylark

namespace skylark

namespace sketch

variable {α : Type}

/-! ### The dense transform `[VC/VR, STAR] -> [STAR, STAR]` -/

/-- The members of `dense_transform_data_t` that `apply` reads: the dimensions, the
factor `scale` and the array `random_samples`. -/
structure dense_transform_data_t (α : Type) where
  _N : Nat
  _S : Nat
  scale : α
  random_samples : Nat → α

/-- The slice loop of the columnwise `apply_impl_vdist`:
`for (js = 0; js < LocalHeight; js += slice_width) { je = min(js + slice_width,
LocalHeight); .. }`, started at `js` with the loop state `st`; `body js je` is the effect
of one pass. `fuel` bounds the number of evaluations of the loop condition; `none` means
that the loop did not finish within it. -/
def slice_loop {σ : Type} (fuel : Nat) (slice_width LocalHeight : Nat)
    (body : Nat → Nat → σ → σ) (js : Nat) (st : σ) : Option σ :=
  match fuel with
  | 0 => none
  | fuel + 1 =>
    if js < LocalHeight then
      let je := min (js + slice_width) LocalHeight
      slice_loop fuel slice_width LocalHeight body (js + slice_width) (body js je st)
    else some st

end sketch

end skylark

namespace skylark

namespace base

variable {α : Type}

/-- Modelled from the spec: `base::Gemm(El::NORMAL, El::NORMAL, alpha, A, B, beta, C)`,
the matrix multiply `C := alpha * A * B + beta * C`. -/
def Gemm [CommRing α] (alpha : α) (A B : El.Matrix α) (beta : α) (C : El.Matrix α) :
    El.Matrix α :=
  { C with
    Get := fun i j =>
      alpha * ((List.range A.Width).map (fun l => A.Get i l * B.Get l j)).sum
        + beta * C.Get i j }

end base

namespace sketch

variable {α : Type}

/-- One pass of the slice loop of the columnwise dense `apply_impl_vdist` on a process
with the given `ColShift`, `ColStride` and local matrix: `S_local.Resize(_S, je - js)`,
`for (j = js; j < je; j++) { col = ColShift + ColStride * j; for (i < _S)
S_local.Set(i, j - js, scale * random_samples[col * _S + i]); }`, the view `A_slice` of
the local rows `js .. je - 1`, and `Gemm(NORMAL, NORMAL, 1.0, S_local, A_slice, 1.0,
SA_part)`. `junk` is the content of `S_local` after the resize. -/
def dense_slice_body [CommRing α] (d : dense_transform_data_t α) (ColShift ColStride : Nat)
    (local_A : El.Matrix α) (junk : Nat → Nat → α) (js je : Nat) (SA_part : El.Matrix α) :
    El.Matrix α :=
  let S_local : El.Matrix α := ⟨d._S, je - js, junk⟩
  let S_local := (List.range' js (je - js)).foldl (fun S_local j =>
    let col := ColShift + ColStride * j
    (List.range d._S).foldl (fun S_local i =>
      let sample := d.random_samples (col * d._S + i)
      S_local.Set i (j - js) (d.scale * sample)) S_local) S_local
  let A_slice : El.Matrix α :=
    ⟨je - js, local_A.Width, fun i j => local_A.Get (js + i) j⟩
  base.Gemm 1 S_local A_slice 1 SA_part

/-- The partial result `SA_part` of process `q` in the columnwise dense
`apply_impl_vdist`, for a given slice width: the zero matrix of the dimensions of
`sketch_of_A`, updated by the slice loop over the local rows of `A`. -/
def dense_SA_part [CommRing α] (fuel : Nat) (d : dense_transform_data_t α)
    (junk : Nat → Nat → Nat → α) (slice_width : Nat) (A sketch_of_A : El.DistMatrix α)
    (q : Nat) : Option (El.Matrix α) :=
  let SA_part : El.Matrix α := ⟨sketch_of_A.Height, sketch_of_A.Width, fun _ _ => 0⟩
  slice_loop fuel slice_width (A.Matrix q).Height
    (dense_slice_body d (El.Shift A.grid A.ColDist q) (El.Stride A.grid A.ColDist)
      (A.Matrix q) (junk q)) 0 SA_part

/-- `dense_transform_t<DistMatrix<ColDist, STAR>, DistMatrix<STAR, STAR>, ..>::
apply_impl_vdist(A, sketch_of_A, columnwise_tag)`: every process of the grid of `A`
computes its `SA_part` with `slice_width = A.Width()`, and
`boost::mpi::all_reduce(.., std::plus)` leaves their entrywise sum in the local matrix of
`sketch_of_A` on every process. The all-reduce completes only when every process has
reached it: the result is `none` when the slice loop of some process does not finish
within `fuel`. -/
def dense_apply_impl_vdist_columnwise [CommRing α] (fuel : Nat)
    (d : dense_transform_data_t α) (junk : Nat → Nat → Nat → α)
    (A sketch_of_A : El.DistMatrix α) : Option (El.DistMatrix α) :=
  let slice_width := A.Width
  let SA_part := fun q => dense_SA_part fuel d junk slice_width A sketch_of_A q
  if (List.range A.grid.Size).all (fun q => (SA_part q).isSome) then
    some { sketch_of_A with
      Matrix := fun q =>
        { sketch_of_A.Matrix q with
          Get := fun i j =>
            ((List.range A.grid.Size).map (fun p =>
              ((SA_part p).getD (sketch_of_A.Matrix p)).Get i j)).sum } }
  else none

/-- The sketch matrix as the specification words it: `Smat[i, col] = scale *
random_samples[col * S + i]`, with `S` rows and `N` columns. -/
def spec_Smat [CommRing α] (d : dense_transform_data_t α) : El.Matrix α :=
  { Height := d._S, Width := d._N,
    Get := fun i col => d.scale * d.random_samples (col * d._S + i) }

end sketch

end skylark

namespace skylark

namespace base

variable {α : Type}

end base

end skylark

namespace skylark

namespace ml

/-- The table `examples_allocation` of the sparse readers `read_libsvm` and `read_hdf5`
(the same statements in both): `chunksize = n / size`, `leftover = n % size`,
`examples_allocation[i] = chunksize` for `i < size`, then `examples_allocation[i]++` for
`i < leftover`. `junk` is the content of the fresh `new int[size]`. The numbers are
non-negative `int`s, for which the division of the code is the division of naturals. -/
def examples_allocation (n size : Nat) (junk : List Nat) : List Nat :=
  let chunksize := n / size
  let leftover := n % size
  let examples_allocation :=
    (List.range size).foldl (fun t i => t.set i chunksize) junk
  (List.range leftover).foldl (fun t i => t.set i (t.getD i 0 + 1)) examples_allocation

end ml

end skylark

namespace skylark

namespace ml

/-- The value that a 32-bit `int` takes for the exact result `x` of an `int` operation:
`x` itself when it is representable, and `x` reduced modulo `2^32` into
`-2^31 .. 2^31 - 1` (two's complement wrap-around) when it is not. -/
def int_wrap (x : Int) : Int :=
  (x + 2147483648) % 4294967296 - 2147483648

/-- The state of the loop that fills the index tables of `hilbert_model_t`: the two
tables and the running number of features `nf`. -/
structure index_tables where
  _starts : List Int
  _finishes : List Int
  nf : Int

/-- The body of the table loop, the same in the constructor and in `build_from_ptree`:
`_starts[i] = nf; _finishes[i] = nf + _maps[i]->get_S() - 1; nf += _maps[i]->get_S();`,
where `get_S i` is the output size of map `i`; `nf` and the table entries are `int`. -/
def index_tables.step (get_S : Nat → Int) (t : index_tables) (i : Nat) : index_tables :=
  { _starts := t._starts.set i t.nf,
    _finishes := t._finishes.set i (int_wrap (int_wrap (t.nf + get_S i) - 1)),
    nf := int_wrap (t.nf + get_S i) }

/-- The tables built by the constructor `hilbert_model_t(maps, ..)`: `_starts` and
`_finishes` are constructed with `maps.size()` (zero) entries and filled by
`nf = 0; for (i = 0; i < maps.size(); i++) ..`. `S` lists the output sizes `get_S()` of
the maps. -/
def hilbert_model_t (S : List Int) : index_tables :=
  (List.range S.length).foldl (index_tables.step (fun i => S.getD i 0))
    { _starts := List.replicate S.length 0, _finishes := List.replicate S.length 0, nf := 0 }

/-- The tables built by `hilbert_model_t::build_from_ptree`: `_maps.resize(num_maps)`,
the maps read from the tree (`S` lists their output sizes), `_starts.resize(num_maps)`,
`_finishes.resize(num_maps)` on the empty vectors of the fresh object, and
`nf = 0; for (i = 0; i < _maps.size(); i++) ..`. -/
def build_from_ptree (num_maps : Nat) (S : List Int) : index_tables :=
  let _maps_size := num_maps
  (List.range _maps_size).foldl (index_tables.step (fun i => S.getD i 0))
    { _starts := ([] : List Int) ++ List.replicate num_maps 0,
      _finishes := ([] : List Int) ++ List.replicate num_maps 0, nf := 0 }

/-- The height `sj = finish - start + 1` (an `int`) of the slice of the coefficient matrix
that `hilbert_model_t::predict` takes for map `j`. -/
def predict_sj (t : index_tables) (j : Nat) : Int :=
  let start := t._starts.getD j 0
  let finish := t._finishes.getD j 0
  int_wrap (int_wrap (finish - start) + 1)

end ml

end skylark

namespace skylark

namespace base

/-- The values of `base::direction_t` that the callers pass. -/
inductive direction_t where
  | COLUMNS
  | ROWS
  deriving DecidableEq

end base

namespace ml

/-- The members of `rlsc_params_t` (with those it inherits from `base::params_t`) that
`KernelRLSC` and `FasterKernelRLSC` hand on; `pfx` is the member called `prefix` in the
source. -/
structure rlsc_params_t (α : Type) where
  am_i_printing : Bool
  log_level : Int
  pfx : String
  iter_lim : Int
  res_print : Int
  tolerance : α

/-- The members of `krr_params_t` that the two functions assign (`pfx` is its member
`prefix`). -/
structure krr_params_t (α : Type) where
  am_i_printing : Bool
  log_level : Int
  pfx : String
  iter_lim : Int
  res_print : Int
  tolerance : α

/-- The arguments of a call of `KernelRidge` / `FasterKernelRidge` that depend on the
caller's `direction` and `params`. -/
structure ridge_call (α : Type) where
  direction : base.direction_t
  krr_params : krr_params_t α

set_option linter.unusedVariables false in
/-- `KernelRLSC(direction, k, X, L, lambda, A, rcoding, params)`, as far as its call
`KernelRidge(base::COLUMNS, k, X, Y, T(lambda), A, krr_params)` goes: the six assignments
to `krr_params` and the direction written in the call. -/
def KernelRLSC {α : Type} (direction : base.direction_t) (params : rlsc_params_t α) :
    ridge_call α :=
  let krr_params : krr_params_t α :=
    { am_i_printing := params.am_i_printing,
      log_level := params.log_level,
      iter_lim := params.iter_lim,
      res_print := params.res_print,
      tolerance := params.tolerance,
      pfx := params.pfx ++ "\t" }
  { direction := .COLUMNS, krr_params := krr_params }

/-- `FasterKernelRLSC(direction, k, X, L, lambda, A, rcoding, s, context, params)`, as far
as its call `FasterKernelRidge(direction, k, X, Y, T(lambda), A, s, context, krr_params)`
goes. -/
def FasterKernelRLSC {α : Type} (direction : base.direction_t) (params : rlsc_params_t α) :
    ridge_call α :=
  let krr_params : krr_params_t α :=
    { am_i_printing := params.am_i_printing,
      log_level := params.log_level,
      iter_lim := params.iter_lim,
      res_print := params.res_print,
      tolerance := params.tolerance,
      pfx := params.pfx ++ "\t" }
  { direction := direction, krr_params := krr_params }

end ml

end skylark

namespace skylark

namespace ml

variable {α : Type}

/-- The conversion `(int) x` of a `double` to `int`: truncation towards zero. -/
def int_of_double [LinearOrderedField α] [FloorRing α] (x : α) : Int :=
  if 0 ≤ x then ⌊x⌋ else ⌈x⌉

/-- The prediction for row `i` in `classification_accuracy`: `o = Yp.Get(i, 0); pred = 0;
if (Yp.Width() == 1) pred = (o >= 0) ? +1 : -1; for (j = 1; j < Yp.Width(); j++) { o1 =
Yp.Get(i, j); if (o1 > o) { o = o1; pred = j; } }`. The result is the final `(o, pred)`. -/
def row_prediction [LinearOrderedField α] (Yp : El.Matrix α) (i : Nat) : α × Int :=
  let o := Yp.Get i 0
  let pred : Int := 0
  let pred : Int := if Yp.Width = 1 then (if o ≥ 0 then 1 else -1) else pred
  (List.range' 1 (Yp.Width - 1)).foldl (fun (op : α × Int) j =>
    let o1 := Yp.Get i j
    if o1 > op.1 then (o1, (j : Int)) else op) (o, pred)

/-- `classification_accuracy(Yt, Yp)`: the number of rows `i < Yp.Height()` with
`pred == (int) Yt.Get(i, 0)`. -/
def classification_accuracy [LinearOrderedField α] [FloorRing α] (Yt Yp : El.Matrix α) :
    Int :=
  (List.range Yp.Height).foldl (fun (correct : Int) i =>
    let pred := (row_prediction Yp i).2
    if pred = int_of_double (Yt.Get i 0) then correct + 1 else correct) 0

/-- The label of row `i` in `hilbert_model_t::predict`, the same statements on the
decision values `DV` with `pred` a `double`. -/
def predict_row [LinearOrderedField α] (DV : El.Matrix α) (i : Nat) : α × α :=
  let o := DV.Get i 0
  let pred : α := 0
  let pred : α := if DV.Width = 1 then (if o ≥ 0 then 1 else -1) else pred
  (List.range' 1 (DV.Width - 1)).foldl (fun (op : α × α) j =>
    let o1 := DV.Get i j
    if o1 > op.1 then (o1, (j : α)) else op) (o, pred)

/-- The labelling part of `hilbert_model_t::predict` (taken when the model is not a
regression): `PV.Resize(n, 1); for (i = 0; i < DV.Height(); i++) { .. PV.Set(i, 0,
pred); }`. -/
def predict_labels [LinearOrderedField α] (n : Nat) (DV PV : El.Matrix α) : El.Matrix α :=
  (List.range DV.Height).foldl (fun PV i => PV.Set i 0 (predict_row DV i).2)
    { PV with Height := n, Width := 1 }

end ml

end skylark

namespace El

/-- The matrix with `f` applied to every entry. -/
def Matrix.map {α β : Type} (f : α → β) (M : El.Matrix α) : El.Matrix β :=
  { Height := M.Height, Width := M.Width, Get := fun i j => f (M.Get i j) }

end El

namespace skylark

namespace base

variable {α : Type}

/-- The arithmetic of a scalar type `value_type`: its constants 0 and 1, the operators
`+`, `-`, `*`, `/`, unary `-`, the function `sqrt`, and the comparisons `<` and `>=`.
Nothing is assumed of them: a division by zero gives whatever the scalar type gives, and a
comparison may be false both ways (as with a NaN). -/
structure value_ops (α : Type) where
  zero : α
  one : α
  add : α → α → α
  sub : α → α → α
  mul : α → α → α
  div : α → α → α
  neg : α → α
  sqrt : α → α
  lt : α → α → Bool
  ge : α → α → Bool

/-- The sum of a list of scalars, accumulated from 0 in the order of the list. -/
def value_ops.sum (ops : value_ops α) (l : List α) : α :=
  l.foldl ops.add ops.zero

/-- Exact arithmetic over an ordered field, extended by one value `none` that is not a
number: every operation on `none` gives `none`, every comparison with `none` is false, and
a division by zero gives `none` (the NaN that `0 / 0` gives in the code; exact arithmetic
has no infinity, so `x / 0` is no number either). -/
def exact_arithmetic [LinearOrderedField α] (sqrt : α → α) : value_ops (Option α) :=
  { zero := some 0,
    one := some 1,
    add := fun a b => match a, b with
      | some x, some y => some (x + y)
      | _, _ => none,
    sub := fun a b => match a, b with
      | some x, some y => some (x - y)
      | _, _ => none,
    mul := fun a b => match a, b with
      | some x, some y => some (x * y)
      | _, _ => none,
    div := fun a b => match a, b with
      | some x, some y => if y = 0 then none else some (x / y)
      | _, _ => none,
    neg := fun a => match a with
      | some x => some (-x)
      | none => none,
    sqrt := fun a => match a with
      | some x => some (sqrt x)
      | none => none,
    lt := fun a b => match a, b with
      | some x, some y => decide (x < y)
      | _, _ => false,
    ge := fun a b => match a, b with
      | some x, some y => decide (x ≥ y)
      | _, _ => false }

/-- The tag `El::UpperOrLower` that names the stored triangle of a symmetric matrix. -/
inductive UpperOrLower where
  | LOWER
  | UPPER
  deriving DecidableEq

/-- Entry `(i, l)` of the symmetric matrix whose `uplo` triangle is stored in `A`. -/
def sym_entry (uplo : UpperOrLower) (A : El.Matrix α) (i l : Nat) : α :=
  match uplo with
  | .LOWER => if l ≤ i then A.Get i l else A.Get l i
  | .UPPER => if i ≤ l then A.Get i l else A.Get l i

/-- Modelled from the spec: `base::Symm(El::LEFT, uplo, alpha, A, B, beta, C)`, which is
not among the sources: the BLAS symmetric product `C := alpha * A * B + beta * C` with the
square matrix `A` read from its `uplo` triangle. -/
def Symm (ops : value_ops α) (uplo : UpperOrLower) (alpha : α) (A B : El.Matrix α)
    (beta : α) (C : El.Matrix α) : El.Matrix α :=
  { C with
    Get := fun i j =>
      ops.add
        (ops.mul alpha
          (ops.sum ((List.range A.Height).map (fun l =>
            ops.mul (sym_entry uplo A i l) (B.Get l j)))))
        (ops.mul beta (C.Get i j)) }

/-- Modelled from the spec: `base::ColumnDot(A, B, out)`, which is not among the sources:
`out[j]` is the dot product of column `j` of `A` with column `j` of `B`. -/
def ColumnDot (ops : value_ops α) (A B : El.Matrix α) : Nat → α :=
  fun j => ops.sum ((List.range A.Height).map (fun i => ops.mul (A.Get i j) (B.Get i j)))

/-- Modelled from the spec: `base::ColumnNrm2(B, out)`, which is not among the sources:
`out[j]` is the Euclidean norm of column `j` of `B`. -/
def ColumnNrm2 (ops : value_ops α) (B : El.Matrix α) : Nat → α :=
  fun j => ops.sqrt (ColumnDot ops B B j)

/-- Modelled from the spec: `base::Axpy(alpha, X, Y)` with a scalar `alpha`, which is not
among the sources: `Y := alpha * X + Y`. -/
def Axpy (ops : value_ops α) (alpha : α) (X Y : El.Matrix α) : El.Matrix α :=
  { Y with Get := fun i j => ops.add (ops.mul alpha (X.Get i j)) (Y.Get i j) }

/-- Modelled from the spec: `base::Axpy(alpha, X, Y)` with one scalar per column, which is
not among the sources: column `j` of `Y` becomes `alpha[j] * X[:, j] + Y[:, j]`. -/
def Axpy_columns (ops : value_ops α) (alpha : Nat → α) (X Y : El.Matrix α) : El.Matrix α :=
  { Y with Get := fun i j => ops.add (ops.mul (alpha j) (X.Get i j)) (Y.Get i j) }

end base

namespace algorithms

variable {α : Type}

/-- The members of `krylov_iter_params_t` that decide what `CG` computes and returns (the
others steer the log output only). -/
structure krylov_iter_params_t (α : Type) where
  tolerance : α
  iter_lim : Int

/-- The variables of `CG` that live across iterations: the matrices `X`, `P`, `R`, `Q` and
the per-column scalars `rho0` and `ressqr`. -/
structure CG_state (α : Type) where
  X : El.Matrix α
  P : El.Matrix α
  R : El.Matrix α
  Q : El.Matrix α
  rho0 : Nat → α
  ressqr : Nat → α

/-- What `CG` hands back: the return code, the solution `X`, and the number of passes
through the loop body that were made. -/
structure CG_result (α : Type) where
  ret : Int
  X : El.Matrix α
  passes : Nat

/-- The tolerance that `CG` works with: `if (params.tolerance < eps) params.tolerance =
eps; else if (params.tolerance >= 1.0) params.tolerance = (1 - eps);`, where `eps` is
`32 * std::numeric_limits<value_type>::epsilon()`. -/
def CG_tolerance (ops : base.value_ops α) (eps : α) (params : krylov_iter_params_t α) : α :=
  if ops.lt params.tolerance eps then eps
  else if ops.ge params.tolerance ops.one then ops.sub ops.one eps
  else params.tolerance

/-- The state before the first iteration: `P(X)`, `R(B)`, `Q(B)`,
`Symm(LEFT, uplo, -1, A, X, 1, R)`, the scalar containers copied from `nrmb`, and
`ColumnDot(R, R, ressqr)`. -/
def CG_init (ops : base.value_ops α) (uplo : base.UpperOrLower) (A B X : El.Matrix α) :
    CG_state α :=
  let P := X
  let R := B
  let Q := B
  let R := base.Symm ops uplo (ops.neg ops.one) A X ops.one R
  let nrmb := base.ColumnNrm2 ops B
  let rho0 := nrmb
  let ressqr := base.ColumnDot ops R R
  { X := X, P := P, R := R, Q := Q, rho0 := rho0, ressqr := ressqr }

/-- One pass through the body of the loop of `CG`, up to and including
`ColumnDot(R, R, ressqr)`. `M` is the preconditioner (`none` for the identity, in which
case `Z` is `R` itself and `rho = ressqr`; otherwise `M.apply(R, Z)` and
`ColumnDot(R, Z, rho)`); `k` is the number of right-hand sides. The divisions
`beta[i] = rho[i] / rho0[i]` and `alpha[i] = rho[i] / rhotmp[i]` are unguarded, as in the
code. -/
def CG_iteration (ops : base.value_ops α) (uplo : base.UpperOrLower) (A : El.Matrix α)
    (k : Nat) (M : Option (El.Matrix α → El.Matrix α)) (itn : Nat) (st : CG_state α) :
    CG_state α :=
  let Z := match M with
    | some apply => apply st.R
    | none => st.R
  let rho := match M with
    | some _ => base.ColumnDot ops st.R Z
    | none => st.ressqr
  let beta : Nat → α :=
    if itn = 0 then fun _ => ops.zero else fun i => ops.div (rho i) (st.rho0 i)
  let P := @El.DiagonalScaleRight α ⟨ops.mul⟩ ⟨k, 1, fun i _ => beta i⟩ st.P
  let P := base.Axpy ops ops.one Z P
  let Q := base.Symm ops uplo ops.one A P ops.zero st.Q
  let rhotmp := base.ColumnDot ops P Q
  let alpha : Nat → α := fun i => ops.div (rho i) (rhotmp i)
  let malpha : Nat → α := fun i => ops.neg (alpha i)
  let X := base.Axpy_columns ops alpha P st.X
  let R := base.Axpy_columns ops malpha Q st.R
  let rho0 := rho
  let ressqr := base.ColumnDot ops R R
  { X := X, P := P, R := R, Q := Q, rho0 := rho0, ressqr := ressqr }

/-- The count `convg` of the right-hand sides with
`sqrt(ressqr[i]) < params.tolerance * nrmb[i]`. -/
def CG_convg (ops : base.value_ops α) (k : Nat) (tolerance : α) (nrmb ressqr : Nat → α) :
    Nat :=
  (List.range k).foldl (fun convg i =>
    if ops.lt (ops.sqrt (ressqr i)) (ops.mul tolerance (nrmb i)) then convg + 1
    else convg) 0

/-- The loop `for (itn = 0; itn < params.iter_lim; ++itn)` of `CG` from iteration `itn`
on, with `remaining` the number of iterations for which the loop condition still holds:
the body, then `ret = -1` and the exit when `convg == k`; after the last iteration
`ret = -6`. -/
def CG_loop (ops : base.value_ops α) (uplo : base.UpperOrLower) (A : El.Matrix α) (k : Nat)
    (M : Option (El.Matrix α → El.Matrix α)) (tolerance : α) (nrmb : Nat → α)
    (remaining : Nat) (itn : Nat) (st : CG_state α) : CG_result α :=
  match remaining with
  | 0 => { ret := -6, X := st.X, passes := itn }
  | remaining + 1 =>
    let st := CG_iteration ops uplo A k M itn st
    let convg := CG_convg ops k tolerance nrmb st.ressqr
    if convg = k then { ret := -1, X := st.X, passes := itn + 1 }
    else CG_loop ops uplo A k M tolerance nrmb remaining (itn + 1) st

/-- `CG(uplo, A, B, X, params, M)` over the scalar arithmetic `ops`: the clamp of the
tolerance, the initial state, and the loop, whose condition `itn < params.iter_lim` holds
for `itn = 0 .. iter_lim - 1`. The log output is left out. -/
def CG (ops : base.value_ops α) (eps : α) (uplo : base.UpperOrLower) (A B X : El.Matrix α)
    (params : krylov_iter_params_t α) (M : Option (El.Matrix α → El.Matrix α)) :
    CG_result α :=
  let k := B.Width
  let tolerance := CG_tolerance ops eps params
  let nrmb := base.ColumnNrm2 ops B
  CG_loop ops uplo A k M tolerance nrmb params.iter_lim.toNat 0 (CG_init ops uplo A B X)

/-- The state after `t` passes through the loop body (when the loop has not been left
before). -/
def CG_after (ops : base.value_ops α) (uplo : base.UpperOrLower) (A B X : El.Matrix α)
    (M : Option (El.Matrix α → El.Matrix α)) : Nat → CG_state α
  | 0 => CG_init ops uplo A B X
  | t + 1 => CG_iteration ops uplo A B.Width M t (CG_after ops uplo A B X M t)

end algorithms

end skylark

/-! ## Theorems -/

/-! ### Element-cyclic distributions -/

namespace El

variable {α : Type}

theorem Length_one (n : Nat) : Length n 0 1 = n := by
  unfold Length
  by_cases h : 0 < n
  · rw [if_pos h, Nat.div_one]
    omega
  · rw [if_neg h]
    omega

theorem div_lt_Length (n s j : Nat) (hs : 0 < s) (hj : j < n) :
    j / s < Length n (j % s) s := by
  unfold Length
  have h1 := Nat.mod_le j s
  rw [if_pos (by omega)]
  have h2 := Nat.div_add_mod j s
  have h3 : j / s ≤ (n - j % s - 1) / s := by
    apply (Nat.le_div_iff_mul_le hs).2
    have : j / s * s = s * (j / s) := Nat.mul_comm _ _
    omega
  omega

theorem lt_of_lt_Length (n shift s k : Nat) (hs : 0 < s) (hk : k < Length n shift s) :
    shift + k * s < n := by
  unfold Length at hk
  by_cases h : shift < n
  · rw [if_pos h] at hk
    have h1 : k ≤ (n - shift - 1) / s := by omega
    have h2 := (Nat.le_div_iff_mul_le hs).1 h1
    omega
  · rw [if_neg h] at hk
    omega

theorem Shift_RankOf_VR (g : Grid) (k : Nat) (hk : k < g.Size) :
    Shift g .VR (RankOf g .VR k) = k := by
  unfold Grid.Size at hk
  have hr : 0 < g.Height := by
    rcases Nat.eq_zero_or_pos g.Height with h | h
    · rw [h] at hk; omega
    · exact h
  have hc : 0 < g.Width := by
    rcases Nat.eq_zero_or_pos g.Width with h | h
    · rw [h] at hk; simp at hk
    · exact h
  have h1 : k / g.Width < g.Height := by
    apply (Nat.div_lt_iff_lt_mul hc).2
    exact hk
  show (k / g.Width + (k % g.Width) * g.Height) / g.Height
      + ((k / g.Width + (k % g.Width) * g.Height) % g.Height) * g.Width = k
  rw [Nat.add_mul_div_right _ _ hr, Nat.add_mul_mod_self_right, Nat.div_eq_of_lt h1,
    Nat.mod_eq_of_lt h1, Nat.zero_add]
  have := Nat.mod_add_div k g.Width
  have e : k / g.Width * g.Width = g.Width * (k / g.Width) := Nat.mul_comm _ _
  omega

/-- On a non-empty grid, the owner of an index in a `[STAR, VC/VR]` or `[VC/VR, STAR]`
or `[MC, MR]` matrix has the index's residues as its shifts. -/
theorem Shift_Owner (g : Grid) (U V : Distribution) (hg : 0 < g.Size)
    (hUV : (U = .STAR ∧ (V = .VC ∨ V = .VR)) ∨ ((U = .VC ∨ U = .VR) ∧ V = .STAR)
      ∨ (U = .MC ∧ V = .MR)) (i j : Nat) :
    Shift g U (RankOf g U (i % Stride g U) + RankOf g V (j % Stride g V)) = i % Stride g U ∧
    Shift g V (RankOf g U (i % Stride g U) + RankOf g V (j % Stride g V)) = j % Stride g V := by
  have hr : 0 < g.Height := by
    unfold Grid.Size at hg
    rcases Nat.eq_zero_or_pos g.Height with h | h
    · rw [h] at hg; omega
    · exact h
  rcases hUV with ⟨hU, hV | hV⟩ | ⟨hU | hU, hV⟩ | ⟨hU, hV⟩
  · subst hU; subst hV
    refine ⟨by simp [Shift, Stride, Nat.mod_one], ?_⟩
    simp [Shift, Stride, RankOf]
  · subst hU; subst hV
    refine ⟨by simp [Shift, Stride, Nat.mod_one], ?_⟩
    have := Shift_RankOf_VR g (j % g.Size) (Nat.mod_lt _ hg)
    simpa [RankOf, Stride] using this
  · subst hU; subst hV
    refine ⟨?_, by simp [Shift, Stride, Nat.mod_one]⟩
    simp [Shift, Stride, RankOf]
  · subst hU; subst hV
    refine ⟨?_, by simp [Shift, Stride, Nat.mod_one]⟩
    have := Shift_RankOf_VR g (i % g.Size) (Nat.mod_lt _ hg)
    simpa [RankOf, Stride] using this
  · subst hU; subst hV
    have h1 : i % g.Height < g.Height := Nat.mod_lt _ hr
    constructor
    · show (i % g.Height + (j % g.Width) * g.Height) % g.Height = i % g.Height
      rw [Nat.add_mul_mod_self_right, Nat.mod_mod]
    · show (i % g.Height + (j % g.Width) * g.Height) / g.Height = j % g.Width
      rw [Nat.add_mul_div_right _ _ hr, Nat.div_eq_of_lt h1, Nat.zero_add]

theorem Stride_pos (g : Grid) (U : Distribution) (hg : 0 < g.Size) : 0 < Stride g U := by
  unfold Grid.Size at hg
  have hr : 0 < g.Height := by
    rcases Nat.eq_zero_or_pos g.Height with h | h
    · rw [h] at hg; omega
    · exact h
  have hc : 0 < g.Width := by
    rcases Nat.eq_zero_or_pos g.Width with h | h
    · rw [h] at hg; simp at hg
    · exact h
  cases U <;> simp [Stride, Grid.Size, hr, hc]

/-- Reading a global entry of `distribute U V g M` gives the entry of `M`. -/
theorem distribute_Get (g : Grid) (U V : Distribution) (hg : 0 < g.Size)
    (hUV : (U = .STAR ∧ (V = .VC ∨ V = .VR)) ∨ ((U = .VC ∨ U = .VR) ∧ V = .STAR)
      ∨ (U = .MC ∧ V = .MR)) (M : El.Matrix α) (i j : Nat) :
    (distribute U V g M).Get i j = M.Get i j := by
  obtain ⟨h1, h2⟩ := Shift_Owner g U V hg hUV i j
  show M.Get (Shift g U (RankOf g U (i % Stride g U) + RankOf g V (j % Stride g V))
      + i / Stride g U * Stride g U)
    (Shift g V (RankOf g U (i % Stride g U) + RankOf g V (j % Stride g V))
      + j / Stride g V * Stride g V) = _
  rw [h1, h2, Nat.mul_comm (i / _), Nat.mul_comm (j / _), Nat.mod_add_div, Nat.mod_add_div]

end El


namespace skylark

namespace sketch

variable {α : Type}

/-! ### Block ranges of the columnwise FastRFT apply -/

theorem ceil_div_mul_ge (S NB : Nat) (hNB : 1 ≤ NB) : S ≤ ceil_div S NB * NB := by
  unfold ceil_div
  have h := Nat.div_add_mod (S + NB - 1) NB
  have h2 := Nat.mod_lt (S + NB - 1) (show NB > 0 by omega)
  have h3 : NB * ((S + NB - 1) / NB) = (S + NB - 1) / NB * NB := Nat.mul_comm _ _
  omega

theorem ceil_div_pred_mul_lt (S NB : Nat) (hS : 1 ≤ S) (hNB : 1 ≤ NB) :
    (ceil_div S NB - 1) * NB < S := by
  unfold ceil_div
  have h := Nat.div_add_mod (S + NB - 1) NB
  have h3 : NB * ((S + NB - 1) / NB) = (S + NB - 1) / NB * NB := Nat.mul_comm _ _
  have h4 : ((S + NB - 1) / NB - 1) * NB = (S + NB - 1) / NB * NB - NB := by
    rw [Nat.sub_mul, Nat.one_mul]
  omega

theorem ceil_div_pos (S NB : Nat) (hS : 1 ≤ S) (hNB : 1 ≤ NB) : 1 ≤ ceil_div S NB := by
  unfold ceil_div
  exact (Nat.one_le_div_iff (by omega)).2 (by omega)

theorem blk_range_flatMap (NB S : Nat) (k : Nat) (hk : (k - 1) * NB < S ∨ k = 0) :
    (List.range k).flatMap (blk_range NB S) = List.range (min (k * NB) S) := by
  induction k with
  | zero => simp
  | succ k ih =>
    have hk' : k * NB < S := by
      rcases hk with h | h
      · simpa using h
      · omega
    have hprev : (k - 1) * NB < S ∨ k = 0 := by
      rcases Nat.eq_zero_or_pos k with h0 | hpos
      · exact Or.inr h0
      · left
        have : (k - 1) * NB ≤ k * NB := Nat.mul_le_mul_right _ (by omega)
        omega
    rw [List.range_succ, List.flatMap_append, ih hprev]
    simp only [List.flatMap_cons, List.flatMap_nil, List.append_nil, blk_range, blk_s, blk_e]
    have e1 : min (k * NB) S = k * NB := by omega
    have e2 : (k + 1) * NB = k * NB + NB := by ring
    rw [e1, e2, List.range_eq_range', List.range_eq_range']
    have := List.range'_append 0 (k * NB) (min (k * NB + NB) S - k * NB) 1
    simp only [Nat.zero_add, Nat.one_mul] at this
    rw [this]
    congr 1
    omega

theorem blk_width_sum (NB S : Nat) (k : Nat) (hk : (k - 1) * NB < S ∨ k = 0) :
    ((List.range k).map (fun i => blk_e NB S i - blk_s NB i)).sum = min (k * NB) S := by
  have h := congrArg List.length (blk_range_flatMap NB S k hk)
  rw [List.length_range, List.length_flatMap] at h
  rw [← h]
  congr 1
  apply List.map_congr_left
  intro i _
  simp [blk_range]

theorem mem_blk_range (NB S i l : Nat) :
    l ∈ blk_range NB S i ↔ i * NB ≤ l ∧ l < min ((i + 1) * NB) S := by
  have e : (i + 1) * NB = i * NB + NB := by ring
  simp only [blk_range, blk_s, blk_e, List.mem_range'_1, e]
  omega

/-- C2: for `S >= 1`, `NB >= 1` and `numblks = ceil(S / NB)`, the per-block output
ranges `[i * NB, min((i + 1) * NB, S))` of the columnwise apply are non-empty, pairwise
disjoint and cover exactly `0 .. S - 1`; visited in block order they enumerate
`0, 1, .., S - 1` once each, so the widths sum to `S`; and when `NB` does not divide `S`
the last block has width `S - (numblks - 1) * NB`, which is less than `NB`. -/
theorem blk_ranges_partition (S NB : Nat) (hS : 1 ≤ S) (hNB : 1 ≤ NB) :
    (∀ i, i < ceil_div S NB → blk_s NB i < blk_e NB S i) ∧
    (∀ i j l, i < ceil_div S NB → j < ceil_div S NB →
      l ∈ blk_range NB S i → l ∈ blk_range NB S j → i = j) ∧
    (∀ l, l < S ↔ ∃ i, i < ceil_div S NB ∧ l ∈ blk_range NB S i) ∧
    (List.range (ceil_div S NB)).flatMap (blk_range NB S) = List.range S ∧
    ((List.range (ceil_div S NB)).map (fun i => blk_e NB S i - blk_s NB i)).sum = S ∧
    (¬ NB ∣ S →
      blk_e NB S (ceil_div S NB - 1) - blk_s NB (ceil_div S NB - 1)
        = S - (ceil_div S NB - 1) * NB ∧
      S - (ceil_div S NB - 1) * NB < NB) := by
  have hge := ceil_div_mul_ge S NB hNB
  have hlt := ceil_div_pred_mul_lt S NB hS hNB
  have hpos := ceil_div_pos S NB hS hNB
  have hmin : min (ceil_div S NB * NB) S = S := by omega
  refine ⟨?_, ?_, ?_, ?_, ?_, ?_⟩
  · intro i hi
    have h1 : i * NB ≤ (ceil_div S NB - 1) * NB := Nat.mul_le_mul_right _ (by omega)
    simp only [blk_s, blk_e]
    omega
  · intro i j l _ _ hi hj
    rw [mem_blk_range] at hi hj
    have ei : (i + 1) * NB = i * NB + NB := by ring
    have ej : (j + 1) * NB = j * NB + NB := by ring
    rcases Nat.lt_trichotomy i j with h | h | h
    · have : (i + 1) * NB ≤ j * NB := Nat.mul_le_mul_right _ (by omega)
      omega
    · exact h
    · have : (j + 1) * NB ≤ i * NB := Nat.mul_le_mul_right _ (by omega)
      omega
  · intro l
    constructor
    · intro hl
      refine ⟨l / NB, ?_, ?_⟩
      · have h1 : l / NB * NB ≤ l := Nat.div_mul_le_self l NB
        have h2 : l < ceil_div S NB * NB := by omega
        by_contra hcon
        have : ceil_div S NB * NB ≤ l / NB * NB := Nat.mul_le_mul_right _ (by omega)
        omega
      · rw [mem_blk_range]
        have h1 : l / NB * NB ≤ l := Nat.div_mul_le_self l NB
        have h2 := Nat.div_add_mod l NB
        have h3 := Nat.mod_lt l (show NB > 0 by omega)
        have h4 : NB * (l / NB) = l / NB * NB := Nat.mul_comm _ _
        have e : (l / NB + 1) * NB = l / NB * NB + NB := by ring
        omega
    · rintro ⟨i, _, hi⟩
      rw [mem_blk_range] at hi
      omega
  · rw [blk_range_flatMap NB S _ (Or.inl hlt), hmin]
  · rw [blk_width_sum NB S _ (Or.inl hlt), hmin]
  · intro hdvd
    have hne : ceil_div S NB * NB ≠ S := fun h => hdvd ⟨ceil_div S NB, by rw [Nat.mul_comm]; exact h.symm⟩
    have e : ceil_div S NB * NB = (ceil_div S NB - 1) * NB + NB := by
      have : ceil_div S NB = (ceil_div S NB - 1) + 1 := by omega
      conv_lhs => rw [this]
      ring
    simp only [blk_s, blk_e]
    omega

theorem blk_ranges_partition_witness :
    (1 ≤ 5 ∧ 1 ≤ 2) ∧
    ceil_div 5 2 = 3 ∧
    (List.range (ceil_div 5 2)).flatMap (blk_range 2 5) = List.range 5 ∧
    blk_e 2 5 (ceil_div 5 2 - 1) - blk_s 2 (ceil_div 5 2 - 1) = 5 - (ceil_div 5 2 - 1) * 2 :=
  ⟨by decide, by decide,
    (blk_ranges_partition 5 2 (by decide) (by decide)).2.2.2.1,
    ((blk_ranges_partition 5 2 (by decide) (by decide)).2.2.2.2.2 (by decide)).1⟩

/-! ### The columnwise local apply computes the block formula -/

theorem column_getElem? (W : El.Matrix α) (j i : Nat) :
    (W.column j)[i]? = if i < W.Height then some (W.Get i j) else none := by
  unfold El.Matrix.column
  rw [List.getElem?_map]
  by_cases h : i < W.Height
  · simp [h, List.getElem?_range h]
  · simp [h, List.getElem?_eq_none (l := List.range W.Height) (by simpa using h)]

theorem column_length (W : El.Matrix α) (j : Nat) : (W.column j).length = W.Height := by
  simp [El.Matrix.column]

theorem column_getD (W : El.Matrix α) (j i : Nat) (a : α) (h : i < W.Height) :
    (W.column j).getD i a = W.Get i j := by
  rw [List.getD_eq_getElem?_getD, column_getElem?, if_pos h]
  rfl

theorem column_eq_of (W : El.Matrix α) (j : Nat) (L : List α) (hlen : W.Height = L.length)
    (h : ∀ i, i < L.length → L[i]? = some (W.Get i j)) : W.column j = L := by
  apply List.ext_getElem?
  intro i
  rw [column_getElem?]
  by_cases hi : i < W.Height
  · rw [if_pos hi, h i (by omega)]
  · rw [if_neg hi, List.getElem?_eq_none (by omega)]

theorem getD_of_getElem? {L : List α} {i : Nat} {x : α} (h : L[i]? = some x) (a : α) :
    L.getD i a = x := by
  rw [List.getD_eq_getElem?_getD, h]
  rfl

theorem getElem?_of_lt_getD {L : List α} {i : Nat} (h : i < L.length) (a : α) :
    L[i]? = some (L.getD i a) := by
  rw [List.getD_eq_getElem?_getD, List.getElem?_eq_getElem h]
  rfl

theorem fut_apply_columnwise_column (fut : FUT_t α) (W : El.Matrix α) (j : Nat)
    (hF : ∀ v, (fut.apply v).length = v.length) :
    (fut.apply_columnwise W).column j = fut.apply (W.column j) := by
  apply column_eq_of
  · show W.Height = _
    rw [hF, column_length]
  · intro i hi
    show _ = some ((fut.apply (W.column j)).getD i (W.Get i j))
    exact getElem?_of_lt_getD hi _

theorem DiagonalScaleLeft_column [Mul α] (D W : El.Matrix α) (j : Nat) (dl : List α)
    (hlen : dl.length = W.Height)
    (hD : ∀ i, i < W.Height → dl[i]? = some (D.Get i 0)) :
    (El.DiagonalScaleLeft D W).column j = List.zipWith (fun g x => g * x) dl (W.column j) := by
  apply column_eq_of
  · show W.Height = _
    simp [column_length, hlen]
  · intro i hi
    have hi' : i < W.Height := by
      simp [column_length, hlen] at hi
      exact hi
    rw [List.getElem?_zipWith, hD i hi', column_getElem?, if_pos hi']
    rfl


theorem spec_swap_length [Zero α] (w : List α) (p q : Nat) :
    (spec_swap w p q).length = w.length := by
  simp [spec_swap]

theorem swap_entries_column [Zero α] (W : El.Matrix α) (p q : Nat)
    (hp : p < W.Height) (hq : q < W.Height) :
    (swap_entries W p 0 q 0).column 0 = spec_swap (W.column 0) p q := by
  apply column_eq_of
  · show W.Height = _
    rw [spec_swap_length, column_length]
  · intro i hi
    rw [spec_swap_length, column_length] at hi
    simp only [spec_swap, List.getElem?_set, List.length_set, column_length, hq, hp, if_true,
      column_getD W 0 _ 0 hp, column_getD W 0 _ 0 hq, column_getElem?, hi, swap_entries,
      El.Matrix.Set]
    by_cases h1 : q = i
    · simp [h1]
    · by_cases h2 : p = i
      · simp [h1, h2, Ne.symm h1]
      · simp [h1, h2, Ne.symm h1, Ne.symm h2]

theorem spec_scramble_length [Zero α] (NB : Nat) (P : List Nat) (i : Nat) (w : List α) :
    (spec_scramble NB P i w).length = w.length := by
  unfold spec_scramble
  generalize List.range (NB - 1) = ls
  induction ls generalizing w with
  | nil => rfl
  | cons l ls ih => rw [List.foldl_cons, ih, spec_swap_length]

theorem columnwise_scramble_column [Zero α] (d : FastRFT_data_t α) (i : Nat) (W : El.Matrix α)
    (hH : W.Height = d._NB) (hP : ∀ p, p ∈ d.P → p < d._NB) (hPlen : (i + 1) * (d._NB - 1) ≤ d.P.length) :
    (columnwise_scramble d i W).column 0 = spec_scramble d._NB d.P i (W.column 0) ∧
      (columnwise_scramble d i W).Height = d._NB := by
  unfold columnwise_scramble spec_scramble
  have key : ∀ (ls : List Nat) (W : El.Matrix α), W.Height = d._NB →
      (∀ l, l ∈ ls → l < d._NB - 1) →
      (List.foldl (fun W l => swap_entries W (d._NB - 1 - l) 0
          (d.P.getD (i * (d._NB - 1) + l) 0) 0) W ls).column 0
        = List.foldl (fun w l => spec_swap w (d._NB - 1 - l)
          (d.P.getD (i * (d._NB - 1) + l) 0)) (W.column 0) ls ∧
      (List.foldl (fun W l => swap_entries W (d._NB - 1 - l) 0
          (d.P.getD (i * (d._NB - 1) + l) 0) 0) W ls).Height = d._NB := by
    intro ls
    induction ls with
    | nil => intro W hW _; exact ⟨rfl, hW⟩
    | cons l ls ih =>
      intro W hW hl
      rw [List.foldl_cons, List.foldl_cons]
      have hl' : l < d._NB - 1 := hl l (List.mem_cons_self _ _)
      have hidx : i * (d._NB - 1) + l < d.P.length := by
        have : (i + 1) * (d._NB - 1) = i * (d._NB - 1) + (d._NB - 1) := by ring
        omega
      have hq : d.P.getD (i * (d._NB - 1) + l) 0 < d._NB := by
        apply hP
        rw [List.getD_eq_getElem _ _ hidx]
        exact List.getElem_mem _
      have := ih (swap_entries W (d._NB - 1 - l) 0 (d.P.getD (i * (d._NB - 1) + l) 0) 0)
        (by show W.Height = _; exact hW)
        (fun l' h' => hl l' (List.mem_cons_of_mem _ h'))
      rw [this.1, swap_entries_column W _ _ (by omega) (by omega)]
      exact ⟨rfl, this.2⟩
  exact key _ W hH (fun l hl => List.mem_range.1 hl)

theorem set_diagonals_get [CommRing α] (d : FastRFT_data_t α) (n : Nat) (scal : α) (i : Nat)
    (D : Diagonals α) (j : Nat) (hj : j < n) :
    (set_diagonals d n scal i D).B.Get j 0 = d.B.getD (i * n + j) 0 ∧
    (set_diagonals d n scal i D).G.Get j 0 = scal * d.G.getD (i * n + j) 0 ∧
    (set_diagonals d n scal i D).Sm.Get j 0 = scal * d.Sm.getD (i * n + j) 0 := by
  unfold set_diagonals
  generalize hf : (fun (D : Diagonals α) j =>
    ({ B := D.B.Set j 0 (d.B.getD (i * n + j) 0),
       G := D.G.Set j 0 (scal * d.G.getD (i * n + j) 0),
       Sm := D.Sm.Set j 0 (scal * d.Sm.getD (i * n + j) 0) } : Diagonals α)) = f
  have key : ∀ k, j < k →
      (List.foldl f D (List.range k)).B.Get j 0 = d.B.getD (i * n + j) 0 ∧
      (List.foldl f D (List.range k)).G.Get j 0 = scal * d.G.getD (i * n + j) 0 ∧
      (List.foldl f D (List.range k)).Sm.Get j 0 = scal * d.Sm.getD (i * n + j) 0 := by
    intro k
    induction k with
    | zero => intro h; omega
    | succ k ih =>
      intro h
      rw [List.range_succ, List.foldl_append, List.foldl_cons, List.foldl_nil]
      subst hf
      by_cases hjk : j = k
      · subst hjk
        simp [El.Matrix.Set]
      · have := ih (by omega)
        simp only [El.Matrix.Set, hjk, false_and, if_false]
        exact this
  exact key n hj

theorem foldl_Set_range' (g : Nat → α) (c : Nat) (n s : Nat) (sk : El.Matrix α) (l' c' : Nat) :
    ((List.range' s n).foldl (fun sk l => sk.Set l c (g l)) sk).Get l' c'
      = if c' = c ∧ s ≤ l' ∧ l' < s + n then g l' else sk.Get l' c' := by
  induction n generalizing s sk with
  | zero =>
    have : ¬ (c' = c ∧ s ≤ l' ∧ l' < s + 0) := by omega
    rw [if_neg this]
    rfl
  | succ n ih =>
    rw [List.range'_succ, List.foldl_cons, ih]
    by_cases h1 : c' = c ∧ s + 1 ≤ l' ∧ l' < s + 1 + n
    · rw [if_pos h1, if_pos ⟨h1.1, by omega, by omega⟩]
    · rw [if_neg h1]
      by_cases h2 : l' = s ∧ c' = c
      · simp only [El.Matrix.Set, h2, and_self, if_true]
        rw [if_pos ⟨trivial, by omega, by omega⟩]
      · simp only [El.Matrix.Set, h2, if_false]
        have : ¬ (c' = c ∧ s ≤ l' ∧ l' < s + (n + 1)) := by
          rintro ⟨hc, h3, h4⟩
          by_cases h5 : l' = s
          · exact h2 ⟨h5, hc⟩
          · exact h1 ⟨hc, by omega, by omega⟩
        rw [if_neg this]


theorem spec_slice_length (NB i : Nat) (xs : List α) (h : (i + 1) * NB ≤ xs.length) :
    (spec_slice NB i xs).length = NB := by
  have : (i + 1) * NB = i * NB + NB := by ring
  simp only [spec_slice, List.length_take, List.length_drop]
  omega

theorem spec_slice_getElem? [Zero α] (NB i : Nat) (xs : List α) (h : (i + 1) * NB ≤ xs.length)
    (j : Nat) (hj : j < NB) :
    (spec_slice NB i xs)[j]? = some (xs.getD (i * NB + j) 0) := by
  have e : (i + 1) * NB = i * NB + NB := by ring
  have h2 : i * NB + j < xs.length := by omega
  simp only [spec_slice]
  rw [List.getElem?_take_of_lt hj, List.getElem?_drop, List.getD_eq_getElem _ _ h2,
    List.getElem?_eq_getElem h2]

theorem mul_le_numblks (NB n i : Nat) (hi : i < n) : (i + 1) * NB ≤ n * NB :=
  Nat.mul_le_mul_right _ hi

theorem columnwise_block_W [CommRing α] (d : FastRFT_data_t α) (m : MathFns α)
    (fut : FUT_t α) (c : Nat) (st : ColumnwiseState α) (i : Nat)
    (hWF : d.WF) (hi : i < d.numblks) (hAc : st.Ac.Height = d._NB)
    (hF : ∀ v, (fut.apply v).length = v.length) :
    (columnwise_block d m fut c st i).W.column 0 = spec_w_blk d._NB d m fut i (st.Ac.column 0) ∧
    (columnwise_block d m fut c st i).W.Height = d._NB := by
  obtain ⟨hB, hG, hSm, hPl, hP⟩ := hWF
  have hBs := mul_le_numblks d._NB d.numblks i hi
  have hPs := mul_le_numblks (d._NB - 1) d.numblks i hi
  set scal := m.sqrt (d._NB : α) * fut.scale with hscal
  set D := set_diagonals d d._NB scal i st.D with hD
  have hDget := set_diagonals_get d d._NB scal i st.D
  rw [← hD] at hDget
  -- stage 1
  have h1 : (El.DiagonalScaleLeft D.B st.Ac).column 0
      = List.zipWith (fun b x => b * x) (spec_slice d._NB i d.B) (st.Ac.column 0) := by
    apply DiagonalScaleLeft_column
    · rw [spec_slice_length _ _ _ (le_trans hBs hB), hAc]
    · intro j hj
      rw [spec_slice_getElem? _ _ _ (le_trans hBs hB) j (by omega), (hDget j (by omega)).1]
  have h2 := fut_apply_columnwise_column fut (El.DiagonalScaleLeft D.B st.Ac) 0 hF
  have h3 := columnwise_scramble_column d i (fut.apply_columnwise (El.DiagonalScaleLeft D.B st.Ac))
    hAc hP (le_trans hPs hPl)
  set W3 := columnwise_scramble d i (fut.apply_columnwise (El.DiagonalScaleLeft D.B st.Ac))
    with hW3
  have h4 : (El.DiagonalScaleLeft D.G W3).column 0
      = spec_diag scal (spec_slice d._NB i d.G) (W3.column 0) := by
    rw [DiagonalScaleLeft_column D.G W3 0 ((spec_slice d._NB i d.G).map (fun g => scal * g))]
    · simp [spec_diag, List.zipWith_map_left]
    · rw [List.length_map, spec_slice_length _ _ _ (le_trans hBs hG), h3.2]
    · intro j hj
      rw [List.getElem?_map, spec_slice_getElem? _ _ _ (le_trans hBs hG) j
        (by rw [h3.2] at hj; exact hj), (hDget j (by rw [h3.2] at hj; exact hj)).2.1]
      rfl
  have h5 := fut_apply_columnwise_column fut (El.DiagonalScaleLeft D.G W3) 0 hF
  set W5 := fut.apply_columnwise (El.DiagonalScaleLeft D.G W3) with hW5
  have hW5H : W5.Height = d._NB := h3.2
  have h6 : (El.DiagonalScaleLeft D.Sm W5).column 0
      = spec_diag scal (spec_slice d._NB i d.Sm) (W5.column 0) := by
    rw [DiagonalScaleLeft_column D.Sm W5 0 ((spec_slice d._NB i d.Sm).map (fun g => scal * g))]
    · simp [spec_diag, List.zipWith_map_left]
    · rw [List.length_map, spec_slice_length _ _ _ (le_trans hBs hSm), hW5H]
    · intro j hj
      rw [List.getElem?_map, spec_slice_getElem? _ _ _ (le_trans hBs hSm) j
        (by rw [hW5H] at hj; exact hj), (hDget j (by rw [hW5H] at hj; exact hj)).2.2]
      rfl
  constructor
  · show (El.DiagonalScaleLeft D.Sm W5).column 0 = _
    rw [h6, h5, h4, h3.1, h2, h1]
    rfl
  · exact hW5H


theorem columnwise_block_Ac [CommRing α] (d : FastRFT_data_t α) (m : MathFns α)
    (fut : FUT_t α) (c : Nat) (st : ColumnwiseState α) (i : Nat) :
    (columnwise_block d m fut c st i).Ac = st.Ac := rfl

theorem columnwise_block_sketch [CommRing α] (d : FastRFT_data_t α) (m : MathFns α)
    (fut : FUT_t α) (c : Nat) (st : ColumnwiseState α) (i : Nat)
    (hWF : d.WF) (hi : i < d.numblks) (hAc : st.Ac.Height = d._NB)
    (hF : ∀ v, (fut.apply v).length = v.length) (l' c' : Nat) :
    (columnwise_block d m fut c st i).sketch_of_A.Get l' c'
      = if c' = c ∧ l' ∈ blk_range d._NB d._S i
        then readout d m ((spec_w_blk d._NB d m fut i (st.Ac.column 0)).getD (l' - i * d._NB) 0) l'
        else st.sketch_of_A.Get l' c' := by
  have hW := columnwise_block_W d m fut c st i hWF hi hAc hF
  have hfold := foldl_Set_range'
    (fun l => readout d m ((columnwise_block d m fut c st i).W.Get (l - blk_s d._NB i) 0) l)
    c (blk_e d._NB d._S i - blk_s d._NB i) (blk_s d._NB i) st.sketch_of_A l' c'
  have hmem := mem_blk_range d._NB d._S i l'
  have e : (i + 1) * d._NB = i * d._NB + d._NB := by ring
  rw [show (columnwise_block d m fut c st i).sketch_of_A
      = (List.range' (blk_s d._NB i) (blk_e d._NB d._S i - blk_s d._NB i)).foldl
          (fun sk l => sk.Set l c (readout d m
            ((columnwise_block d m fut c st i).W.Get (l - blk_s d._NB i) 0) l))
          st.sketch_of_A from rfl, hfold]
  simp only [blk_s, blk_e] at hfold hmem ⊢
  by_cases h : c' = c ∧ l' ∈ blk_range d._NB d._S i
  · have h' := hmem.1 h.2
    rw [if_pos h, if_pos ⟨h.1, by omega, by omega⟩]
    rw [← column_getD _ 0 (l' - i * d._NB) 0 (by rw [hW.2]; omega), hW.1]
  · rw [if_neg h, if_neg]
    rintro ⟨h1, h2, h3⟩
    exact h ⟨h1, hmem.2 ⟨h2, by omega⟩⟩

theorem blk_range_disjoint (NB S i j l : Nat) (hi : l ∈ blk_range NB S i)
    (hj : l ∈ blk_range NB S j) : i = j := by
  rw [mem_blk_range] at hi hj
  have ei : (i + 1) * NB = i * NB + NB := by ring
  have ej : (j + 1) * NB = j * NB + NB := by ring
  rcases Nat.lt_trichotomy i j with h | h | h
  · have : (i + 1) * NB ≤ j * NB := Nat.mul_le_mul_right _ (by omega)
    omega
  · exact h
  · have : (j + 1) * NB ≤ i * NB := Nat.mul_le_mul_right _ (by omega)
    omega

/-- Effect of the first `k` blocks of the block loop on the state. -/
theorem columnwise_blocks_spec [CommRing α] (d : FastRFT_data_t α) (m : MathFns α)
    (fut : FUT_t α) (c : Nat) (st : ColumnwiseState α)
    (hWF : d.WF) (hAc : st.Ac.Height = d._NB)
    (hF : ∀ v, (fut.apply v).length = v.length) (k : Nat) (hk : k ≤ d.numblks) :
    ((List.range k).foldl (columnwise_block d m fut c) st).Ac = st.Ac ∧
    (∀ l' c', c' ≠ c →
      ((List.range k).foldl (columnwise_block d m fut c) st).sketch_of_A.Get l' c'
        = st.sketch_of_A.Get l' c') ∧
    (∀ l', (∀ i, i < k → l' ∉ blk_range d._NB d._S i) →
      ((List.range k).foldl (columnwise_block d m fut c) st).sketch_of_A.Get l' c
        = st.sketch_of_A.Get l' c) ∧
    (∀ i l', i < k → l' ∈ blk_range d._NB d._S i →
      ((List.range k).foldl (columnwise_block d m fut c) st).sketch_of_A.Get l' c
        = readout d m ((spec_w_blk d._NB d m fut i (st.Ac.column 0)).getD (l' - i * d._NB) 0) l') := by
  induction k with
  | zero =>
    refine ⟨rfl, fun _ _ _ => rfl, fun _ _ => rfl, ?_⟩
    intro i l' hi
    omega
  | succ k ih =>
    obtain ⟨ih1, ih2, ih3, ih4⟩ := ih (by omega)
    rw [List.range_succ, List.foldl_append, List.foldl_cons, List.foldl_nil]
    set st' := (List.range k).foldl (columnwise_block d m fut c) st with hst'
    have hAc' : st'.Ac.Height = d._NB := by rw [ih1]; exact hAc
    have hsk := columnwise_block_sketch d m fut c st' k hWF (by omega) hAc' hF
    refine ⟨?_, ?_, ?_, ?_⟩
    · rw [columnwise_block_Ac, ih1]
    · intro l' c' hc
      rw [hsk, if_neg (fun h => hc h.1), ih2 l' c' hc]
    · intro l' hl
      rw [hsk, if_neg (fun h => hl k (by omega) h.2), ih3 l' (fun i hi => hl i (by omega))]
    · intro i l' hi hl
      rw [hsk]
      by_cases hik : i = k
      · subst hik
        rw [if_pos ⟨rfl, hl⟩, ih1]
      · rw [if_neg, ih4 i l' (by omega) hl]
        rintro ⟨_, h⟩
        exact hik (blk_range_disjoint _ _ _ _ _ hl h)

theorem pad_column [Zero α] (N NB : Nat) (A Ac : El.Matrix α) (c : Nat)
    (hA : A.Height = N) (hN : N ≤ NB) (hAc : Ac.Height = NB) :
    (fill_zero (DenseCopy (ColumnView A c) N 1 Ac) N NB).column 0 = spec_pad NB (A.column c) := by
  apply column_eq_of
  · show Ac.Height = _
    simp only [spec_pad, List.length_append, List.length_replicate, column_length]
    omega
  · intro i hi
    simp only [spec_pad, List.length_append, List.length_replicate, column_length] at hi
    show _ = some (if N ≤ i ∧ i < NB ∧ 0 = 0 then 0
      else if i < N ∧ 0 < 1 then A.Get i (c + 0) else Ac.Get i 0)
    by_cases h : i < N
    · rw [spec_pad, List.getElem?_append_left (by rw [column_length]; omega), column_getElem?,
        if_pos (by omega), if_neg (by omega), if_pos ⟨h, by omega⟩]
      rfl
    · rw [spec_pad, List.getElem?_append_right (by rw [column_length]; omega),
        if_pos ⟨by omega, by omega, rfl⟩, List.getElem?_replicate, if_pos]
      rw [column_length]
      omega


/-- Effect of one iteration of the column loop on the state. -/
theorem columnwise_column_spec [CommRing α] (d : FastRFT_data_t α) (m : MathFns α)
    (fut : FUT_t α) (A : El.Matrix α) (st : ColumnwiseState α) (c : Nat)
    (hWF : d.WF) (hN : d._N ≤ d._NB) (hA : A.Height = d._N) (hAc : st.Ac.Height = d._NB)
    (hF : ∀ v, (fut.apply v).length = v.length) :
    (columnwise_column d m fut A st c).Ac.Height = d._NB ∧
    (∀ l' c', c' ≠ c →
      (columnwise_column d m fut A st c).sketch_of_A.Get l' c' = st.sketch_of_A.Get l' c') ∧
    (∀ l', (∀ i, i < d.numblks → l' ∉ blk_range d._NB d._S i) →
      (columnwise_column d m fut A st c).sketch_of_A.Get l' c = st.sketch_of_A.Get l' c) ∧
    (∀ i l', i < d.numblks → l' ∈ blk_range d._NB d._S i →
      (columnwise_column d m fut A st c).sketch_of_A.Get l' c
        = readout d m ((spec_w d m fut i (A.column c)).getD (l' - i * d._NB) 0) l') := by
  have hpad := pad_column d._N d._NB A st.Ac c hA hN hAc
  have h := columnwise_blocks_spec d m fut c
    { st with Ac := fill_zero (DenseCopy (ColumnView A c) d._N 1 st.Ac) d._N d._NB }
    hWF hAc hF d.numblks (Nat.le_refl _)
  obtain ⟨h1, h2, h3, h4⟩ := h
  refine ⟨?_, h2, h3, ?_⟩
  · show ((List.range d.numblks).foldl (columnwise_block d m fut c) _).Ac.Height = _
    rw [h1]
    exact hAc
  · intro i l' hi hl
    have := h4 i l' hi hl
    simp only [hpad] at this
    exact this

/-- Effect of the first `n` iterations of the column loop. -/
theorem columnwise_columns_spec [CommRing α] (d : FastRFT_data_t α) (m : MathFns α)
    (fut : FUT_t α) (A : El.Matrix α) (st : ColumnwiseState α)
    (hWF : d.WF) (hN : d._N ≤ d._NB) (hA : A.Height = d._N) (hAc : st.Ac.Height = d._NB)
    (hF : ∀ v, (fut.apply v).length = v.length) (n : Nat) :
    ((List.range n).foldl (columnwise_column d m fut A) st).Ac.Height = d._NB ∧
    (∀ l' c', n ≤ c' →
      ((List.range n).foldl (columnwise_column d m fut A) st).sketch_of_A.Get l' c'
        = st.sketch_of_A.Get l' c') ∧
    (∀ l' c', (∀ i, i < d.numblks → l' ∉ blk_range d._NB d._S i) →
      ((List.range n).foldl (columnwise_column d m fut A) st).sketch_of_A.Get l' c'
        = st.sketch_of_A.Get l' c') ∧
    (∀ c i l', c < n → i < d.numblks → l' ∈ blk_range d._NB d._S i →
      ((List.range n).foldl (columnwise_column d m fut A) st).sketch_of_A.Get l' c
        = readout d m ((spec_w d m fut i (A.column c)).getD (l' - i * d._NB) 0) l') := by
  induction n with
  | zero =>
    refine ⟨hAc, fun _ _ _ => rfl, fun _ _ _ => rfl, ?_⟩
    intro c i l' hc
    omega
  | succ n ih =>
    obtain ⟨ih1, ih2, ih3, ih4⟩ := ih
    rw [List.range_succ, List.foldl_append, List.foldl_cons, List.foldl_nil]
    obtain ⟨s1, s2, s3, s4⟩ := columnwise_column_spec d m fut A
      ((List.range n).foldl (columnwise_column d m fut A) st) n hWF hN hA ih1 hF
    refine ⟨s1, ?_, ?_, ?_⟩
    · intro l' c' hc
      rw [s2 l' c' (by omega), ih2 l' c' (by omega)]
    · intro l' c' hl
      by_cases hc : c' = n
      · subst hc
        rw [s3 l' hl, ih3 l' _ hl]
      · rw [s2 l' c' hc, ih3 l' c' hl]
    · intro c i l' hc hi hl
      by_cases hcn : c = n
      · subst hcn
        exact s4 i l' hi hl
      · rw [s2 l' c hcn]
        exact ih4 c i l' (by omega) hi hl

/-- C1: with `N <= NB`, well-sized parameter arrays, an input with `N` rows and a
length-preserving transform `F`, the local columnwise FastRFT apply writes, for every
column `c`, block `i < numblks` and `l` with `i * NB <= l < min((i + 1) * NB, S)`,
`out[l, c] = scale * cos(w_i[l - i * NB] + shifts[l])`, where
`w_i = c * Sm_i ⊙ F(c * G_i ⊙ scramble_i(F(B_i ⊙ pad(A[:, c]))))`. -/
theorem apply_impl_columnwise_formula [CommRing α] (d : FastRFT_data_t α) (m : MathFns α)
    (fut : FUT_t α) (junk : Nat → Nat → Nat → α) (A sketch_of_A : El.Matrix α)
    (hWF : d.WF) (hN : d._N ≤ d._NB) (hA : A.Height = d._N)
    (hF : ∀ v, (fut.apply v).length = v.length)
    (c i l : Nat) (hc : c < A.Width) (hi : i < d.numblks)
    (hl1 : i * d._NB ≤ l) (hl2 : l < min ((i + 1) * d._NB) d._S) :
    (apply_impl_columnwise d m fut junk A sketch_of_A).Get l c
      = d.scale * m.cos ((spec_w d m fut i (A.column c)).getD (l - i * d._NB) 0
          + d.shifts.getD l 0) :=
  (columnwise_columns_spec d m fut A (columnwise_alloc d junk sketch_of_A) hWF hN hA rfl hF
    A.Width).2.2.2 c i l hc hi ((mem_blk_range d._NB d._S i l).2 ⟨hl1, hl2⟩)


/-! ### The worked example -/

theorem F0_length [CommRing α] (s : α) (v : List α) : ((F0 s).apply v).length = v.length := by
  unfold F0
  simp only
  split <;> rfl

theorem worked_example_WF [CommRing α] : (worked_example : FastRFT_data_t α).WF := by
  refine ⟨Nat.le_refl _, Nat.le_refl _, Nat.le_refl _, Nat.le_refl _, ?_⟩
  intro p hp
  simp only [worked_example, List.mem_singleton] at hp
  subst hp
  show 1 < 2
  omega

theorem sqrt_two_mul_inv : Real.sqrt 2 * (1 / Real.sqrt 2) = 1 := by
  have h : Real.sqrt 2 ≠ 0 := by positivity
  field_simp

theorem worked_example_w (s : ℝ) (hs : Real.sqrt 2 * s = 1) :
    spec_w worked_example ⟨Real.sqrt, Real.cos⟩ (F0 s) 0 [1, 1] = [2, -2] := by
  simp [spec_w, spec_w_blk, spec_diag, spec_slice, spec_scramble, spec_swap, spec_pad,
    worked_example, F0, hs, List.range_succ]
  norm_num

theorem ofColumns_column [Zero α] (v : List α) :
    (ofColumns v.length [v]).column 0 = v := by
  apply column_eq_of
  · rfl
  · intro i hi
    show _ = some (([v].getD 0 []).getD i 0)
    exact getElem?_of_lt_getD hi 0

theorem apply_impl_columnwise_get [CommRing α] (d : FastRFT_data_t α) (m : MathFns α)
    (fut : FUT_t α) (junk : Nat → Nat → Nat → α) (A sketch_of_A : El.Matrix α)
    (hWF : d.WF) (hN : d._N ≤ d._NB) (hA : A.Height = d._N)
    (hF : ∀ v, (fut.apply v).length = v.length)
    (c i l : Nat) (hc : c < A.Width) (hi : i < d.numblks) (hl : l ∈ blk_range d._NB d._S i) :
    (apply_impl_columnwise d m fut junk A sketch_of_A).Get l c
      = readout d m ((spec_w d m fut i (A.column c)).getD (l - i * d._NB) 0) l :=
  (columnwise_columns_spec d m fut A (columnwise_alloc d junk sketch_of_A) hWF hN hA rfl hF
    A.Width).2.2.2 c i l hc hi hl

theorem worked_example_get (junk : Nat → Nat → Nat → ℝ) (sketch_of_A : El.Matrix ℝ) :
    (apply_impl_columnwise worked_example ⟨Real.sqrt, Real.cos⟩ (F0 (1 / Real.sqrt 2)) junk
        (ofColumns 2 [[1, 1]]) sketch_of_A).Get 0 0 = Real.cos 2 ∧
    (apply_impl_columnwise worked_example ⟨Real.sqrt, Real.cos⟩ (F0 (1 / Real.sqrt 2)) junk
        (ofColumns 2 [[1, 1]]) sketch_of_A).Get 1 0 = Real.cos 2 := by
  have h := apply_impl_columnwise_get worked_example ⟨Real.sqrt, Real.cos⟩
    (F0 (1 / Real.sqrt 2)) junk (ofColumns 2 [[1, 1]]) sketch_of_A
    worked_example_WF (Nat.le_refl _) rfl (F0_length _) 0 0
  have hcol : (ofColumns 2 [[(1 : ℝ), 1]]).column 0 = [1, 1] := ofColumns_column [1, 1]
  have hw := worked_example_w (1 / Real.sqrt 2) sqrt_two_mul_inv
  have h0 := h 0 (show 0 < 1 by omega) (show 0 < 1 by omega) (by decide)
  have h1 := h 1 (show 0 < 1 by omega) (show 0 < 1 by omega) (by decide)
  rw [hcol, hw] at h0 h1
  rw [h0, h1]
  simp [readout, worked_example]

theorem cos_two_ne_cos_one : Real.cos 2 ≠ Real.cos 1 := by
  have h := Real.cos_lt_cos_of_nonneg_of_le_pi (x := 1) (y := 2) (by norm_num)
    (by linarith [Real.pi_gt_three]) (by norm_num)
  exact ne_of_lt h

/-- C1 at the worked-example parameter set: the hypotheses hold there and the formula
gives entry `(1, 0)` of the output. -/
theorem apply_impl_columnwise_formula_witness :
    (worked_example : FastRFT_data_t ℝ).WF ∧
    (apply_impl_columnwise worked_example ⟨Real.sqrt, Real.cos⟩ (F0 (1 / Real.sqrt 2))
        (fun _ _ _ => 0) (ofColumns 2 [[1, 1]]) (ofColumns 2 [[0]])).Get 1 0
      = (worked_example : FastRFT_data_t ℝ).scale *
        Real.cos ((spec_w worked_example ⟨Real.sqrt, Real.cos⟩ (F0 (1 / Real.sqrt 2)) 0
            ((ofColumns 2 [[(1 : ℝ), 1]]).column 0)).getD (1 - 0 * 2) 0
          + (worked_example : FastRFT_data_t ℝ).shifts.getD 1 0) :=
  ⟨worked_example_WF,
    apply_impl_columnwise_formula worked_example ⟨Real.sqrt, Real.cos⟩ (F0 (1 / Real.sqrt 2))
      (fun _ _ _ => 0) (ofColumns 2 [[1, 1]]) (ofColumns 2 [[0]])
      worked_example_WF (Nat.le_refl _) rfl (F0_length _) 0 0 1
      (show 0 < 1 by omega) (show 0 < 1 by omega) (show 0 * 2 ≤ 1 by omega)
      (show 1 < min ((0 + 1) * 2) 2 by decide)⟩

/-- C3, as stated, fails: on the worked example (`N = S = NB = 2`, `B = [1, -1]`,
`G = Sm = [1, 1]`, `shifts = [0, 0]`, `P = [1]`, `scale = 1`, `F0` with
`scale() = 1 / sqrt 2`, input column `[1, 1]`) the columnwise apply does not output
`[cos 1, cos 1]`. -/
theorem worked_example_not_cos_one :
    ¬ ((apply_impl_columnwise worked_example ⟨Real.sqrt, Real.cos⟩ (F0 (1 / Real.sqrt 2))
          (fun _ _ _ => 0) (ofColumns 2 [[1, 1]]) (ofColumns 2 [[0]])).Get 0 0 = Real.cos 1 ∧
       (apply_impl_columnwise worked_example ⟨Real.sqrt, Real.cos⟩ (F0 (1 / Real.sqrt 2))
          (fun _ _ _ => 0) (ofColumns 2 [[1, 1]]) (ofColumns 2 [[0]])).Get 1 0 = Real.cos 1) := by
  rintro ⟨h, _⟩
  rw [(worked_example_get _ _).1] at h
  exact cos_two_ne_cos_one h

/-- Numerical enclosure of `cos 2`, by five angle doublings from the quadratic bound on
`cos (1 / 32)`. -/
theorem cos_two_bounds : 
    (-4164 / 10000 : ℝ) ≤ Real.cos 2 ∧ Real.cos 2 ≤ (-4161 / 10000 : ℝ) := by
  have habs : |(1 / 32 : ℝ)| = 1 / 32 := abs_of_pos (by norm_num)
  have h0 := Real.cos_bound (x := 1 / 32) (by rw [habs]; norm_num)
  rw [habs, abs_le] at h0
  have l0 : (49975583 / 50000000 : ℝ) ≤ Real.cos (1 / 32) := by
    have := h0.1
    norm_num at this ⊢
    linarith
  have u0 : Real.cos (1 / 32) ≤ (99951177 / 100000000 : ℝ) := by
    have := h0.2
    norm_num at this ⊢
    linarith
  have e1 : Real.cos (1 / 16) = 2 * Real.cos (1 / 32) ^ 2 - 1 := by
    rw [← Real.cos_two_mul]
    norm_num
  have p1 : (0 : ℝ) ≤ (49975583 / 50000000 : ℝ) := by norm_num
  have s1 : (49975583 / 50000000 : ℝ) ^ 2 ≤ Real.cos (1 / 32) ^ 2 := pow_le_pow_left₀ p1 l0 2
  have t1 : Real.cos (1 / 32) ^ 2 ≤ (99951177 / 100000000 : ℝ) ^ 2 :=
    pow_le_pow_left₀ (le_trans p1 l0) u0 2
  have l1 : (99804711 / 100000000 : ℝ) ≤ Real.cos (1 / 16) := by
    rw [e1]
    norm_num at s1 ⊢
    linarith
  have u1 : Real.cos (1 / 16) ≤ (24951189 / 25000000 : ℝ) := by
    rw [e1]
    norm_num at t1 ⊢
    linarith
  have e2 : Real.cos (1 / 8) = 2 * Real.cos (1 / 16) ^ 2 - 1 := by
    rw [← Real.cos_two_mul]
    norm_num
  have p2 : (0 : ℝ) ≤ (99804711 / 100000000 : ℝ) := by norm_num
  have s2 : (99804711 / 100000000 : ℝ) ^ 2 ≤ Real.cos (1 / 16) ^ 2 := pow_le_pow_left₀ p2 l1 2
  have t2 : Real.cos (1 / 16) ^ 2 ≤ (24951189 / 25000000 : ℝ) ^ 2 :=
    pow_le_pow_left₀ (le_trans p2 l1) u1 2
  have l2 : (49609803 / 50000000 : ℝ) ≤ Real.cos (1 / 8) := by
    rw [e2]
    norm_num at s2 ⊢
    linarith
  have u2 : Real.cos (1 / 8) ≤ (99219787 / 100000000 : ℝ) := by
    rw [e2]
    norm_num at t2 ⊢
    linarith
  have e3 : Real.cos (1 / 4) = 2 * Real.cos (1 / 8) ^ 2 - 1 := by
    rw [← Real.cos_two_mul]
    norm_num
  have p3 : (0 : ℝ) ≤ (49609803 / 50000000 : ℝ) := by norm_num
  have s3 : (49609803 / 50000000 : ℝ) ^ 2 ≤ Real.cos (1 / 8) ^ 2 := pow_le_pow_left₀ p3 l2 2
  have t3 : Real.cos (1 / 8) ^ 2 ≤ (99219787 / 100000000 : ℝ) ^ 2 :=
    pow_le_pow_left₀ (le_trans p3 l2) u2 2
  have l3 : (24222651 / 25000000 : ℝ) ≤ Real.cos (1 / 4) := by
    rw [e3]
    norm_num at s3 ⊢
    linarith
  have u3 : Real.cos (1 / 4) ≤ (96891323 / 100000000 : ℝ) := by
    rw [e3]
    norm_num at t3 ⊢
    linarith
  have e4 : Real.cos (1 / 2) = 2 * Real.cos (1 / 4) ^ 2 - 1 := by
    rw [← Real.cos_two_mul]
    norm_num
  have p4 : (0 : ℝ) ≤ (24222651 / 25000000 : ℝ) := by norm_num
  have s4 : (24222651 / 25000000 : ℝ) ^ 2 ≤ Real.cos (1 / 4) ^ 2 := pow_le_pow_left₀ p4 l3 2
  have t4 : Real.cos (1 / 4) ^ 2 ≤ (96891323 / 100000000 : ℝ) ^ 2 :=
    pow_le_pow_left₀ (le_trans p4 l3) u3 2
  have l4 : (43877891 / 50000000 : ℝ) ≤ Real.cos (1 / 2) := by
    rw [e4]
    norm_num at s4 ⊢
    linarith
  have u4 : Real.cos (1 / 2) ≤ (8775857 / 10000000 : ℝ) := by
    rw [e4]
    norm_num at t4 ⊢
    linarith
  have e5 : Real.cos (1) = 2 * Real.cos (1 / 2) ^ 2 - 1 := by
    rw [← Real.cos_two_mul]
    norm_num
  have p5 : (0 : ℝ) ≤ (43877891 / 50000000 : ℝ) := by norm_num
  have s5 : (43877891 / 50000000 : ℝ) ^ 2 ≤ Real.cos (1 / 2) ^ 2 := pow_le_pow_left₀ p5 l4 2
  have t5 : Real.cos (1 / 2) ^ 2 ≤ (8775857 / 10000000 : ℝ) ^ 2 :=
    pow_le_pow_left₀ (le_trans p5 l4) u4 2
  have l5 : (10804309 / 20000000 : ℝ) ≤ Real.cos (1) := by
    rw [e5]
    norm_num at s5 ⊢
    linarith
  have u5 : Real.cos (1) ≤ (54031333 / 100000000 : ℝ) := by
    rw [e5]
    norm_num at t5 ⊢
    linarith
  have e6 : Real.cos (2) = 2 * Real.cos (1) ^ 2 - 1 := by
    rw [← Real.cos_two_mul]
    norm_num
  have p6 : (0 : ℝ) ≤ (10804309 / 20000000 : ℝ) := by norm_num
  have s6 : (10804309 / 20000000 : ℝ) ^ 2 ≤ Real.cos (1) ^ 2 := pow_le_pow_left₀ p6 l5 2
  have t6 : Real.cos (1) ^ 2 ≤ (54031333 / 100000000 : ℝ) ^ 2 :=
    pow_le_pow_left₀ (le_trans p6 l5) u5 2
  have l6 : (-20816727 / 50000000 : ℝ) ≤ Real.cos (2) := by
    rw [e6]
    norm_num at s6 ⊢
    linarith
  have u6 : Real.cos (2) ≤ (-41612301 / 100000000 : ℝ) := by
    rw [e6]
    norm_num at t6 ⊢
    linarith
  exact ⟨le_trans (by norm_num) l6, le_trans u6 (by norm_num)⟩

theorem cos_two_approx : |Real.cos 2 - (-4161 / 10000)| < 5 / 10000 := by
  obtain ⟨h1, h2⟩ := cos_two_bounds
  rw [abs_lt]
  constructor <;> linarith


/-- C3, amended: on the worked example the columnwise apply outputs `[cos 2, cos 2]`,
whatever the scratch and output buffers held before: the two raw butterflies give
`F0(F0([1, -1])) = [2, -2]` and both diagonal factors `sqrt(2) * (1 / sqrt 2)` are `1`.
The value `cos 2` is negative, within `0.0005` of `-0.4161`. -/
theorem worked_example_output (junk : Nat → Nat → Nat → ℝ) (sketch_of_A : El.Matrix ℝ) :
    (apply_impl_columnwise worked_example ⟨Real.sqrt, Real.cos⟩ (F0 (1 / Real.sqrt 2)) junk
        (ofColumns 2 [[1, 1]]) sketch_of_A).Get 0 0 = Real.cos 2 ∧
    (apply_impl_columnwise worked_example ⟨Real.sqrt, Real.cos⟩ (F0 (1 / Real.sqrt 2)) junk
        (ofColumns 2 [[1, 1]]) sketch_of_A).Get 1 0 = Real.cos 2 ∧
    Real.cos 2 < 0 ∧ 0 < Real.cos 1 ∧ |Real.cos 2 - (-4161 / 10000)| < 5 / 10000 :=
  ⟨(worked_example_get junk sketch_of_A).1, (worked_example_get junk sketch_of_A).2,
    Real.cos_two_neg, Real.cos_one_pos, cos_two_approx⟩

/-! ### What the rowwise local apply computes -/

theorem row_getElem? (W : El.Matrix α) (i j : Nat) :
    (W.row i)[j]? = if j < W.Width then some (W.Get i j) else none := by
  unfold El.Matrix.row
  rw [List.getElem?_map]
  by_cases h : j < W.Width
  · simp [h, List.getElem?_range h]
  · simp [h, List.getElem?_eq_none (l := List.range W.Width) (by simpa using h)]

theorem row_length (W : El.Matrix α) (i : Nat) : (W.row i).length = W.Width := by
  simp [El.Matrix.row]

theorem row_getD (W : El.Matrix α) (i j : Nat) (a : α) (h : j < W.Width) :
    (W.row i).getD j a = W.Get i j := by
  rw [List.getD_eq_getElem?_getD, row_getElem?, if_pos h]
  rfl

theorem row_eq_of (W : El.Matrix α) (i : Nat) (L : List α) (hlen : W.Width = L.length)
    (h : ∀ j, j < L.length → L[j]? = some (W.Get i j)) : W.row i = L := by
  apply List.ext_getElem?
  intro j
  rw [row_getElem?]
  by_cases hj : j < W.Width
  · rw [if_pos hj, h j (by omega)]
  · rw [if_neg hj, List.getElem?_eq_none (by omega)]

theorem fut_apply_rowwise_row (fut : FUT_t α) (W : El.Matrix α) (i : Nat)
    (hF : ∀ v, (fut.apply v).length = v.length) :
    (fut.apply_rowwise W).row i = fut.apply (W.row i) := by
  apply row_eq_of
  · show W.Width = _
    rw [hF, row_length]
  · intro j hj
    show _ = some ((fut.apply (W.row i)).getD j (W.Get i j))
    exact getElem?_of_lt_getD hj _

theorem DiagonalScaleRight_row [Mul α] (D W : El.Matrix α) (i : Nat) (dl : List α)
    (hlen : dl.length = W.Width)
    (hD : ∀ j, j < W.Width → dl[j]? = some (D.Get j 0)) :
    (El.DiagonalScaleRight D W).row i = List.zipWith (fun g x => g * x) dl (W.row i) := by
  apply row_eq_of
  · show W.Width = _
    simp [row_length, hlen]
  · intro j hj
    have hj' : j < W.Width := by
      simp [row_length, hlen] at hj
      exact hj
    rw [List.getElem?_zipWith, hD j hj', row_getElem?, if_pos hj']
    rfl

theorem swap_entries_row_self [Zero α] (W : El.Matrix α) (c p q : Nat)
    (hp : p < W.Width) (hq : q < W.Width) :
    (swap_entries W c p c q).row c = spec_swap (W.row c) p q := by
  apply row_eq_of
  · show W.Width = _
    rw [spec_swap_length, row_length]
  · intro j hj
    rw [spec_swap_length, row_length] at hj
    simp only [spec_swap, List.getElem?_set, List.length_set, row_length, hq, hp, if_true,
      row_getD W c _ 0 hp, row_getD W c _ 0 hq, row_getElem?, hj, swap_entries,
      El.Matrix.Set]
    by_cases h1 : q = j
    · simp [h1]
    · by_cases h2 : p = j
      · simp [h1, h2, Ne.symm h1]
      · simp [h1, h2, Ne.symm h1, Ne.symm h2]

theorem swap_entries_row_other (W : El.Matrix α) (c p q r : Nat) (hr : r ≠ c) (j : Nat) :
    (swap_entries W c p c q).Get r j = W.Get r j := by
  simp [swap_entries, El.Matrix.Set, hr]

/-- The inner swap loop of the rowwise scramble, on row `c`. -/
theorem rowwise_scramble_inner [Zero α] (d : FastRFT_data_t α) (i c : Nat) (ls : List Nat)
    (W : El.Matrix α) (hW : W.Width = d._N) (hP : ∀ p, p ∈ d.P → p < d._N)
    (hPlen : (i + 1) * (d._N - 1) ≤ d.P.length) (hls : ∀ l, l ∈ ls → l < d._N - 1) :
    (ls.foldl (fun W l => swap_entries W c (d._N - 1 - l) c
        (d.P.getD (i * (d._N - 1) + l) 0)) W).row c
      = ls.foldl (fun w l => spec_swap w (d._N - 1 - l)
          (d.P.getD (i * (d._N - 1) + l) 0)) (W.row c) ∧
    (ls.foldl (fun W l => swap_entries W c (d._N - 1 - l) c
        (d.P.getD (i * (d._N - 1) + l) 0)) W).Width = d._N ∧
    (ls.foldl (fun W l => swap_entries W c (d._N - 1 - l) c
        (d.P.getD (i * (d._N - 1) + l) 0)) W).Height = W.Height ∧
    (∀ r j, r ≠ c → (ls.foldl (fun W l => swap_entries W c (d._N - 1 - l) c
        (d.P.getD (i * (d._N - 1) + l) 0)) W).Get r j = W.Get r j) := by
  induction ls generalizing W with
  | nil => exact ⟨rfl, hW, rfl, fun _ _ _ => rfl⟩
  | cons l ls ih =>
    rw [List.foldl_cons, List.foldl_cons]
    have hl' : l < d._N - 1 := hls l (List.mem_cons_self _ _)
    have hidx : i * (d._N - 1) + l < d.P.length := by
      have : (i + 1) * (d._N - 1) = i * (d._N - 1) + (d._N - 1) := by ring
      omega
    have hq : d.P.getD (i * (d._N - 1) + l) 0 < d._N := by
      apply hP
      rw [List.getD_eq_getElem _ _ hidx]
      exact List.getElem_mem _
    obtain ⟨h1, h2, h3, h4⟩ := ih
      (swap_entries W c (d._N - 1 - l) c (d.P.getD (i * (d._N - 1) + l) 0))
      (by show W.Width = _; exact hW) (fun l' h' => hls l' (List.mem_cons_of_mem _ h'))
    refine ⟨?_, h2, h3, ?_⟩
    · rw [h1, swap_entries_row_self W c _ _ (by omega) (by omega)]
    · intro r j hr
      rw [h4 r j hr, swap_entries_row_other W c _ _ r hr]

theorem row_congr (W W' : El.Matrix α) (r : Nat) (hw : W.Width = W'.Width)
    (h : ∀ j, W.Get r j = W'.Get r j) : W.row r = W'.row r := by
  unfold El.Matrix.row
  rw [hw]
  apply List.map_congr_left
  intro j _
  exact h j

theorem rowwise_scramble_row [Zero α] (d : FastRFT_data_t α) (i : Nat) (W : El.Matrix α)
    (hW : W.Width = d._N) (hP : ∀ p, p ∈ d.P → p < d._N)
    (hPlen : (i + 1) * (d._N - 1) ≤ d.P.length) :
    (rowwise_scramble d i W).Width = d._N ∧ (rowwise_scramble d i W).Height = W.Height ∧
    ∀ r, r < W.Height → (rowwise_scramble d i W).row r = spec_scramble d._N d.P i (W.row r) := by
  unfold rowwise_scramble
  have key : ∀ k,
      ((List.range k).foldl (fun W c => (List.range (d._N - 1)).foldl (fun W l =>
        swap_entries W c (d._N - 1 - l) c (d.P.getD (i * (d._N - 1) + l) 0)) W) W).Width = d._N ∧
      ((List.range k).foldl (fun W c => (List.range (d._N - 1)).foldl (fun W l =>
        swap_entries W c (d._N - 1 - l) c (d.P.getD (i * (d._N - 1) + l) 0)) W) W).Height
          = W.Height ∧
      (∀ r, r < k → ((List.range k).foldl (fun W c => (List.range (d._N - 1)).foldl (fun W l =>
        swap_entries W c (d._N - 1 - l) c (d.P.getD (i * (d._N - 1) + l) 0)) W) W).row r
          = spec_scramble d._N d.P i (W.row r)) ∧
      (∀ r j, k ≤ r → ((List.range k).foldl (fun W c => (List.range (d._N - 1)).foldl
        (fun W l => swap_entries W c (d._N - 1 - l) c (d.P.getD (i * (d._N - 1) + l) 0)) W)
          W).Get r j = W.Get r j) := by
    intro k
    induction k with
    | zero => exact ⟨hW, rfl, fun r hr => by omega, fun _ _ _ => rfl⟩
    | succ k ih =>
      obtain ⟨i1, i2, i3, i4⟩ := ih
      rw [List.range_succ, List.foldl_append, List.foldl_cons, List.foldl_nil]
      obtain ⟨h1, h2, h3, h4⟩ := rowwise_scramble_inner d i k (List.range (d._N - 1)) _ i1 hP
        hPlen (fun l hl => List.mem_range.1 hl)
      refine ⟨h2, by rw [h3, i2], ?_, ?_⟩
      · intro r hr
        by_cases hrk : r = k
        · subst hrk
          rw [h1]
          unfold spec_scramble
          congr 1
          exact row_congr _ _ r (by rw [i1, hW]) (fun j => i4 r j (Nat.le_refl _))
        · rw [← i3 r (by omega)]
          exact row_congr _ _ r (by rw [h2, i1]) (fun j => h4 r j hrk)
      · intro r j hr
        rw [h4 r j (by omega), i4 r j (by omega)]
  obtain ⟨k1, k2, k3, _⟩ := key W.Height
  exact ⟨k1, k2, k3⟩


theorem DenseCopy_row (A buf : El.Matrix α) (r : Nat) (hr : r < A.Height)
    (hw : buf.Width = A.Width) : (DenseCopy A A.Height A.Width buf).row r = A.row r := by
  apply row_eq_of
  · show buf.Width = _
    rw [row_length, hw]
  · intro j hj
    rw [row_length] at hj
    rw [row_getElem?, if_pos hj]
    show _ = some (if r < A.Height ∧ j < A.Width then A.Get r j else buf.Get r j)
    rw [if_pos ⟨hr, hj⟩]

theorem rowwise_block_W [CommRing α] (d : FastRFT_data_t α) (m : MathFns α)
    (fut : FUT_t α) (A : El.Matrix α) (st : RowwiseState α) (i : Nat)
    (hWF : d.WF_blk d._N) (hi : i < d.numblks) (hAw : A.Width = d._N)
    (hWh : st.W.Height = A.Height) (hWw : st.W.Width = A.Width)
    (hF : ∀ v, (fut.apply v).length = v.length) :
    (rowwise_block d m fut A st i).W.Height = A.Height ∧
    (rowwise_block d m fut A st i).W.Width = A.Width ∧
    ∀ r, r < A.Height →
      (rowwise_block d m fut A st i).W.row r = spec_w_blk d._N d m fut i (A.row r) := by
  obtain ⟨hB, hG, hSm, hPl, hP⟩ := hWF
  have hBs := mul_le_numblks d._N d.numblks i hi
  have hPs := mul_le_numblks (d._N - 1) d.numblks i hi
  set scal := m.sqrt (d._N : α) * fut.scale with hscal
  set D := set_diagonals d d._N scal i st.D with hD
  have hDget := set_diagonals_get d d._N scal i st.D
  rw [← hD] at hDget
  set W0 := DenseCopy A A.Height A.Width st.W with hW0
  have hW0w : W0.Width = d._N := by rw [← hAw]; exact hWw
  have hW0h : W0.Height = A.Height := hWh
  set W2 := fut.apply_rowwise (El.DiagonalScaleRight D.B W0) with hW2
  have hW2w : W2.Width = d._N := hW0w
  have h3 := rowwise_scramble_row d i W2 hW2w hP (le_trans hPs hPl)
  set W3 := rowwise_scramble d i W2 with hW3
  set W5 := fut.apply_rowwise (El.DiagonalScaleRight D.G W3) with hW5
  have hW5w : W5.Width = d._N := h3.1
  refine ⟨?_, ?_, ?_⟩
  · show W3.Height = _
    rw [h3.2.1]
    exact hW0h
  · show W3.Width = _
    rw [h3.1, hAw]
  · intro r hr
    have h0 : W0.row r = A.row r := DenseCopy_row A st.W r hr hWw
    have h1 : (El.DiagonalScaleRight D.B W0).row r
        = List.zipWith (fun b x => b * x) (spec_slice d._N i d.B) (W0.row r) := by
      apply DiagonalScaleRight_row
      · rw [spec_slice_length _ _ _ (le_trans hBs hB), hW0w]
      · intro j hj
        rw [spec_slice_getElem? _ _ _ (le_trans hBs hB) j (by omega), (hDget j (by omega)).1]
    have h2 := fut_apply_rowwise_row fut (El.DiagonalScaleRight D.B W0) r hF
    have h3r := h3.2.2 r (by show r < W0.Height; rw [hW0h]; exact hr)
    have h4 : (El.DiagonalScaleRight D.G W3).row r
        = spec_diag scal (spec_slice d._N i d.G) (W3.row r) := by
      rw [DiagonalScaleRight_row D.G W3 r ((spec_slice d._N i d.G).map (fun g => scal * g))]
      · simp [spec_diag, List.zipWith_map_left]
      · rw [List.length_map, spec_slice_length _ _ _ (le_trans hBs hG), h3.1]
      · intro j hj
        rw [List.getElem?_map, spec_slice_getElem? _ _ _ (le_trans hBs hG) j
          (by rw [h3.1] at hj; exact hj), (hDget j (by rw [h3.1] at hj; exact hj)).2.1]
        rfl
    have h5 := fut_apply_rowwise_row fut (El.DiagonalScaleRight D.G W3) r hF
    have h6 : (El.DiagonalScaleRight D.Sm W5).row r
        = spec_diag scal (spec_slice d._N i d.Sm) (W5.row r) := by
      rw [DiagonalScaleRight_row D.Sm W5 r ((spec_slice d._N i d.Sm).map (fun g => scal * g))]
      · simp [spec_diag, List.zipWith_map_left]
      · rw [List.length_map, spec_slice_length _ _ _ (le_trans hBs hSm), hW5w]
      · intro j hj
        rw [List.getElem?_map, spec_slice_getElem? _ _ _ (le_trans hBs hSm) j
          (by rw [hW5w] at hj; exact hj), (hDget j (by rw [hW5w] at hj; exact hj)).2.2]
        rfl
    show (El.DiagonalScaleRight D.Sm W5).row r = _
    rw [h6, h5, h4, h3r, h2, h1, h0]
    rfl

theorem rowwise_block_sketch [CommRing α] (d : FastRFT_data_t α) (m : MathFns α)
    (fut : FUT_t α) (A : El.Matrix α) (st : RowwiseState α) (i : Nat)
    (hWF : d.WF_blk d._N) (hi : i < d.numblks) (hAw : A.Width = d._N)
    (hWh : st.W.Height = A.Height) (hWw : st.W.Width = A.Width)
    (hF : ∀ v, (fut.apply v).length = v.length) (r j : Nat) :
    (rowwise_block d m fut A st i).sketch_of_A.Get r j
      = if r < A.Height ∧ j ∈ blk_range d._N d._S i
        then (spec_w_blk d._N d m fut i (A.row r)).getD (j - i * d._N) 0
        else st.sketch_of_A.Get r j := by
  obtain ⟨_, hw, hrow⟩ := rowwise_block_W d m fut A st i hWF hi hAw hWh hWw hF
  have hmem := mem_blk_range d._N d._S i j
  have e : (i + 1) * d._N = i * d._N + d._N := by ring
  rw [show (rowwise_block d m fut A st i).sketch_of_A.Get r j
      = if r < A.Height ∧ i * d._N ≤ j ∧ j < min (i * d._N + d._N) d._S
        then (rowwise_block d m fut A st i).W.Get r (j - i * d._N)
        else st.sketch_of_A.Get r j from rfl]
  by_cases h : r < A.Height ∧ j ∈ blk_range d._N d._S i
  · have h' := hmem.1 h.2
    rw [if_pos h, if_pos ⟨h.1, by omega, by omega⟩,
      ← row_getD _ r (j - i * d._N) 0 (by rw [hw, hAw]; omega), hrow r h.1]
  · rw [if_neg h, if_neg]
    rintro ⟨h1, h2, h3⟩
    exact h ⟨h1, hmem.2 ⟨h2, by omega⟩⟩

/-- Effect of the first `k` blocks of the rowwise block loop. -/
theorem rowwise_blocks_spec [CommRing α] (d : FastRFT_data_t α) (m : MathFns α)
    (fut : FUT_t α) (A : El.Matrix α) (st : RowwiseState α)
    (hWF : d.WF_blk d._N) (hAw : A.Width = d._N)
    (hWh : st.W.Height = A.Height) (hWw : st.W.Width = A.Width)
    (hF : ∀ v, (fut.apply v).length = v.length) (k : Nat) (hk : k ≤ d.numblks) :
    ((List.range k).foldl (rowwise_block d m fut A) st).W.Height = A.Height ∧
    ((List.range k).foldl (rowwise_block d m fut A) st).W.Width = A.Width ∧
    (∀ r j, (A.Height ≤ r ∨ ∀ i, i < k → j ∉ blk_range d._N d._S i) →
      ((List.range k).foldl (rowwise_block d m fut A) st).sketch_of_A.Get r j
        = st.sketch_of_A.Get r j) ∧
    (∀ r i j, r < A.Height → i < k → j ∈ blk_range d._N d._S i →
      ((List.range k).foldl (rowwise_block d m fut A) st).sketch_of_A.Get r j
        = (spec_w_blk d._N d m fut i (A.row r)).getD (j - i * d._N) 0) := by
  induction k with
  | zero =>
    refine ⟨hWh, hWw, fun _ _ _ => rfl, ?_⟩
    intro r i j _ hi
    omega
  | succ k ih =>
    obtain ⟨ih1, ih2, ih3, ih4⟩ := ih (by omega)
    rw [List.range_succ, List.foldl_append, List.foldl_cons, List.foldl_nil]
    obtain ⟨w1, w2, _⟩ := rowwise_block_W d m fut A
      ((List.range k).foldl (rowwise_block d m fut A) st) k hWF (by omega) hAw ih1 ih2 hF
    have hsk := rowwise_block_sketch d m fut A
      ((List.range k).foldl (rowwise_block d m fut A) st) k hWF (by omega) hAw ih1 ih2 hF
    refine ⟨w1, w2, ?_, ?_⟩
    · intro r j h
      rw [hsk, if_neg, ih3 r j]
      · rcases h with h | h
        · exact Or.inl h
        · exact Or.inr (fun i hi => h i (by omega))
      · rintro ⟨h1, h2⟩
        rcases h with h | h
        · omega
        · exact h k (by omega) h2
    · intro r i j hr hi hj
      rw [hsk]
      by_cases hik : i = k
      · subst hik
        rw [if_pos ⟨hr, hj⟩]
      · rw [if_neg, ih4 r i j hr (by omega) hj]
        rintro ⟨_, h⟩
        exact hik (blk_range_disjoint _ _ _ _ _ hj h)

theorem rowwise_readout_inner (g : α → α) (j : Nat) (k : Nat) (sk : El.Matrix α) :
    ∀ r j', ((List.range k).foldl (fun sk i => sk.Set i j (g (sk.Get i j))) sk).Get r j'
      = if r < k ∧ j' = j then g (sk.Get r j) else sk.Get r j' := by
  induction k with
  | zero =>
    intro r j'
    rw [if_neg (by omega)]
    rfl
  | succ k ih =>
    intro r j'
    rw [List.range_succ, List.foldl_append, List.foldl_cons, List.foldl_nil]
    have e1 : ((List.range k).foldl (fun sk i => sk.Set i j (g (sk.Get i j))) sk).Get k j
        = sk.Get k j := by
      rw [ih k j, if_neg]
      intro h
      omega
    have e2 : (((List.range k).foldl (fun sk i => sk.Set i j (g (sk.Get i j))) sk).Set k j
        (g (((List.range k).foldl (fun sk i => sk.Set i j (g (sk.Get i j))) sk).Get k j))).Get
          r j'
        = if r = k ∧ j' = j then g (sk.Get k j)
          else if r < k ∧ j' = j then g (sk.Get r j) else sk.Get r j' := by
      rw [e1, ← ih r j']
      rfl
    rw [e2]
    by_cases h1 : r = k ∧ j' = j
    · rw [if_pos h1, if_pos ⟨by omega, h1.2⟩, h1.1]
    · rw [if_neg h1]
      by_cases h2 : r < k ∧ j' = j
      · rw [if_pos h2, if_pos ⟨by omega, h2.2⟩]
      · rw [if_neg h2, if_neg]
        rintro ⟨h3, h4⟩
        by_cases h5 : r = k
        · exact h1 ⟨h5, h4⟩
        · exact h2 ⟨by omega, h4⟩

theorem rowwise_readout_get [CommRing α] (d : FastRFT_data_t α) (m : MathFns α)
    (A sk : El.Matrix α) (r j : Nat) :
    (rowwise_readout d m A sk).Get r j
      = if r < A.Height ∧ j < d._S then readout d m (sk.Get r j) j else sk.Get r j := by
  unfold rowwise_readout
  have key : ∀ k, ∀ r j, ((List.range k).foldl (fun sk j =>
      (List.range A.Height).foldl (fun sk i =>
        sk.Set i j (readout d m (sk.Get i j) j)) sk) sk).Get r j
      = if r < A.Height ∧ j < k then readout d m (sk.Get r j) j else sk.Get r j := by
    intro k
    induction k with
    | zero =>
      intro r j
      rw [if_neg (by omega)]
      rfl
    | succ k ih =>
      intro r j
      rw [List.range_succ, List.foldl_append, List.foldl_cons, List.foldl_nil,
        rowwise_readout_inner (fun x => readout d m x k) k A.Height]
      have e1 : ((List.range k).foldl (fun sk j => (List.range A.Height).foldl (fun sk i =>
          sk.Set i j (readout d m (sk.Get i j) j)) sk) sk).Get r k = sk.Get r k := by
        rw [ih r k, if_neg]
        intro h
        omega
      rw [e1, ih r j]
      by_cases h1 : r < A.Height ∧ j = k
      · rw [if_pos h1, if_pos ⟨h1.1, by omega⟩, h1.2]
      · rw [if_neg h1]
        by_cases h2 : r < A.Height ∧ j < k
        · rw [if_pos h2, if_pos ⟨h2.1, by omega⟩]
        · rw [if_neg h2, if_neg]
          rintro ⟨h3, h4⟩
          by_cases h5 : j = k
          · exact h1 ⟨h3, h5⟩
          · exact h2 ⟨h3, by omega⟩
  exact key d._S r j

/-- What the rowwise `apply_impl` leaves in `sketch_of_A`: inside the `Height(A) x _S`
window, entry `(r, j)` is the readout of the block value when `j` lies in one of the
ranges `[i * _N, min(i * _N + _N, _S))`, `i < numblks`, and the readout of the entry's
previous content otherwise; outside the window nothing is written. -/
theorem apply_impl_rowwise_get [CommRing α] (d : FastRFT_data_t α) (m : MathFns α)
    (fut : FUT_t α) (junk : Nat → Nat → Nat → α) (A sketch_of_A : El.Matrix α)
    (hWF : d.WF_blk d._N) (hAw : A.Width = d._N)
    (hF : ∀ v, (fut.apply v).length = v.length) :
    (∀ r i j, r < A.Height → i < d.numblks → j ∈ blk_range d._N d._S i →
      (apply_impl_rowwise d m fut junk A sketch_of_A).Get r j
        = readout d m ((spec_w_blk d._N d m fut i (A.row r)).getD (j - i * d._N) 0) j) ∧
    (∀ r j, r < A.Height → j < d._S → (∀ i, i < d.numblks → j ∉ blk_range d._N d._S i) →
      (apply_impl_rowwise d m fut junk A sketch_of_A).Get r j
        = readout d m (sketch_of_A.Get r j) j) ∧
    (∀ r j, (A.Height ≤ r ∨ d._S ≤ j) →
      (apply_impl_rowwise d m fut junk A sketch_of_A).Get r j = sketch_of_A.Get r j) := by
  obtain ⟨_, _, h3, h4⟩ := rowwise_blocks_spec d m fut A (rowwise_alloc d junk A sketch_of_A)
    hWF hAw rfl rfl hF d.numblks (Nat.le_refl _)
  refine ⟨?_, ?_, ?_⟩
  · intro r i j hr hi hj
    have hjS : j < d._S := by
      have := (mem_blk_range d._N d._S i j).1 hj
      omega
    unfold apply_impl_rowwise
    rw [rowwise_readout_get, if_pos ⟨hr, hjS⟩, h4 r i j hr hi hj]
  · intro r j hr hj hno
    unfold apply_impl_rowwise
    rw [rowwise_readout_get, if_pos ⟨hr, hj⟩, h3 r j (Or.inr hno)]
    rfl
  · intro r j h
    unfold apply_impl_rowwise
    rw [rowwise_readout_get, if_neg (by omega)]
    rcases h with h | h
    · rw [h3 r j (Or.inl h)]
      rfl
    · rw [h3 r j (Or.inr (fun i _ hmem => by
        have := (mem_blk_range d._N d._S i j).1 hmem
        omega))]
      rfl


/-! ### Distributed layouts -/

theorem blk_range_cover (S NB l : Nat) (hNB : 1 ≤ NB) (hl : l < S) :
    ∃ i, i < ceil_div S NB ∧ l ∈ blk_range NB S i := by
  have hge := ceil_div_mul_ge S NB hNB
  refine ⟨l / NB, ?_, ?_⟩
  · have h1 : l / NB * NB ≤ l := Nat.div_mul_le_self l NB
    by_contra hcon
    have : ceil_div S NB * NB ≤ l / NB * NB := Nat.mul_le_mul_right _ (by omega)
    omega
  · rw [mem_blk_range]
    have h1 : l / NB * NB ≤ l := Nat.div_mul_le_self l NB
    have h2 := Nat.div_add_mod l NB
    have h3 := Nat.mod_lt l (show NB > 0 by omega)
    have h4 : NB * (l / NB) = l / NB * NB := Nat.mul_comm _ _
    have e : (l / NB + 1) * NB = l / NB * NB + NB := by ring
    omega

theorem ColumnView_column (A : El.Matrix α) (c : Nat) :
    (ColumnView A c).column 0 = A.column c := rfl

/-- Entry `(l, j)` of the output of the `[STAR, VC/VR]` columnwise apply, read from its
owner, for `l` in block `i`. -/
theorem STAR_X_columnwise_Get [CommRing α] (d : FastRFT_data_t α) (m : MathFns α)
    (fut : FUT_t α) (junk : Nat → Nat → Nat → Nat → α) (g : El.Grid) (V : El.Distribution)
    (M : El.Matrix α) (sketch_of_A : El.DistMatrix α)
    (hg : 0 < g.Size) (hV : V = .VC ∨ V = .VR)
    (hsC : sketch_of_A.ColDist = .STAR) (hsR : sketch_of_A.RowDist = V)
    (hsg : sketch_of_A.grid = g)
    (hWF : d.WF) (hN : d._N ≤ d._NB) (hM : M.Height = d._N)
    (hF : ∀ v, (fut.apply v).length = v.length)
    (i l j : Nat) (hi : i < d.numblks) (hl : l ∈ blk_range d._NB d._S i) (hj : j < M.Width) :
    (STAR_X_apply_impl_vdist_columnwise d m fut junk (El.distribute .STAR V g M)
        sketch_of_A).Get l j
      = readout d m ((spec_w d m fut i (M.column j)).getD (l - i * d._NB) 0) l := by
  obtain ⟨_, h2⟩ := El.Shift_Owner g .STAR V hg (Or.inl ⟨rfl, hV⟩) l j
  have hsV := El.Stride_pos g V hg
  obtain ⟨sC, sR, sg, sh, sw, sM⟩ := sketch_of_A
  simp only at hsC hsR hsg
  subst hsC hsR hsg
  show (apply_impl_columnwise d m fut
      (junk (El.RankOf sg .STAR (l % El.Stride sg .STAR) + El.RankOf sg sR (j % El.Stride sg sR)))
      ((El.distribute .STAR sR sg M).Matrix
        (El.RankOf sg .STAR (l % El.Stride sg .STAR) + El.RankOf sg sR (j % El.Stride sg sR)))
      (sM (El.RankOf sg .STAR (l % El.Stride sg .STAR)
        + El.RankOf sg sR (j % El.Stride sg sR)))).Get
      (l / El.Stride sg .STAR) (j / El.Stride sg sR) = _
  have hl1 : l / El.Stride sg .STAR = l := Nat.div_one l
  rw [hl1]
  set q := El.RankOf sg .STAR (l % El.Stride sg .STAR) + El.RankOf sg sR (j % El.Stride sg sR)
    with hq
  have hH : ((El.distribute .STAR sR sg M).Matrix q).Height = d._N := by
    show El.Length M.Height 0 1 = _
    rw [El.Length_one, hM]
  have hW : j / El.Stride sg sR < ((El.distribute .STAR sR sg M).Matrix q).Width := by
    show _ < El.Length M.Width (El.Shift sg sR q) (El.Stride sg sR)
    rw [h2]
    exact El.div_lt_Length _ _ _ hsV hj
  have hcol : ((El.distribute .STAR sR sg M).Matrix q).column (j / El.Stride sg sR)
      = M.column j := by
    unfold El.Matrix.column
    rw [hH, hM]
    apply List.map_congr_left
    intro r _
    show M.Get (0 + r * 1) (El.Shift sg sR q + j / El.Stride sg sR * El.Stride sg sR) = _
    rw [h2, Nat.zero_add, Nat.mul_one, Nat.mul_comm (j / _), Nat.mod_add_div]
  rw [apply_impl_columnwise_get d m fut (junk q) _ (sM q) hWF hN hH hF _ i l hW hi hl, hcol]


/-- C8: the columnwise local apply is column-independent. With `numblks = ceil(S / NB)`,
for every column `c` and every output row `l < S`, entry `(l, c)` of the output for the
whole of `A` equals entry `(l, 0)` of the output for the one-column matrix `A[:, c]`,
whatever the scratch buffers and the output held before (`junk`, `junk'`, `sk`, `sk'`);
and for `A` dealt by columns over any non-empty grid in a `[STAR, VC/VR]` layout, the
output assembled from the local applies equals the output for the whole of `A`. -/
theorem columnwise_column_independent [CommRing α] (d : FastRFT_data_t α) (m : MathFns α)
    (fut : FUT_t α) (A : El.Matrix α)
    (hWF : d.WF) (hN : d._N ≤ d._NB) (hA : A.Height = d._N)
    (hF : ∀ v, (fut.apply v).length = v.length)
    (hNB : 1 ≤ d._NB) (hnum : d.numblks = ceil_div d._S d._NB) :
    (∀ (junk junk' : Nat → Nat → Nat → α) (sk sk' : El.Matrix α) (c l : Nat),
      c < A.Width → l < d._S →
      (apply_impl_columnwise d m fut junk A sk).Get l c
        = (apply_impl_columnwise d m fut junk' (ColumnView A c) sk').Get l 0) ∧
    (∀ (g : El.Grid) (V : El.Distribution) (junk : Nat → Nat → Nat → Nat → α)
      (junk' : Nat → Nat → Nat → α) (sketch_of_A : El.DistMatrix α) (sk' : El.Matrix α)
      (l j : Nat),
      0 < g.Size → (V = .VC ∨ V = .VR) → sketch_of_A.ColDist = .STAR →
      sketch_of_A.RowDist = V → sketch_of_A.grid = g → l < d._S → j < A.Width →
      (STAR_X_apply_impl_vdist_columnwise d m fut junk (El.distribute .STAR V g A)
          sketch_of_A).Get l j
        = (apply_impl_columnwise d m fut junk' A sk').Get l j) := by
  constructor
  · intro junk junk' sk sk' c l hc hl
    obtain ⟨i, hi, hmem⟩ := blk_range_cover d._S d._NB l hNB hl
    rw [← hnum] at hi
    rw [apply_impl_columnwise_get d m fut junk A sk hWF hN hA hF c i l hc hi hmem,
      apply_impl_columnwise_get d m fut junk' (ColumnView A c) sk' hWF hN hA hF 0 i l
        (show 0 < 1 by omega) hi hmem, ColumnView_column]
  · intro g V junk junk' sketch_of_A sk' l j hg hV hsC hsR hsg hl hj
    obtain ⟨i, hi, hmem⟩ := blk_range_cover d._S d._NB l hNB hl
    rw [← hnum] at hi
    rw [STAR_X_columnwise_Get d m fut junk g V A sketch_of_A hg hV hsC hsR hsg hWF hN hA hF
        i l j hi hmem hj,
      apply_impl_columnwise_get d m fut junk' A sk' hWF hN hA hF j i l hj hi hmem]

theorem columnwise_column_independent_witness :
    (worked_example : FastRFT_data_t ℝ).WF ∧
    (apply_impl_columnwise worked_example ⟨Real.sqrt, Real.cos⟩ (F0 (1 / Real.sqrt 2))
        (fun _ _ _ => 0) (ofColumns 2 [[1, 1], [0, 1]]) (ofColumns 2 [[0], [0]])).Get 1 1
      = (apply_impl_columnwise worked_example ⟨Real.sqrt, Real.cos⟩ (F0 (1 / Real.sqrt 2))
        (fun _ _ _ => 5) (ColumnView (ofColumns 2 [[1, 1], [0, 1]]) 1)
        (ofColumns 2 [[7]])).Get 1 0 :=
  ⟨worked_example_WF,
    (columnwise_column_independent worked_example ⟨Real.sqrt, Real.cos⟩ (F0 (1 / Real.sqrt 2))
      (ofColumns 2 [[1, 1], [0, 1]]) worked_example_WF (Nat.le_refl _) rfl (F0_length _)
      (show 1 ≤ 2 by omega) (by decide)).1 (fun _ _ _ => 0) (fun _ _ _ => 5)
      (ofColumns 2 [[0], [0]]) (ofColumns 2 [[7]]) 1 1 (show 1 < 2 by omega)
      (show 1 < 2 by omega)⟩

/-- Entry `(r, j)` of the output of the `[VC/VR, STAR]` rowwise apply, read from its owner:
it is the entry of the local rowwise apply on the logical matrix `M`, started from the
logical content of `sketch_of_A`. -/
theorem X_STAR_rowwise_Get [CommRing α] (d : FastRFT_data_t α) (m : MathFns α)
    (fut : FUT_t α) (junk : Nat → Nat → Nat → Nat → α) (junk' : Nat → Nat → Nat → α)
    (g : El.Grid) (V : El.Distribution)
    (M : El.Matrix α) (sketch_of_A : El.DistMatrix α)
    (hg : 0 < g.Size) (hV : V = .VC ∨ V = .VR)
    (hsC : sketch_of_A.ColDist = V) (hsR : sketch_of_A.RowDist = .STAR)
    (hsg : sketch_of_A.grid = g)
    (hWF : d.WF_blk d._N) (hM : M.Width = d._N)
    (hF : ∀ v, (fut.apply v).length = v.length)
    (r j : Nat) (hr : r < M.Height) (hj : j < d._S) :
    (X_STAR_apply_impl_vdist_rowwise d m fut junk (El.distribute V .STAR g M)
        sketch_of_A).Get r j
      = (apply_impl_rowwise d m fut junk' M sketch_of_A.logical).Get r j := by
  obtain ⟨h1, _⟩ := El.Shift_Owner g V .STAR hg (Or.inr (Or.inl ⟨hV, rfl⟩)) r j
  have hsV := El.Stride_pos g V hg
  obtain ⟨sC, sR, sg, sh, sw, sM⟩ := sketch_of_A
  simp only at hsC hsR hsg
  subst hsC hsR hsg
  show (apply_impl_rowwise d m fut
      (junk (El.RankOf sg sC (r % El.Stride sg sC) + El.RankOf sg .STAR (j % El.Stride sg .STAR)))
      ((El.distribute sC .STAR sg M).Matrix
        (El.RankOf sg sC (r % El.Stride sg sC) + El.RankOf sg .STAR (j % El.Stride sg .STAR)))
      (sM (El.RankOf sg sC (r % El.Stride sg sC)
        + El.RankOf sg .STAR (j % El.Stride sg .STAR)))).Get
      (r / El.Stride sg sC) (j / El.Stride sg .STAR) = _
  have hj1 : j / El.Stride sg .STAR = j := Nat.div_one j
  rw [hj1]
  set q := El.RankOf sg sC (r % El.Stride sg sC) + El.RankOf sg .STAR (j % El.Stride sg .STAR)
    with hq
  have hlog : ∀ j', (El.DistMatrix.logical ⟨sC, .STAR, sg, sh, sw, sM⟩).Get r j'
      = (sM q).Get (r / El.Stride sg sC) j' := by
    intro j'
    show (sM (El.RankOf sg sC (r % El.Stride sg sC)
      + El.RankOf sg .STAR (j' % El.Stride sg .STAR))).Get
        (r / El.Stride sg sC) (j' / El.Stride sg .STAR) = _
    rw [show j' / El.Stride sg .STAR = j' from Nat.div_one j']
    rfl
  have hWd : ((El.distribute sC .STAR sg M).Matrix q).Width = d._N := by
    show El.Length M.Width 0 1 = _
    rw [El.Length_one, hM]
  have hH : r / El.Stride sg sC < ((El.distribute sC .STAR sg M).Matrix q).Height := by
    show _ < El.Length M.Height (El.Shift sg sC q) (El.Stride sg sC)
    rw [h1]
    exact El.div_lt_Length _ _ _ hsV hr
  have hrow : ((El.distribute sC .STAR sg M).Matrix q).row (r / El.Stride sg sC)
      = M.row r := by
    unfold El.Matrix.row
    rw [hWd, hM]
    apply List.map_congr_left
    intro c _
    show M.Get (El.Shift sg sC q + r / El.Stride sg sC * El.Stride sg sC) (0 + c * 1) = _
    rw [h1, Nat.zero_add, Nat.mul_one, Nat.mul_comm (r / _), Nat.mod_add_div]
  obtain ⟨a1, a2, _⟩ := apply_impl_rowwise_get d m fut (junk q)
    ((El.distribute sC .STAR sg M).Matrix q) (sM q) hWF hWd hF
  obtain ⟨b1, b2, _⟩ := apply_impl_rowwise_get d m fut junk' M
    (El.DistMatrix.logical ⟨sC, .STAR, sg, sh, sw, sM⟩) hWF hM hF
  by_cases hcov : ∃ i, i < d.numblks ∧ j ∈ blk_range d._N d._S i
  · obtain ⟨i, hi, hmem⟩ := hcov
    rw [a1 _ i j hH hi hmem, b1 r i j hr hi hmem, hrow]
  · have hno : ∀ i, i < d.numblks → j ∉ blk_range d._N d._S i :=
      fun i hi hmem => hcov ⟨i, hi, hmem⟩
    rw [a2 _ j hH hj hno, b2 r j hr hj hno, hlog j]


/-- When every output column lies in a block of the rowwise loop, the rowwise local apply
does not depend on the previous content of the scratch and output buffers. -/
theorem apply_impl_rowwise_covered [CommRing α] (d : FastRFT_data_t α) (m : MathFns α)
    (fut : FUT_t α) (junk junk' : Nat → Nat → Nat → α) (A sk sk' : El.Matrix α)
    (hWF : d.WF_blk d._N) (hAw : A.Width = d._N)
    (hF : ∀ v, (fut.apply v).length = v.length)
    (hcov : ∀ j, j < d._S → ∃ i, i < d.numblks ∧ j ∈ blk_range d._N d._S i)
    (r j : Nat) (hr : r < A.Height) (hj : j < d._S) :
    (apply_impl_rowwise d m fut junk A sk).Get r j
      = (apply_impl_rowwise d m fut junk' A sk').Get r j := by
  obtain ⟨i, hi, hmem⟩ := hcov j hj
  rw [(apply_impl_rowwise_get d m fut junk A sk hWF hAw hF).1 r i j hr hi hmem,
    (apply_impl_rowwise_get d m fut junk' A sk' hWF hAw hF).1 r i j hr hi hmem]

/-- The `[MC, MR]` apply goes through the fallback in both directions. Columnwise it is
the redistribution into the `[MC, MR]` output of the `[STAR, VR]` apply on `A`
redistributed to `[STAR, VR]` with a fresh `S x Width(A)` intermediate; rowwise it is the
redistribution of the `[VC, STAR]` apply on `A` redistributed to `[VC, STAR]` with a fresh
`Height(A) x S` intermediate. With `A` on the default grid (where the intermediate is
created), in both directions the global entries of the output are those of the local
algorithm of the same direction on the logical matrix of `A` (rowwise: started from the
logical content of the fresh intermediate, which the local rowwise algorithm reads in the
columns that none of its blocks writes; when its blocks cover all `S` columns, started
from any content). -/
theorem MC_MR_apply_logical [CommRing α] (d : FastRFT_data_t α) (m : MathFns α)
    (fut : FUT_t α) (DefaultGrid : El.Grid) (A sketch_of_A : El.DistMatrix α)
    (hgrid : A.grid = DefaultGrid) (hg : 0 < DefaultGrid.Size)
    (hgo : 0 < sketch_of_A.grid.Size)
    (hF : ∀ v, (fut.apply v).length = v.length) :
    (d.WF → d._N ≤ d._NB → A.Height = d._N → 1 ≤ d._NB →
      d.numblks = ceil_div d._S d._NB →
      ∀ (junk : Nat → Nat → Nat → Nat → α) (junk1 junk' : Nat → Nat → Nat → α)
        (sk' : El.Matrix α),
        MC_MR_apply_columnwise d m fut DefaultGrid junk junk1 A sketch_of_A
          = El.distribute .MC .MR sketch_of_A.grid
              (STAR_X_apply_impl_vdist_columnwise d m fut junk (El.redistribute .STAR .VR A)
                (El.DistMatrix.alloc .STAR .VR DefaultGrid d._S A.Width junk1)).logical ∧
        (MC_MR_apply_columnwise d m fut DefaultGrid junk junk1 A sketch_of_A).ColDist = .MC ∧
        (MC_MR_apply_columnwise d m fut DefaultGrid junk junk1 A sketch_of_A).RowDist = .MR ∧
        (MC_MR_apply_columnwise d m fut DefaultGrid junk junk1 A sketch_of_A).Height = d._S ∧
        (MC_MR_apply_columnwise d m fut DefaultGrid junk junk1 A sketch_of_A).Width
          = A.Width ∧
        ∀ l j, l < d._S → j < A.Width →
          (MC_MR_apply_columnwise d m fut DefaultGrid junk junk1 A sketch_of_A).Get l j
            = (apply_impl_columnwise d m fut junk' A.logical sk').Get l j) ∧
    (d.WF_blk d._N → A.Width = d._N →
      ∀ (junk : Nat → Nat → Nat → Nat → α) (junk1 junk' : Nat → Nat → Nat → α),
        MC_MR_apply_rowwise d m fut DefaultGrid junk junk1 A sketch_of_A
          = El.distribute .MC .MR sketch_of_A.grid
              (X_STAR_apply_impl_vdist_rowwise d m fut junk (El.redistribute .VC .STAR A)
                (El.DistMatrix.alloc .VC .STAR DefaultGrid A.Height d._S junk1)).logical ∧
        (MC_MR_apply_rowwise d m fut DefaultGrid junk junk1 A sketch_of_A).ColDist = .MC ∧
        (MC_MR_apply_rowwise d m fut DefaultGrid junk junk1 A sketch_of_A).RowDist = .MR ∧
        (MC_MR_apply_rowwise d m fut DefaultGrid junk junk1 A sketch_of_A).Height
          = A.Height ∧
        (MC_MR_apply_rowwise d m fut DefaultGrid junk junk1 A sketch_of_A).Width = d._S ∧
        (∀ r j, r < A.Height → j < d._S →
          (MC_MR_apply_rowwise d m fut DefaultGrid junk junk1 A sketch_of_A).Get r j
            = (apply_impl_rowwise d m fut junk' A.logical
                (El.DistMatrix.alloc .VC .STAR DefaultGrid A.Height d._S
                  junk1).logical).Get r j) ∧
        ((∀ j, j < d._S → ∃ i, i < d.numblks ∧ j ∈ blk_range d._N d._S i) →
          ∀ (sk' : El.Matrix α) r j, r < A.Height → j < d._S →
            (MC_MR_apply_rowwise d m fut DefaultGrid junk junk1 A sketch_of_A).Get r j
              = (apply_impl_rowwise d m fut junk' A.logical sk').Get r j)) := by
  constructor
  · intro hWF hN hA hNB hnum junk junk1 junk' sk'
    refine ⟨rfl, rfl, rfl, rfl, rfl, ?_⟩
    intro l j hl hj
    obtain ⟨i, hi, hmem⟩ := blk_range_cover d._S d._NB l hNB hl
    rw [← hnum] at hi
    rw [show MC_MR_apply_columnwise d m fut DefaultGrid junk junk1 A sketch_of_A
        = El.distribute .MC .MR sketch_of_A.grid
            (STAR_X_apply_impl_vdist_columnwise d m fut junk
              (El.distribute .STAR .VR A.grid A.logical)
              (El.DistMatrix.alloc .STAR .VR DefaultGrid d._S A.Width junk1)).logical from rfl,
      El.distribute_Get sketch_of_A.grid .MC .MR hgo (Or.inr (Or.inr ⟨rfl, rfl⟩)), hgrid]
    show (STAR_X_apply_impl_vdist_columnwise d m fut junk
      (El.distribute .STAR .VR DefaultGrid A.logical)
      (El.DistMatrix.alloc .STAR .VR DefaultGrid d._S A.Width junk1)).Get l j = _
    rw [STAR_X_columnwise_Get d m fut junk DefaultGrid .VR A.logical
        (El.DistMatrix.alloc .STAR .VR DefaultGrid d._S A.Width junk1) hg (Or.inr rfl) rfl rfl
        rfl hWF hN hA hF i l j hi hmem hj,
      apply_impl_columnwise_get d m fut junk' A.logical sk' hWF hN hA hF j i l hj hi hmem]
  · intro hWF hA junk junk1 junk'
    have key : ∀ r j, r < A.Height → j < d._S →
        (MC_MR_apply_rowwise d m fut DefaultGrid junk junk1 A sketch_of_A).Get r j
          = (apply_impl_rowwise d m fut junk' A.logical
              (El.DistMatrix.alloc .VC .STAR DefaultGrid A.Height d._S
                junk1).logical).Get r j := by
      intro r j hr hj
      rw [show MC_MR_apply_rowwise d m fut DefaultGrid junk junk1 A sketch_of_A
          = El.distribute .MC .MR sketch_of_A.grid
              (X_STAR_apply_impl_vdist_rowwise d m fut junk
                (El.distribute .VC .STAR A.grid A.logical)
                (El.DistMatrix.alloc .VC .STAR DefaultGrid A.Height d._S junk1)).logical
          from rfl,
        El.distribute_Get sketch_of_A.grid .MC .MR hgo (Or.inr (Or.inr ⟨rfl, rfl⟩)), hgrid]
      show (X_STAR_apply_impl_vdist_rowwise d m fut junk
        (El.distribute .VC .STAR DefaultGrid A.logical)
        (El.DistMatrix.alloc .VC .STAR DefaultGrid A.Height d._S junk1)).Get r j = _
      exact X_STAR_rowwise_Get d m fut junk junk' DefaultGrid .VC A.logical
        (El.DistMatrix.alloc .VC .STAR DefaultGrid A.Height d._S junk1) hg (Or.inl rfl) rfl
        rfl rfl hWF hA hF r j hr hj
    refine ⟨rfl, rfl, rfl, rfl, rfl, key, ?_⟩
    intro hcov sk' r j hr hj
    rw [key r j hr hj]
    exact apply_impl_rowwise_covered d m fut junk' junk' A.logical _ sk' hWF hA hF hcov r j
      hr hj

theorem MC_MR_apply_logical_witness :
    (0 < (⟨2, 1⟩ : El.Grid).Size) ∧
    (worked_example : FastRFT_data_t ℝ).WF ∧
    (MC_MR_apply_columnwise worked_example ⟨Real.sqrt, Real.cos⟩ (F0 (1 / Real.sqrt 2))
        ⟨2, 1⟩ (fun _ _ _ _ => 0) (fun _ _ _ => 0)
        (El.distribute .MC .MR ⟨2, 1⟩ (ofColumns 2 [[(1 : ℝ), 1], [0, 1]]))
        (El.DistMatrix.alloc .MC .MR ⟨2, 1⟩ 2 2 (fun _ _ _ => 0))).Get 1 1
      = (apply_impl_columnwise worked_example ⟨Real.sqrt, Real.cos⟩ (F0 (1 / Real.sqrt 2))
          (fun _ _ _ => 0)
          (El.distribute .MC .MR ⟨2, 1⟩ (ofColumns 2 [[(1 : ℝ), 1], [0, 1]])).logical
          (ofColumns 2 [[0], [0]])).Get 1 1 ∧
    (MC_MR_apply_rowwise worked_example ⟨Real.sqrt, Real.cos⟩ (F0 (1 / Real.sqrt 2))
        ⟨2, 1⟩ (fun _ _ _ _ => 0) (fun _ _ _ => 0)
        (El.distribute .MC .MR ⟨2, 1⟩ (ofColumns 2 [[(1 : ℝ), 1], [0, 1]]))
        (El.DistMatrix.alloc .MC .MR ⟨2, 1⟩ 2 2 (fun _ _ _ => 0))).Get 1 1
      = (apply_impl_rowwise worked_example ⟨Real.sqrt, Real.cos⟩ (F0 (1 / Real.sqrt 2))
          (fun _ _ _ => 0)
          (El.distribute .MC .MR ⟨2, 1⟩ (ofColumns 2 [[(1 : ℝ), 1], [0, 1]])).logical
          (El.DistMatrix.alloc .VC .STAR ⟨2, 1⟩ 2 2 (fun _ _ _ => 0)).logical).Get 1 1 :=
  ⟨by decide, worked_example_WF,
    (((MC_MR_apply_logical worked_example ⟨Real.sqrt, Real.cos⟩ (F0 (1 / Real.sqrt 2))
      ⟨2, 1⟩ (El.distribute .MC .MR ⟨2, 1⟩ (ofColumns 2 [[(1 : ℝ), 1], [0, 1]]))
      (El.DistMatrix.alloc .MC .MR ⟨2, 1⟩ 2 2 (fun _ _ _ => 0)) rfl (by decide) (by decide)
      (F0_length _)).1 worked_example_WF (Nat.le_refl _) rfl (show 1 ≤ 2 by omega) (by decide)
      (fun _ _ _ _ => 0) (fun _ _ _ => 0) (fun _ _ _ => 0) (ofColumns 2 [[0], [0]])).2.2.2.2.2
      1 1 (show 1 < 2 by omega) (show 1 < 2 by omega)),
    (((MC_MR_apply_logical worked_example ⟨Real.sqrt, Real.cos⟩ (F0 (1 / Real.sqrt 2))
      ⟨2, 1⟩ (El.distribute .MC .MR ⟨2, 1⟩ (ofColumns 2 [[(1 : ℝ), 1], [0, 1]]))
      (El.DistMatrix.alloc .MC .MR ⟨2, 1⟩ 2 2 (fun _ _ _ => 0)) rfl (by decide) (by decide)
      (F0_length _)).2 worked_example_WF rfl
      (fun _ _ _ _ => 0) (fun _ _ _ => 0) (fun _ _ _ => 0)).2.2.2.2.2.1
      1 1 (show 1 < 2 by omega) (show 1 < 2 by omega))⟩

/-- C6, on the code: the rowwise `apply_impl_vdist` of the `[STAR, VC/VR]` specialisation
calls itself on the transposed operands, so no depth of recursion makes it return. -/
theorem STAR_X_rowwise_never_returns (fuel : Nat) (junk : Nat → Nat → Nat → Nat → α)
    (A sketch_of_A : El.DistMatrix α) :
    STAR_X_apply_impl_vdist_rowwise fuel junk A sketch_of_A = none := by
  induction fuel generalizing A sketch_of_A with
  | zero => rfl
  | succ fuel ih =>
    unfold STAR_X_apply_impl_vdist_rowwise
    simp only [ih]


theorem narrow_example_WF [CommRing α] : (narrow_example : FastRFT_data_t α).WF := by
  refine ⟨Nat.le_refl _, Nat.le_refl _, Nat.le_refl _, Nat.le_refl _, ?_⟩
  intro p hp
  simp only [narrow_example, List.mem_singleton] at hp
  subst hp
  show 0 < 2
  omega

theorem narrow_example_WF_blk [CommRing α] :
    (narrow_example : FastRFT_data_t α).WF_blk (narrow_example : FastRFT_data_t α)._N := by
  refine ⟨?_, ?_, ?_, ?_, ?_⟩
  · show 1 * 1 ≤ 2
    omega
  · show 1 * 1 ≤ 2
    omega
  · show 1 * 1 ≤ 2
    omega
  · show 1 * (1 - 1) ≤ 1
    omega
  · intro p hp
    simp only [narrow_example, List.mem_singleton] at hp
    subst hp
    show 0 < 1
    omega

theorem Fid_length [CommRing α] (v : List α) : ((Fid : FUT_t α).apply v).length = v.length :=
  rfl

theorem narrow_example_w_rowwise :
    spec_w_blk 1 narrow_example ⟨Real.sqrt, Real.cos⟩ Fid 0 [Real.pi] = [Real.pi] := by
  simp [spec_w_blk, spec_diag, spec_slice, spec_scramble, narrow_example, Fid]

theorem narrow_example_w_columnwise :
    spec_w narrow_example ⟨Real.sqrt, Real.cos⟩ Fid 0 [Real.pi] = [0, 2 * Real.pi] := by
  have h2 : Real.sqrt 2 * Real.sqrt 2 = 2 := Real.mul_self_sqrt (by norm_num)
  simp [spec_w, spec_w_blk, spec_diag, spec_slice, spec_scramble, spec_swap, spec_pad,
    narrow_example, Fid, List.range_succ]
  rw [← mul_assoc, h2]

theorem ofColumns_row_one [Zero α] (x : α) : (ofColumns 1 [[x]]).row 0 = [x] := rfl

theorem ofColumns_transpose_column_one [Zero α] (x : α) :
    (ofColumns 1 [[x]]).transpose.column 0 = [x] := rfl

/-- The rowwise local apply on the narrow parameter set, with the identity transform, and
an input whose row `0` is `[pi]`: entry `(0, 0)` of the output is `cos(pi) = -1`, and entry
`(0, 1)`, which no block writes, is the cosine of what the output buffer held there. -/
theorem narrow_example_rowwise (junk : Nat → Nat → Nat → ℝ) (A sk : El.Matrix ℝ)
    (hA : A.Width = 1) (hH : 0 < A.Height) (hrow : A.row 0 = [Real.pi]) :
    (apply_impl_rowwise narrow_example ⟨Real.sqrt, Real.cos⟩ Fid junk A sk).Get 0 0 = -1 ∧
    (apply_impl_rowwise narrow_example ⟨Real.sqrt, Real.cos⟩ Fid junk A sk).Get 0 1
      = Real.cos (sk.Get 0 1) := by
  obtain ⟨h1, h2, _⟩ := apply_impl_rowwise_get narrow_example ⟨Real.sqrt, Real.cos⟩
    Fid junk A sk narrow_example_WF_blk hA Fid_length
  constructor
  · rw [h1 0 0 0 hH (show 0 < 1 by omega) (by decide), hrow]
    show readout narrow_example ⟨Real.sqrt, Real.cos⟩
      ((spec_w_blk 1 narrow_example ⟨Real.sqrt, Real.cos⟩ Fid 0 [Real.pi]).getD (0 - 0 * 1) 0)
      0 = -1
    rw [narrow_example_w_rowwise]
    simp [readout, narrow_example]
  · rw [h2 0 1 hH (show 1 < 2 by omega) (by
      intro i hi
      have : i = 0 := by
        have : i < 1 := hi
        omega
      subst this
      decide)]
    simp [readout, narrow_example]

/-- The columnwise local apply on the narrow parameter set, with the identity transform,
and an input whose column `0` is `[pi]`: the output column is `[cos 0, cos(2 pi)] =
[1, 1]`. -/
theorem narrow_example_columnwise (junk : Nat → Nat → Nat → ℝ) (A sk : El.Matrix ℝ)
    (hA : A.Height = 1) (hW : 0 < A.Width) (hcol : A.column 0 = [Real.pi]) :
    (apply_impl_columnwise narrow_example ⟨Real.sqrt, Real.cos⟩ Fid junk A sk).Get 0 0 = 1 ∧
    (apply_impl_columnwise narrow_example ⟨Real.sqrt, Real.cos⟩ Fid junk A sk).Get 1 0 = 1 := by
  have h := apply_impl_columnwise_get narrow_example ⟨Real.sqrt, Real.cos⟩
    Fid junk A sk narrow_example_WF (show 1 ≤ 2 by omega) hA Fid_length 0 0
  have h0 := h 0 hW (show 0 < 1 by omega) (by decide)
  have h1 := h 1 hW (show 0 < 1 by omega) (by decide)
  rw [hcol, narrow_example_w_columnwise] at h0 h1
  rw [h0, h1]
  simp [readout, narrow_example]

/-- C4, on the code: with `N = 1 < NB = 2`, `S = 2`, the identity transform and the `1 x 1`
input `A = [pi]`, the rowwise apply differs from the transposed columnwise apply on the
transposed input: entry `(0, 0)` is `-1` instead of `1`, for every content of the scratch
and output buffers; and its entry `(0, 1)` is not computed from `A` at all: it is the
cosine of what the output buffer held there. -/
theorem rowwise_ne_transposed_columnwise (junk junk' : Nat → Nat → Nat → ℝ)
    (sk sk' : El.Matrix ℝ) :
    (apply_impl_rowwise narrow_example ⟨Real.sqrt, Real.cos⟩ Fid junk
        (ofColumns 1 [[Real.pi]]) sk).Get 0 0
      ≠ (apply_impl_columnwise narrow_example ⟨Real.sqrt, Real.cos⟩ Fid
          junk' (ofColumns 1 [[Real.pi]]).transpose sk').transpose.Get 0 0 ∧
    (apply_impl_rowwise narrow_example ⟨Real.sqrt, Real.cos⟩ Fid junk
        (ofColumns 1 [[Real.pi]]) sk).Get 0 1 = Real.cos (sk.Get 0 1) := by
  refine ⟨?_, (narrow_example_rowwise junk (ofColumns 1 [[Real.pi]]) sk rfl
    (show 0 < 1 by omega) rfl).2⟩
  rw [(narrow_example_rowwise junk (ofColumns 1 [[Real.pi]]) sk rfl (show 0 < 1 by omega)
    rfl).1]
  show (-1 : ℝ) ≠ (apply_impl_columnwise narrow_example ⟨Real.sqrt, Real.cos⟩
    Fid junk' (ofColumns 1 [[Real.pi]]).transpose sk').Get 0 0
  rw [(narrow_example_columnwise junk' (ofColumns 1 [[Real.pi]]).transpose sk' rfl
    (show 0 < 1 by omega) rfl).1]
  norm_num

/-- When the input dimension equals the block size (`N = NB`, `numblks = ceil(S / NB)`),
the rowwise local apply is the transpose of the columnwise local apply on the transposed
input, inside the `Height(A) x S` window. -/
theorem rowwise_eq_transposed_columnwise [CommRing α] (d : FastRFT_data_t α) (m : MathFns α)
    (fut : FUT_t α) (junk junk' : Nat → Nat → Nat → α) (A sk sk' : El.Matrix α)
    (hWF : d.WF) (hNNB : d._N = d._NB) (hA : A.Width = d._N)
    (hF : ∀ v, (fut.apply v).length = v.length)
    (hNB : 1 ≤ d._NB) (hnum : d.numblks = ceil_div d._S d._NB)
    (r j : Nat) (hr : r < A.Height) (hj : j < d._S) :
    (apply_impl_rowwise d m fut junk A sk).Get r j
      = (apply_impl_columnwise d m fut junk' A.transpose sk').transpose.Get r j := by
  obtain ⟨i, hi, hmem⟩ := blk_range_cover d._S d._NB j hNB hj
  rw [← hnum] at hi
  have hWF' : d.WF_blk d._N := by rw [hNNB]; exact hWF
  obtain ⟨h1, _, _⟩ := apply_impl_rowwise_get d m fut junk A sk hWF' hA hF
  have hmem' : j ∈ blk_range d._N d._S i := by rw [hNNB]; exact hmem
  show _ = (apply_impl_columnwise d m fut junk' A.transpose sk').Get j r
  rw [h1 r i j hr hi hmem',
    apply_impl_columnwise_get d m fut junk' A.transpose sk' hWF (by omega) hA hF r i j hr hi
      hmem]
  have hcol : A.transpose.column r = A.row r := rfl
  have hpad : spec_pad d._NB (A.row r) = A.row r := by
    unfold spec_pad
    rw [row_length, hA, hNNB, Nat.sub_self]
    simp
  rw [hcol, spec_w, hpad, hNNB]

/-- Entry `(l, c)` of the output of the `[VC/VR, STAR]` columnwise apply, read from its
owner: it is entry `(c, l)` of the local rowwise apply on the transposed logical matrix,
started from the logical content of the fresh `sketch_of_A_t`. -/
theorem X_STAR_columnwise_Get [CommRing α] (d : FastRFT_data_t α) (m : MathFns α)
    (fut : FUT_t α) (junk : Nat → Nat → Nat → Nat → α) (junk_t junk' : Nat → Nat → Nat → α)
    (g : El.Grid) (V : El.Distribution) (A sketch_of_A : El.DistMatrix α)
    (hg : 0 < g.Size) (hV : V = .VC ∨ V = .VR)
    (hAC : A.ColDist = V) (hAR : A.RowDist = .STAR) (hAg : A.grid = g)
    (hsC : sketch_of_A.ColDist = V) (hsR : sketch_of_A.RowDist = .STAR)
    (hsg : sketch_of_A.grid = g)
    (hWF : d.WF_blk d._N) (hA : A.Height = d._N)
    (hF : ∀ v, (fut.apply v).length = v.length)
    (l c : Nat) (hl : l < d._S) (hc : c < A.Width) :
    (X_STAR_apply_impl_vdist_columnwise d m fut junk junk_t A sketch_of_A).Get l c
      = (apply_impl_rowwise d m fut junk' A.logical.transpose
          (El.DistMatrix.alloc V .STAR g sketch_of_A.Width sketch_of_A.Height
            junk_t).logical).Get c l := by
  obtain ⟨aC, aR, ag, ah, aw, aM⟩ := A
  obtain ⟨sC, sR, sg, sh, sw, sM⟩ := sketch_of_A
  simp only at hAC hAR hAg hsC hsR hsg hA hc
  subst hAC hAR hAg hsC hsR hsg
  rw [show X_STAR_apply_impl_vdist_columnwise d m fut junk junk_t
        (⟨sC, .STAR, sg, ah, aw, aM⟩ : El.DistMatrix α) ⟨sC, .STAR, sg, sh, sw, sM⟩
      = El.distribute sC .STAR sg
          (X_STAR_apply_impl_vdist_rowwise d m fut junk
            (El.distribute sC .STAR sg
              (El.DistMatrix.logical ⟨sC, .STAR, sg, ah, aw, aM⟩).transpose)
            (El.DistMatrix.alloc sC .STAR sg sw sh junk_t)).logical.transpose from rfl,
    El.distribute_Get sg sC .STAR hg (Or.inr (Or.inl ⟨hV, rfl⟩))]
  exact X_STAR_rowwise_Get d m fut junk junk' sg sC
    (El.DistMatrix.logical ⟨sC, .STAR, sg, ah, aw, aM⟩).transpose
    (El.DistMatrix.alloc sC .STAR sg sw sh junk_t) hg hV rfl rfl rfl hWF hA hF c l hc hl

/-- When `N = NB` and `numblks = ceil(S / NB)`, the columnwise apply of the `[VC/VR, STAR]`
specialisation has the global entries of the direct columnwise algorithm on the logical
matrix. -/
theorem X_STAR_columnwise_eq_local [CommRing α] (d : FastRFT_data_t α) (m : MathFns α)
    (fut : FUT_t α) (junk : Nat → Nat → Nat → Nat → α) (junk_t junk' : Nat → Nat → Nat → α)
    (g : El.Grid) (V : El.Distribution) (A sketch_of_A : El.DistMatrix α) (sk' : El.Matrix α)
    (hg : 0 < g.Size) (hV : V = .VC ∨ V = .VR)
    (hAC : A.ColDist = V) (hAR : A.RowDist = .STAR) (hAg : A.grid = g)
    (hsC : sketch_of_A.ColDist = V) (hsR : sketch_of_A.RowDist = .STAR)
    (hsg : sketch_of_A.grid = g)
    (hWF : d.WF) (hNNB : d._N = d._NB) (hA : A.Height = d._N)
    (hF : ∀ v, (fut.apply v).length = v.length)
    (hNB : 1 ≤ d._NB) (hnum : d.numblks = ceil_div d._S d._NB)
    (l c : Nat) (hl : l < d._S) (hc : c < A.Width) :
    (X_STAR_apply_impl_vdist_columnwise d m fut junk junk_t A sketch_of_A).Get l c
      = (apply_impl_columnwise d m fut junk' A.logical sk').Get l c := by
  have hWF' : d.WF_blk d._N := by rw [hNNB]; exact hWF
  rw [X_STAR_columnwise_Get d m fut junk junk_t junk' g V A sketch_of_A hg hV hAC hAR hAg hsC
      hsR hsg hWF' hA hF l c hl hc,
    rowwise_eq_transposed_columnwise d m fut junk' junk' A.logical.transpose _ sk' hWF hNNB hA
      hF hNB hnum c l hc hl]
  rfl

/-- C5, on the code: with `N = 1 < NB = 2`, `S = 2`, the identity transform, a grid of one
process and the `1 x 1` matrix `A = [pi]` held in `[VC, STAR]`, the columnwise apply of the
`[VC, STAR]` specialisation gives `-1` at entry `(0, 0)` where the direct columnwise
algorithm on the local matrix gives `1`. -/
theorem X_STAR_columnwise_ne_local (junk : Nat → Nat → Nat → Nat → ℝ)
    (junk_t junk0 junk' : Nat → Nat → Nat → ℝ) (sk' : El.Matrix ℝ) :
    (X_STAR_apply_impl_vdist_columnwise narrow_example ⟨Real.sqrt, Real.cos⟩
        Fid junk junk_t
        (El.distribute .VC .STAR ⟨1, 1⟩ (ofColumns 1 [[Real.pi]]))
        (El.DistMatrix.alloc .VC .STAR ⟨1, 1⟩ 2 1 junk0)).Get 0 0
      ≠ (apply_impl_columnwise narrow_example ⟨Real.sqrt, Real.cos⟩ Fid
          junk' (ofColumns 1 [[Real.pi]]) sk').Get 0 0 := by
  rw [X_STAR_columnwise_Get narrow_example ⟨Real.sqrt, Real.cos⟩ Fid junk
      junk_t junk' ⟨1, 1⟩ .VC _ _ (by decide) (Or.inl rfl) rfl rfl rfl rfl rfl rfl
      narrow_example_WF_blk rfl Fid_length 0 0 (show 0 < 2 by omega) (show 0 < 1 by omega)]
  show (apply_impl_rowwise narrow_example ⟨Real.sqrt, Real.cos⟩ Fid junk'
      (El.distribute .VC .STAR ⟨1, 1⟩ (ofColumns 1 [[Real.pi]])).logical.transpose
      (El.DistMatrix.alloc .VC .STAR ⟨1, 1⟩ 1 2 junk_t).logical).Get 0 0 ≠ _
  rw [(narrow_example_rowwise junk'
      (El.distribute .VC .STAR ⟨1, 1⟩ (ofColumns 1 [[Real.pi]])).logical.transpose
      (El.DistMatrix.alloc .VC .STAR ⟨1, 1⟩ 1 2 junk_t).logical rfl (show 0 < 1 by omega)
      rfl).1,
    (narrow_example_columnwise junk' (ofColumns 1 [[Real.pi]]) sk' rfl (show 0 < 1 by omega)
      rfl).1]
  norm_num

/-! ### RFUT -/

theorem foldl_Set_range (f : Nat → α) (j : Nat) (n : Nat) (M : El.Matrix α) (i' j' : Nat) :
    ((List.range n).foldl (fun TA i => TA.Set i j (f i)) M).Get i' j'
      = if i' < n ∧ j' = j then f i' else M.Get i' j' := by
  have h := foldl_Set_range' f j n 0 M i' j'
  rw [← List.range_eq_range'] at h
  rw [h]
  by_cases hc : i' < n ∧ j' = j
  · rw [if_pos hc, if_pos ⟨hc.2, by omega, by omega⟩]
  · rw [if_neg hc, if_neg]
    rintro ⟨h1, _, h3⟩
    exact hc ⟨by omega, h1⟩

theorem RFUT_scale_columns_Get [CommRing α] (rd : RFUT_data_t α) (scale : α)
    (local_A local_TA : El.Matrix α) (i j : Nat) :
    (RFUT_scale_columns rd scale local_A local_TA).Get i j
      = if i < rd._N ∧ j < local_A.Width then scale * rd.D.getD i 0 * local_A.Get i j
        else local_TA.Get i j := by
  unfold RFUT_scale_columns
  have key : ∀ k, ((List.range k).foldl (fun TA j =>
      (List.range rd._N).foldl (fun TA i =>
        TA.Set i j (scale * rd.D.getD i 0 * local_A.Get i j)) TA) local_TA).Get i j
      = if i < rd._N ∧ j < k then scale * rd.D.getD i 0 * local_A.Get i j
        else local_TA.Get i j := by
    intro k
    induction k with
    | zero =>
      rw [if_neg (by omega)]
      rfl
    | succ k ih =>
      rw [List.range_succ, List.foldl_append, List.foldl_cons, List.foldl_nil,
        foldl_Set_range (fun i => scale * rd.D.getD i 0 * local_A.Get i k) k rd._N, ih]
      by_cases h1 : i < rd._N ∧ j = k
      · rw [if_pos h1, if_pos ⟨h1.1, by omega⟩, h1.2]
      · rw [if_neg h1]
        by_cases h2 : i < rd._N ∧ j < k
        · rw [if_pos h2, if_pos ⟨h2.1, by omega⟩]
        · rw [if_neg h2, if_neg]
          rintro ⟨h3, h4⟩
          by_cases h5 : j = k
          · exact h1 ⟨h3, h5⟩
          · exact h2 ⟨h3, by omega⟩
  exact key local_A.Width

theorem RFUT_scale_columns_Height [CommRing α] (rd : RFUT_data_t α) (scale : α)
    (local_A local_TA : El.Matrix α) :
    (RFUT_scale_columns rd scale local_A local_TA).Height = local_TA.Height := by
  unfold RFUT_scale_columns
  generalize List.range local_A.Width = js
  induction js generalizing local_TA with
  | nil => rfl
  | cons j js ih =>
    rw [List.foldl_cons, ih]
    generalize List.range rd._N = is
    induction is generalizing local_TA with
    | nil => rfl
    | cons i is ih2 =>
      rw [List.foldl_cons, ih2]
      rfl

theorem RFUT_scale_columns_column [CommRing α] (rd : RFUT_data_t α) (scale : α)
    (local_A local_TA : El.Matrix α) (c : Nat)
    (hD : rd.D.length = rd._N) (hA : local_A.Height = rd._N) (hTA : local_TA.Height = rd._N)
    (hc : c < local_A.Width) :
    (RFUT_scale_columns rd scale local_A local_TA).column c
      = (List.zipWith (fun g x => g * x) rd.D (local_A.column c)).map (fun x => scale * x) := by
  apply column_eq_of
  · rw [RFUT_scale_columns_Height, hTA]
    simp [column_length, hD, hA]
  · intro i hi
    simp only [List.length_map, List.length_zipWith, column_length, hD, hA, Nat.min_self] at hi
    rw [RFUT_scale_columns_Get, if_pos ⟨hi, hc⟩, List.getElem?_map, List.getElem?_zipWith,
      column_getElem?, if_pos (by omega), getElem?_of_lt_getD (by omega : i < rd.D.length) 0]
    show some (scale * (rd.D.getD i 0 * local_A.Get i c)) = _
    rw [mul_assoc]

/-- What one process computes in the `[STAR, VC/VR]` columnwise RFUT apply: local column
`c` of the output is `F(scale * D ⊙ A[:, c])`. -/
theorem RFUT_local_columnwise_column [CommRing α] (rd : RFUT_data_t α) (FUT : Nat → FUT_t α)
    (local_A local_TA : El.Matrix α) (c : Nat)
    (hD : rd.D.length = rd._N) (hA : local_A.Height = rd._N) (hTA : local_TA.Height = rd._N)
    (hF : ∀ v, ((FUT rd._N).apply v).length = v.length) (hc : c < local_A.Width) :
    (RFUT_STAR_X_local_columnwise rd FUT local_A local_TA).column c
      = (FUT rd._N).apply
          ((List.zipWith (fun g x => g * x) rd.D (local_A.column c)).map
            (fun x => (FUT rd._N).scale * x)) := by
  unfold RFUT_STAR_X_local_columnwise
  simp only []
  rw [fut_apply_columnwise_column _ _ _ hF, RFUT_scale_columns_column rd _ _ _ c hD hA hTA hc]

/-- C9: for a homogeneous, length-preserving transform `F = FUT(N)`, a diagonal `D` of
length `N`, and local matrices of `A` and of the output with `N` rows, the `[STAR, VC/VR]`
columnwise RFUT apply leaves, on every process `q` and for every local column `c`,
`out[:, c] = scale() * F.apply(D ⊙ A[:, c])` (a column of `N` rows). -/
theorem RFUT_columnwise_formula [CommRing α] (rd : RFUT_data_t α) (FUT : Nat → FUT_t α)
    (A mixed_A : El.DistMatrix α) (q c : Nat)
    (hD : rd.D.length = rd._N) (hA : (A.Matrix q).Height = rd._N)
    (hTA : (mixed_A.Matrix q).Height = rd._N)
    (hF : ∀ v, ((FUT rd._N).apply v).length = v.length)
    (hlin : ∀ (k : α) v, (FUT rd._N).apply (v.map (fun x => k * x))
      = ((FUT rd._N).apply v).map (fun x => k * x))
    (hc : c < (A.Matrix q).Width) :
    ((RFUT_STAR_X_apply_impl_vdist_columnwise rd FUT A mixed_A).Matrix q).column c
      = ((FUT rd._N).apply
          (List.zipWith (fun g x => g * x) rd.D ((A.Matrix q).column c))).map
            (fun x => (FUT rd._N).scale * x) ∧
    (((RFUT_STAR_X_apply_impl_vdist_columnwise rd FUT A mixed_A).Matrix q).column c).length
      = rd._N := by
  have h := RFUT_local_columnwise_column rd FUT (A.Matrix q) (mixed_A.Matrix q) c hD hA hTA hF hc
  rw [hlin] at h
  refine ⟨h, ?_⟩
  show ((RFUT_STAR_X_local_columnwise rd FUT (A.Matrix q) (mixed_A.Matrix q)).column c).length = _
  rw [h, List.length_map, hF, List.length_zipWith, column_length, hD, hA, Nat.min_self]


theorem sum_sq_zipWith_pm [CommRing α] (D x : List α) (hlen : D.length = x.length)
    (hpm : ∀ g, g ∈ D → g = 1 ∨ g = -1) :
    sum_sq (List.zipWith (fun g x => g * x) D x) = sum_sq x := by
  induction D generalizing x with
  | nil =>
    cases x with
    | nil => rfl
    | cons a t => simp at hlen
  | cons g D ih =>
    cases x with
    | nil => simp at hlen
    | cons a t =>
      have hg := hpm g (List.mem_cons_self _ _)
      have ht := ih t (by simpa using hlen) (fun g' h' => hpm g' (List.mem_cons_of_mem _ h'))
      unfold sum_sq at ht ⊢
      simp only [List.zipWith_cons_cons, List.map_cons, List.sum_cons, ht]
      rcases hg with h | h <;> rw [h] <;> ring

/-- C10: for a diagonal `D` of length `N` with entries `+1` or `-1` and a homogeneous,
length-preserving `F = FUT(N)` whose scaled map `v -> scale() * F.apply(v)` preserves the
sum of squares of length-`N` vectors, every output column of the columnwise RFUT apply has
the same sum of squares as the input column. -/
theorem RFUT_norm_preserved [CommRing α] (rd : RFUT_data_t α) (FUT : Nat → FUT_t α)
    (A mixed_A : El.DistMatrix α) (q c : Nat)
    (hD : rd.D.length = rd._N) (hA : (A.Matrix q).Height = rd._N)
    (hTA : (mixed_A.Matrix q).Height = rd._N)
    (hF : ∀ v, ((FUT rd._N).apply v).length = v.length)
    (hlin : ∀ (k : α) v, (FUT rd._N).apply (v.map (fun x => k * x))
      = ((FUT rd._N).apply v).map (fun x => k * x))
    (hpm : ∀ g, g ∈ rd.D → g = 1 ∨ g = -1)
    (horth : ∀ v, v.length = rd._N →
      sum_sq (((FUT rd._N).apply v).map (fun x => (FUT rd._N).scale * x)) = sum_sq v)
    (hc : c < (A.Matrix q).Width) :
    sum_sq (((RFUT_STAR_X_apply_impl_vdist_columnwise rd FUT A mixed_A).Matrix q).column c)
      = sum_sq ((A.Matrix q).column c) := by
  have h := RFUT_local_columnwise_column rd FUT (A.Matrix q) (mixed_A.Matrix q) c hD hA hTA hF hc
  rw [hlin] at h
  show sum_sq ((RFUT_STAR_X_local_columnwise rd FUT (A.Matrix q) (mixed_A.Matrix q)).column c) = _
  rw [h, horth _ (by rw [List.length_zipWith, column_length, hD, hA, Nat.min_self]),
    sum_sq_zipWith_pm _ _ (by rw [column_length, hD, hA]) hpm]

theorem F0_hom [CommRing α] (s k : α) (v : List α) :
    (F0 s).apply (v.map (fun x => k * x)) = ((F0 s).apply v).map (fun x => k * x) := by
  rcases v with _ | ⟨a, _ | ⟨b, _ | ⟨c, t⟩⟩⟩
  · rfl
  · rfl
  · show [k * a + k * b, k * a - k * b] = [k * (a + b), k * (a - b)]
    rw [mul_add, mul_sub]
  · rfl

theorem F0_orth (v : List ℝ) (hv : v.length = 2) :
    sum_sq (((F0 (1 / Real.sqrt 2)).apply v).map (fun x => (F0 (1 / Real.sqrt 2)).scale * x))
      = sum_sq v := by
  rcases v with _ | ⟨a, _ | ⟨b, _ | ⟨c, t⟩⟩⟩
  · simp at hv
  · simp at hv
  · have h : Real.sqrt 2 ≠ 0 := by positivity
    show ((1 / Real.sqrt 2) * (a + b)) * ((1 / Real.sqrt 2) * (a + b))
      + (((1 / Real.sqrt 2) * (a - b)) * ((1 / Real.sqrt 2) * (a - b)) + 0)
      = a * a + (b * b + 0)
    have e : (1 / Real.sqrt 2) * (1 / Real.sqrt 2) = 1 / 2 := by
      field_simp
    calc (1 / Real.sqrt 2) * (a + b) * ((1 / Real.sqrt 2) * (a + b))
          + (((1 / Real.sqrt 2) * (a - b)) * ((1 / Real.sqrt 2) * (a - b)) + 0)
        = ((1 / Real.sqrt 2) * (1 / Real.sqrt 2)) * ((a + b) * (a + b) + (a - b) * (a - b)) := by
          ring
      _ = a * a + (b * b + 0) := by
          rw [e]
          ring
  · simp at hv

theorem RFUT_example_output :
    ((RFUT_STAR_X_apply_impl_vdist_columnwise ⟨2, [1, -1]⟩ (fun _ => F0 (1 / Real.sqrt 2))
        (El.distribute .STAR .VR ⟨1, 1⟩ (ofColumns 2 [[(1 : ℝ), 1]]))
        (El.DistMatrix.alloc .STAR .VR ⟨1, 1⟩ 2 1 (fun _ _ _ => 0))).Matrix 0).column 0
      = [0, Real.sqrt 2] := by
  have h := RFUT_local_columnwise_column (⟨2, [1, -1]⟩ : RFUT_data_t ℝ)
    (fun _ => F0 (1 / Real.sqrt 2))
    ((El.distribute .STAR .VR ⟨1, 1⟩ (ofColumns 2 [[(1 : ℝ), 1]])).Matrix 0)
    ((El.DistMatrix.alloc .STAR .VR ⟨1, 1⟩ 2 1 (fun _ _ _ => (0 : ℝ))).Matrix 0) 0
    rfl rfl rfl (fun v => F0_length _ v) (by decide)
  have hcol : ((El.distribute .STAR .VR ⟨1, 1⟩ (ofColumns 2 [[(1 : ℝ), 1]])).Matrix 0).column 0
      = [1, 1] := rfl
  rw [hcol] at h
  show (RFUT_STAR_X_local_columnwise ⟨2, [1, -1]⟩ (fun _ => F0 (1 / Real.sqrt 2))
    ((El.distribute .STAR .VR ⟨1, 1⟩ (ofColumns 2 [[(1 : ℝ), 1]])).Matrix 0)
    ((El.DistMatrix.alloc .STAR .VR ⟨1, 1⟩ 2 1 (fun _ _ _ => (0 : ℝ))).Matrix 0)).column 0 = _
  rw [h]
  have hs : Real.sqrt 2 ≠ 0 := by positivity
  have h2 : Real.sqrt 2 * Real.sqrt 2 = 2 := Real.mul_self_sqrt (by norm_num)
  simp [F0]
  field_simp
  linarith


/-- C9 at the RFUT worked example (`N = 2`, `D = [1, -1]`, `F0` with
`scale() = 1 / sqrt 2`, one process holding the column `[1, 1]`). -/
theorem RFUT_columnwise_formula_witness :
    (⟨2, [1, -1]⟩ : RFUT_data_t ℝ).D.length = (⟨2, [1, -1]⟩ : RFUT_data_t ℝ)._N ∧
    ((RFUT_STAR_X_apply_impl_vdist_columnwise ⟨2, [1, -1]⟩ (fun _ => F0 (1 / Real.sqrt 2))
        (El.distribute .STAR .VR ⟨1, 1⟩ (ofColumns 2 [[(1 : ℝ), 1]]))
        (El.DistMatrix.alloc .STAR .VR ⟨1, 1⟩ 2 1 (fun _ _ _ => 0))).Matrix 0).column 0
      = ((F0 (1 / Real.sqrt 2)).apply
          (List.zipWith (fun g x => g * x) [1, -1]
            (((El.distribute .STAR .VR ⟨1, 1⟩ (ofColumns 2 [[(1 : ℝ), 1]])).Matrix 0).column
              0))).map (fun x => (F0 (1 / Real.sqrt 2)).scale * x) :=
  ⟨rfl,
    (RFUT_columnwise_formula (⟨2, [1, -1]⟩ : RFUT_data_t ℝ) (fun _ => F0 (1 / Real.sqrt 2))
      (El.distribute .STAR .VR ⟨1, 1⟩ (ofColumns 2 [[(1 : ℝ), 1]]))
      (El.DistMatrix.alloc .STAR .VR ⟨1, 1⟩ 2 1 (fun _ _ _ => 0)) 0 0 rfl rfl rfl
      (fun v => F0_length _ v) (fun k v => F0_hom _ k v) (by decide)).1⟩

/-- C10 at its worked example: `N = 2`, `F0([a, b]) = [a + b, a - b]`,
`scale() = 1 / sqrt 2`, `D = diag(1, -1)`, `x = [1, 1]`: the hypotheses hold, the sum of
squares is preserved, and the output column is `[0, sqrt 2]`. -/
theorem RFUT_norm_preserved_witness :
    (∀ g : ℝ, g ∈ (⟨2, [1, -1]⟩ : RFUT_data_t ℝ).D → g = 1 ∨ g = -1) ∧
    sum_sq (((RFUT_STAR_X_apply_impl_vdist_columnwise ⟨2, [1, -1]⟩
        (fun _ => F0 (1 / Real.sqrt 2))
        (El.distribute .STAR .VR ⟨1, 1⟩ (ofColumns 2 [[(1 : ℝ), 1]]))
        (El.DistMatrix.alloc .STAR .VR ⟨1, 1⟩ 2 1 (fun _ _ _ => 0))).Matrix 0).column 0)
      = sum_sq (((El.distribute .STAR .VR ⟨1, 1⟩ (ofColumns 2 [[(1 : ℝ), 1]])).Matrix 0).column
          0) ∧
    ((RFUT_STAR_X_apply_impl_vdist_columnwise ⟨2, [1, -1]⟩ (fun _ => F0 (1 / Real.sqrt 2))
        (El.distribute .STAR .VR ⟨1, 1⟩ (ofColumns 2 [[(1 : ℝ), 1]]))
        (El.DistMatrix.alloc .STAR .VR ⟨1, 1⟩ 2 1 (fun _ _ _ => 0))).Matrix 0).column 0
      = [0, Real.sqrt 2] :=
  ⟨by
      intro g hg
      simp only [List.mem_cons, List.mem_singleton, List.not_mem_nil, or_false] at hg
      exact hg,
    RFUT_norm_preserved (⟨2, [1, -1]⟩ : RFUT_data_t ℝ) (fun _ => F0 (1 / Real.sqrt 2))
      (El.distribute .STAR .VR ⟨1, 1⟩ (ofColumns 2 [[(1 : ℝ), 1]]))
      (El.DistMatrix.alloc .STAR .VR ⟨1, 1⟩ 2 1 (fun _ _ _ => 0)) 0 0 rfl rfl rfl
      (fun v => F0_length _ v) (fun k v => F0_hom _ k v)
      (by
        intro g hg
        simp only [List.mem_cons, List.mem_singleton, List.not_mem_nil, or_false] at hg
        exact hg)
      (fun v hv => F0_orth v hv) (by decide),
    RFUT_example_output⟩

/-! ### RFUT on `[VC/VR, STAR]` matrices: apply, inverse, round trip -/

theorem foldl_Set_inplace (g : Nat → α → α) (j : Nat) (k : Nat) (M : El.Matrix α) :
    ∀ r j', ((List.range k).foldl (fun M i => M.Set i j (g i (M.Get i j))) M).Get r j'
      = if r < k ∧ j' = j then g r (M.Get r j) else M.Get r j' := by
  induction k with
  | zero =>
    intro r j'
    rw [if_neg (by omega)]
    rfl
  | succ k ih =>
    intro r j'
    rw [List.range_succ, List.foldl_append, List.foldl_cons, List.foldl_nil]
    have e1 : ((List.range k).foldl (fun M i => M.Set i j (g i (M.Get i j))) M).Get k j
        = M.Get k j := by
      rw [ih k j, if_neg]
      intro h
      omega
    have e2 : (((List.range k).foldl (fun M i => M.Set i j (g i (M.Get i j))) M).Set k j
        (g k (((List.range k).foldl (fun M i => M.Set i j (g i (M.Get i j))) M).Get k j))).Get
          r j'
        = if r = k ∧ j' = j then g k (M.Get k j)
          else if r < k ∧ j' = j then g r (M.Get r j) else M.Get r j' := by
      rw [e1, ← ih r j']
      rfl
    rw [e2]
    by_cases h1 : r = k ∧ j' = j
    · rw [if_pos h1, if_pos ⟨by omega, h1.2⟩, h1.1]
    · rw [if_neg h1]
      by_cases h2 : r < k ∧ j' = j
      · rw [if_pos h2, if_pos ⟨by omega, h2.2⟩]
      · rw [if_neg h2, if_neg]
        rintro ⟨h3, h4⟩
        by_cases h5 : r = k
        · exact h1 ⟨h5, h4⟩
        · exact h2 ⟨by omega, h4⟩

theorem RFUT_scale_columns_inplace_Get [CommRing α] (rd : RFUT_data_t α) (scale : α)
    (local_A : El.Matrix α) (i j : Nat) :
    (RFUT_scale_columns_inplace rd scale local_A).Get i j
      = if i < rd._N ∧ j < local_A.Width then scale * rd.D.getD i 0 * local_A.Get i j
        else local_A.Get i j := by
  unfold RFUT_scale_columns_inplace
  have key : ∀ k, ∀ i j, ((List.range k).foldl (fun M j =>
      (List.range rd._N).foldl (fun M i =>
        M.Set i j (scale * rd.D.getD i 0 * M.Get i j)) M) local_A).Get i j
      = if i < rd._N ∧ j < k then scale * rd.D.getD i 0 * local_A.Get i j
        else local_A.Get i j := by
    intro k
    induction k with
    | zero =>
      intro i j
      rw [if_neg (by omega)]
      rfl
    | succ k ih =>
      intro i j
      rw [List.range_succ, List.foldl_append, List.foldl_cons, List.foldl_nil,
        foldl_Set_inplace (fun i x => scale * rd.D.getD i 0 * x) k rd._N, ih i k, ih i j,
        if_neg (by omega : ¬(i < rd._N ∧ k < k))]
      by_cases h1 : i < rd._N ∧ j = k
      · rw [if_pos h1, if_pos ⟨h1.1, by omega⟩, h1.2]
      · rw [if_neg h1]
        by_cases h2 : i < rd._N ∧ j < k
        · rw [if_pos h2, if_pos ⟨h2.1, by omega⟩]
        · rw [if_neg h2, if_neg]
          rintro ⟨h3, h4⟩
          by_cases h5 : j = k
          · exact h1 ⟨h3, h5⟩
          · exact h2 ⟨h3, by omega⟩
  exact key local_A.Width i j

theorem RFUT_scale_columns_inplace_Height [CommRing α] (rd : RFUT_data_t α) (scale : α)
    (local_A : El.Matrix α) :
    (RFUT_scale_columns_inplace rd scale local_A).Height = local_A.Height := by
  unfold RFUT_scale_columns_inplace
  generalize List.range local_A.Width = js
  induction js generalizing local_A with
  | nil => rfl
  | cons j js ih =>
    rw [List.foldl_cons, ih]
    generalize List.range rd._N = is
    induction is generalizing local_A with
    | nil => rfl
    | cons i is ih2 =>
      rw [List.foldl_cons, ih2]
      rfl

theorem RFUT_scale_columns_inplace_column [CommRing α] (rd : RFUT_data_t α) (scale : α)
    (local_A : El.Matrix α) (c : Nat)
    (hD : rd.D.length = rd._N) (hA : local_A.Height = rd._N) (hc : c < local_A.Width) :
    (RFUT_scale_columns_inplace rd scale local_A).column c
      = (List.zipWith (fun g x => g * x) rd.D (local_A.column c)).map (fun x => scale * x) := by
  apply column_eq_of
  · rw [RFUT_scale_columns_inplace_Height, hA]
    simp [column_length, hD, hA]
  · intro i hi
    simp only [List.length_map, List.length_zipWith, column_length, hD, hA, Nat.min_self] at hi
    rw [RFUT_scale_columns_inplace_Get, if_pos ⟨hi, hc⟩, List.getElem?_map,
      List.getElem?_zipWith, column_getElem?, if_pos (by omega),
      getElem?_of_lt_getD (by omega : i < rd.D.length) 0]
    show some (scale * (rd.D.getD i 0 * local_A.Get i c)) = _
    rw [mul_assoc]

theorem fut_apply_inverse_columnwise_column (fut : FUT_t α) (W : El.Matrix α) (j : Nat)
    (hF : ∀ v, (fut.apply_inverse v).length = v.length) :
    (fut.apply_inverse_columnwise W).column j = fut.apply_inverse (W.column j) := by
  apply column_eq_of
  · show W.Height = _
    rw [hF, column_length]
  · intro i hi
    show _ = some ((fut.apply_inverse (W.column j)).getD i (W.Get i j))
    exact getElem?_of_lt_getD hi _

/-- What one process computes in the `[VC/VR, STAR]` columnwise RFUT apply: local column
`c` of the intermediate becomes `F(scale * D ⊙ A[:, c])`. -/
theorem RFUT_X_STAR_local_columnwise_column [CommRing α] (rd : RFUT_data_t α)
    (FUT : Nat → FUT_t α) (local_A : El.Matrix α) (c : Nat)
    (hD : rd.D.length = rd._N) (hA : local_A.Height = rd._N)
    (hF : ∀ v, ((FUT rd._N).apply v).length = v.length) (hc : c < local_A.Width) :
    (RFUT_X_STAR_local_columnwise rd FUT local_A).column c
      = (FUT rd._N).apply
          ((List.zipWith (fun g x => g * x) rd.D (local_A.column c)).map
            (fun x => (FUT rd._N).scale * x)) := by
  unfold RFUT_X_STAR_local_columnwise
  simp only []
  rw [fut_apply_columnwise_column _ _ _ hF, RFUT_scale_columns_inplace_column rd _ _ c hD hA hc]

/-- What one process computes in the `[VC/VR, STAR]` columnwise RFUT apply_inverse: local
column `c` of the intermediate becomes `scale * D ⊙ apply_inverse(A[:, c])`. -/
theorem RFUT_X_STAR_local_inverse_column [CommRing α] (rd : RFUT_data_t α)
    (FUT : Nat → FUT_t α) (local_A : El.Matrix α) (c : Nat)
    (hD : rd.D.length = rd._N) (hA : local_A.Height = rd._N)
    (hFi : ∀ v, ((FUT rd._N).apply_inverse v).length = v.length) (hc : c < local_A.Width) :
    (RFUT_X_STAR_local_inverse_columnwise rd FUT local_A).column c
      = (List.zipWith (fun g x => g * x) rd.D
          ((FUT rd._N).apply_inverse (local_A.column c))).map
            (fun x => (FUT rd._N).scale * x) := by
  unfold RFUT_X_STAR_local_inverse_columnwise
  simp only []
  rw [RFUT_scale_columns_inplace_column rd _ ((FUT rd._N).apply_inverse_columnwise local_A) c hD
      hA hc,
    fut_apply_inverse_columnwise_column _ _ _ hFi]

/-- On the owner of global column `j` of a `[STAR, VC/VR]` matrix, local column
`j / stride` is the whole global column `j`. -/
theorem STAR_V_local_column (g : El.Grid) (V : El.Distribution) (M : El.Matrix α) (i j : Nat)
    (hg : 0 < g.Size) (hV : V = .VC ∨ V = .VR) (hj : j < M.Width) :
    ((El.distribute .STAR V g M).Matrix
        (El.RankOf g .STAR (i % El.Stride g .STAR)
          + El.RankOf g V (j % El.Stride g V))).Height = M.Height ∧
    j / El.Stride g V < ((El.distribute .STAR V g M).Matrix
        (El.RankOf g .STAR (i % El.Stride g .STAR)
          + El.RankOf g V (j % El.Stride g V))).Width ∧
    ((El.distribute .STAR V g M).Matrix
        (El.RankOf g .STAR (i % El.Stride g .STAR)
          + El.RankOf g V (j % El.Stride g V))).column (j / El.Stride g V) = M.column j := by
  obtain ⟨_, h2⟩ := El.Shift_Owner g .STAR V hg (Or.inl ⟨rfl, hV⟩) i j
  have hsV := El.Stride_pos g V hg
  set q := El.RankOf g .STAR (i % El.Stride g .STAR) + El.RankOf g V (j % El.Stride g V)
    with hq
  have hH : ((El.distribute .STAR V g M).Matrix q).Height = M.Height := by
    show El.Length M.Height 0 1 = _
    rw [El.Length_one]
  refine ⟨hH, ?_, ?_⟩
  · show _ < El.Length M.Width (El.Shift g V q) (El.Stride g V)
    rw [h2]
    exact El.div_lt_Length _ _ _ hsV hj
  · unfold El.Matrix.column
    rw [hH]
    apply List.map_congr_left
    intro r _
    show M.Get (0 + r * 1) (El.Shift g V q + j / El.Stride g V * El.Stride g V) = _
    rw [h2, Nat.zero_add, Nat.mul_one, Nat.mul_comm (j / _), Nat.mod_add_div]

/-- Redistributing a matrix into `[STAR, V]`, letting every process replace its local
matrix by `f` of it, and redistributing the result into the output: global column `j` of
the output is column `j / stride` of `f` of the local matrix of the owner of column `j`. -/
theorem via_STAR_V_column (f : El.Matrix α → El.Matrix α) (A mixed_A : El.DistMatrix α)
    (V : El.Distribution)
    (hmg : 0 < mixed_A.grid.Size)
    (hm : (mixed_A.ColDist = .VC ∨ mixed_A.ColDist = .VR) ∧ mixed_A.RowDist = .STAR)
    (j : Nat) (L : List α) (hL : L.length = A.Height)
    (hcol : (f ((El.redistribute .STAR V A).Matrix
        (El.RankOf A.grid .STAR 0 + El.RankOf A.grid V (j % El.Stride A.grid V)))).column
          (j / El.Stride A.grid V) = L) :
    (El.distribute mixed_A.ColDist mixed_A.RowDist mixed_A.grid
      (El.DistMatrix.logical
        { El.redistribute .STAR V A with
          Matrix := fun q => f ((El.redistribute .STAR V A).Matrix q) })).logical.column j
      = L := by
  apply column_eq_of
  · show A.Height = _
    rw [hL]
  · intro i hi
    have e : ∀ R : El.DistMatrix α, R.logical.Get i j = R.Get i j := fun _ => rfl
    rw [e, El.distribute_Get _ _ _ hmg (Or.inr (Or.inl hm))]
    show _ = some ((f ((El.redistribute .STAR V A).Matrix
        (El.RankOf A.grid .STAR (i % El.Stride A.grid .STAR)
          + El.RankOf A.grid V (j % El.Stride A.grid V)))).Get
        (i / El.Stride A.grid .STAR) (j / El.Stride A.grid V))
    have h1 : i / El.Stride A.grid .STAR = i := Nat.div_one i
    have h0 : El.RankOf A.grid .STAR (i % El.Stride A.grid .STAR) = El.RankOf A.grid .STAR 0 :=
      rfl
    rw [h1, h0]
    have hc := column_getElem? (f ((El.redistribute .STAR V A).Matrix
        (El.RankOf A.grid .STAR 0 + El.RankOf A.grid V (j % El.Stride A.grid V))))
      (j / El.Stride A.grid V) i
    rw [hcol] at hc
    rw [hc, if_pos]
    have hlen := column_length (f ((El.redistribute .STAR V A).Matrix
        (El.RankOf A.grid .STAR 0 + El.RankOf A.grid V (j % El.Stride A.grid V))))
      (j / El.Stride A.grid V)
    rw [hcol] at hlen
    omega

/-- The logical output of the `[VC/VR, STAR]` columnwise RFUT apply: global column `j` is
`F(scale * D ⊙ A[:, j])`. -/
theorem RFUT_X_STAR_columnwise_logical_column [CommRing α] (rd : RFUT_data_t α)
    (FUT : Nat → FUT_t α) (A mixed_A : El.DistMatrix α)
    (hV : A.ColDist = .VC ∨ A.ColDist = .VR) (hg : 0 < A.grid.Size)
    (hmg : 0 < mixed_A.grid.Size)
    (hm : (mixed_A.ColDist = .VC ∨ mixed_A.ColDist = .VR) ∧ mixed_A.RowDist = .STAR)
    (hD : rd.D.length = rd._N) (hA : A.Height = rd._N)
    (hF : ∀ v, ((FUT rd._N).apply v).length = v.length) (j : Nat) (hj : j < A.Width) :
    (RFUT_X_STAR_apply_impl_vdist_columnwise rd FUT A mixed_A).logical.column j
      = (FUT rd._N).apply
          ((List.zipWith (fun g x => g * x) rd.D (A.logical.column j)).map
            (fun x => (FUT rd._N).scale * x)) := by
  obtain ⟨h1, h2, h3⟩ := STAR_V_local_column A.grid A.ColDist A.logical 0 j hg hV hj
  have hH : A.logical.Height = rd._N := hA
  apply via_STAR_V_column (RFUT_X_STAR_local_columnwise rd FUT) A mixed_A A.ColDist hmg hm
  · rw [hF, List.length_map, List.length_zipWith, column_length, hD, hH, hA, Nat.min_self]
  · rw [← h3]
    exact RFUT_X_STAR_local_columnwise_column rd FUT _ _ hD (h1.trans hH) hF h2

/-- The logical output of the `[VC/VR, STAR]` columnwise RFUT apply_inverse: global column
`j` is `scale * D ⊙ apply_inverse(A[:, j])`. -/
theorem RFUT_X_STAR_inverse_logical_column [CommRing α] (rd : RFUT_data_t α)
    (FUT : Nat → FUT_t α) (A mixed_A : El.DistMatrix α)
    (hV : A.ColDist = .VC ∨ A.ColDist = .VR) (hg : 0 < A.grid.Size)
    (hmg : 0 < mixed_A.grid.Size)
    (hm : (mixed_A.ColDist = .VC ∨ mixed_A.ColDist = .VR) ∧ mixed_A.RowDist = .STAR)
    (hD : rd.D.length = rd._N) (hA : A.Height = rd._N)
    (hFi : ∀ v, ((FUT rd._N).apply_inverse v).length = v.length) (j : Nat) (hj : j < A.Width) :
    (RFUT_X_STAR_apply_inverse_impl_vdist_columnwise rd FUT A mixed_A).logical.column j
      = (List.zipWith (fun g x => g * x) rd.D
          ((FUT rd._N).apply_inverse (A.logical.column j))).map
            (fun x => (FUT rd._N).scale * x) := by
  obtain ⟨h1, h2, h3⟩ := STAR_V_local_column A.grid A.ColDist A.logical 0 j hg hV hj
  have hH : A.logical.Height = rd._N := hA
  apply via_STAR_V_column (RFUT_X_STAR_local_inverse_columnwise rd FUT) A mixed_A A.ColDist hmg hm
  · rw [List.length_map, List.length_zipWith, hFi, column_length, hD, hH, hA, Nat.min_self]
  · rw [← h3]
    exact RFUT_X_STAR_local_inverse_column rd FUT _ _ hD (h1.trans hH) hFi h2

theorem map_mul_zipWith_comm [CommRing α] (k : α) (D w : List α) :
    (List.zipWith (fun g x => g * x) D w).map (fun x => k * x)
      = List.zipWith (fun g x => g * x) D (w.map (fun x => k * x)) := by
  induction D generalizing w with
  | nil => rfl
  | cons g D ih =>
    cases w with
    | nil => rfl
    | cons a t =>
      simp only [List.zipWith_cons_cons, List.map_cons, ih]
      rw [mul_left_comm]

theorem zipWith_pm_twice [CommRing α] (D x : List α) (hlen : D.length = x.length)
    (hpm : ∀ g, g ∈ D → g = 1 ∨ g = -1) :
    List.zipWith (fun g x => g * x) D (List.zipWith (fun g x => g * x) D x) = x := by
  induction D generalizing x with
  | nil =>
    cases x with
    | nil => rfl
    | cons a t => simp at hlen
  | cons g D ih =>
    cases x with
    | nil => simp at hlen
    | cons a t =>
      have hg := hpm g (List.mem_cons_self _ _)
      have ht := ih t (by simpa using hlen) (fun g' h' => hpm g' (List.mem_cons_of_mem _ h'))
      simp only [List.zipWith_cons_cons, ht]
      rcases hg with h | h <;> rw [h] <;> simp

/-- For any diagonal, the round trip of the `[VC/VR, STAR]` columnwise RFUT (apply, then
apply_inverse) multiplies coordinate `i` of every column by `D[i] * D[i]`, when the
inverse adapter undoes the forward one in the order the code composes them. -/
theorem RFUT_round_trip_column [CommRing α] (rd : RFUT_data_t α)
    (FUT : Nat → FUT_t α) (A mixed_A mixed_B : El.DistMatrix α)
    (hV : A.ColDist = .VC ∨ A.ColDist = .VR) (hg : 0 < A.grid.Size)
    (hmg : 0 < mixed_A.grid.Size)
    (hm : (mixed_A.ColDist = .VC ∨ mixed_A.ColDist = .VR) ∧ mixed_A.RowDist = .STAR)
    (hbg : 0 < mixed_B.grid.Size)
    (hb : (mixed_B.ColDist = .VC ∨ mixed_B.ColDist = .VR) ∧ mixed_B.RowDist = .STAR)
    (hD : rd.D.length = rd._N) (hA : A.Height = rd._N)
    (hF : ∀ v, ((FUT rd._N).apply v).length = v.length)
    (hFi : ∀ v, ((FUT rd._N).apply_inverse v).length = v.length)
    (hinv : ∀ v, v.length = rd._N →
      ((FUT rd._N).apply_inverse ((FUT rd._N).apply
        (v.map (fun x => (FUT rd._N).scale * x)))).map (fun x => (FUT rd._N).scale * x) = v)
    (j : Nat) (hj : j < A.Width) :
    (RFUT_X_STAR_apply_inverse_impl_vdist_columnwise rd FUT
        (RFUT_X_STAR_apply_impl_vdist_columnwise rd FUT A mixed_A) mixed_B).logical.column j
      = List.zipWith (fun g x => g * x) rd.D
          (List.zipWith (fun g x => g * x) rd.D (A.logical.column j)) := by
  have hY := RFUT_X_STAR_columnwise_logical_column rd FUT A mixed_A hV hg hmg hm hD hA hF j hj
  rw [RFUT_X_STAR_inverse_logical_column rd FUT
      (RFUT_X_STAR_apply_impl_vdist_columnwise rd FUT A mixed_A) mixed_B hm.1 hmg hbg hb hD hA hFi
      j hj, hY, map_mul_zipWith_comm, hinv]
  rw [List.length_zipWith, column_length, hD]
  show min rd._N A.Height = rd._N
  rw [hA, Nat.min_self]

theorem F0_inverse_length [CommRing α] (s : α) (v : List α) :
    ((F0 s).apply_inverse v).length = v.length := by
  rcases v with _ | ⟨a, _ | ⟨b, _ | ⟨c, t⟩⟩⟩ <;> rfl

theorem F0_round_trip (v : List ℝ) (hv : v.length = 2) :
    ((F0 (1 / Real.sqrt 2)).apply_inverse ((F0 (1 / Real.sqrt 2)).apply
      (v.map (fun x => (F0 (1 / Real.sqrt 2)).scale * x)))).map
        (fun x => (F0 (1 / Real.sqrt 2)).scale * x) = v := by
  rcases v with _ | ⟨a, _ | ⟨b, _ | ⟨c, t⟩⟩⟩
  · simp at hv
  · simp at hv
  · have e : (1 / Real.sqrt 2) * (1 / Real.sqrt 2) = 1 / 2 := by
      have h : Real.sqrt 2 ≠ 0 := by positivity
      field_simp
    show [(1 / Real.sqrt 2) * ((1 / Real.sqrt 2) * a + (1 / Real.sqrt 2) * b
          + ((1 / Real.sqrt 2) * a - (1 / Real.sqrt 2) * b)),
        (1 / Real.sqrt 2) * ((1 / Real.sqrt 2) * a + (1 / Real.sqrt 2) * b
          - ((1 / Real.sqrt 2) * a - (1 / Real.sqrt 2) * b))] = [a, b]
    have e1 : (1 / Real.sqrt 2) * ((1 / Real.sqrt 2) * a + (1 / Real.sqrt 2) * b
          + ((1 / Real.sqrt 2) * a - (1 / Real.sqrt 2) * b)) = a := by
      calc _ = ((1 / Real.sqrt 2) * (1 / Real.sqrt 2)) * (2 * a) := by ring
        _ = a := by rw [e]; ring
    have e2 : (1 / Real.sqrt 2) * ((1 / Real.sqrt 2) * a + (1 / Real.sqrt 2) * b
          - ((1 / Real.sqrt 2) * a - (1 / Real.sqrt 2) * b)) = b := by
      calc _ = ((1 / Real.sqrt 2) * (1 / Real.sqrt 2)) * (2 * b) := by ring
        _ = b := by rw [e]; ring
    rw [e1, e2]
  · simp at hv

theorem Fid_round_trip [CommRing α] (v : List α) :
    ((Fid : FUT_t α).apply_inverse ((Fid : FUT_t α).apply
      (v.map (fun x => (Fid : FUT_t α).scale * x)))).map
        (fun x => (Fid : FUT_t α).scale * x) = v := by
  show (v.map (fun x => (1 : α) * x)).map (fun x => (1 : α) * x) = v
  simp

/-- C11 as stated fails: with the diagonal `D = [2, 2]` and the identity transform (which
is invertible, and whose inverse adapter undoes it), the columnwise round trip on the
`[VC, STAR]` matrix with the single column `[1, 1]` returns the column `[4, 4]`. -/
theorem RFUT_round_trip_fails :
    (∀ v : List ℚ, (Fid : FUT_t ℚ).apply_inverse ((Fid : FUT_t ℚ).apply v) = v) ∧
    (El.distribute .VC .STAR ⟨1, 1⟩ (ofColumns 2 [[(1 : ℚ), 1]])).logical.column 0 = [1, 1] ∧
    (RFUT_X_STAR_apply_inverse_impl_vdist_columnwise ⟨2, [2, 2]⟩ (fun _ => Fid)
        (RFUT_X_STAR_apply_impl_vdist_columnwise ⟨2, [2, 2]⟩ (fun _ => Fid)
          (El.distribute .VC .STAR ⟨1, 1⟩ (ofColumns 2 [[(1 : ℚ), 1]]))
          (El.DistMatrix.alloc .VC .STAR ⟨1, 1⟩ 2 1 (fun _ _ _ => 0)))
        (El.DistMatrix.alloc .VC .STAR ⟨1, 1⟩ 2 1 (fun _ _ _ => 0))).logical.column 0
      = [4, 4] ∧
    (RFUT_X_STAR_apply_inverse_impl_vdist_columnwise ⟨2, [2, 2]⟩ (fun _ => Fid)
        (RFUT_X_STAR_apply_impl_vdist_columnwise ⟨2, [2, 2]⟩ (fun _ => Fid)
          (El.distribute .VC .STAR ⟨1, 1⟩ (ofColumns 2 [[(1 : ℚ), 1]]))
          (El.DistMatrix.alloc .VC .STAR ⟨1, 1⟩ 2 1 (fun _ _ _ => 0)))
        (El.DistMatrix.alloc .VC .STAR ⟨1, 1⟩ 2 1 (fun _ _ _ => 0))).logical.column 0
      ≠ (El.distribute .VC .STAR ⟨1, 1⟩ (ofColumns 2 [[(1 : ℚ), 1]])).logical.column 0 := by
  have hcol : (El.distribute .VC .STAR ⟨1, 1⟩ (ofColumns 2 [[(1 : ℚ), 1]])).logical.column 0
      = [1, 1] := rfl
  have h4 : (RFUT_X_STAR_apply_inverse_impl_vdist_columnwise ⟨2, [2, 2]⟩ (fun _ => Fid)
        (RFUT_X_STAR_apply_impl_vdist_columnwise ⟨2, [2, 2]⟩ (fun _ => Fid)
          (El.distribute .VC .STAR ⟨1, 1⟩ (ofColumns 2 [[(1 : ℚ), 1]]))
          (El.DistMatrix.alloc .VC .STAR ⟨1, 1⟩ 2 1 (fun _ _ _ => 0)))
        (El.DistMatrix.alloc .VC .STAR ⟨1, 1⟩ 2 1 (fun _ _ _ => 0))).logical.column 0
      = [4, 4] := by
    rw [RFUT_round_trip_column (⟨2, [2, 2]⟩ : RFUT_data_t ℚ) (fun _ => Fid)
      (El.distribute .VC .STAR ⟨1, 1⟩ (ofColumns 2 [[(1 : ℚ), 1]]))
      (El.DistMatrix.alloc .VC .STAR ⟨1, 1⟩ 2 1 (fun _ _ _ => 0))
      (El.DistMatrix.alloc .VC .STAR ⟨1, 1⟩ 2 1 (fun _ _ _ => 0))
      (Or.inl rfl) (by decide) (by decide) ⟨Or.inl rfl, rfl⟩ (by decide) ⟨Or.inl rfl, rfl⟩
      rfl rfl (fun v => Fid_length v) (fun v => rfl) (fun v _ => Fid_round_trip v) 0
      (by decide), hcol]
    show [(2 : ℚ) * (2 * 1), 2 * (2 * 1)] = [4, 4]
    norm_num
  refine ⟨fun v => rfl, hcol, h4, ?_⟩
  rw [h4, hcol]
  norm_num

/-- C11, amended: for a diagonal `D` of length `N` with entries `+1` or `-1`, adapters
`apply` / `apply_inverse` that preserve length and such that `scale() * apply_inverse`
undoes `apply` of a `scale()`-multiple, and a `[VC/VR, STAR]` matrix `A` with `N` rows on
a non-empty grid, the columnwise `apply_inverse` of the columnwise `apply` of `A` has the
dimensions and every global column of `A`. -/
theorem RFUT_round_trip [CommRing α] (rd : RFUT_data_t α)
    (FUT : Nat → FUT_t α) (A mixed_A mixed_B : El.DistMatrix α)
    (hV : A.ColDist = .VC ∨ A.ColDist = .VR) (hg : 0 < A.grid.Size)
    (hmg : 0 < mixed_A.grid.Size)
    (hm : (mixed_A.ColDist = .VC ∨ mixed_A.ColDist = .VR) ∧ mixed_A.RowDist = .STAR)
    (hbg : 0 < mixed_B.grid.Size)
    (hb : (mixed_B.ColDist = .VC ∨ mixed_B.ColDist = .VR) ∧ mixed_B.RowDist = .STAR)
    (hD : rd.D.length = rd._N) (hA : A.Height = rd._N)
    (hpm : ∀ g, g ∈ rd.D → g = 1 ∨ g = -1)
    (hF : ∀ v, ((FUT rd._N).apply v).length = v.length)
    (hFi : ∀ v, ((FUT rd._N).apply_inverse v).length = v.length)
    (hinv : ∀ v, v.length = rd._N →
      ((FUT rd._N).apply_inverse ((FUT rd._N).apply
        (v.map (fun x => (FUT rd._N).scale * x)))).map (fun x => (FUT rd._N).scale * x) = v) :
    (RFUT_X_STAR_apply_inverse_impl_vdist_columnwise rd FUT
        (RFUT_X_STAR_apply_impl_vdist_columnwise rd FUT A mixed_A) mixed_B).Height = A.Height ∧
    (RFUT_X_STAR_apply_inverse_impl_vdist_columnwise rd FUT
        (RFUT_X_STAR_apply_impl_vdist_columnwise rd FUT A mixed_A) mixed_B).Width = A.Width ∧
    ∀ j, j < A.Width →
      (RFUT_X_STAR_apply_inverse_impl_vdist_columnwise rd FUT
          (RFUT_X_STAR_apply_impl_vdist_columnwise rd FUT A mixed_A) mixed_B).logical.column j
        = A.logical.column j := by
  refine ⟨rfl, rfl, ?_⟩
  intro j hj
  rw [RFUT_round_trip_column rd FUT A mixed_A mixed_B hV hg hmg hm hbg hb hD hA hF hFi hinv j hj]
  apply zipWith_pm_twice _ _ _ hpm
  rw [column_length, hD]
  exact hA.symm

/-- C11 (amended) at `N = 2`, `D = [1, -1]`, the butterfly `F0` with
`scale() = 1 / sqrt 2`, and the `[VC, STAR]` matrix with the single column `[1, 1]` on
one process. -/
theorem RFUT_round_trip_witness :
    (∀ g : ℝ, g ∈ (⟨2, [1, -1]⟩ : RFUT_data_t ℝ).D → g = 1 ∨ g = -1) ∧
    (RFUT_X_STAR_apply_inverse_impl_vdist_columnwise ⟨2, [1, -1]⟩
        (fun _ => F0 (1 / Real.sqrt 2))
        (RFUT_X_STAR_apply_impl_vdist_columnwise ⟨2, [1, -1]⟩ (fun _ => F0 (1 / Real.sqrt 2))
          (El.distribute .VC .STAR ⟨1, 1⟩ (ofColumns 2 [[(1 : ℝ), 1]]))
          (El.DistMatrix.alloc .VC .STAR ⟨1, 1⟩ 2 1 (fun _ _ _ => 0)))
        (El.DistMatrix.alloc .VC .STAR ⟨1, 1⟩ 2 1 (fun _ _ _ => 0))).logical.column 0
      = (El.distribute .VC .STAR ⟨1, 1⟩ (ofColumns 2 [[(1 : ℝ), 1]])).logical.column 0 :=
  ⟨by
      intro g hg
      simp only [List.mem_cons, List.mem_singleton, List.not_mem_nil, or_false] at hg
      exact hg,
    (RFUT_round_trip (⟨2, [1, -1]⟩ : RFUT_data_t ℝ) (fun _ => F0 (1 / Real.sqrt 2))
      (El.distribute .VC .STAR ⟨1, 1⟩ (ofColumns 2 [[(1 : ℝ), 1]]))
      (El.DistMatrix.alloc .VC .STAR ⟨1, 1⟩ 2 1 (fun _ _ _ => 0))
      (El.DistMatrix.alloc .VC .STAR ⟨1, 1⟩ 2 1 (fun _ _ _ => 0))
      (Or.inl rfl) (by decide) (by decide) ⟨Or.inl rfl, rfl⟩ (by decide) ⟨Or.inl rfl, rfl⟩
      rfl rfl
      (by
        intro g hg
        simp only [List.mem_cons, List.mem_singleton, List.not_mem_nil, or_false] at hg
        exact hg)
      (fun v => F0_length _ v) (fun v => F0_inverse_length _ v)
      (fun v hv => F0_round_trip v hv)).2.2 0 (by decide)⟩

theorem zipWith_div_pm [Field α] (D w : List α) (hpm : ∀ g, g ∈ D → g = 1 ∨ g = -1) :
    List.zipWith (fun g y => y / g) D w = List.zipWith (fun g x => g * x) D w := by
  induction D generalizing w with
  | nil => rfl
  | cons g D ih =>
    cases w with
    | nil => rfl
    | cons a t =>
      have hg := hpm g (List.mem_cons_self _ _)
      have ht := ih t (fun g' h' => hpm g' (List.mem_cons_of_mem _ h'))
      simp only [List.zipWith_cons_cons, ht]
      rcases hg with h | h <;> rw [h] <;> simp [div_neg]

/-- C12 as stated fails: with the non-zero diagonal `D = [2, 2]` and the identity
transform, the columnwise apply_inverse of the `[VC, STAR]` matrix with the single column
`[1, 1]` returns `[2, 2]` (it multiplies by `D`), while dividing the inverse transform of
the column by `D` gives `[1/2, 1/2]`. -/
theorem RFUT_inverse_multiplies :
    (∀ g : ℚ, g ∈ (⟨2, [2, 2]⟩ : RFUT_data_t ℚ).D → g ≠ 0) ∧
    (RFUT_X_STAR_apply_inverse_impl_vdist_columnwise ⟨2, [2, 2]⟩ (fun _ => Fid)
        (El.distribute .VC .STAR ⟨1, 1⟩ (ofColumns 2 [[(1 : ℚ), 1]]))
        (El.DistMatrix.alloc .VC .STAR ⟨1, 1⟩ 2 1 (fun _ _ _ => 0))).logical.column 0
      = [2, 2] ∧
    spec_RFUT_inverse [2, 2] (Fid : FUT_t ℚ)
        ((El.distribute .VC .STAR ⟨1, 1⟩ (ofColumns 2 [[(1 : ℚ), 1]])).logical.column 0)
      = [1 / 2, 1 / 2] ∧
    (RFUT_X_STAR_apply_inverse_impl_vdist_columnwise ⟨2, [2, 2]⟩ (fun _ => Fid)
        (El.distribute .VC .STAR ⟨1, 1⟩ (ofColumns 2 [[(1 : ℚ), 1]]))
        (El.DistMatrix.alloc .VC .STAR ⟨1, 1⟩ 2 1 (fun _ _ _ => 0))).logical.column 0
      ≠ spec_RFUT_inverse [2, 2] (Fid : FUT_t ℚ)
          ((El.distribute .VC .STAR ⟨1, 1⟩ (ofColumns 2 [[(1 : ℚ), 1]])).logical.column 0) := by
  have hcol : (El.distribute .VC .STAR ⟨1, 1⟩ (ofColumns 2 [[(1 : ℚ), 1]])).logical.column 0
      = [1, 1] := rfl
  have h2 : (RFUT_X_STAR_apply_inverse_impl_vdist_columnwise ⟨2, [2, 2]⟩ (fun _ => Fid)
        (El.distribute .VC .STAR ⟨1, 1⟩ (ofColumns 2 [[(1 : ℚ), 1]]))
        (El.DistMatrix.alloc .VC .STAR ⟨1, 1⟩ 2 1 (fun _ _ _ => 0))).logical.column 0
      = [2, 2] := by
    rw [RFUT_X_STAR_inverse_logical_column (⟨2, [2, 2]⟩ : RFUT_data_t ℚ) (fun _ => Fid)
      (El.distribute .VC .STAR ⟨1, 1⟩ (ofColumns 2 [[(1 : ℚ), 1]]))
      (El.DistMatrix.alloc .VC .STAR ⟨1, 1⟩ 2 1 (fun _ _ _ => 0))
      (Or.inl rfl) (by decide) (by decide) ⟨Or.inl rfl, rfl⟩ rfl rfl (fun v => rfl) 0
      (by decide), hcol]
    show [(1 : ℚ) * (2 * 1), 1 * (2 * 1)] = [2, 2]
    norm_num
  have h3 : spec_RFUT_inverse [2, 2] (Fid : FUT_t ℚ)
        ((El.distribute .VC .STAR ⟨1, 1⟩ (ofColumns 2 [[(1 : ℚ), 1]])).logical.column 0)
      = [1 / 2, 1 / 2] := by
    rw [hcol]
    show [(1 : ℚ) * 1 / 2, 1 * 1 / 2] = [1 / 2, 1 / 2]
    norm_num
  refine ⟨?_, h2, h3, ?_⟩
  · intro g hg
    simp only [List.mem_cons, List.mem_singleton, List.not_mem_nil, or_false] at hg
    rcases hg with h | h <;> rw [h] <;> norm_num
  · rw [h2, h3]
    norm_num

/-- C12, amended: for a diagonal `D` of length `N`, a length-preserving inverse adapter
and a `[VC/VR, STAR]` matrix `A` with `N` rows on a non-empty grid, the columnwise RFUT
apply_inverse leaves in every global column `j` the vector
`scale() * D ⊙ apply_inverse(A[:, j])`: it undoes the fast transform and then multiplies
coordinate `i` by `scale() * D[i]`. When every entry of `D` is `+1` or `-1`, this is the
normalised inverse transform of the column divided coordinatewise by `D`. -/
theorem RFUT_inverse_formula [Field α] (rd : RFUT_data_t α)
    (FUT : Nat → FUT_t α) (A mixed_A : El.DistMatrix α)
    (hV : A.ColDist = .VC ∨ A.ColDist = .VR) (hg : 0 < A.grid.Size)
    (hmg : 0 < mixed_A.grid.Size)
    (hm : (mixed_A.ColDist = .VC ∨ mixed_A.ColDist = .VR) ∧ mixed_A.RowDist = .STAR)
    (hD : rd.D.length = rd._N) (hA : A.Height = rd._N)
    (hFi : ∀ v, ((FUT rd._N).apply_inverse v).length = v.length) (j : Nat) (hj : j < A.Width) :
    (RFUT_X_STAR_apply_inverse_impl_vdist_columnwise rd FUT A mixed_A).logical.column j
      = (List.zipWith (fun g x => g * x) rd.D
          ((FUT rd._N).apply_inverse (A.logical.column j))).map
            (fun x => (FUT rd._N).scale * x) ∧
    ((∀ g, g ∈ rd.D → g = 1 ∨ g = -1) →
      (RFUT_X_STAR_apply_inverse_impl_vdist_columnwise rd FUT A mixed_A).logical.column j
        = spec_RFUT_inverse rd.D (FUT rd._N) (A.logical.column j)) := by
  have h := RFUT_X_STAR_inverse_logical_column rd FUT A mixed_A hV hg hmg hm hD hA hFi j hj
  refine ⟨h, ?_⟩
  intro hpm
  rw [h, map_mul_zipWith_comm]
  unfold spec_RFUT_inverse
  rw [zipWith_div_pm _ _ hpm]

/-- C12 (amended) at `N = 2`, `D = [1, -1]`, the identity transform and the `[VC, STAR]`
matrix with the single column `[1, 1]` on one process: the output column is `[1, -1]`,
which is the column divided by `D`. -/
theorem RFUT_inverse_formula_witness :
    (⟨2, [1, -1]⟩ : RFUT_data_t ℚ).D.length = (⟨2, [1, -1]⟩ : RFUT_data_t ℚ)._N ∧
    (RFUT_X_STAR_apply_inverse_impl_vdist_columnwise ⟨2, [1, -1]⟩ (fun _ => Fid)
        (El.distribute .VC .STAR ⟨1, 1⟩ (ofColumns 2 [[(1 : ℚ), 1]]))
        (El.DistMatrix.alloc .VC .STAR ⟨1, 1⟩ 2 1 (fun _ _ _ => 0))).logical.column 0
      = (List.zipWith (fun g x => g * x) [1, -1]
          ((Fid : FUT_t ℚ).apply_inverse
            ((El.distribute .VC .STAR ⟨1, 1⟩ (ofColumns 2 [[(1 : ℚ), 1]])).logical.column
              0))).map (fun x => (Fid : FUT_t ℚ).scale * x) :=
  ⟨rfl,
    (RFUT_inverse_formula (⟨2, [1, -1]⟩ : RFUT_data_t ℚ) (fun _ => Fid)
      (El.distribute .VC .STAR ⟨1, 1⟩ (ofColumns 2 [[(1 : ℚ), 1]]))
      (El.DistMatrix.alloc .VC .STAR ⟨1, 1⟩ 2 1 (fun _ _ _ => 0))
      (Or.inl rfl) (by decide) (by decide) ⟨Or.inl rfl, rfl⟩ rfl rfl (fun v => rfl) 0
      (by decide)).1⟩

/-- Entry `(i, j)` of the output of the `[STAR, VC/VR]` columnwise RFUT apply, read from
its owner: coordinate `i` of `F(scale * D ⊙ X[:, j])`. -/
theorem RFUT_STAR_X_columnwise_logical_column [CommRing α] (rd : RFUT_data_t α)
    (FUT : Nat → FUT_t α) (g : El.Grid) (V : El.Distribution) (X : El.Matrix α)
    (mixed_A : El.DistMatrix α) (hg : 0 < g.Size) (hV : V = .VC ∨ V = .VR)
    (hmC : mixed_A.ColDist = .STAR) (hmR : mixed_A.RowDist = V) (hmg : mixed_A.grid = g)
    (hmH : mixed_A.Height = rd._N) (hmL : ∀ q, (mixed_A.Matrix q).Height = rd._N)
    (hD : rd.D.length = rd._N) (hX : X.Height = rd._N)
    (hF : ∀ v, ((FUT rd._N).apply v).length = v.length) (j : Nat) (hj : j < X.Width) :
    (RFUT_STAR_X_apply_impl_vdist_columnwise rd FUT (El.distribute .STAR V g X)
        mixed_A).logical.column j
      = (FUT rd._N).apply
          ((List.zipWith (fun g x => g * x) rd.D (X.column j)).map
            (fun x => (FUT rd._N).scale * x)) := by
  obtain ⟨h1, h2, h3⟩ := STAR_V_local_column g V X 0 j hg hV hj
  obtain ⟨sC, sR, sg, sh, sw, sM⟩ := mixed_A
  simp only at hmC hmR hmg hmH hmL
  subst hmC hmR hmg
  have hloc := RFUT_local_columnwise_column rd FUT
    ((El.distribute .STAR sR sg X).Matrix
      (El.RankOf sg .STAR (0 % El.Stride sg .STAR) + El.RankOf sg sR (j % El.Stride sg sR)))
    (sM (El.RankOf sg .STAR (0 % El.Stride sg .STAR) + El.RankOf sg sR (j % El.Stride sg sR)))
    (j / El.Stride sg sR) hD (h1.trans hX) (hmL _) hF h2
  rw [h3] at hloc
  apply column_eq_of
  · show sh = _
    rw [hF, List.length_map, List.length_zipWith, column_length, hD, hX, hmH, Nat.min_self]
  · intro i hi
    have e : ∀ R : El.DistMatrix α, R.logical.Get i j = R.Get i j := fun _ => rfl
    rw [e]
    show _ = some ((RFUT_STAR_X_local_columnwise rd FUT
      ((El.distribute .STAR sR sg X).Matrix
        (El.RankOf sg .STAR (i % El.Stride sg .STAR) + El.RankOf sg sR (j % El.Stride sg sR)))
      (sM (El.RankOf sg .STAR (i % El.Stride sg .STAR)
        + El.RankOf sg sR (j % El.Stride sg sR)))).Get
      (i / El.Stride sg .STAR) (j / El.Stride sg sR))
    have hi1 : i / El.Stride sg .STAR = i := Nat.div_one i
    have h0 : El.RankOf sg .STAR (i % El.Stride sg .STAR)
        = El.RankOf sg .STAR (0 % El.Stride sg .STAR) := rfl
    rw [hi1, h0]
    have hc := column_getElem? (RFUT_STAR_X_local_columnwise rd FUT
      ((El.distribute .STAR sR sg X).Matrix
        (El.RankOf sg .STAR (0 % El.Stride sg .STAR) + El.RankOf sg sR (j % El.Stride sg sR)))
      (sM (El.RankOf sg .STAR (0 % El.Stride sg .STAR)
        + El.RankOf sg sR (j % El.Stride sg sR)))) (j / El.Stride sg sR) i
    rw [hloc] at hc
    rw [hc, if_pos]
    have hlen := column_length (RFUT_STAR_X_local_columnwise rd FUT
      ((El.distribute .STAR sR sg X).Matrix
        (El.RankOf sg .STAR (0 % El.Stride sg .STAR) + El.RankOf sg sR (j % El.Stride sg sR)))
      (sM (El.RankOf sg .STAR (0 % El.Stride sg .STAR)
        + El.RankOf sg sR (j % El.Stride sg sR)))) (j / El.Stride sg sR)
    rw [hloc] at hlen
    omega

theorem distribute_logical_column (g : El.Grid) (U V : El.Distribution) (hg : 0 < g.Size)
    (hUV : (U = .STAR ∧ (V = .VC ∨ V = .VR)) ∨ ((U = .VC ∨ U = .VR) ∧ V = .STAR)
      ∨ (U = .MC ∧ V = .MR)) (M : El.Matrix α) (j : Nat) :
    (El.distribute U V g M).logical.column j = M.column j := by
  unfold El.Matrix.column
  apply List.map_congr_left
  intro i _
  exact El.distribute_Get g U V hg hUV M i j

/-- C13: for a logical matrix `X` with `N` rows, a diagonal of length `N`, a
length-preserving transform and a non-empty grid, the columnwise RFUT apply gives the same
logical output (the same dimensions and the same global columns) when `X` is held in the
`[VC/VR, STAR]` layout (redistribute to `[STAR, VC/VR]`, scale in place, transform,
redistribute back) as when it is held in the `[STAR, VC/VR]` layout (scale into the output
and transform the local slice), the output of the latter being pre-sized to `N` rows and
the width of `X`. -/
theorem RFUT_columnwise_layouts_agree [CommRing α] (rd : RFUT_data_t α)
    (FUT : Nat → FUT_t α) (g : El.Grid) (V : El.Distribution) (X : El.Matrix α)
    (mixed_A mixed_B : El.DistMatrix α) (hg : 0 < g.Size) (hV : V = .VC ∨ V = .VR)
    (hmg : 0 < mixed_A.grid.Size)
    (hm : (mixed_A.ColDist = .VC ∨ mixed_A.ColDist = .VR) ∧ mixed_A.RowDist = .STAR)
    (hbC : mixed_B.ColDist = .STAR) (hbR : mixed_B.RowDist = V) (hbg : mixed_B.grid = g)
    (hbH : mixed_B.Height = rd._N) (hbW : mixed_B.Width = X.Width)
    (hbL : ∀ q, (mixed_B.Matrix q).Height = rd._N)
    (hD : rd.D.length = rd._N) (hX : X.Height = rd._N)
    (hF : ∀ v, ((FUT rd._N).apply v).length = v.length) :
    (RFUT_X_STAR_apply_impl_vdist_columnwise rd FUT (El.distribute V .STAR g X)
        mixed_A).logical.Height
      = (RFUT_STAR_X_apply_impl_vdist_columnwise rd FUT (El.distribute .STAR V g X)
          mixed_B).logical.Height ∧
    (RFUT_X_STAR_apply_impl_vdist_columnwise rd FUT (El.distribute V .STAR g X)
        mixed_A).logical.Width
      = (RFUT_STAR_X_apply_impl_vdist_columnwise rd FUT (El.distribute .STAR V g X)
          mixed_B).logical.Width ∧
    ∀ j, j < X.Width →
      (RFUT_X_STAR_apply_impl_vdist_columnwise rd FUT (El.distribute V .STAR g X)
          mixed_A).logical.column j
        = (RFUT_STAR_X_apply_impl_vdist_columnwise rd FUT (El.distribute .STAR V g X)
            mixed_B).logical.column j := by
  refine ⟨?_, ?_, ?_⟩
  · show X.Height = mixed_B.Height
    rw [hX, hbH]
  · show X.Width = mixed_B.Width
    rw [hbW]
  · intro j hj
    rw [RFUT_STAR_X_columnwise_logical_column rd FUT g V X mixed_B hg hV hbC hbR hbg hbH hbL hD
        hX hF j hj,
      RFUT_X_STAR_columnwise_logical_column rd FUT (El.distribute V .STAR g X) mixed_A hV hg hmg
        hm hD hX hF j hj,
      distribute_logical_column g V .STAR hg (Or.inr (Or.inl ⟨hV, rfl⟩))]

/-- C13 at `N = 2`, `D = [1, -1]`, the butterfly `F0` with `scale() = 1 / sqrt 2`, the
logical matrix with the columns `[1, 1]` and `[3, 5]`, and a `2 x 1` grid. -/
theorem RFUT_columnwise_layouts_agree_witness :
    (0 < (⟨2, 1⟩ : El.Grid).Size) ∧
    ∀ j, j < 2 →
      (RFUT_X_STAR_apply_impl_vdist_columnwise ⟨2, [1, -1]⟩ (fun _ => F0 (1 / Real.sqrt 2))
          (El.distribute .VC .STAR ⟨2, 1⟩ (ofColumns 2 [[(1 : ℝ), 1], [3, 5]]))
          (El.DistMatrix.alloc .VC .STAR ⟨2, 1⟩ 2 2 (fun _ _ _ => 0))).logical.column j
        = (RFUT_STAR_X_apply_impl_vdist_columnwise ⟨2, [1, -1]⟩
            (fun _ => F0 (1 / Real.sqrt 2))
            (El.distribute .STAR .VC ⟨2, 1⟩ (ofColumns 2 [[(1 : ℝ), 1], [3, 5]]))
            (El.DistMatrix.alloc .STAR .VC ⟨2, 1⟩ 2 2 (fun _ _ _ => 0))).logical.column j :=
  ⟨by decide,
    (RFUT_columnwise_layouts_agree (⟨2, [1, -1]⟩ : RFUT_data_t ℝ)
      (fun _ => F0 (1 / Real.sqrt 2)) ⟨2, 1⟩ .VC (ofColumns 2 [[(1 : ℝ), 1], [3, 5]])
      (El.DistMatrix.alloc .VC .STAR ⟨2, 1⟩ 2 2 (fun _ _ _ => 0))
      (El.DistMatrix.alloc .STAR .VC ⟨2, 1⟩ 2 2 (fun _ _ _ => 0))
      (by decide) (Or.inl rfl) (by decide) ⟨Or.inl rfl, rfl⟩ rfl rfl rfl rfl rfl
      (fun q => El.Length_one 2) rfl rfl (fun v => F0_length _ v)).2.2⟩

/-! ### Exceptions of the `apply` dispatchers -/

/-- What leaves the handlers around a body that may throw: nothing if nothing was thrown,
`elemental_exception` for a `std::logic_error`, `mpi_exception` for a
`boost::mpi::exception`, and the exception itself for one of another type. -/
theorem try_catch_raising {β : Type} (fault : Option (low_level_exception × β)) (v : β) :
    try_catch (raising fault v)
      = match fault with
        | none => ⟨none, v⟩
        | some (.std_logic_error, s) => ⟨some .elemental_exception, s⟩
        | some (.boost_mpi_exception, s) => ⟨some .mpi_exception, s⟩
        | some (.other, s) => ⟨some (.raw .other), s⟩ := by
  rcases fault with _ | ⟨e, s⟩
  · rfl
  · cases e <;> rfl

theorem try_catch_raising_thrown {β : Type} (fault : Option (low_level_exception × β))
    (v : β) :
    ((try_catch (raising fault v)).thrown = none ∨
      (try_catch (raising fault v)).thrown = some .elemental_exception ∨
      (try_catch (raising fault v)).thrown = some .mpi_exception ∨
      (try_catch (raising fault v)).thrown = some (.raw .other)) ∧
    ((try_catch (raising fault v)).thrown = some .elemental_exception
      ↔ ∃ s, fault = some (.std_logic_error, s)) ∧
    ((try_catch (raising fault v)).thrown = some .mpi_exception
      ↔ ∃ s, fault = some (.boost_mpi_exception, s)) := by
  rw [try_catch_raising]
  rcases fault with _ | ⟨e, s⟩
  · simp
  · cases e <;> simp

theorem try_catch_raising_ne_unsupported {β : Type}
    (fault : Option (low_level_exception × β)) (v : β) :
    (try_catch (raising fault v)).thrown ≠ some .unsupported_matrix_distribution := by
  rw [try_catch_raising]
  rcases fault with _ | ⟨e, s⟩
  · simp
  · cases e <;> simp

theorem X_STAR_apply_unsupported [CommRing α] (dimension : dimension_tag)
    (d : FastRFT_data_t α) (m : MathFns α) (fut : FUT_t α)
    (junk : Nat → Nat → Nat → Nat → α) (junk_t : Nat → Nat → Nat → α)
    (fault : Option (low_level_exception × El.DistMatrix α))
    (A sketch_of_A : El.DistMatrix α) :
    ((X_STAR_apply dimension d m fut junk junk_t fault A sketch_of_A).thrown
        = some .unsupported_matrix_distribution ↔ (A.ColDist ≠ .VC ∧ A.ColDist ≠ .VR)) ∧
    ((A.ColDist ≠ .VC ∧ A.ColDist ≠ .VR) →
      X_STAR_apply dimension d m fut junk junk_t fault A sketch_of_A
        = ⟨some .unsupported_matrix_distribution, sketch_of_A⟩) := by
  obtain ⟨aC, aR, ag, ah, aw, aM⟩ := A
  cases aC <;>
    simp [X_STAR_apply, try_catch_raising_ne_unsupported]

theorem STAR_X_apply_columnwise_unsupported [CommRing α]
    (d : FastRFT_data_t α) (m : MathFns α) (fut : FUT_t α)
    (junk : Nat → Nat → Nat → Nat → α)
    (fault : Option (low_level_exception × El.DistMatrix α))
    (A sketch_of_A : El.DistMatrix α) :
    ((STAR_X_apply_columnwise d m fut junk fault A sketch_of_A).thrown
        = some .unsupported_matrix_distribution ↔ (A.RowDist ≠ .VC ∧ A.RowDist ≠ .VR)) ∧
    ((A.RowDist ≠ .VC ∧ A.RowDist ≠ .VR) →
      STAR_X_apply_columnwise d m fut junk fault A sketch_of_A
        = ⟨some .unsupported_matrix_distribution, sketch_of_A⟩) := by
  obtain ⟨aC, aR, ag, ah, aw, aM⟩ := A
  cases aR <;>
    simp [STAR_X_apply_columnwise, try_catch_raising_ne_unsupported]

theorem STAR_X_rowwise_none (fuel : Nat) (junk : Nat → Nat → Nat → Nat → α)
    (A sketch_of_A : El.DistMatrix α) :
    STAR_X_apply_impl_vdist_rowwise fuel junk A sketch_of_A = none := by
  induction fuel generalizing A sketch_of_A with
  | zero => rfl
  | succ n ih =>
    unfold STAR_X_apply_impl_vdist_rowwise
    simp only [ih]

theorem STAR_X_apply_rowwise_supported (fuel : Nat) (junk : Nat → Nat → Nat → Nat → α)
    (fault : Option (low_level_exception × El.DistMatrix α))
    (A sketch_of_A : El.DistMatrix α) (h : A.RowDist = .VC ∨ A.RowDist = .VR) :
    STAR_X_apply_rowwise fuel junk fault A sketch_of_A
      = match fault with
        | none => none
        | some (.std_logic_error, s) => some ⟨some .elemental_exception, s⟩
        | some (.boost_mpi_exception, s) => some ⟨some .mpi_exception, s⟩
        | some (.other, s) => some ⟨some (.raw .other), s⟩ := by
  obtain ⟨aC, aR, ag, ah, aw, aM⟩ := A
  simp only at h
  rcases h with h | h <;> subst h
  all_goals
    rcases fault with _ | ⟨e, s⟩
    · simp only [STAR_X_apply_rowwise, STAR_X_rowwise_none]
    · cases e <;> rfl

theorem STAR_X_apply_rowwise_unsupported (fuel : Nat) (junk : Nat → Nat → Nat → Nat → α)
    (fault : Option (low_level_exception × El.DistMatrix α))
    (A sketch_of_A : El.DistMatrix α) :
    ((∃ o, STAR_X_apply_rowwise fuel junk fault A sketch_of_A = some o ∧
        o.thrown = some .unsupported_matrix_distribution)
      ↔ (A.RowDist ≠ .VC ∧ A.RowDist ≠ .VR)) ∧
    ((A.RowDist ≠ .VC ∧ A.RowDist ≠ .VR) →
      STAR_X_apply_rowwise fuel junk fault A sketch_of_A
        = some ⟨some .unsupported_matrix_distribution, sketch_of_A⟩) := by
  by_cases h : A.RowDist = .VC ∨ A.RowDist = .VR
  · have hn : ¬(A.RowDist ≠ .VC ∧ A.RowDist ≠ .VR) := by
      rintro ⟨h1, h2⟩
      rcases h with h | h
      · exact h1 h
      · exact h2 h
    refine ⟨⟨?_, fun h' => absurd h' hn⟩, fun h' => absurd h' hn⟩
    rintro ⟨o, ho, ht⟩
    rw [STAR_X_apply_rowwise_supported fuel junk fault A sketch_of_A h] at ho
    rcases fault with _ | ⟨e, s⟩
    · simp at ho
    · cases e <;> simp at ho <;> rw [← ho] at ht <;> simp at ht
  · have hn : A.RowDist ≠ .VC ∧ A.RowDist ≠ .VR := ⟨fun h' => h (Or.inl h'), fun h' => h (Or.inr h')⟩
    have e : STAR_X_apply_rowwise fuel junk fault A sketch_of_A
        = some ⟨some .unsupported_matrix_distribution, sketch_of_A⟩ := by
      obtain ⟨aC, aR, ag, ah, aw, aM⟩ := A
      simp only at hn
      cases aR <;> first | rfl | exact absurd rfl hn.1 | exact absurd rfl hn.2
    exact ⟨⟨fun _ => hn, fun _ => ⟨_, e, rfl⟩⟩, fun _ => e⟩

theorem RFUT_STAR_X_apply_unsupported [CommRing α] (rd : RFUT_data_t α)
    (FUT : Nat → FUT_t α) (fault : Option (low_level_exception × El.DistMatrix α))
    (A mixed_A : El.DistMatrix α) :
    ((RFUT_STAR_X_apply rd FUT fault A mixed_A).thrown
        = some .unsupported_matrix_distribution ↔ (A.RowDist ≠ .VC ∧ A.RowDist ≠ .VR)) ∧
    ((A.RowDist ≠ .VC ∧ A.RowDist ≠ .VR) →
      RFUT_STAR_X_apply rd FUT fault A mixed_A
        = ⟨some .unsupported_matrix_distribution, mixed_A⟩) := by
  obtain ⟨aC, aR, ag, ah, aw, aM⟩ := A
  cases aR <;>
    simp [RFUT_STAR_X_apply, try_catch_raising_ne_unsupported]

theorem RFUT_X_STAR_apply_unsupported [CommRing α] (dimension : dimension_tag)
    (rd : RFUT_data_t α)
    (FUT : Nat → FUT_t α) (fault : Option (low_level_exception × El.DistMatrix α))
    (A mixed_A : El.DistMatrix α) :
    ((RFUT_X_STAR_apply dimension rd FUT fault A mixed_A).thrown
        = some .unsupported_matrix_distribution ↔ (A.ColDist ≠ .VC ∧ A.ColDist ≠ .VR)) ∧
    ((A.ColDist ≠ .VC ∧ A.ColDist ≠ .VR) →
      RFUT_X_STAR_apply dimension rd FUT fault A mixed_A
        = ⟨some .unsupported_matrix_distribution, mixed_A⟩) := by
  obtain ⟨aC, aR, ag, ah, aw, aM⟩ := A
  cases aC <;>
    simp [RFUT_X_STAR_apply, try_catch_raising_ne_unsupported]

theorem RFUT_X_STAR_apply_inverse_unsupported [CommRing α] (rd : RFUT_data_t α)
    (FUT : Nat → FUT_t α) (fault : Option (low_level_exception × El.DistMatrix α))
    (A mixed_A : El.DistMatrix α) :
    ((RFUT_X_STAR_apply_inverse rd FUT fault A mixed_A).thrown
        = some .unsupported_matrix_distribution ↔ (A.ColDist ≠ .VC ∧ A.ColDist ≠ .VR)) ∧
    ((A.ColDist ≠ .VC ∧ A.ColDist ≠ .VR) →
      RFUT_X_STAR_apply_inverse rd FUT fault A mixed_A
        = ⟨some .unsupported_matrix_distribution, mixed_A⟩) := by
  obtain ⟨aC, aR, ag, ah, aw, aM⟩ := A
  cases aC <;>
    simp [RFUT_X_STAR_apply_inverse, try_catch_raising_ne_unsupported]

/-- C14: in the FastRFT and RFUT specialisations over `[X, STAR]` and `[STAR, X]`, `apply`
(and the RFUT `apply_inverse`) throws `unsupported_matrix_distribution` if and only if `X`
is neither `VC` nor `VR`; and in that case the call is exactly that throw, with the output
matrix as it was, whatever the parameters, the input and the behaviour of the
collaborators. -/
theorem unsupported_iff_not_VC_VR [CommRing α] (dimension : dimension_tag)
    (d : FastRFT_data_t α) (m : MathFns α) (fut : FUT_t α) (rd : RFUT_data_t α)
    (FUT : Nat → FUT_t α) (fuel : Nat)
    (junk : Nat → Nat → Nat → Nat → α) (junk_t : Nat → Nat → Nat → α)
    (fault : Option (low_level_exception × El.DistMatrix α))
    (A out : El.DistMatrix α) :
    (((X_STAR_apply dimension d m fut junk junk_t fault A out).thrown
        = some .unsupported_matrix_distribution ↔ (A.ColDist ≠ .VC ∧ A.ColDist ≠ .VR)) ∧
      ((A.ColDist ≠ .VC ∧ A.ColDist ≠ .VR) →
        X_STAR_apply dimension d m fut junk junk_t fault A out
          = ⟨some .unsupported_matrix_distribution, out⟩)) ∧
    (((STAR_X_apply_columnwise d m fut junk fault A out).thrown
        = some .unsupported_matrix_distribution ↔ (A.RowDist ≠ .VC ∧ A.RowDist ≠ .VR)) ∧
      ((A.RowDist ≠ .VC ∧ A.RowDist ≠ .VR) →
        STAR_X_apply_columnwise d m fut junk fault A out
          = ⟨some .unsupported_matrix_distribution, out⟩)) ∧
    (((∃ o, STAR_X_apply_rowwise fuel junk fault A out = some o ∧
          o.thrown = some .unsupported_matrix_distribution)
        ↔ (A.RowDist ≠ .VC ∧ A.RowDist ≠ .VR)) ∧
      ((A.RowDist ≠ .VC ∧ A.RowDist ≠ .VR) →
        STAR_X_apply_rowwise fuel junk fault A out
          = some ⟨some .unsupported_matrix_distribution, out⟩)) ∧
    (((RFUT_STAR_X_apply rd FUT fault A out).thrown
        = some .unsupported_matrix_distribution ↔ (A.RowDist ≠ .VC ∧ A.RowDist ≠ .VR)) ∧
      ((A.RowDist ≠ .VC ∧ A.RowDist ≠ .VR) →
        RFUT_STAR_X_apply rd FUT fault A out
          = ⟨some .unsupported_matrix_distribution, out⟩)) ∧
    (((RFUT_X_STAR_apply dimension rd FUT fault A out).thrown
        = some .unsupported_matrix_distribution ↔ (A.ColDist ≠ .VC ∧ A.ColDist ≠ .VR)) ∧
      ((A.ColDist ≠ .VC ∧ A.ColDist ≠ .VR) →
        RFUT_X_STAR_apply dimension rd FUT fault A out
          = ⟨some .unsupported_matrix_distribution, out⟩)) ∧
    (((RFUT_X_STAR_apply_inverse rd FUT fault A out).thrown
        = some .unsupported_matrix_distribution ↔ (A.ColDist ≠ .VC ∧ A.ColDist ≠ .VR)) ∧
      ((A.ColDist ≠ .VC ∧ A.ColDist ≠ .VR) →
        RFUT_X_STAR_apply_inverse rd FUT fault A out
          = ⟨some .unsupported_matrix_distribution, out⟩)) :=
  ⟨X_STAR_apply_unsupported dimension d m fut junk junk_t fault A out,
    STAR_X_apply_columnwise_unsupported d m fut junk fault A out,
    STAR_X_apply_rowwise_unsupported fuel junk fault A out,
    RFUT_STAR_X_apply_unsupported rd FUT fault A out,
    RFUT_X_STAR_apply_unsupported dimension rd FUT fault A out,
    RFUT_X_STAR_apply_inverse_unsupported rd FUT fault A out⟩

theorem try_catch_raising_translated {β : Type} (fault : Option (low_level_exception × β))
    (v : β) : translated (try_catch (raising fault v)).thrown := by
  rw [try_catch_raising]
  unfold translated
  rcases fault with _ | ⟨e, s⟩
  · simp
  · cases e <;> simp

theorem translated_unsupported : translated (some .unsupported_matrix_distribution) :=
  Or.inr (Or.inl rfl)

theorem X_STAR_apply_translated [CommRing α] (dimension : dimension_tag)
    (d : FastRFT_data_t α) (m : MathFns α) (fut : FUT_t α)
    (junk : Nat → Nat → Nat → Nat → α) (junk_t : Nat → Nat → Nat → α)
    (fault : Option (low_level_exception × El.DistMatrix α))
    (A sketch_of_A : El.DistMatrix α) :
    translated (X_STAR_apply dimension d m fut junk junk_t fault A sketch_of_A).thrown := by
  obtain ⟨aC, aR, ag, ah, aw, aM⟩ := A
  cases aC <;>
    first
    | exact translated_unsupported
    | exact try_catch_raising_translated _ _

theorem STAR_X_apply_columnwise_translated [CommRing α]
    (d : FastRFT_data_t α) (m : MathFns α) (fut : FUT_t α)
    (junk : Nat → Nat → Nat → Nat → α)
    (fault : Option (low_level_exception × El.DistMatrix α))
    (A sketch_of_A : El.DistMatrix α) :
    translated (STAR_X_apply_columnwise d m fut junk fault A sketch_of_A).thrown := by
  obtain ⟨aC, aR, ag, ah, aw, aM⟩ := A
  cases aR <;>
    first
    | exact translated_unsupported
    | exact try_catch_raising_translated _ _

theorem STAR_X_apply_rowwise_translated (fuel : Nat) (junk : Nat → Nat → Nat → Nat → α)
    (fault : Option (low_level_exception × El.DistMatrix α))
    (A sketch_of_A : El.DistMatrix α) (o : outcome (El.DistMatrix α))
    (ho : STAR_X_apply_rowwise fuel junk fault A sketch_of_A = some o) :
    translated o.thrown := by
  by_cases h : A.RowDist = .VC ∨ A.RowDist = .VR
  · rw [STAR_X_apply_rowwise_supported fuel junk fault A sketch_of_A h] at ho
    unfold translated
    rcases fault with _ | ⟨e, s⟩
    · simp at ho
    · cases e <;> simp at ho <;> rw [← ho] <;> simp
  · have hn : A.RowDist ≠ .VC ∧ A.RowDist ≠ .VR :=
      ⟨fun h' => h (Or.inl h'), fun h' => h (Or.inr h')⟩
    rw [(STAR_X_apply_rowwise_unsupported fuel junk fault A sketch_of_A).2 hn] at ho
    simp only [Option.some.injEq] at ho
    rw [← ho]
    exact translated_unsupported

theorem RFUT_STAR_X_apply_translated [CommRing α] (rd : RFUT_data_t α)
    (FUT : Nat → FUT_t α) (fault : Option (low_level_exception × El.DistMatrix α))
    (A mixed_A : El.DistMatrix α) :
    translated (RFUT_STAR_X_apply rd FUT fault A mixed_A).thrown := by
  obtain ⟨aC, aR, ag, ah, aw, aM⟩ := A
  cases aR <;>
    first
    | exact translated_unsupported
    | exact try_catch_raising_translated _ _

theorem RFUT_X_STAR_apply_translated [CommRing α] (dimension : dimension_tag)
    (rd : RFUT_data_t α)
    (FUT : Nat → FUT_t α) (fault : Option (low_level_exception × El.DistMatrix α))
    (A mixed_A : El.DistMatrix α) :
    translated (RFUT_X_STAR_apply dimension rd FUT fault A mixed_A).thrown := by
  obtain ⟨aC, aR, ag, ah, aw, aM⟩ := A
  cases aC <;>
    first
    | exact translated_unsupported
    | exact try_catch_raising_translated _ _

theorem RFUT_X_STAR_apply_inverse_translated [CommRing α] (rd : RFUT_data_t α)
    (FUT : Nat → FUT_t α) (fault : Option (low_level_exception × El.DistMatrix α))
    (A mixed_A : El.DistMatrix α) :
    translated (RFUT_X_STAR_apply_inverse rd FUT fault A mixed_A).thrown := by
  obtain ⟨aC, aR, ag, ah, aw, aM⟩ := A
  cases aC <;>
    first
    | exact translated_unsupported
    | exact try_catch_raising_translated _ _

theorem CIRC_CIRC_apply_translated [CommRing α] (dimension : dimension_tag)
    (d : FastRFT_data_t α) (m : MathFns α) (fut : FUT_t α)
    (junk : Nat → Nat → Nat → Nat → α)
    (fault : Nat → Option (low_level_exception × El.Matrix α))
    (A sketch_of_A : El.DistMatrix α) (q : Nat) :
    translated (CIRC_CIRC_apply dimension d m fut junk fault A sketch_of_A q).thrown := by
  unfold CIRC_CIRC_apply
  by_cases hq : q = 0
  · rw [if_pos hq]
    exact try_catch_raising_translated _ _
  · rw [if_neg hq]
    exact Or.inl rfl

/-- C15 as stated fails: when Elemental throws a `std::logic_error` inside the local
columnwise `apply`, the exception that reaches the caller is `elemental_exception`, which
is neither `unsupported_matrix_distribution` nor `mpi_exception`. -/
theorem local_apply_throws_elemental :
    (local_apply .columnwise_tag worked_example ⟨Real.sqrt, Real.cos⟩ (F0 (1 / Real.sqrt 2))
        (fun _ _ _ => 0) (some (.std_logic_error, ⟨2, 1, fun _ _ => 0⟩))
        (ofColumns 2 [[1, 1]]) ⟨2, 1, fun _ _ => 0⟩).thrown
      = some .elemental_exception ∧
    exception.elemental_exception ≠ .unsupported_matrix_distribution ∧
    exception.elemental_exception ≠ .mpi_exception :=
  ⟨rfl, by decide, by decide⟩

/-- C15, amended: what leaves `apply` (and the RFUT `apply_inverse`) of the local,
`[STAR, STAR]`, `[CIRC, CIRC]`, `[X, STAR]` and `[STAR, X]` specialisations is nothing, or
`unsupported_matrix_distribution`, `elemental_exception`, `mpi_exception`, or an exception
of a type other than `std::logic_error` and `boost::mpi::exception`; a `std::logic_error`
thrown inside leaves as `elemental_exception` and a `boost::mpi::exception` as
`mpi_exception`, and only they do. -/
theorem apply_thrown_kinds [CommRing α] (dimension : dimension_tag)
    (d : FastRFT_data_t α) (m : MathFns α) (fut : FUT_t α) (rd : RFUT_data_t α)
    (FUT : Nat → FUT_t α) (fuel : Nat)
    (junk : Nat → Nat → Nat → Nat → α) (junk0 junk_t : Nat → Nat → Nat → α)
    (fault0 : Option (low_level_exception × El.Matrix α))
    (faults : Nat → Option (low_level_exception × El.Matrix α))
    (fault : Option (low_level_exception × El.DistMatrix α))
    (A0 out0 : El.Matrix α) (A out : El.DistMatrix α) (q : Nat) :
    translated (local_apply dimension d m fut junk0 fault0 A0 out0).thrown ∧
    ((local_apply dimension d m fut junk0 fault0 A0 out0).thrown = some .elemental_exception
      ↔ ∃ s, fault0 = some (.std_logic_error, s)) ∧
    ((local_apply dimension d m fut junk0 fault0 A0 out0).thrown = some .mpi_exception
      ↔ ∃ s, fault0 = some (.boost_mpi_exception, s)) ∧
    translated (STAR_STAR_apply dimension d m fut junk faults A out q).thrown ∧
    translated (CIRC_CIRC_apply dimension d m fut junk faults A out q).thrown ∧
    translated (X_STAR_apply dimension d m fut junk junk_t fault A out).thrown ∧
    translated (STAR_X_apply_columnwise d m fut junk fault A out).thrown ∧
    (∀ o, STAR_X_apply_rowwise fuel junk fault A out = some o → translated o.thrown) ∧
    translated (RFUT_STAR_X_apply rd FUT fault A out).thrown ∧
    translated (RFUT_X_STAR_apply dimension rd FUT fault A out).thrown ∧
    translated (RFUT_X_STAR_apply_inverse rd FUT fault A out).thrown :=
  ⟨try_catch_raising_translated _ _,
    (try_catch_raising_thrown fault0 _).2.1,
    (try_catch_raising_thrown fault0 _).2.2,
    try_catch_raising_translated _ _,
    CIRC_CIRC_apply_translated dimension d m fut junk faults A out q,
    X_STAR_apply_translated dimension d m fut junk junk_t fault A out,
    STAR_X_apply_columnwise_translated d m fut junk fault A out,
    fun o ho => STAR_X_apply_rowwise_translated fuel junk fault A out o ho,
    RFUT_STAR_X_apply_translated rd FUT fault A out,
    RFUT_X_STAR_apply_translated dimension rd FUT fault A out,
    RFUT_X_STAR_apply_inverse_translated rd FUT fault A out⟩

/-- C16 fails on the code: in the `[MC, MR]` apply, a `boost::mpi::exception` thrown by the
redistribution `A1 = A`, or by the redistribution `sketch_of_A = SA1` after an inner apply
that completed, reaches the caller as the raw `boost::mpi::exception`; only one thrown
inside the inner apply is wrapped as `mpi_exception`. -/
theorem MC_MR_apply_mpi_escapes_raw [CommRing α] (dimension : dimension_tag)
    (d : FastRFT_data_t α) (m : MathFns α) (fut : FUT_t α) (DefaultGrid : El.Grid)
    (junk : Nat → Nat → Nat → Nat → α) (junk1 junk_t : Nat → Nat → Nat → α)
    (f2 f3 : Option (low_level_exception × El.DistMatrix α))
    (A sketch_of_A s : El.DistMatrix α) :
    MC_MR_apply dimension d m fut DefaultGrid junk junk1 junk_t (some .boost_mpi_exception)
        f2 f3 A sketch_of_A
      = ⟨some (.raw .boost_mpi_exception), sketch_of_A⟩ ∧
    MC_MR_apply dimension d m fut DefaultGrid junk junk1 junk_t none none
        (some (.boost_mpi_exception, s)) A sketch_of_A
      = ⟨some (.raw .boost_mpi_exception), s⟩ ∧
    MC_MR_apply dimension d m fut DefaultGrid junk junk1 junk_t none
        (some (.boost_mpi_exception, s)) f3 A sketch_of_A
      = ⟨some .mpi_exception, sketch_of_A⟩ := by
  refine ⟨rfl, ?_, ?_⟩ <;> cases dimension <;> rfl

/-- The handlers are passed without an exception when no collaborator throws. -/
theorem local_apply_no_fault [CommRing α] (dimension : dimension_tag)
    (d : FastRFT_data_t α) (m : MathFns α) (fut : FUT_t α) (junk : Nat → Nat → Nat → α)
    (A sketch_of_A : El.Matrix α) :
    local_apply dimension d m fut junk none A sketch_of_A
      = ⟨none, apply_impl dimension d m fut junk A sketch_of_A⟩ := rfl

/-- C17 fails on the code: nothing checks the dimensions. With `N = 2`, the
`[STAR, VR]` columnwise RFUT apply on an input of 3 rows throws nothing and writes
`F(scale * D ⊙ ·)` of the first two rows, `[1, -1]`, into the output column that held
`[0, 0]`; with `S = 2` the local columnwise FastRFT apply on an output of 3 rows throws
nothing and writes `cos 2` where the output held `0`. -/
theorem apply_proceeds_on_mismatch :
    (El.distribute .STAR .VR ⟨1, 1⟩ (ofColumns 3 [[(1 : ℤ), 1, 5]])).Height = 3 ∧
    (RFUT_STAR_X_apply ⟨2, [1, -1]⟩ (fun _ => Fid) none
        (El.distribute .STAR .VR ⟨1, 1⟩ (ofColumns 3 [[(1 : ℤ), 1, 5]]))
        (El.DistMatrix.alloc .STAR .VR ⟨1, 1⟩ 2 1 (fun _ _ _ => 0))).thrown = none ∧
    ((RFUT_STAR_X_apply ⟨2, [1, -1]⟩ (fun _ => Fid) none
        (El.distribute .STAR .VR ⟨1, 1⟩ (ofColumns 3 [[(1 : ℤ), 1, 5]]))
        (El.DistMatrix.alloc .STAR .VR ⟨1, 1⟩ 2 1 (fun _ _ _ => 0))).out.Matrix 0).column 0
      = [1, -1] ∧
    ((El.DistMatrix.alloc .STAR .VR ⟨1, 1⟩ 2 1 (fun _ _ _ => (0 : ℤ))).Matrix 0).column 0
      = [0, 0] ∧
    (local_apply .columnwise_tag worked_example ⟨Real.sqrt, Real.cos⟩ (F0 (1 / Real.sqrt 2))
        (fun _ _ _ => 0) none (ofColumns 2 [[1, 1]]) ⟨3, 1, fun _ _ => 0⟩).thrown = none ∧
    (local_apply .columnwise_tag worked_example ⟨Real.sqrt, Real.cos⟩ (F0 (1 / Real.sqrt 2))
        (fun _ _ _ => 0) none (ofColumns 2 [[1, 1]]) ⟨3, 1, fun _ _ => 0⟩).out.Get 0 0
      = Real.cos 2 ∧
    Real.cos 2 ≠ 0 := by
  refine ⟨rfl, rfl, ?_, rfl, rfl, ?_, ne_of_lt Real.cos_two_neg⟩
  · decide
  · exact (worked_example_get (fun _ _ _ => 0) ⟨3, 1, fun _ _ => 0⟩).1

/-! ### The low-accuracy cosine -/

theorem inexact_cos_arg_range_iff [LinearOrderedField α] (x : α) :
    (-3.14159266 < inexact_cos_arg x ∧ inexact_cos_arg x ≤ 3.14159265)
      ↔ (-10.99557429 < x ∧ x ≤ 14.13716695) := by
  unfold inexact_cos_arg inexact_cos_wrap
  simp only []
  split_ifs with h1 h2 h3 h4 h5 <;> norm_num at * <;>
    constructor <;> rintro ⟨ha, hb⟩ <;> constructor <;> linarith

theorem readout_inexact [LinearOrderedField α] (d : FastRFT_data_t α) (sq : α → α) (w : α)
    (l : Nat) :
    readout d ⟨sq, inexact_cos⟩ w l
      = d.scale * inexact_cos_poly (inexact_cos_arg (w + d.shifts.getD l 0)) := rfl

theorem inexact_cos_wrap_low [LinearOrderedField α] (x : α) (h : x < -3.14159265) :
    inexact_cos_wrap x = x + 6.28318531 := by
  unfold inexact_cos_wrap
  rw [if_pos h]

theorem inexact_cos_wrap_high [LinearOrderedField α] (x : α) (h : 3.14159265 < x) :
    inexact_cos_wrap x = x - 6.28318531 := by
  unfold inexact_cos_wrap
  have h' : ¬ x < -3.14159265 := by
    intro h2
    have : (3.14159265 : α) < -3.14159265 := lt_trans h h2
    norm_num at this
  rw [if_neg h', if_pos h]

theorem worked_example_w_four (sq : ℝ → ℝ) (c : ℝ → ℝ) (s : ℝ) (hs : sq 2 * s = 1) :
    spec_w worked_example ⟨sq, c⟩ (F0 s) 0 [2, 2] = [4, -4] := by
  simp [spec_w, spec_w_blk, spec_diag, spec_slice, spec_scramble, spec_swap, spec_pad,
    worked_example, F0, hs, List.range_succ]
  norm_num

/-- C18 as stated fails: in the low-accuracy cosine mode, on the worked-example parameters
and the input column `[2, 2]`, the angle that reaches the readout of entry `(0, 0)` is
`4`, outside `[-pi, pi]`; the local columnwise apply throws nothing and writes the value
of the quadratic at `4 - 6.28318531 + 1.57079632`. -/
theorem inexact_readout_reports_nothing :
    (spec_w worked_example ⟨Real.sqrt, inexact_cos⟩ (F0 (1 / Real.sqrt 2)) 0
        ((ofColumns 2 [[(2 : ℝ), 2]]).column 0)).getD 0 0
      + (worked_example : FastRFT_data_t ℝ).shifts.getD 0 0 = 4 ∧
    Real.pi < 4 ∧
    (local_apply .columnwise_tag worked_example ⟨Real.sqrt, inexact_cos⟩
        (F0 (1 / Real.sqrt 2)) (fun _ _ _ => 0) none (ofColumns 2 [[2, 2]])
        ⟨2, 1, fun _ _ => 0⟩).thrown = none ∧
    (local_apply .columnwise_tag worked_example ⟨Real.sqrt, inexact_cos⟩
        (F0 (1 / Real.sqrt 2)) (fun _ _ _ => 0) none (ofColumns 2 [[2, 2]])
        ⟨2, 1, fun _ _ => 0⟩).out.Get 0 0
      = inexact_cos_poly (4 - 6.28318531 + 1.57079632) := by
  have hcol : (ofColumns 2 [[(2 : ℝ), 2]]).column 0 = [2, 2] := ofColumns_column [2, 2]
  have hw := worked_example_w_four Real.sqrt inexact_cos (1 / Real.sqrt 2) sqrt_two_mul_inv
  have h := apply_impl_columnwise_get worked_example ⟨Real.sqrt, inexact_cos⟩
    (F0 (1 / Real.sqrt 2)) (fun _ _ _ => 0) (ofColumns 2 [[2, 2]]) ⟨2, 1, fun _ _ => 0⟩
    worked_example_WF (Nat.le_refl _) rfl (F0_length _) 0 0 0 (show 0 < 1 by omega)
    (show 0 < 1 by omega) (by decide)
  rw [hcol, hw] at h
  refine ⟨?_, ?_, rfl, ?_⟩
  · rw [hcol, hw]
    show (4 : ℝ) + 0 = 4
    norm_num
  · have := Real.pi_lt_d2
    linarith
  · show (apply_impl_columnwise worked_example ⟨Real.sqrt, inexact_cos⟩
      (F0 (1 / Real.sqrt 2)) (fun _ _ _ => 0) (ofColumns 2 [[2, 2]])
      ⟨2, 1, fun _ _ => 0⟩).Get 0 0 = _
    rw [h]
    show (1 : ℝ) * inexact_cos_poly (inexact_cos_arg (4 + 0)) = _
    unfold inexact_cos_arg inexact_cos_wrap
    norm_num

/-- C18, amended: in the low-accuracy cosine mode the local apply, when no collaborator
throws, throws nothing, whatever the angles: every entry that the columnwise apply writes
(and every entry of a block of the rowwise apply) is `scale` times the quadratic at the
wrapped angle, and an angle `t` below `-3.14159265` or above `3.14159265` is first replaced
by `t + 6.28318531`, respectively `t - 6.28318531`, without any report. -/
theorem inexact_readout_silent [LinearOrderedField α] (d : FastRFT_data_t α) (sq : α → α)
    (fut : FUT_t α) (junk : Nat → Nat → Nat → α) (A Ar sketch_of_A : El.Matrix α)
    (hWF : d.WF) (hN : d._N ≤ d._NB) (hA : A.Height = d._N)
    (hWFr : d.WF_blk d._N) (hAr : Ar.Width = d._N)
    (hF : ∀ v, (fut.apply v).length = v.length) :
    (local_apply .columnwise_tag d ⟨sq, inexact_cos⟩ fut junk none A sketch_of_A).thrown
      = none ∧
    (local_apply .rowwise_tag d ⟨sq, inexact_cos⟩ fut junk none Ar sketch_of_A).thrown
      = none ∧
    (∀ c i l, c < A.Width → i < d.numblks → l ∈ blk_range d._NB d._S i →
      (local_apply .columnwise_tag d ⟨sq, inexact_cos⟩ fut junk none A sketch_of_A).out.Get
          l c
        = d.scale * inexact_cos_poly (inexact_cos_arg
            ((spec_w d ⟨sq, inexact_cos⟩ fut i (A.column c)).getD (l - i * d._NB) 0
              + d.shifts.getD l 0))) ∧
    (∀ r i j, r < Ar.Height → i < d.numblks → j ∈ blk_range d._N d._S i →
      (local_apply .rowwise_tag d ⟨sq, inexact_cos⟩ fut junk none Ar sketch_of_A).out.Get
          r j
        = d.scale * inexact_cos_poly (inexact_cos_arg
            ((spec_w_blk d._N d ⟨sq, inexact_cos⟩ fut i (Ar.row r)).getD (j - i * d._N) 0
              + d.shifts.getD j 0))) ∧
    (∀ t : α, t < -3.14159265 → inexact_cos_wrap t = t + 6.28318531) ∧
    (∀ t : α, 3.14159265 < t → inexact_cos_wrap t = t - 6.28318531) := by
  refine ⟨rfl, rfl, ?_, ?_, inexact_cos_wrap_low, inexact_cos_wrap_high⟩
  · intro c i l hc hi hl
    exact apply_impl_columnwise_get d ⟨sq, inexact_cos⟩ fut junk A sketch_of_A hWF hN hA hF
      c i l hc hi hl
  · intro r i j hr hi hj
    exact (apply_impl_rowwise_get d ⟨sq, inexact_cos⟩ fut junk Ar sketch_of_A hWFr hAr hF).1
      r i j hr hi hj

/-- C18 (amended) at the worked-example parameters with the input column `[2, 2]` (angles
`4` and `-4`), columnwise, and the input row `[2, 2]`, rowwise. -/
theorem inexact_readout_silent_witness :
    (worked_example : FastRFT_data_t ℝ).WF ∧
    (local_apply .columnwise_tag worked_example ⟨Real.sqrt, inexact_cos⟩
        (F0 (1 / Real.sqrt 2)) (fun _ _ _ => 0) none (ofColumns 2 [[2, 2]])
        ⟨2, 1, fun _ _ => 0⟩).thrown = none :=
  ⟨worked_example_WF,
    (inexact_readout_silent (worked_example : FastRFT_data_t ℝ) Real.sqrt
      (F0 (1 / Real.sqrt 2)) (fun _ _ _ => 0) (ofColumns 2 [[2, 2]])
      (ofColumns 2 [[2, 2]]).transpose ⟨2, 1, fun _ _ => 0⟩
      worked_example_WF (Nat.le_refl _) rfl worked_example_WF rfl (F0_length _)).1⟩

/-! ### Root-owned and replicated matrices -/

/-- Every process holds the whole of a `[STAR, STAR]` matrix. -/
theorem distribute_STAR_STAR_Matrix (g : El.Grid) (M : El.Matrix α) (q : Nat) :
    (El.distribute .STAR .STAR g M).Matrix q = M := by
  obtain ⟨h, w, f⟩ := M
  show (⟨El.Length h 0 1, El.Length w 0 1, fun i j => f (0 + i * 1) (0 + j * 1)⟩ : El.Matrix α)
    = ⟨h, w, f⟩
  rw [El.Length_one, El.Length_one]
  congr 1
  funext i j
  rw [Nat.zero_add, Nat.zero_add, Nat.mul_one, Nat.mul_one]

/-- C20: the `[CIRC, CIRC]` apply is, on the process of rank 0, the local apply on its
local matrices, and on every other process nothing (no exception, output as it was); the
`[STAR, STAR]` apply is on every process the local apply on its local matrices, which for a
replicated matrix `M` are `M` itself. When no collaborator throws, the local apply leaves
the result of the local algorithm `apply_impl`; and what a process obtains depends on its
own local matrices only. -/
theorem root_and_replicated_apply_local [CommRing α] (dimension : dimension_tag)
    (d : FastRFT_data_t α) (m : MathFns α) (fut : FUT_t α)
    (junk : Nat → Nat → Nat → Nat → α)
    (faults : Nat → Option (low_level_exception × El.Matrix α))
    (A sketch_of_A : El.DistMatrix α) (g : El.Grid) (M : El.Matrix α) :
    CIRC_CIRC_apply dimension d m fut junk faults A sketch_of_A 0
      = local_apply dimension d m fut (junk 0) (faults 0) (A.Matrix 0)
          (sketch_of_A.Matrix 0) ∧
    (faults 0 = none →
      CIRC_CIRC_apply dimension d m fut junk faults A sketch_of_A 0
        = ⟨none, apply_impl dimension d m fut (junk 0) (A.Matrix 0) (sketch_of_A.Matrix 0)⟩) ∧
    (∀ q, q ≠ 0 →
      CIRC_CIRC_apply dimension d m fut junk faults A sketch_of_A q
        = ⟨none, sketch_of_A.Matrix q⟩) ∧
    (∀ q, STAR_STAR_apply dimension d m fut junk faults A sketch_of_A q
      = local_apply dimension d m fut (junk q) (faults q) (A.Matrix q)
          (sketch_of_A.Matrix q)) ∧
    (∀ q, faults q = none →
      STAR_STAR_apply dimension d m fut junk faults A sketch_of_A q
        = ⟨none, apply_impl dimension d m fut (junk q) (A.Matrix q) (sketch_of_A.Matrix q)⟩) ∧
    (∀ q, faults q = none →
      STAR_STAR_apply dimension d m fut junk faults (El.distribute .STAR .STAR g M)
          sketch_of_A q
        = ⟨none, apply_impl dimension d m fut (junk q) M (sketch_of_A.Matrix q)⟩) ∧
    (∀ (A' sketch_of_A' : El.DistMatrix α) q, A'.Matrix q = A.Matrix q →
      sketch_of_A'.Matrix q = sketch_of_A.Matrix q →
      STAR_STAR_apply dimension d m fut junk faults A' sketch_of_A' q
        = STAR_STAR_apply dimension d m fut junk faults A sketch_of_A q ∧
      CIRC_CIRC_apply dimension d m fut junk faults A' sketch_of_A' q
        = CIRC_CIRC_apply dimension d m fut junk faults A sketch_of_A q) := by
  refine ⟨rfl, ?_, ?_, fun q => rfl, ?_, ?_, ?_⟩
  · intro h0
    show local_apply dimension d m fut (junk 0) (faults 0) (A.Matrix 0)
      (sketch_of_A.Matrix 0) = _
    rw [h0, local_apply_no_fault]
  · intro q hq
    unfold CIRC_CIRC_apply
    rw [if_neg hq]
  · intro q hq
    show local_apply dimension d m fut (junk q) (faults q) (A.Matrix q)
      (sketch_of_A.Matrix q) = _
    rw [hq, local_apply_no_fault]
  · intro q hq
    show local_apply dimension d m fut (junk q) (faults q)
      ((El.distribute .STAR .STAR g M).Matrix q) (sketch_of_A.Matrix q) = _
    rw [hq, local_apply_no_fault, distribute_STAR_STAR_Matrix]
  · intro A' sk' q hA hs
    unfold STAR_STAR_apply CIRC_CIRC_apply
    rw [hA, hs]
    exact ⟨rfl, rfl⟩

end sketch

end skylark

namespace skylark

namespace sketch

variable {α : Type}

/-! ### The range of the low-accuracy cosine -/

theorem inexact_cos_poly_bounds [LinearOrderedField α] (y : α) (hlo : -3.14159266 < y)
    (hhi : y ≤ 3.14159265) : -1 ≤ inexact_cos_poly y ∧ inexact_cos_poly y ≤ 1 := by
  unfold inexact_cos_poly
  split_ifs with h
  · constructor
    · nlinarith [sq_nonneg (y + 127323954 / 81056947)]
    · have h1 : 0 < -y := by linarith
      have h2 : 0 < y + 3.14159266 := by linarith
      have h3 := mul_pos h1 h2
      norm_num at h3 hlo ⊢
      nlinarith
  · have h0 : 0 ≤ y := le_of_not_lt h
    constructor
    · have h2 : 0 ≤ 3.14159265 - y := by linarith
      have h3 := mul_nonneg h0 h2
      norm_num at h3 hhi ⊢
      nlinarith
    · nlinarith [sq_nonneg (y - 127323954 / 81056947)]

theorem inexact_cos_bounds [LinearOrderedField α] (x : α) (hlo : -9.42477795 ≤ x)
    (hhi : x ≤ 9.42477795) : -1 ≤ inexact_cos x ∧ inexact_cos x ≤ 1 := by
  have h := (inexact_cos_arg_range_iff x).2 ⟨by
    have : (-10.99557429 : α) < -9.42477795 := by norm_num
    exact lt_of_lt_of_le this hlo, by
    have : (9.42477795 : α) ≤ 14.13716695 := by norm_num
    exact le_trans hhi this⟩
  exact inexact_cos_poly_bounds _ h.1 h.2

/-- C26: with the decimal constants taken as exact numbers, for every angle
`x = w + shift` with `-9.42477795 <= x <= 9.42477795` the low-accuracy cosine returns a
value in `[-1, 1]`, and the feature that the readout produces from it, `scale` times that
value, has magnitude at most `|scale|`. -/
theorem inexact_cos_range [LinearOrderedField α] (d : FastRFT_data_t α) (sq : α → α)
    (w : α) (l : Nat) (hlo : -9.42477795 ≤ w + d.shifts.getD l 0)
    (hhi : w + d.shifts.getD l 0 ≤ 9.42477795) :
    -1 ≤ inexact_cos (w + d.shifts.getD l 0) ∧ inexact_cos (w + d.shifts.getD l 0) ≤ 1 ∧
    |readout d ⟨sq, inexact_cos⟩ w l| ≤ |d.scale| := by
  obtain ⟨h1, h2⟩ := inexact_cos_bounds _ hlo hhi
  refine ⟨h1, h2, ?_⟩
  show |d.scale * inexact_cos (w + d.shifts.getD l 0)| ≤ |d.scale|
  rw [abs_mul]
  have h3 : |inexact_cos (w + d.shifts.getD l 0)| ≤ 1 := abs_le.2 ⟨h1, h2⟩
  calc |d.scale| * |inexact_cos (w + d.shifts.getD l 0)| ≤ |d.scale| * 1 :=
        mul_le_mul_of_nonneg_left h3 (abs_nonneg _)
    _ = |d.scale| := mul_one _

/-- C26 at the worked-example parameters (`shifts = [0, 0]`, `scale = 1`) and the angle
`9`, over the rationals. -/
theorem inexact_cos_range_witness :
    (-9.42477795 : ℚ) ≤ 9 + (worked_example : FastRFT_data_t ℚ).shifts.getD 0 0 ∧
    |readout (worked_example : FastRFT_data_t ℚ) ⟨fun x => x, inexact_cos⟩ 9 0|
      ≤ |(worked_example : FastRFT_data_t ℚ).scale| :=
  ⟨by
      show (-9.42477795 : ℚ) ≤ 9 + 0
      norm_num,
    (inexact_cos_range (worked_example : FastRFT_data_t ℚ) (fun x => x) 9 0
      (by
        show (-9.42477795 : ℚ) ≤ 9 + 0
        norm_num)
      (by
        show (9 : ℚ) + 0 ≤ 9.42477795
        norm_num)).2.2⟩


end sketch

end skylark

namespace skylark

namespace sketch

variable {α : Type}

/-! ### The slice loop of the dense transform -/

theorem slice_loop_zero_width {σ : Type} (fuel LocalHeight : Nat) (body : Nat → Nat → σ → σ)
    (js : Nat) (st : σ) (h : js < LocalHeight) :
    slice_loop fuel 0 LocalHeight body js st = none := by
  induction fuel generalizing st with
  | zero => rfl
  | succ n ih =>
    unfold slice_loop
    rw [if_pos h]
    exact ih _

/-- With a positive slice width the loop started at slice `i0` finishes within
`LocalHeight - i0 * w + 1` evaluations of its condition, having run the body on the slices
`[i * w, min((i + 1) * w, LocalHeight))` for `i0 <= i < ceil(LocalHeight / w)` in order. -/
theorem slice_loop_from {σ : Type} (w LocalHeight : Nat) (hw : 1 ≤ w)
    (body : Nat → Nat → σ → σ) :
    ∀ (n i0 : Nat) (st : σ) (fuel : Nat), ceil_div LocalHeight w - i0 = n →
      n + 1 ≤ fuel →
      slice_loop fuel w LocalHeight body (i0 * w) st
        = some ((List.range' i0 n).foldl
            (fun st i => body (i * w) (min (i * w + w) LocalHeight) st) st) := by
  intro n
  induction n with
  | zero =>
    intro i0 st fuel hn hf
    have hge := ceil_div_mul_ge LocalHeight w hw
    have : ceil_div LocalHeight w * w ≤ i0 * w := Nat.mul_le_mul_right _ (by omega)
    cases fuel with
    | zero => omega
    | succ fuel =>
      unfold slice_loop
      rw [if_neg (by omega)]
      rfl
  | succ n ih =>
    intro i0 st fuel hn hf
    have hlt : i0 * w < LocalHeight := by
      by_contra hcon
      have h1 : 1 ≤ LocalHeight ∨ LocalHeight = 0 := by omega
      rcases h1 with h1 | h1
      · have h2 := ceil_div_pred_mul_lt LocalHeight w h1 hw
        have : i0 * w ≤ (ceil_div LocalHeight w - 1) * w := Nat.mul_le_mul_right _ (by omega)
        omega
      · subst h1
        have : ceil_div 0 w = 0 := by
          unfold ceil_div
          exact Nat.div_eq_of_lt (by omega)
        omega
    cases fuel with
    | zero => omega
    | succ fuel =>
      unfold slice_loop
      rw [if_pos hlt]
      have e : i0 * w + w = (i0 + 1) * w := by ring
      simp only []
      rw [e, ih (i0 + 1) _ fuel (by omega) (by omega), List.range'_succ, List.foldl_cons, e]

theorem slice_loop_terminates {σ : Type} (w LocalHeight : Nat) (hw : 1 ≤ w)
    (body : Nat → Nat → σ → σ) (st : σ) (fuel : Nat) (hf : LocalHeight + 1 ≤ fuel) :
    slice_loop fuel w LocalHeight body 0 st
      = some ((List.range (ceil_div LocalHeight w)).foldl
          (fun st i => body (i * w) (min (i * w + w) LocalHeight) st) st) := by
  have h := slice_loop_from w LocalHeight hw body (ceil_div LocalHeight w) 0 st fuel rfl (by
    have : ceil_div LocalHeight w ≤ LocalHeight := by
      unfold ceil_div
      rcases Nat.eq_zero_or_pos LocalHeight with h0 | h0
      · subst h0
        rw [Nat.div_eq_of_lt (by omega)]
      · calc (LocalHeight + w - 1) / w ≤ (LocalHeight * w) / w := by
              apply Nat.div_le_div_right
              have : LocalHeight + w ≤ LocalHeight * w + 1 := by nlinarith
              omega
          _ = LocalHeight := Nat.mul_div_cancel _ (by omega)
    omega)
  rw [Nat.zero_mul] at h
  rw [h, List.range_eq_range']

end sketch

end skylark

namespace skylark

namespace sketch

variable {α : Type}

/-! ### The columnwise dense transform -/

theorem list_sum_range [AddCommMonoid α] (f : Nat → α) (n : Nat) :
    ((List.range n).map f).sum = ∑ i ∈ Finset.range n, f i := by
  induction n with
  | zero => rfl
  | succ n ih => rw [List.sum_range_succ, Finset.sum_range_succ, ih]

theorem foldl_Set_grid (f : Nat → Nat → α) (n k : Nat) (M : El.Matrix α) (i j : Nat) :
    ((List.range k).foldl (fun M j =>
      (List.range n).foldl (fun M i => M.Set i j (f i j)) M) M).Get i j
      = if i < n ∧ j < k then f i j else M.Get i j := by
  induction k with
  | zero =>
    rw [if_neg (by omega)]
    rfl
  | succ k ih =>
    rw [List.range_succ, List.foldl_append, List.foldl_cons, List.foldl_nil,
      foldl_Set_range (fun i => f i k) k n, ih]
    by_cases h1 : i < n ∧ j = k
    · rw [if_pos h1, if_pos ⟨h1.1, by omega⟩, h1.2]
    · rw [if_neg h1]
      by_cases h2 : i < n ∧ j < k
      · rw [if_pos h2, if_pos ⟨h2.1, by omega⟩]
      · rw [if_neg h2, if_neg]
        rintro ⟨h3, h4⟩
        by_cases h5 : j = k
        · exact h1 ⟨h3, h5⟩
        · exact h2 ⟨h3, by omega⟩

theorem dense_S_local_Get [CommRing α] (d : dense_transform_data_t α) (cs st js n : Nat)
    (junk : Nat → Nat → α) (i l : Nat) (hi : i < d._S) (hl : l < n) :
    ((List.range' js n).foldl (fun S_local j =>
      let col := cs + st * j
      (List.range d._S).foldl (fun S_local i =>
        let sample := d.random_samples (col * d._S + i)
        S_local.Set i (j - js) (d.scale * sample)) S_local)
      (⟨d._S, n, junk⟩ : El.Matrix α)).Get i l
      = d.scale * d.random_samples ((cs + st * (js + l)) * d._S + i) := by
  rw [List.range'_eq_map_range, List.foldl_map]
  simp only [Nat.add_sub_cancel_left]
  rw [foldl_Set_grid (fun i l => d.scale * d.random_samples ((cs + st * (js + l)) * d._S + i))
    d._S n, if_pos ⟨hi, hl⟩]

theorem foldl_Set_Width (a b : Nat → Nat → Nat) (v : Nat → Nat → α) (js rows : List Nat)
    (M : El.Matrix α) :
    (js.foldl (fun M j => rows.foldl (fun M i => M.Set (a i j) (b i j) (v i j)) M) M).Width
      = M.Width := by
  induction js generalizing M with
  | nil => rfl
  | cons j js ih =>
    rw [List.foldl_cons, ih]
    generalize rows = is
    induction is generalizing M with
    | nil => rfl
    | cons i is ih2 =>
      rw [List.foldl_cons, ih2]
      rfl

theorem dense_slice_body_Get [CommRing α] (d : dense_transform_data_t α) (cs st : Nat)
    (local_A : El.Matrix α) (junk : Nat → Nat → α) (js je : Nat) (SA_part : El.Matrix α)
    (i c : Nat) (hi : i < d._S) :
    (dense_slice_body d cs st local_A junk js je SA_part).Get i c
      = (∑ l ∈ Finset.range (je - js),
          d.scale * d.random_samples ((cs + st * (js + l)) * d._S + i)
            * local_A.Get (js + l) c) + SA_part.Get i c := by
  unfold dense_slice_body base.Gemm
  simp only []
  rw [one_mul, one_mul, list_sum_range,
    foldl_Set_Width (fun i _ => i) (fun _ j => j - js)
      (fun i j => d.scale * d.random_samples ((cs + st * j) * d._S + i))]
  congr 1
  apply Finset.sum_congr rfl
  intro l hl
  rw [Finset.mem_range] at hl
  rw [dense_S_local_Get d cs st js (je - js) junk i l hi hl]

theorem dense_slices_Get [CommRing α] (d : dense_transform_data_t α) (cs st : Nat)
    (local_A : El.Matrix α) (junk : Nat → Nat → α) (w LocalHeight : Nat) (hw : 1 ≤ w)
    (SA_part : El.Matrix α) (i c : Nat) (hi : i < d._S) (k : Nat)
    (hk : k ≤ ceil_div LocalHeight w) :
    ((List.range k).foldl (fun st' s =>
      dense_slice_body d cs st local_A junk (s * w) (min (s * w + w) LocalHeight) st')
        SA_part).Get i c
      = (∑ j ∈ Finset.range (min (k * w) LocalHeight),
          d.scale * d.random_samples ((cs + st * j) * d._S + i) * local_A.Get j c)
        + SA_part.Get i c := by
  induction k with
  | zero =>
    simp
  | succ k ih =>
    have hlt : k * w < LocalHeight := by
      have h1 : 1 ≤ LocalHeight := by
        by_contra hcon
        have h0 : LocalHeight = 0 := by omega
        subst h0
        have : ceil_div 0 w = 0 := by
          unfold ceil_div
          exact Nat.div_eq_of_lt (by omega)
        omega
      have h2 := ceil_div_pred_mul_lt LocalHeight w h1 hw
      have : k * w ≤ (ceil_div LocalHeight w - 1) * w := Nat.mul_le_mul_right _ (by omega)
      omega
    rw [List.range_succ, List.foldl_append, List.foldl_cons, List.foldl_nil,
      dense_slice_body_Get d cs st local_A junk _ _ _ i c hi, ih (by omega)]
    have e1 : min (k * w) LocalHeight = k * w := by omega
    have e2 : (k + 1) * w = k * w + w := by ring
    have e3 : min ((k + 1) * w) LocalHeight
        = k * w + (min (k * w + w) LocalHeight - k * w) := by omega
    rw [e1, e3, Finset.sum_range_add]
    ring

/-- The partial result of a process, for any positive slice width: entry `(i, c)` is the
sum over its local rows `j` of `Smat[i, ColShift + ColStride * j] * A_local[j, c]`. -/
theorem dense_SA_part_Get [CommRing α] (fuel : Nat) (d : dense_transform_data_t α)
    (junk : Nat → Nat → Nat → α) (w : Nat) (A sketch_of_A : El.DistMatrix α) (q : Nat)
    (hw : 1 ≤ w) (hf : (A.Matrix q).Height + 1 ≤ fuel) :
    ∃ R, dense_SA_part fuel d junk w A sketch_of_A q = some R ∧
      ∀ i c, i < d._S →
        R.Get i c = ∑ j ∈ Finset.range (A.Matrix q).Height,
          d.scale * d.random_samples
              ((El.Shift A.grid A.ColDist q + El.Stride A.grid A.ColDist * j) * d._S + i)
            * (A.Matrix q).Get j c := by
  unfold dense_SA_part
  simp only []
  rw [slice_loop_terminates w _ hw _ _ fuel hf]
  refine ⟨_, rfl, ?_⟩
  intro i c hi
  rw [dense_slices_Get d _ _ (A.Matrix q) (junk q) w _ hw _ i c hi _ (Nat.le_refl _)]
  have hge := ceil_div_mul_ge (A.Matrix q).Height w hw
  rw [Nat.min_eq_right hge]
  show _ + (0 : α) = _
  rw [add_zero]

end sketch

end skylark

namespace skylark

namespace sketch

variable {α : Type}

theorem Length_le (n shift s : Nat) : El.Length n shift s ≤ n := by
  unfold El.Length
  by_cases h : shift < n
  · rw [if_pos h]
    have := Nat.div_le_self (n - shift - 1) s
    omega
  · rw [if_neg h]
    omega

theorem Shift_VR_lt (g : El.Grid) (q : Nat) (hq : q < g.Size) : El.Shift g .VR q < g.Size := by
  unfold El.Grid.Size at hq ⊢
  show q / g.Height + (q % g.Height) * g.Width < g.Height * g.Width
  have hH : 0 < g.Height := by
    rcases Nat.eq_zero_or_pos g.Height with h | h
    · rw [h] at hq
      omega
    · exact h
  have h1 : q / g.Height < g.Width := (Nat.div_lt_iff_lt_mul hH).2 (by rw [Nat.mul_comm]; exact hq)
  have h2 : q % g.Height < g.Height := Nat.mod_lt _ hH
  have h3 : (q % g.Height + 1) * g.Width ≤ g.Height * g.Width :=
    Nat.mul_le_mul_right _ (by omega)
  have e : (q % g.Height + 1) * g.Width = q % g.Height * g.Width + g.Width := by ring
  omega

theorem RankOf_Shift_VR (g : El.Grid) (q : Nat) (hq : q < g.Size) :
    El.RankOf g .VR (El.Shift g .VR q) = q := by
  have h := El.Shift_RankOf_VR ⟨g.Width, g.Height⟩ q (by
    unfold El.Grid.Size at hq ⊢
    show q < g.Width * g.Height
    rw [Nat.mul_comm]
    exact hq)
  exact h

theorem RankOf_VR_lt (g : El.Grid) (k : Nat) (hk : k < g.Size) : El.RankOf g .VR k < g.Size := by
  have h := Shift_VR_lt ⟨g.Width, g.Height⟩ k (by
    unfold El.Grid.Size at hk ⊢
    show k < g.Width * g.Height
    rw [Nat.mul_comm]
    exact hk)
  have e : (⟨g.Width, g.Height⟩ : El.Grid).Size = g.Size := by
    unfold El.Grid.Size
    exact Nat.mul_comm _ _
  rw [e] at h
  exact h

/-- Summing over the processes by rank is summing over their shifts. -/
theorem sum_over_shifts [AddCommMonoid α] (g : El.Grid) (V : El.Distribution)
    (hV : V = .VC ∨ V = .VR) (G : Nat → α) :
    ∑ q ∈ Finset.range g.Size, G (El.Shift g V q) = ∑ s ∈ Finset.range g.Size, G s := by
  rcases hV with h | h
  · subst h
    rfl
  · subst h
    apply Finset.sum_nbij' (fun q => El.Shift g .VR q) (fun s => El.RankOf g .VR s)
    · intro q hq
      rw [Finset.mem_range] at hq ⊢
      exact Shift_VR_lt g q hq
    · intro s hs
      rw [Finset.mem_range] at hs ⊢
      exact RankOf_VR_lt g s hs
    · intro q hq
      rw [Finset.mem_range] at hq
      exact RankOf_Shift_VR g q hq
    · intro s hs
      rw [Finset.mem_range] at hs
      exact El.Shift_RankOf_VR g s hs
    · intro q _
      rfl

/-- Summing over the residues `s < P` and, for each, over the indices `s + P * j` below
`N` is summing over all indices below `N`. -/
theorem sum_over_residues [AddCommMonoid α] (N P : Nat) (hP : 0 < P) (F : Nat → α) :
    ∑ s ∈ Finset.range P, ∑ j ∈ Finset.range (El.Length N s P), F (s + P * j)
      = ∑ r ∈ Finset.range N, F r := by
  rw [← Finset.sum_fiberwise_of_maps_to (s := Finset.range N) (t := Finset.range P)
    (g := fun r => r % P) (fun r _ => Finset.mem_range.2 (Nat.mod_lt r hP)) F]
  apply Finset.sum_congr rfl
  intro s hs
  rw [Finset.mem_range] at hs
  symm
  apply Finset.sum_nbij' (fun r => r / P) (fun j => s + P * j)
  · intro r hr
    rw [Finset.mem_filter, Finset.mem_range] at hr
    rw [Finset.mem_range, ← hr.2]
    exact El.div_lt_Length N P r hP hr.1
  · intro j hj
    rw [Finset.mem_range] at hj
    rw [Finset.mem_filter, Finset.mem_range]
    have h := El.lt_of_lt_Length N s P j hP hj
    refine ⟨by rw [Nat.mul_comm]; exact h, ?_⟩
    show (s + P * j) % P = s
    rw [Nat.add_mul_mod_self_left, Nat.mod_eq_of_lt hs]
  · intro r hr
    rw [Finset.mem_filter, Finset.mem_range] at hr
    show s + P * (r / P) = r
    rw [← hr.2]
    exact Nat.mod_add_div r P
  · intro j _
    show (s + P * j) / P = j
    rw [Nat.add_mul_div_left _ _ hP, Nat.div_eq_of_lt hs, Nat.zero_add]
  · intro r hr
    rw [Finset.mem_filter, Finset.mem_range] at hr
    show F r = F (s + P * (r / P))
    rw [← hr.2, Nat.mod_add_div]

theorem Stride_V (g : El.Grid) (V : El.Distribution) (hV : V = .VC ∨ V = .VR) :
    El.Stride g V = g.Size := by
  rcases hV with h | h <;> subst h <;> rfl

/-- C21: for a logical `N x m` matrix `M` with at least one column, held in a
`[VC/VR, STAR]` layout on a non-empty grid, the columnwise dense transform returns (with
enough fuel for the slice loops) and leaves on every process, in every entry `(i, c)` with
`i < S`, the entry of the product `Smat * M`, where
`Smat[i, col] = scale * random_samples[col * S + i]`. The partial result of process `q` is,
for any positive slice width, the sum over its local rows `j` of
`Smat[i, GlobalRow(j)] * A_local[j, c]`, and the all-reduce adds the partial results of all
processes. -/
theorem dense_columnwise_product [CommRing α] (fuel : Nat) (d : dense_transform_data_t α)
    (junk : Nat → Nat → Nat → α) (g : El.Grid) (V : El.Distribution) (M : El.Matrix α)
    (sketch_of_A : El.DistMatrix α) (hg : 0 < g.Size) (hV : V = .VC ∨ V = .VR)
    (hw : 1 ≤ M.Width) (hf : M.Height + 1 ≤ fuel) :
    (∀ q w, 1 ≤ w →
      ∃ R, dense_SA_part fuel d junk w (El.distribute V .STAR g M) sketch_of_A q = some R ∧
        ∀ i c, i < d._S →
          R.Get i c = ∑ j ∈ Finset.range ((El.distribute V .STAR g M).Matrix q).Height,
            (spec_Smat d).Get i ((El.distribute V .STAR g M).GlobalRow q j)
              * ((El.distribute V .STAR g M).Matrix q).Get j c) ∧
    ∃ R, dense_apply_impl_vdist_columnwise fuel d junk (El.distribute V .STAR g M)
        sketch_of_A = some R ∧
      ∀ q i c, i < d._S →
        (R.Matrix q).Get i c
          = ∑ r ∈ Finset.range M.Height, (spec_Smat d).Get i r * M.Get r c := by
  have hpart : ∀ q w, 1 ≤ w →
      ∃ R, dense_SA_part fuel d junk w (El.distribute V .STAR g M) sketch_of_A q = some R ∧
        ∀ i c, i < d._S →
          R.Get i c = ∑ j ∈ Finset.range ((El.distribute V .STAR g M).Matrix q).Height,
            (spec_Smat d).Get i ((El.distribute V .STAR g M).GlobalRow q j)
              * ((El.distribute V .STAR g M).Matrix q).Get j c := by
    intro q w hw1
    have hLH : ((El.distribute V .STAR g M).Matrix q).Height + 1 ≤ fuel := by
      have : ((El.distribute V .STAR g M).Matrix q).Height ≤ M.Height := Length_le _ _ _
      omega
    obtain ⟨R, hR, hG⟩ := dense_SA_part_Get fuel d junk w (El.distribute V .STAR g M)
      sketch_of_A q hw1 hLH
    refine ⟨R, hR, ?_⟩
    intro i c hi
    rw [hG i c hi]
    apply Finset.sum_congr rfl
    intro j _
    show _ = d.scale * d.random_samples ((El.Shift g V q + j * El.Stride g V) * d._S + i) * _
    rw [Nat.mul_comm j]
    rfl
  refine ⟨hpart, ?_⟩
  have hsome : (List.range (El.distribute V .STAR g M).grid.Size).all (fun q =>
      (dense_SA_part fuel d junk (El.distribute V .STAR g M).Width
        (El.distribute V .STAR g M) sketch_of_A q).isSome) = true := by
    rw [List.all_eq_true]
    intro q _
    obtain ⟨R, hR, _⟩ := hpart q M.Width hw
    show (dense_SA_part fuel d junk M.Width (El.distribute V .STAR g M) sketch_of_A
      q).isSome = true
    rw [hR]
    rfl
  unfold dense_apply_impl_vdist_columnwise
  simp only []
  rw [if_pos hsome]
  refine ⟨_, rfl, ?_⟩
  intro q i c hi
  show ((List.range g.Size).map (fun p =>
    ((dense_SA_part fuel d junk M.Width (El.distribute V .STAR g M) sketch_of_A p).getD
      (sketch_of_A.Matrix p)).Get i c)).sum = _
  rw [list_sum_range]
  have hS := Stride_V g V hV
  have e : ∀ p, ((dense_SA_part fuel d junk M.Width (El.distribute V .STAR g M) sketch_of_A
      p).getD (sketch_of_A.Matrix p)).Get i c
      = ∑ j ∈ Finset.range (El.Length M.Height (El.Shift g V p) g.Size),
          (spec_Smat d).Get i (El.Shift g V p + g.Size * j)
            * M.Get (El.Shift g V p + g.Size * j) c := by
    intro p
    obtain ⟨R, hR, hG⟩ := hpart p M.Width hw
    rw [hR]
    show R.Get i c = _
    rw [hG i c hi]
    show ∑ j ∈ Finset.range (El.Length M.Height (El.Shift g V p) (El.Stride g V)),
      (spec_Smat d).Get i (El.Shift g V p + j * El.Stride g V)
        * M.Get (El.Shift g V p + j * El.Stride g V) (0 + c * 1) = _
    rw [hS]
    apply Finset.sum_congr rfl
    intro j _
    rw [Nat.mul_comm j, Nat.zero_add, Nat.mul_one]
  rw [Finset.sum_congr rfl (fun p _ => e p),
    sum_over_shifts g V hV (fun s => ∑ j ∈ Finset.range (El.Length M.Height s g.Size),
      (spec_Smat d).Get i (s + g.Size * j) * M.Get (s + g.Size * j) c),
    sum_over_residues M.Height g.Size hg (fun r => (spec_Smat d).Get i r * M.Get r c)]

end sketch

end skylark

namespace skylark

namespace sketch

variable {α : Type}

/-- C21 on two processes over the integers: the column `[1, 2, 3]` dealt in `[VC, STAR]`
and the `2 x 3` sketch matrix with `random_samples[p] = p`. -/
theorem dense_columnwise_product_witness :
    0 < (⟨2, 1⟩ : El.Grid).Size ∧ 1 ≤ (ofColumns 3 [[(1 : ℤ), 2, 3]]).Width ∧
    (ofColumns 3 [[(1 : ℤ), 2, 3]]).Height + 1 ≤ 4 ∧
    ∃ R, dense_apply_impl_vdist_columnwise 4 ⟨3, 2, 1, fun p => (p : ℤ)⟩ (fun _ _ _ => 0)
        (El.distribute .VC .STAR ⟨2, 1⟩ (ofColumns 3 [[(1 : ℤ), 2, 3]]))
        (El.distribute .STAR .STAR ⟨2, 1⟩ ⟨2, 1, fun _ _ => 0⟩) = some R ∧
      ∀ q i c, i < 2 →
        (R.Matrix q).Get i c
          = ∑ r ∈ Finset.range 3,
              (spec_Smat ⟨3, 2, 1, fun p => (p : ℤ)⟩).Get i r
                * (ofColumns 3 [[(1 : ℤ), 2, 3]]).Get r c :=
  ⟨by decide, by decide, by decide,
    (dense_columnwise_product 4 ⟨3, 2, 1, fun p => (p : ℤ)⟩ (fun _ _ _ => 0) ⟨2, 1⟩ .VC
      (ofColumns 3 [[(1 : ℤ), 2, 3]])
      (El.distribute .STAR .STAR ⟨2, 1⟩ ⟨2, 1, fun _ _ => 0⟩)
      (by decide) (Or.inl rfl) (by decide) (by decide)).2⟩

theorem Shift_zero (g : El.Grid) (V : El.Distribution) : El.Shift g V 0 = 0 := by
  cases V <;> simp [El.Shift]

/-- C29 fails on the code: for an input with zero columns and at least one row, in a
`[VC/VR, STAR]` layout on a non-empty grid, the slice width is 0 and on process 0, which
holds the global row 0, the loop variable never advances: whatever the number of
evaluations of the loop condition allowed, the slice loop of process 0 does not finish, and
the columnwise transform does not return. -/
theorem dense_columnwise_zero_width_never_returns [CommRing α] (fuel : Nat)
    (d : dense_transform_data_t α) (junk : Nat → Nat → Nat → α) (gh gw H : Nat)
    (f : Nat → Nat → α) (V : El.Distribution) (sketch_of_A : El.DistMatrix α) :
    1 ≤ ((El.distribute V .STAR ⟨gh + 1, gw + 1⟩ ⟨H + 1, 0, f⟩).Matrix 0).Height ∧
    dense_SA_part fuel d junk (El.distribute V .STAR ⟨gh + 1, gw + 1⟩ ⟨H + 1, 0, f⟩).Width
      (El.distribute V .STAR ⟨gh + 1, gw + 1⟩ ⟨H + 1, 0, f⟩) sketch_of_A 0 = none ∧
    dense_apply_impl_vdist_columnwise fuel d junk
      (El.distribute V .STAR ⟨gh + 1, gw + 1⟩ ⟨H + 1, 0, f⟩) sketch_of_A = none := by
  have hH : 1 ≤ ((El.distribute V .STAR ⟨gh + 1, gw + 1⟩ ⟨H + 1, 0, f⟩).Matrix 0).Height := by
    show 1 ≤ El.Length (H + 1) (El.Shift ⟨gh + 1, gw + 1⟩ V 0) _
    rw [Shift_zero]
    unfold El.Length
    rw [if_pos (by omega)]
    exact Nat.le_add_left 1 _
  have hpart : dense_SA_part fuel d junk
      (El.distribute V .STAR ⟨gh + 1, gw + 1⟩ ⟨H + 1, 0, f⟩).Width
      (El.distribute V .STAR ⟨gh + 1, gw + 1⟩ ⟨H + 1, 0, f⟩) sketch_of_A 0 = none := by
    unfold dense_SA_part
    exact slice_loop_zero_width fuel _ _ 0 _ hH
  refine ⟨hH, hpart, ?_⟩
  unfold dense_apply_impl_vdist_columnwise
  simp only []
  rw [if_neg]
  intro hall
  rw [List.all_eq_true] at hall
  have h0 := hall 0 (List.mem_range.2 (by
    show 0 < (gh + 1) * (gw + 1)
    exact Nat.mul_pos (by omega) (by omega)))
  rw [hpart] at h0
  exact Bool.noConfusion h0

end sketch

end skylark

namespace skylark

namespace sketch

variable {α : Type}

/-! ### The `[MC, MR]` apply on a grid other than the default one -/

theorem worked_example_w_zero (s : ℝ) :
    spec_w worked_example ⟨Real.sqrt, Real.cos⟩ (F0 s) 0 [0, 0] = [0, 0] := by
  simp [spec_w, spec_w_blk, spec_diag, spec_slice, spec_scramble, spec_swap, spec_pad,
    worked_example, F0, List.range_succ]

/-- The columnwise local apply on the worked-example parameters, entry `(0, c)`: `cos 2`
when column `c` of the input is `[1, 1]`, and `cos 0 = 1` when it is `[0, 0]`. -/
theorem worked_example_get_column (junk : Nat → Nat → Nat → ℝ) (A sk : El.Matrix ℝ)
    (hA : A.Height = 2) (c : Nat) (hc : c < A.Width) :
    (A.column c = [1, 1] →
      (apply_impl_columnwise worked_example ⟨Real.sqrt, Real.cos⟩ (F0 (1 / Real.sqrt 2)) junk
        A sk).Get 0 c = Real.cos 2) ∧
    (A.column c = [0, 0] →
      (apply_impl_columnwise worked_example ⟨Real.sqrt, Real.cos⟩ (F0 (1 / Real.sqrt 2)) junk
        A sk).Get 0 c = 1) := by
  have h := apply_impl_columnwise_get worked_example ⟨Real.sqrt, Real.cos⟩
    (F0 (1 / Real.sqrt 2)) junk A sk worked_example_WF (Nat.le_refl _) hA (F0_length _) c 0 0
    hc (show 0 < 1 by omega) (by decide)
  constructor
  · intro hcol
    rw [h, hcol, worked_example_w (1 / Real.sqrt 2) sqrt_two_mul_inv]
    simp [readout, worked_example]
  · intro hcol
    rw [h, hcol, worked_example_w_zero]
    simp [readout, worked_example]

theorem STAR_X_columnwise_Get_local [CommRing α] (d : FastRFT_data_t α) (m : MathFns α)
    (fut : FUT_t α) (junk : Nat → Nat → Nat → Nat → α) (A1 SA1 : El.DistMatrix α)
    (l j q iLoc jLoc : Nat) (hq : SA1.Owner l j = q)
    (hi : l / El.Stride SA1.grid SA1.ColDist = iLoc)
    (hj : j / El.Stride SA1.grid SA1.RowDist = jLoc) :
    (STAR_X_apply_impl_vdist_columnwise d m fut junk A1 SA1).Get l j
      = (apply_impl_columnwise d m fut (junk q) (A1.Matrix q) (SA1.Matrix q)).Get iLoc jLoc := by
  subst hq hi hj
  rfl

theorem MC_MR_apply_columnwise_Get [CommRing α] (d : FastRFT_data_t α) (m : MathFns α)
    (fut : FUT_t α) (DefaultGrid : El.Grid) (junk : Nat → Nat → Nat → Nat → α)
    (junk1 : Nat → Nat → Nat → α) (A sketch_of_A : El.DistMatrix α)
    (hg : 0 < sketch_of_A.grid.Size) (l j : Nat) :
    (MC_MR_apply_columnwise d m fut DefaultGrid junk junk1 A sketch_of_A).Get l j
      = (STAR_X_apply_impl_vdist_columnwise d m fut junk (El.redistribute .STAR .VR A)
          (El.DistMatrix.alloc .STAR .VR DefaultGrid d._S A.Width junk1)).Get l j := by
  show (El.distribute .MC .MR sketch_of_A.grid
    (STAR_X_apply_impl_vdist_columnwise d m fut junk (El.redistribute .STAR .VR A)
      (El.DistMatrix.alloc .STAR .VR DefaultGrid d._S A.Width junk1)).logical).Get l j = _
  rw [El.distribute_Get _ .MC .MR hg (Or.inr (Or.inr ⟨rfl, rfl⟩))]
  rfl

/-- C7 fails on the code: the `[MC, MR]` apply creates its intermediate `SA1` without a
grid argument, so on the default grid, while `A1` keeps the grid of `A`. With four
processes, `A` on a `4 x 1` grid and the default grid `2 x 2`, process 1 holds column 1 of
`A1` and column 2 of `SA1`: for the `2 x 4` input whose column 1 is `[1, 1]` and whose
other columns are zero, entry `(0, 2)` of the logical output is `cos 2`, the value that
belongs to column 1, where the local columnwise algorithm on the logical matrix gives
`cos 0 = 1`. -/
theorem MC_MR_apply_other_grid_permutes (junk : Nat → Nat → Nat → Nat → ℝ)
    (junk1 junk0 junk' : Nat → Nat → Nat → ℝ) (sk' : El.Matrix ℝ) :
    (MC_MR_apply_columnwise worked_example ⟨Real.sqrt, Real.cos⟩ (F0 (1 / Real.sqrt 2))
        ⟨2, 2⟩ junk junk1
        (El.distribute .MC .MR ⟨4, 1⟩ (ofColumns 2 [[0, 0], [1, 1], [0, 0], [0, 0]]))
        (El.DistMatrix.alloc .MC .MR ⟨4, 1⟩ 2 4 junk0)).Get 0 2 = Real.cos 2 ∧
    (apply_impl_columnwise worked_example ⟨Real.sqrt, Real.cos⟩ (F0 (1 / Real.sqrt 2)) junk'
        (El.distribute .MC .MR ⟨4, 1⟩
          (ofColumns 2 [[0, 0], [1, 1], [0, 0], [0, 0]])).logical sk').Get 0 2 = 1 ∧
    Real.cos 2 ≠ 1 := by
  refine ⟨?_, ?_, ?_⟩
  · have h1 := MC_MR_apply_columnwise_Get worked_example ⟨Real.sqrt, Real.cos⟩
      (F0 (1 / Real.sqrt 2)) ⟨2, 2⟩ junk junk1
      (El.distribute .MC .MR ⟨4, 1⟩ (ofColumns 2 [[(0 : ℝ), 0], [1, 1], [0, 0], [0, 0]]))
      (El.DistMatrix.alloc .MC .MR ⟨4, 1⟩ 2 4 junk0) (show 0 < 4 * 1 by omega) 0 2
    have h2 := STAR_X_columnwise_Get_local worked_example ⟨Real.sqrt, Real.cos⟩
      (F0 (1 / Real.sqrt 2)) junk
      (El.redistribute .STAR .VR (El.distribute .MC .MR ⟨4, 1⟩
        (ofColumns 2 [[(0 : ℝ), 0], [1, 1], [0, 0], [0, 0]])))
      (El.DistMatrix.alloc .STAR .VR ⟨2, 2⟩ 2 4 junk1) 0 2 1 0 0
      (by
        show El.RankOf ⟨2, 2⟩ .STAR (0 % El.Stride ⟨2, 2⟩ .STAR)
          + El.RankOf ⟨2, 2⟩ .VR (2 % El.Stride ⟨2, 2⟩ .VR) = 1
        decide)
      (by
        show 0 / El.Stride ⟨2, 2⟩ .STAR = 0
        decide)
      (by
        show 2 / El.Stride ⟨2, 2⟩ .VR = 0
        decide)
    rw [h1]
    refine h2.trans ?_
    have hcol : ((El.redistribute .STAR .VR (El.distribute .MC .MR ⟨4, 1⟩
        (ofColumns 2 [[(0 : ℝ), 0], [1, 1], [0, 0], [0, 0]]))).Matrix 1).column 0 = [1, 1] := by
      rfl
    exact (worked_example_get_column (junk 1)
      ((El.redistribute .STAR .VR (El.distribute .MC .MR ⟨4, 1⟩
        (ofColumns 2 [[(0 : ℝ), 0], [1, 1], [0, 0], [0, 0]]))).Matrix 1)
      _ (by decide) 0 (by decide)).1 hcol
  · have hcol : ((El.distribute .MC .MR ⟨4, 1⟩
        (ofColumns 2 [[(0 : ℝ), 0], [1, 1], [0, 0], [0, 0]])).logical).column 2 = [0, 0] := by
      rfl
    exact (worked_example_get_column junk'
      (El.distribute .MC .MR ⟨4, 1⟩
        (ofColumns 2 [[(0 : ℝ), 0], [1, 1], [0, 0], [0, 0]])).logical
      sk' (by decide) 2 (by decide)).2 hcol
  · have h := Real.cos_two_neg
    intro h1
    rw [h1] at h
    exact absurd h (by norm_num)

end sketch

end skylark

namespace skylark

namespace base

variable {α : Type}

/-! ### Random matrices -/

end base

end skylark

namespace skylark

namespace ml

/-! ### The allocation of examples to processes -/

theorem foldl_set_length {β : Type} (g : Nat → β → β) (d : β) (k : Nat) (t : List β) :
    ((List.range k).foldl (fun t i => t.set i (g i (t.getD i d))) t).length = t.length := by
  induction k with
  | zero => rfl
  | succ k ih =>
    rw [List.range_succ, List.foldl_append, List.foldl_cons, List.foldl_nil, List.length_set, ih]

theorem getD_set {β : Type} (t : List β) (i j : Nat) (a d : β) (hi : i < t.length) :
    (t.set i a).getD j d = if j = i then a else t.getD j d := by
  rw [List.getD_eq_getElem?_getD, List.getD_eq_getElem?_getD, List.getElem?_set]
  by_cases h : i = j
  · subst h
    rw [if_pos rfl, if_pos rfl, if_pos hi]
    rfl
  · rw [if_neg h, if_neg (fun h' => h h'.symm)]

theorem foldl_set_getD {β : Type} (g : Nat → β → β) (d : β) (k : Nat) (t : List β)
    (hk : k ≤ t.length) :
    ∀ j, ((List.range k).foldl (fun t i => t.set i (g i (t.getD i d))) t).getD j d
      = if j < k then g j (t.getD j d) else t.getD j d := by
  induction k with
  | zero =>
    intro j
    simp
  | succ k ih =>
    intro j
    have ih' := ih (by omega)
    have hlen := foldl_set_length g d k t
    rw [List.range_succ, List.foldl_append, List.foldl_cons, List.foldl_nil]
    have e := getD_set ((List.range k).foldl (fun t i => t.set i (g i (t.getD i d))) t) k j
      (g k (((List.range k).foldl (fun t i => t.set i (g i (t.getD i d))) t).getD k d)) d
      (by omega)
    have ek := ih' k
    rw [if_neg (by omega : ¬ k < k)] at ek
    rw [e, ek, ih' j]
    by_cases h1 : j = k
    · rw [if_pos h1, if_pos (by omega), h1]
    · rw [if_neg h1]
      by_cases h2 : j < k
      · rw [if_pos h2, if_pos (by omega)]
      · rw [if_neg h2, if_neg (by omega)]

theorem examples_allocation_length (n size : Nat) (junk : List Nat)
    (hj : junk.length = size) : (examples_allocation n size junk).length = size := by
  unfold examples_allocation
  simp only []
  rw [foldl_set_length (fun _ x => x + 1) 0, foldl_set_length (fun _ _ => n / size) 0, hj]

theorem examples_allocation_getD (n size : Nat) (junk : List Nat) (hs : 1 ≤ size)
    (hj : junk.length = size) (i : Nat) (hi : i < size) :
    (examples_allocation n size junk).getD i 0
      = n / size + if i < n % size then 1 else 0 := by
  have hlt : n % size < size := Nat.mod_lt _ (by omega)
  unfold examples_allocation
  simp only []
  rw [foldl_set_getD (fun _ x => x + 1) 0 _ _
      (by rw [foldl_set_length (fun _ _ => n / size) 0, hj]; omega),
    foldl_set_getD (fun _ _ => n / size) 0 _ _ (by omega), if_pos hi]
  by_cases h : i < n % size
  · rw [if_pos h, if_pos h]
  · rw [if_neg h, if_neg h]
    rfl

theorem sum_map_range_step (c r : Nat) (k : Nat) :
    ((List.range k).map (fun i => c + if i < r then 1 else 0)).sum = k * c + min k r := by
  induction k with
  | zero => simp
  | succ k ih =>
    rw [List.range_succ, List.map_append, List.sum_append, ih]
    simp only [List.map_cons, List.map_nil, List.sum_cons, List.sum_nil]
    by_cases h : k < r
    · rw [if_pos h, Nat.min_eq_left (by omega), Nat.min_eq_left (by omega)]
      ring
    · rw [if_neg h, Nat.min_eq_right (by omega), Nat.min_eq_right (by omega)]
      ring

theorem examples_allocation_eq (n size : Nat) (junk : List Nat) (hs : 1 ≤ size)
    (hj : junk.length = size) :
    examples_allocation n size junk
      = (List.range size).map (fun i => n / size + if i < n % size then 1 else 0) := by
  apply List.ext_getElem?
  intro i
  by_cases hi : i < size
  · have h1 := examples_allocation_getD n size junk hs hj i hi
    have hl := examples_allocation_length n size junk hj
    rw [List.getD_eq_getElem?_getD, List.getElem?_eq_getElem (by omega)] at h1
    rw [List.getElem?_eq_getElem (by omega), List.getElem?_map,
      List.getElem?_range hi]
    simp only [Option.getD_some] at h1
    rw [h1]
    rfl
  · rw [List.getElem?_eq_none (by rw [examples_allocation_length n size junk hj]; omega),
      List.getElem?_eq_none (by rw [List.length_map, List.length_range]; omega)]

/-- C28: for every number of examples `n >= 0` and every number of processes
`size >= 1`, the table `examples_allocation` has `size` entries that sum to exactly `n`,
every entry is `n / size` or `n / size + 1` (the latter on the first `n % size` ranks), and
the entries do not increase with the rank. -/
theorem examples_allocation_sum (n size : Nat) (junk : List Nat) (hs : 1 ≤ size)
    (hj : junk.length = size) :
    (examples_allocation n size junk).length = size ∧
    (examples_allocation n size junk).sum = n ∧
    (∀ i, i < size →
      (examples_allocation n size junk).getD i 0
        = n / size + if i < n % size then 1 else 0) ∧
    (∀ i, i < size →
      (examples_allocation n size junk).getD i 0 = n / size ∨
      (examples_allocation n size junk).getD i 0 = n / size + 1) ∧
    (∀ i j, i ≤ j → j < size →
      (examples_allocation n size junk).getD j 0
        ≤ (examples_allocation n size junk).getD i 0) := by
  have hlt : n % size < size := Nat.mod_lt _ (by omega)
  refine ⟨examples_allocation_length n size junk hj, ?_,
    fun i hi => examples_allocation_getD n size junk hs hj i hi, ?_, ?_⟩
  · rw [examples_allocation_eq n size junk hs hj, sum_map_range_step,
      Nat.min_eq_right (by omega)]
    exact Nat.div_add_mod n size
  · intro i hi
    rw [examples_allocation_getD n size junk hs hj i hi]
    by_cases h : i < n % size
    · rw [if_pos h]
      exact Or.inr rfl
    · rw [if_neg h]
      exact Or.inl rfl
  · intro i j hij hjs
    rw [examples_allocation_getD n size junk hs hj i (by omega),
      examples_allocation_getD n size junk hs hj j hjs]
    by_cases h : j < n % size
    · rw [if_pos h, if_pos (by omega)]
    · rw [if_neg h]
      split_ifs <;> omega

/-- C28 at `n = 10` examples and `size = 4` processes: the table is `[3, 3, 2, 2]`. -/
theorem examples_allocation_sum_witness :
    examples_allocation 10 4 [0, 0, 0, 0] = [3, 3, 2, 2] ∧
    (examples_allocation 10 4 [0, 0, 0, 0]).sum = 10 :=
  ⟨by decide, (examples_allocation_sum 10 4 [0, 0, 0, 0] (by decide) rfl).2.1⟩

end ml

end skylark

namespace skylark

namespace ml

/-! ### The index tables of `hilbert_model_t` -/

theorem int_wrap_of_range (x : Int) (h1 : -2147483648 ≤ x) (h2 : x ≤ 2147483647) :
    int_wrap x = x := by
  unfold int_wrap
  omega

theorem index_tables_loop (get_S : Nat → Int) (pre : Nat → Int) (m : Nat)
    (h0 : pre 0 = 0) (hs : ∀ i, pre (i + 1) = pre i + get_S i)
    (hr : ∀ i, i < m → -2147483647 ≤ pre i + get_S i ∧ pre i + get_S i ≤ 2147483647)
    (k : Nat) (hk : k ≤ m) :
    ((List.range k).foldl (index_tables.step get_S)
        { _starts := List.replicate m 0, _finishes := List.replicate m 0, nf := 0 }).nf
      = pre k ∧
    ((List.range k).foldl (index_tables.step get_S)
        { _starts := List.replicate m 0, _finishes := List.replicate m 0,
          nf := 0 })._starts.length = m ∧
    ((List.range k).foldl (index_tables.step get_S)
        { _starts := List.replicate m 0, _finishes := List.replicate m 0,
          nf := 0 })._finishes.length = m ∧
    (∀ j, j < k →
      ((List.range k).foldl (index_tables.step get_S)
          { _starts := List.replicate m 0, _finishes := List.replicate m 0,
            nf := 0 })._starts.getD j 0 = pre j ∧
      ((List.range k).foldl (index_tables.step get_S)
          { _starts := List.replicate m 0, _finishes := List.replicate m 0,
            nf := 0 })._finishes.getD j 0 = pre j + get_S j - 1) := by
  induction k with
  | zero =>
    refine ⟨h0.symm, by simp, by simp, ?_⟩
    intro j hj
    omega
  | succ k ih =>
    obtain ⟨i1, i2, i3, i4⟩ := ih (by omega)
    rw [List.range_succ, List.foldl_append, List.foldl_cons, List.foldl_nil]
    generalize (List.range k).foldl (index_tables.step get_S)
      { _starts := List.replicate m 0, _finishes := List.replicate m 0, nf := 0 } = t
      at i1 i2 i3 i4
    have hw : int_wrap (t.nf + get_S k) = pre k + get_S k := by
      rw [i1]
      exact int_wrap_of_range _ (by have := hr k (by omega); omega)
        (by have := hr k (by omega); omega)
    have hw1 : int_wrap (int_wrap (t.nf + get_S k) - 1) = pre k + get_S k - 1 := by
      rw [hw]
      exact int_wrap_of_range _ (by have := hr k (by omega); omega)
        (by have := hr k (by omega); omega)
    refine ⟨?_, ?_, ?_, ?_⟩
    · show int_wrap (t.nf + get_S k) = _
      rw [hw, hs]
    · show (t._starts.set k t.nf).length = m
      rw [List.length_set, i2]
    · show (t._finishes.set k (int_wrap (int_wrap (t.nf + get_S k) - 1))).length = m
      rw [List.length_set, i3]
    · intro j hj
      constructor
      · show (t._starts.set k t.nf).getD j 0 = _
        rw [getD_set _ _ _ _ _ (by omega)]
        by_cases h : j = k
        · rw [if_pos h, i1, h]
        · rw [if_neg h]
          exact (i4 j (by omega)).1
      · show (t._finishes.set k (int_wrap (int_wrap (t.nf + get_S k) - 1))).getD j 0 = _
        rw [getD_set _ _ _ _ _ (by omega)]
        by_cases h : j = k
        · rw [if_pos h, hw1, h]
        · rw [if_neg h]
          exact (i4 j (by omega)).2

theorem take_sum_succ (S : List Int) (i : Nat) :
    (S.take (i + 1)).sum = (S.take i).sum + S.getD i 0 := by
  by_cases h : i < S.length
  · rw [List.sum_take_succ S i h, List.getD_eq_getElem?_getD, List.getElem?_eq_getElem h]
    rfl
  · rw [List.take_of_length_le (by omega), List.take_of_length_le (by omega),
      List.getD_eq_getElem?_getD, List.getElem?_eq_none (by omega)]
    simp

theorem take_sum_mono (S : List Int) (hS : ∀ s, s ∈ S → 1 ≤ s) (i j : Nat) (hij : i ≤ j)
    (hj : j ≤ S.length) : (S.take i).sum + ((j - i : Nat) : Int) ≤ (S.take j).sum := by
  induction j with
  | zero =>
    have : i = 0 := by omega
    subst this
    simp
  | succ j ih =>
    by_cases h : i = j + 1
    · subst h
      simp
    · have ih' := ih (by omega) (by omega)
      rw [take_sum_succ]
      have hmem : 1 ≤ S.getD j 0 := by
        rw [List.getD_eq_getElem?_getD, List.getElem?_eq_getElem (by omega)]
        exact hS _ (List.getElem_mem _)
      have e : ((j + 1 - i : Nat) : Int) = ((j - i : Nat) : Int) + 1 := by omega
      omega

theorem hilbert_model_t_tables (S : List Int) (hS : ∀ s, s ∈ S → 1 ≤ s)
    (hsum : S.sum ≤ 2147483647) :
    (hilbert_model_t S)._starts.length = S.length ∧
    (hilbert_model_t S)._finishes.length = S.length ∧
    ∀ i, i < S.length →
      (hilbert_model_t S)._starts.getD i 0 = (S.take i).sum ∧
      (hilbert_model_t S)._finishes.getD i 0 = (S.take i).sum + S.getD i 0 - 1 := by
  have h := index_tables_loop (fun i => S.getD i 0) (fun i => (S.take i).sum) S.length
    (by simp) (fun i => take_sum_succ S i) (by
      intro i hi
      have h1 := take_sum_mono S hS 0 i (by omega) (by omega)
      have h2 := take_sum_mono S hS (i + 1) S.length (by omega) (by omega)
      have h3 := take_sum_mono S hS i (i + 1) (by omega) (by omega)
      rw [take_sum_succ] at h2 h3
      rw [List.take_length] at h2
      simp only [List.take_zero, List.sum_nil] at h1
      show -2147483647 ≤ (S.take i).sum + S.getD i 0 ∧ (S.take i).sum + S.getD i 0 ≤ 2147483647
      omega) S.length (Nat.le_refl _)
  exact ⟨h.2.1, h.2.2.1, h.2.2.2⟩

theorem build_from_ptree_eq (S : List Int) :
    build_from_ptree S.length S = hilbert_model_t S := rfl

end ml

end skylark

namespace skylark

namespace ml

theorem index_range_exists (S : List Int) (x : Int) (hx0 : 0 ≤ x) (hx : x < S.sum) :
    ∃ i, i < S.length ∧ (S.take i).sum ≤ x ∧ x < (S.take (i + 1)).sum := by
  have hP : ∃ k, x < (S.take k).sum := ⟨S.length, by rw [List.take_length]; exact hx⟩
  have hk := Nat.find_spec hP
  have hmin := fun j => Nat.find_min hP (m := j)
  generalize Nat.find hP = k at hk hmin
  cases k with
  | zero =>
    simp at hk
    omega
  | succ k =>
    refine ⟨k, ?_, ?_, hk⟩
    · by_contra hcon
      have h1 := hmin k (by omega)
      rw [List.take_of_length_le (by omega)] at hk h1
      exact h1 hk
    · have h1 := hmin k (by omega)
      omega

/-- C25 fails without a bound on the total: `nf` and the tables are `int`. For the output
sizes `[2147483647, 1, 1]`, each at least 1, the running sum passes `2^31 - 1` and
`_starts[2]` is `-2147483648`, not `S_0 + S_1 = 2147483648`; the range of map 2 then lies
below 0 and the ranges do not cover `0 .. (sum of S_i) - 1`. -/
theorem index_tables_overflow :
    (∀ s : Int, s ∈ [2147483647, 1, 1] → 1 ≤ s) ∧
    (hilbert_model_t [2147483647, 1, 1])._starts = [0, 2147483647, -2147483648] ∧
    (hilbert_model_t [2147483647, 1, 1])._finishes
      = [2147483646, 2147483647, -2147483648] ∧
    (hilbert_model_t [2147483647, 1, 1])._starts.getD 2 0
      ≠ (([2147483647, 1, 1] : List Int).take 2).sum := by
  decide

/-- C25, amended: for feature maps with output sizes `S_0 .. S_{m-1}`, each at least 1,
whose total is at most `2^31 - 1` (so that no `int` sum overflows), the constructor
computes `_starts[i] = S_0 + .. + S_{i-1}` and `_finishes[i] = _starts[i] + S_i - 1`; the
ranges `[_starts[i], _finishes[i]]` are non-empty and consecutive (the first starts at 0,
each next one starts right after the previous one ends, the last ends at the total minus
1), so every index below the total lies in exactly one of them; the slice height
`finish - start + 1` of `predict` is `S_i`; and `build_from_ptree` computes the same
tables. -/
theorem index_tables_ranges (S : List Int) (hS : ∀ s, s ∈ S → 1 ≤ s)
    (hsum : S.sum ≤ 2147483647) :
    (∀ i, i < S.length →
      (hilbert_model_t S)._starts.getD i 0 = (S.take i).sum ∧
      (hilbert_model_t S)._finishes.getD i 0
        = (hilbert_model_t S)._starts.getD i 0 + S.getD i 0 - 1 ∧
      predict_sj (hilbert_model_t S) i = S.getD i 0 ∧
      (hilbert_model_t S)._starts.getD i 0 ≤ (hilbert_model_t S)._finishes.getD i 0) ∧
    (0 < S.length → (hilbert_model_t S)._starts.getD 0 0 = 0) ∧
    (∀ i, i + 1 < S.length →
      (hilbert_model_t S)._starts.getD (i + 1) 0
        = (hilbert_model_t S)._finishes.getD i 0 + 1) ∧
    (0 < S.length → (hilbert_model_t S)._finishes.getD (S.length - 1) 0 = S.sum - 1) ∧
    (∀ x : Int, 0 ≤ x → x < S.sum →
      ∃ i, (i < S.length ∧ (hilbert_model_t S)._starts.getD i 0 ≤ x ∧
          x ≤ (hilbert_model_t S)._finishes.getD i 0) ∧
        ∀ j, (j < S.length ∧ (hilbert_model_t S)._starts.getD j 0 ≤ x ∧
          x ≤ (hilbert_model_t S)._finishes.getD j 0) → j = i) ∧
    build_from_ptree S.length S = hilbert_model_t S := by
  obtain ⟨_, _, ht⟩ := hilbert_model_t_tables S hS hsum
  have hge : ∀ i, i < S.length → 1 ≤ S.getD i 0 := by
    intro i hi
    rw [List.getD_eq_getElem?_getD, List.getElem?_eq_getElem hi]
    exact hS _ (List.getElem_mem _)
  refine ⟨?_, ?_, ?_, ?_, ?_, rfl⟩
  · intro i hi
    obtain ⟨h1, h2⟩ := ht i hi
    have h3 := hge i hi
    refine ⟨h1, by rw [h2, h1], ?_, by rw [h2, h1]; omega⟩
    show int_wrap (int_wrap ((hilbert_model_t S)._finishes.getD i 0
      - (hilbert_model_t S)._starts.getD i 0) + 1) = _
    have h4 := take_sum_mono S hS (i + 1) S.length (by omega) (by omega)
    rw [take_sum_succ, List.take_length] at h4
    have h5 := take_sum_mono S hS 0 i (by omega) (by omega)
    simp only [List.take_zero, List.sum_nil] at h5
    rw [h2, h1]
    have e1 : int_wrap ((S.take i).sum + S.getD i 0 - 1 - (S.take i).sum) = S.getD i 0 - 1 := by
      rw [int_wrap_of_range _ (by omega) (by omega)]
      omega
    rw [e1, int_wrap_of_range _ (by omega) (by omega)]
    omega
  · intro h0
    rw [(ht 0 h0).1]
    simp
  · intro i hi
    rw [(ht (i + 1) hi).1, (ht i (by omega)).2, take_sum_succ]
    omega
  · intro h0
    rw [(ht (S.length - 1) (by omega)).2]
    have e := take_sum_succ S (S.length - 1)
    rw [show S.length - 1 + 1 = S.length by omega, List.take_length] at e
    omega
  · intro x hx0 hx
    obtain ⟨i, hi, h1, h2⟩ := index_range_exists S x hx0 hx
    rw [take_sum_succ] at h2
    refine ⟨i, ⟨hi, by rw [(ht i hi).1]; exact h1, by rw [(ht i hi).2]; omega⟩, ?_⟩
    rintro j ⟨hj, hj1, hj2⟩
    rw [(ht j hj).1] at hj1
    rw [(ht j hj).2] at hj2
    have hjs := take_sum_succ S j
    have his := take_sum_succ S i
    rcases Nat.lt_trichotomy i j with h | h | h
    · have := take_sum_mono S hS (i + 1) j (by omega) (by omega)
      omega
    · exact h.symm
    · have := take_sum_mono S hS (j + 1) i (by omega) (by omega)
      omega

/-- C25, amended, at the output sizes `[3, 1, 2]`: the tables are `[0, 3, 4]` and
`[2, 3, 5]`. -/
theorem index_tables_ranges_witness :
    (∀ s : Int, s ∈ [3, 1, 2] → 1 ≤ s) ∧ ([3, 1, 2] : List Int).sum ≤ 2147483647 ∧
    (hilbert_model_t [3, 1, 2])._starts = [0, 3, 4] ∧
    (hilbert_model_t [3, 1, 2])._finishes = [2, 3, 5] ∧
    build_from_ptree 3 [3, 1, 2] = hilbert_model_t [3, 1, 2] :=
  ⟨by decide, by decide, by decide, by decide,
    (index_tables_ranges [3, 1, 2] (by decide) (by decide)).2.2.2.2.2⟩

end ml

end skylark

namespace skylark

namespace ml

/-! ### The arguments handed to the ridge solvers -/

/-- C30 fails on the code: `KernelRLSC` passes `base::COLUMNS` to `KernelRidge` whatever
its own `direction` argument is, so a call with `base::ROWS` does not hand its direction
on; `FasterKernelRLSC` does pass its `direction`. Both hand on `am_i_printing`,
`log_level`, `iter_lim`, `res_print` and `tolerance` unchanged and the prefix with one tab
appended. -/
theorem KernelRLSC_ignores_direction {α : Type} (direction : base.direction_t)
    (params : rlsc_params_t α) :
    (KernelRLSC .ROWS params).direction = .COLUMNS ∧
    (KernelRLSC .ROWS params).direction ≠ .ROWS ∧
    (KernelRLSC direction params).direction = .COLUMNS ∧
    (FasterKernelRLSC direction params).direction = direction ∧
    (KernelRLSC direction params).krr_params
      = ⟨params.am_i_printing, params.log_level, params.pfx ++ "\t", params.iter_lim,
          params.res_print, params.tolerance⟩ ∧
    (FasterKernelRLSC direction params).krr_params
      = ⟨params.am_i_printing, params.log_level, params.pfx ++ "\t", params.iter_lim,
          params.res_print, params.tolerance⟩ :=
  ⟨rfl, by
      show base.direction_t.COLUMNS ≠ .ROWS
      decide, rfl, rfl, rfl, rfl⟩

end ml

end skylark

namespace skylark

namespace ml

variable {α : Type}

/-! ### Classification accuracy -/

theorem row_prediction_loop [LinearOrderedField α] (Yp : El.Matrix α) (i : Nat) (n : Nat) :
    ∃ p : Nat, p < n + 1 ∧
      (List.range' 1 n).foldl (fun (op : α × Int) j =>
        let o1 := Yp.Get i j
        if o1 > op.1 then (o1, (j : Int)) else op) (Yp.Get i 0, 0) = (Yp.Get i p, (p : Int)) ∧
      (∀ j, j < n + 1 → Yp.Get i j ≤ Yp.Get i p) ∧
      (∀ j, j < p → Yp.Get i j < Yp.Get i p) := by
  induction n with
  | zero =>
    refine ⟨0, by omega, rfl, ?_, ?_⟩
    · intro j hj
      have : j = 0 := by omega
      rw [this]
    · intro j hj
      omega
  | succ n ih =>
    obtain ⟨p, hp, he, hmax, hmin⟩ := ih
    rw [List.range'_concat, List.foldl_append, List.foldl_cons, List.foldl_nil, he, Nat.one_mul]
    simp only []
    by_cases h : Yp.Get i (1 + n) > Yp.Get i p
    · rw [if_pos h]
      refine ⟨1 + n, by omega, rfl, ?_, ?_⟩
      · intro j hj
        by_cases hj2 : j < n + 1
        · exact le_of_lt (lt_of_le_of_lt (hmax j hj2) h)
        · have : j = 1 + n := by omega
          rw [this]
      · intro j hj
        exact lt_of_le_of_lt (hmax j (by omega)) h
    · rw [if_neg h]
      refine ⟨p, by omega, rfl, ?_, hmin⟩
      intro j hj
      by_cases hj2 : j < n + 1
      · exact hmax j hj2
      · have : j = 1 + n := by omega
        rw [this]
        exact le_of_not_lt h

/-- The label of a row: for one column `+1` if the value is non-negative and `-1`
otherwise; for more columns the smallest index that attains the maximum of the row. -/
theorem row_prediction_spec [LinearOrderedField α] (Yp : El.Matrix α) (i : Nat) :
    (Yp.Width = 1 → (row_prediction Yp i).2 = if Yp.Get i 0 ≥ 0 then 1 else -1) ∧
    (1 < Yp.Width → ∃ p : Nat, (row_prediction Yp i).2 = (p : Int) ∧ p < Yp.Width ∧
      (∀ j, j < Yp.Width → Yp.Get i j ≤ Yp.Get i p) ∧
      (∀ j, j < p → Yp.Get i j < Yp.Get i p)) := by
  constructor
  · intro h1
    unfold row_prediction
    simp only [h1]
    rfl
  · intro hk
    obtain ⟨p, hp, he, hmax, hmin⟩ := row_prediction_loop Yp i (Yp.Width - 1)
    refine ⟨p, ?_, by omega, ?_, hmin⟩
    · unfold row_prediction
      simp only []
      rw [if_neg (by omega), he]
    · intro j hj
      exact hmax j (by omega)

theorem predict_row_eq [LinearOrderedField α] (DV : El.Matrix α) (i : Nat) :
    predict_row DV i = ((row_prediction DV i).1, (((row_prediction DV i).2 : Int) : α)) := by
  unfold predict_row row_prediction
  simp only []
  have hinit : ((if DV.Width = 1 then (if DV.Get i 0 ≥ 0 then (1 : α) else -1) else 0) : α)
      = (((if DV.Width = 1 then (if DV.Get i 0 ≥ 0 then (1 : Int) else -1) else 0) : Int) : α) := by
    split_ifs <;> simp
  rw [hinit]
  generalize (if DV.Width = 1 then (if DV.Get i 0 ≥ 0 then (1 : Int) else -1) else 0) = p0
  generalize DV.Get i 0 = o0
  generalize List.range' 1 (DV.Width - 1) = js
  induction js generalizing o0 p0 with
  | nil => rfl
  | cons j js ih =>
    rw [List.foldl_cons, List.foldl_cons]
    by_cases h : DV.Get i j > o0
    · simp only [h, if_true]
      have := ih (j : Int) (DV.Get i j)
      simpa using this
    · simp only [h, if_false]
      exact ih p0 o0

theorem count_foldl (P : Nat → Prop) [DecidablePred P] (n : Nat) :
    (List.range n).foldl (fun (correct : Int) i => if P i then correct + 1 else correct) 0
      = (((List.range n).filter (fun i => decide (P i))).length : Int) := by
  induction n with
  | zero => rfl
  | succ n ih =>
    rw [List.range_succ, List.foldl_append, List.foldl_cons, List.foldl_nil, ih,
      List.filter_append, List.length_append]
    by_cases h : P n
    · simp [h]
    · simp [h]

theorem predict_labels_Get [LinearOrderedField α] (n : Nat) (DV PV : El.Matrix α) (i : Nat)
    (hi : i < DV.Height) :
    (predict_labels n DV PV).Get i 0 = (predict_row DV i).2 := by
  unfold predict_labels
  have key : ∀ k (M : El.Matrix α) (r : Nat),
      ((List.range k).foldl (fun PV i => PV.Set i 0 (predict_row DV i).2) M).Get r 0
        = if r < k then (predict_row DV r).2 else M.Get r 0 := by
    intro k
    induction k with
    | zero =>
      intro M r
      simp
    | succ k ih =>
      intro M r
      rw [List.range_succ, List.foldl_append, List.foldl_cons, List.foldl_nil]
      show (if r = k ∧ 0 = 0 then (predict_row DV k).2
        else ((List.range k).foldl (fun PV i => PV.Set i 0 (predict_row DV i).2) M).Get r 0) = _
      rw [ih]
      by_cases h1 : r = k
      · rw [if_pos ⟨h1, rfl⟩, if_pos (by omega), h1]
      · rw [if_neg (fun h => h1 h.1)]
        by_cases h2 : r < k
        · rw [if_pos h2, if_pos (by omega)]
        · rw [if_neg h2, if_neg (by omega)]
  rw [key, if_pos hi]

/-- C24: `classification_accuracy(Yt, Yp)` is the number of rows `i` of `Yp` whose
predicted label equals the truncation of `Yt(i, 0)`, a number between 0 and the number of
rows. The predicted label is `+1` if `Yp(i, 0) >= 0` and `-1` otherwise when `Yp` has one
column, and the smallest column index attaining the maximum of the row when it has more;
and `hilbert_model_t::predict` stores, for every row, the same label (as a `double`). -/
theorem classification_accuracy_spec [LinearOrderedField α] [FloorRing α]
    (Yt Yp PV : El.Matrix α) (n : Nat) :
    classification_accuracy Yt Yp
      = (((List.range Yp.Height).filter (fun i =>
          decide ((row_prediction Yp i).2 = int_of_double (Yt.Get i 0)))).length : Int) ∧
    0 ≤ classification_accuracy Yt Yp ∧
    classification_accuracy Yt Yp ≤ (Yp.Height : Int) ∧
    (∀ i, (Yp.Width = 1 → (row_prediction Yp i).2 = if Yp.Get i 0 ≥ 0 then 1 else -1) ∧
      (1 < Yp.Width → ∃ p : Nat, (row_prediction Yp i).2 = (p : Int) ∧ p < Yp.Width ∧
        (∀ j, j < Yp.Width → Yp.Get i j ≤ Yp.Get i p) ∧
        (∀ j, j < p → Yp.Get i j < Yp.Get i p))) ∧
    (∀ i, i < Yp.Height →
      (predict_labels n Yp PV).Get i 0 = (((row_prediction Yp i).2 : Int) : α)) := by
  have hc : classification_accuracy Yt Yp
      = (((List.range Yp.Height).filter (fun i =>
          decide ((row_prediction Yp i).2 = int_of_double (Yt.Get i 0)))).length : Int) :=
    count_foldl (fun i => (row_prediction Yp i).2 = int_of_double (Yt.Get i 0)) Yp.Height
  refine ⟨hc, ?_, ?_, fun i => row_prediction_spec Yp i, ?_⟩
  · rw [hc]
    exact Int.natCast_nonneg _
  · rw [hc]
    have h := List.length_filter_le (fun i =>
      decide ((row_prediction Yp i).2 = int_of_double (Yt.Get i 0))) (List.range Yp.Height)
    rw [List.length_range] at h
    exact_mod_cast h
  · intro i hi
    rw [predict_labels_Get n Yp PV i hi, predict_row_eq]

end ml

end skylark

namespace skylark

namespace algorithms

variable {α : Type}

/-! ### The conjugate-gradient solver in exact arithmetic -/

theorem sym_entry_of_symmetric (uplo : base.UpperOrLower) (A : El.Matrix α)
    (hsym : ∀ i l, i < A.Height → l < A.Height → A.Get i l = A.Get l i) (i l : Nat)
    (hi : i < A.Height) (hl : l < A.Height) : base.sym_entry uplo A i l = A.Get i l := by
  cases uplo
  · show (if l ≤ i then A.Get i l else A.Get l i) = _
    split_ifs
    · rfl
    · exact (hsym i l hi hl).symm
  · show (if i ≤ l then A.Get i l else A.Get l i) = _
    split_ifs
    · rfl
    · exact (hsym i l hi hl).symm

theorem sym_entry_map {β : Type} (f : α → β) (uplo : base.UpperOrLower) (A : El.Matrix α)
    (i l : Nat) : base.sym_entry uplo (A.map f) i l = f (base.sym_entry uplo A i l) := by
  cases uplo
  · show (if l ≤ i then f (A.Get i l) else f (A.Get l i)) = f (if l ≤ i then _ else _)
    split_ifs <;> rfl
  · show (if i ≤ l then f (A.Get i l) else f (A.Get l i)) = f (if i ≤ l then _ else _)
    split_ifs <;> rfl

theorem exact_sum_succ [LinearOrderedField α] (sqrt : α → α) (g : Nat → Option α) (n : Nat) :
    (base.exact_arithmetic sqrt).sum ((List.range (n + 1)).map g)
      = (base.exact_arithmetic sqrt).add
          ((base.exact_arithmetic sqrt).sum ((List.range n).map g)) (g n) := by
  unfold base.value_ops.sum
  rw [List.range_succ, List.map_append, List.foldl_append]
  rfl

theorem exact_add_eq_some [LinearOrderedField α] (sqrt : α → α) (a b : Option α) (v : α)
    (h : (base.exact_arithmetic sqrt).add a b = some v) :
    ∃ x y, a = some x ∧ b = some y ∧ v = x + y := by
  cases a with
  | none => exact absurd h (by intro h'; cases h')
  | some x =>
    cases b with
    | none => exact absurd h (by intro h'; cases h')
    | some y =>
      refine ⟨x, y, rfl, rfl, ?_⟩
      exact (Option.some.inj h).symm

theorem exact_mul_eq_some [LinearOrderedField α] (sqrt : α → α) (a b : Option α) (v : α)
    (h : (base.exact_arithmetic sqrt).mul a b = some v) :
    ∃ x y, a = some x ∧ b = some y ∧ v = x * y := by
  cases a with
  | none => exact absurd h (by intro h'; cases h')
  | some x =>
    cases b with
    | none => exact absurd h (by intro h'; cases h')
    | some y =>
      refine ⟨x, y, rfl, rfl, ?_⟩
      exact (Option.some.inj h).symm

/-- A sum of numbers in exact arithmetic is their sum. -/
theorem exact_sum_some [LinearOrderedField α] (sqrt : α → α) (g : Nat → Option α)
    (f : Nat → α) (n : Nat) (h : ∀ l, l < n → g l = some (f l)) :
    (base.exact_arithmetic sqrt).sum ((List.range n).map g)
      = some (∑ l ∈ Finset.range n, f l) := by
  induction n with
  | zero => rfl
  | succ n ih =>
    rw [exact_sum_succ, ih (fun l hl => h l (by omega)), h n (by omega),
      Finset.sum_range_succ]
    rfl

/-- A sum in exact arithmetic that is a number has only numbers as terms. -/
theorem exact_sum_terms [LinearOrderedField α] (sqrt : α → α) (g : Nat → Option α)
    (n : Nat) :
    ∀ v, (base.exact_arithmetic sqrt).sum ((List.range n).map g) = some v →
      ∀ l, l < n → ∃ x, g l = some x := by
  induction n with
  | zero =>
    intro v _ l hl
    omega
  | succ n ih =>
    intro v hv l hl
    rw [exact_sum_succ] at hv
    obtain ⟨x, y, hx, hy, _⟩ := exact_add_eq_some sqrt _ _ v hv
    by_cases hln : l = n
    · rw [hln]
      exact ⟨y, hy⟩
    · exact ih x hx l (by omega)

theorem exact_Symm_Get [LinearOrderedField α] (sqrt : α → α) (uplo : base.UpperOrLower)
    (al be : α) (A : El.Matrix α) (Bm C : El.Matrix (Option α))
    (hsym : ∀ i l, i < A.Height → l < A.Height → A.Get i l = A.Get l i) (i j : Nat)
    (hi : i < A.Height) (b : Nat → α) (c : α)
    (hb : ∀ l, l < A.Height → Bm.Get l j = some (b l)) (hc : C.Get i j = some c) :
    (base.Symm (base.exact_arithmetic sqrt) uplo (some al) (A.map some) Bm (some be) C).Get i j
      = some (al * (∑ l ∈ Finset.range A.Height, A.Get i l * b l) + be * c) := by
  show (base.exact_arithmetic sqrt).add
    ((base.exact_arithmetic sqrt).mul (some al)
      ((base.exact_arithmetic sqrt).sum ((List.range A.Height).map (fun l =>
        (base.exact_arithmetic sqrt).mul (base.sym_entry uplo (A.map some) i l)
          (Bm.Get l j)))))
    ((base.exact_arithmetic sqrt).mul (some be) (C.Get i j)) = _
  rw [exact_sum_some sqrt _ (fun l => A.Get i l * b l) A.Height (by
    intro l hl
    show (base.exact_arithmetic sqrt).mul (base.sym_entry uplo (A.map some) i l)
      (Bm.Get l j) = _
    rw [sym_entry_map, sym_entry_of_symmetric uplo A hsym i l hi hl, hb l hl]
    rfl), hc]
  rfl

theorem exact_ColumnDot [LinearOrderedField α] (sqrt : α → α) (P Q : El.Matrix (Option α))
    (j : Nat) (p q : Nat → α) (hp : ∀ l, l < P.Height → P.Get l j = some (p l))
    (hq : ∀ l, l < P.Height → Q.Get l j = some (q l)) :
    base.ColumnDot (base.exact_arithmetic sqrt) P Q j
      = some (∑ l ∈ Finset.range P.Height, p l * q l) := by
  show (base.exact_arithmetic sqrt).sum ((List.range P.Height).map (fun i =>
    (base.exact_arithmetic sqrt).mul (P.Get i j) (Q.Get i j))) = _
  rw [exact_sum_some sqrt _ (fun l => p l * q l) P.Height (by
    intro l hl
    show (base.exact_arithmetic sqrt).mul (P.Get l j) (Q.Get l j) = _
    rw [hp l hl, hq l hl]
    rfl)]

theorem exact_ColumnDot_terms [LinearOrderedField α] (sqrt : α → α)
    (P Q : El.Matrix (Option α)) (j : Nat) (v : α)
    (h : base.ColumnDot (base.exact_arithmetic sqrt) P Q j = some v) :
    ∀ l, l < P.Height → ∃ x y, P.Get l j = some x ∧ Q.Get l j = some y := by
  intro l hl
  obtain ⟨z, hz⟩ := exact_sum_terms sqrt (fun i =>
    (base.exact_arithmetic sqrt).mul (P.Get i j) (Q.Get i j)) P.Height v h l hl
  obtain ⟨x, y, hx, hy, _⟩ := exact_mul_eq_some sqrt _ _ z hz
  exact ⟨x, y, hx, hy⟩

theorem CG_after_Height (ops : base.value_ops α) (uplo : base.UpperOrLower)
    (A B X : El.Matrix α) (M : Option (El.Matrix α → El.Matrix α)) (t : Nat) :
    (CG_after ops uplo A B X M t).X.Height = X.Height ∧
    (CG_after ops uplo A B X M t).P.Height = X.Height ∧
    (CG_after ops uplo A B X M t).R.Height = B.Height ∧
    (CG_after ops uplo A B X M t).Q.Height = B.Height := by
  induction t with
  | zero => exact ⟨rfl, rfl, rfl, rfl⟩
  | succ t ih =>
    obtain ⟨h1, h2, h3, h4⟩ := ih
    exact ⟨h1, h2, h3, h4⟩

theorem CG_after_ressqr (ops : base.value_ops α) (uplo : base.UpperOrLower)
    (A B X : El.Matrix α) (M : Option (El.Matrix α → El.Matrix α)) (t : Nat) :
    (CG_after ops uplo A B X M t).ressqr
      = base.ColumnDot ops (CG_after ops uplo A B X M t).R (CG_after ops uplo A B X M t).R := by
  cases t <;> rfl

end algorithms

end skylark

namespace skylark

namespace algorithms

variable {α : Type}

/-! ### The return value of the conjugate-gradient solver -/

theorem CG_convg_spec (ops : base.value_ops α) (k : Nat) (tolerance : α)
    (nrmb ressqr : Nat → α) :
    CG_convg ops k tolerance nrmb ressqr ≤ k ∧
    (CG_convg ops k tolerance nrmb ressqr = k
      ↔ ∀ i, i < k → ops.lt (ops.sqrt (ressqr i)) (ops.mul tolerance (nrmb i)) = true) := by
  unfold CG_convg
  induction k with
  | zero =>
    refine ⟨Nat.le_refl _, ?_⟩
    constructor
    · intro _ i hi
      omega
    · intro _
      rfl
  | succ k ih =>
    obtain ⟨h1, h2⟩ := ih
    rw [List.range_succ, List.foldl_append, List.foldl_cons, List.foldl_nil]
    by_cases h : ops.lt (ops.sqrt (ressqr k)) (ops.mul tolerance (nrmb k)) = true
    · rw [if_pos h]
      refine ⟨by omega, ?_⟩
      constructor
      · intro he i hi
        by_cases hik : i = k
        · rw [hik]
          exact h
        · exact h2.1 (by omega) i (by omega)
      · intro hall
        have := h2.2 (fun i hi => hall i (by omega))
        omega
    · rw [if_neg h]
      refine ⟨by omega, ?_⟩
      constructor
      · intro he
        omega
      · intro hall
        exact absurd (hall k (by omega)) h

theorem CG_loop_spec (ops : base.value_ops α) (uplo : base.UpperOrLower)
    (A B X : El.Matrix α) (M : Option (El.Matrix α → El.Matrix α)) (tolerance : α)
    (nrmb : Nat → α) (remaining : Nat) :
    ∀ t,
      ((CG_loop ops uplo A B.Width M tolerance nrmb remaining t
            (CG_after ops uplo A B X M t)).ret = -1 ∧
        ∃ t', t ≤ t' ∧ t' < t + remaining ∧
          CG_convg ops B.Width tolerance nrmb (CG_after ops uplo A B X M (t' + 1)).ressqr
            = B.Width ∧
          (∀ s, t ≤ s → s < t' →
            CG_convg ops B.Width tolerance nrmb (CG_after ops uplo A B X M (s + 1)).ressqr
              ≠ B.Width) ∧
          (CG_loop ops uplo A B.Width M tolerance nrmb remaining t
            (CG_after ops uplo A B X M t)).X = (CG_after ops uplo A B X M (t' + 1)).X ∧
          (CG_loop ops uplo A B.Width M tolerance nrmb remaining t
            (CG_after ops uplo A B X M t)).passes = t' + 1) ∨
      ((CG_loop ops uplo A B.Width M tolerance nrmb remaining t
            (CG_after ops uplo A B X M t)).ret = -6 ∧
        (∀ s, t ≤ s → s < t + remaining →
          CG_convg ops B.Width tolerance nrmb (CG_after ops uplo A B X M (s + 1)).ressqr
            ≠ B.Width) ∧
        (CG_loop ops uplo A B.Width M tolerance nrmb remaining t
          (CG_after ops uplo A B X M t)).X
            = (CG_after ops uplo A B X M (t + remaining)).X ∧
        (CG_loop ops uplo A B.Width M tolerance nrmb remaining t
          (CG_after ops uplo A B X M t)).passes = t + remaining) := by
  induction remaining with
  | zero =>
    intro t
    right
    refine ⟨rfl, ?_, rfl, rfl⟩
    intro s h1 h2
    omega
  | succ n ih =>
    intro t
    have hstep : CG_iteration ops uplo A B.Width M t (CG_after ops uplo A B X M t)
        = CG_after ops uplo A B X M (t + 1) := rfl
    by_cases hc : CG_convg ops B.Width tolerance nrmb
        (CG_after ops uplo A B X M (t + 1)).ressqr = B.Width
    · left
      have e : CG_loop ops uplo A B.Width M tolerance nrmb (n + 1) t
          (CG_after ops uplo A B X M t)
          = { ret := -1, X := (CG_after ops uplo A B X M (t + 1)).X, passes := t + 1 } := by
        show (if CG_convg ops B.Width tolerance nrmb
            (CG_iteration ops uplo A B.Width M t (CG_after ops uplo A B X M t)).ressqr = B.Width
          then _ else _) = _
        rw [hstep, if_pos hc]
      rw [e]
      refine ⟨rfl, t, Nat.le_refl _, by omega, hc, ?_, rfl, rfl⟩
      intro s h1 h2
      omega
    · have e : CG_loop ops uplo A B.Width M tolerance nrmb (n + 1) t
          (CG_after ops uplo A B X M t)
          = CG_loop ops uplo A B.Width M tolerance nrmb n (t + 1)
              (CG_after ops uplo A B X M (t + 1)) := by
        show (if CG_convg ops B.Width tolerance nrmb
            (CG_iteration ops uplo A B.Width M t (CG_after ops uplo A B X M t)).ressqr = B.Width
          then _ else _) = _
        rw [hstep, if_neg hc]
      rw [e]
      rcases ih (t + 1) with ⟨h1, t', h2, h3, h4, h5, h6, h7⟩ | ⟨h1, h2, h3, h4⟩
      · left
        refine ⟨h1, t', by omega, by omega, h4, ?_, h6, h7⟩
        intro s hs1 hs2
        by_cases hst : s = t
        · rw [hst]
          exact hc
        · exact h5 s (by omega) hs2
      · right
        refine ⟨h1, ?_, ?_, ?_⟩
        · intro s hs1 hs2
          by_cases hst : s = t
          · rw [hst]
            exact hc
          · exact h2 s (by omega) (by omega)
        · rw [h3]
          congr 2
          omega
        · rw [h4]
          omega

end algorithms

end skylark

namespace skylark

namespace algorithms

variable {α : Type}

/-- C23: whatever the arithmetic of the scalar type does (also when a division by zero
gives a NaN, on which every comparison is false), `CG` is a total function that makes at
most `iter_lim` passes through its loop body. It returns `-1` or `-6`, and `-1` exactly
when at the end of some iteration `t < iter_lim` every column `i < k` has
`sqrt(ressqr_i) < tolerance * ||b_i||` for the computed `ressqr`; it stops at the first
such iteration, and the `X` it leaves is the one after the passes it made. With
`iter_lim <= 0` it returns `-6`, makes no pass and leaves `X` as passed in. The tolerance
of the test is `eps` when the caller's is below `eps`, else `1 - eps` when the caller's is
at least 1, else the caller's. -/
theorem CG_return (ops : base.value_ops α) (eps : α) (uplo : base.UpperOrLower)
    (A B X : El.Matrix α) (params : krylov_iter_params_t α)
    (M : Option (El.Matrix α → El.Matrix α)) :
    ((CG ops eps uplo A B X params M).ret = -1 ∨
      (CG ops eps uplo A B X params M).ret = -6) ∧
    ((CG ops eps uplo A B X params M).ret = -1 ↔
      ∃ t : Nat, (t : Int) < params.iter_lim ∧ ∀ i, i < B.Width →
        ops.lt (ops.sqrt ((CG_after ops uplo A B X M (t + 1)).ressqr i))
          (ops.mul (CG_tolerance ops eps params) (base.ColumnNrm2 ops B i)) = true) ∧
    ((CG ops eps uplo A B X params M).ret = -1 →
      1 ≤ (CG ops eps uplo A B X params M).passes ∧
      ∀ i, i < B.Width →
        ops.lt (ops.sqrt ((CG_after ops uplo A B X M
            (CG ops eps uplo A B X params M).passes).ressqr i))
          (ops.mul (CG_tolerance ops eps params) (base.ColumnNrm2 ops B i)) = true) ∧
    (∀ s, s + 1 < (CG ops eps uplo A B X params M).passes →
      ¬ ∀ i, i < B.Width →
        ops.lt (ops.sqrt ((CG_after ops uplo A B X M (s + 1)).ressqr i))
          (ops.mul (CG_tolerance ops eps params) (base.ColumnNrm2 ops B i)) = true) ∧
    ((CG ops eps uplo A B X params M).passes : Int) ≤ max params.iter_lim 0 ∧
    (CG ops eps uplo A B X params M).X
      = (CG_after ops uplo A B X M (CG ops eps uplo A B X params M).passes).X ∧
    (params.iter_lim ≤ 0 →
      (CG ops eps uplo A B X params M).ret = -6 ∧
      (CG ops eps uplo A B X params M).X = X ∧
      (CG ops eps uplo A B X params M).passes = 0) ∧
    (ops.lt params.tolerance eps = true → CG_tolerance ops eps params = eps) ∧
    (ops.lt params.tolerance eps = false → ops.ge params.tolerance ops.one = true →
      CG_tolerance ops eps params = ops.sub ops.one eps) ∧
    (ops.lt params.tolerance eps = false → ops.ge params.tolerance ops.one = false →
      CG_tolerance ops eps params = params.tolerance) := by
  have hconv : ∀ t, (CG_convg ops B.Width (CG_tolerance ops eps params)
      (base.ColumnNrm2 ops B) (CG_after ops uplo A B X M (t + 1)).ressqr = B.Width
      ↔ ∀ i, i < B.Width → ops.lt (ops.sqrt ((CG_after ops uplo A B X M (t + 1)).ressqr i))
          (ops.mul (CG_tolerance ops eps params) (base.ColumnNrm2 ops B i)) = true) :=
    fun t => (CG_convg_spec ops B.Width _ _ _).2
  have hCG : CG ops eps uplo A B X params M
      = CG_loop ops uplo A B.Width M (CG_tolerance ops eps params) (base.ColumnNrm2 ops B)
          params.iter_lim.toNat 0 (CG_after ops uplo A B X M 0) := rfl
  have hspec := CG_loop_spec ops uplo A B X M (CG_tolerance ops eps params)
    (base.ColumnNrm2 ops B) params.iter_lim.toNat 0
  rw [← hCG] at hspec
  have htol1 : ops.lt params.tolerance eps = true → CG_tolerance ops eps params = eps := by
    intro h
    unfold CG_tolerance
    rw [if_pos h]
  have htol2 : ops.lt params.tolerance eps = false → ops.ge params.tolerance ops.one = true →
      CG_tolerance ops eps params = ops.sub ops.one eps := by
    intro h1 h2
    unfold CG_tolerance
    rw [if_neg (by rw [h1]; decide), if_pos h2]
  have htol3 : ops.lt params.tolerance eps = false →
      ops.ge params.tolerance ops.one = false →
      CG_tolerance ops eps params = params.tolerance := by
    intro h1 h2
    unfold CG_tolerance
    rw [if_neg (by rw [h1]; decide), if_neg (by rw [h2]; decide)]
  rcases hspec with ⟨h1, t', h2, h3, h4, h5, h6, h7⟩ | ⟨h1, h2, h3, h4⟩
  · refine ⟨Or.inl h1, ?_, ?_, ?_, ?_, ?_, ?_, htol1, htol2, htol3⟩
    · constructor
      · intro _
        exact ⟨t', by omega, (hconv t').1 h4⟩
      · intro _
        exact h1
    · intro _
      rw [h7]
      exact ⟨by omega, (hconv t').1 h4⟩
    · intro s hs hall
      rw [h7] at hs
      exact h5 s (by omega) (by omega) ((hconv s).2 hall)
    · rw [h7]
      omega
    · rw [h7, h6]
    · intro hle
      omega
  · refine ⟨Or.inr h1, ?_, ?_, ?_, ?_, ?_, ?_, htol1, htol2, htol3⟩
    · constructor
      · intro h
        rw [h1] at h
        exact absurd h (by decide)
      · rintro ⟨t, ht, hall⟩
        exact absurd ((hconv t).2 hall) (h2 t (by omega) (by omega))
    · intro h
      rw [h1] at h
      exact absurd h (by decide)
    · intro s hs hall
      rw [h4] at hs
      exact h2 s (by omega) (by omega) ((hconv s).2 hall)
    · rw [h4]
      omega
    · rw [h4, h3]
    · intro hle
      have e : params.iter_lim.toNat = 0 := by omega
      refine ⟨h1, ?_, ?_⟩
      · rw [h3, e]
        rfl
      · rw [h4, e]

end algorithms

end skylark

namespace skylark

namespace algorithms

variable {α : Type}

end algorithms

end skylark

namespace skylark

namespace algorithms

variable {α : Type}

/-! ### A breakdown of the conjugate-gradient solver -/

/-- One pass of `CG` without a preconditioner on column `j`, in exact arithmetic, from a
state whose column `j` holds numbers: the new `P`, `Q` and `rhotmp`, and, according to
whether `rhotmp` is zero, a column of numbers or a column that holds no number in `X` and
`R`. -/
theorem CG_exact_step [LinearOrderedField α] (sqrt : α → α) (uplo : base.UpperOrLower)
    (A : El.Matrix α) (k itn : Nat) (st : CG_state (Option α))
    (hsym : ∀ i l, i < A.Height → l < A.Height → A.Get i l = A.Get l i)
    (hP : st.P.Height = A.Height) (j : Nat)
    (x p r q : Nat → α) (rho beta : α)
    (hx : ∀ l, l < A.Height → st.X.Get l j = some (x l))
    (hp : ∀ l, l < A.Height → st.P.Get l j = some (p l))
    (hr : ∀ l, l < A.Height → st.R.Get l j = some (r l))
    (hq : ∀ l, l < A.Height → st.Q.Get l j = some (q l))
    (hrho : st.ressqr j = some rho)
    (hbeta : (if itn = 0 then some 0
      else (base.exact_arithmetic sqrt).div (st.ressqr j) (st.rho0 j)) = some beta) :
    (∀ l, l < A.Height →
      (CG_iteration (base.exact_arithmetic sqrt) uplo (A.map some) k none itn st).P.Get l j
        = some (1 * r l + beta * p l)) ∧
    (∀ i, i < A.Height →
      (CG_iteration (base.exact_arithmetic sqrt) uplo (A.map some) k none itn st).Q.Get i j
        = some (1 * (∑ l ∈ Finset.range A.Height, A.Get i l * (1 * r l + beta * p l))
            + 0 * q i)) ∧
    (CG_iteration (base.exact_arithmetic sqrt) uplo (A.map some) k none itn st).rho0 j
      = some rho ∧
    (∀ tau, tau = ∑ i ∈ Finset.range A.Height, (1 * r i + beta * p i)
        * (1 * (∑ l ∈ Finset.range A.Height, A.Get i l * (1 * r l + beta * p l)) + 0 * q i) →
      base.ColumnDot (base.exact_arithmetic sqrt)
        (CG_iteration (base.exact_arithmetic sqrt) uplo (A.map some) k none itn st).P
        (CG_iteration (base.exact_arithmetic sqrt) uplo (A.map some) k none itn st).Q j
        = some tau ∧
      (tau ≠ 0 →
        (∀ l, l < A.Height →
          (CG_iteration (base.exact_arithmetic sqrt) uplo (A.map some) k none itn st).X.Get l j
            = some (rho / tau * (1 * r l + beta * p l) + x l)) ∧
        (∀ i, i < A.Height →
          (CG_iteration (base.exact_arithmetic sqrt) uplo (A.map some) k none itn st).R.Get i j
            = some (-(rho / tau)
                * (1 * (∑ l ∈ Finset.range A.Height, A.Get i l * (1 * r l + beta * p l))
                  + 0 * q i) + r i))) ∧
      (tau = 0 → ∀ i,
        (CG_iteration (base.exact_arithmetic sqrt) uplo (A.map some) k none itn st).X.Get i j
          = none ∧
        (CG_iteration (base.exact_arithmetic sqrt) uplo (A.map some) k none itn st).R.Get i j
          = none)) := by
  have hbeta' : (if itn = 0 then fun _ => (base.exact_arithmetic sqrt).zero
      else fun i => (base.exact_arithmetic sqrt).div (st.ressqr i) (st.rho0 i)) j
      = some beta := by
    by_cases h0 : itn = 0
    · rw [if_pos h0] at hbeta ⊢
      exact hbeta
    · rw [if_neg h0] at hbeta ⊢
      exact hbeta
  have hP' : ∀ l, l < A.Height →
      (CG_iteration (base.exact_arithmetic sqrt) uplo (A.map some) k none itn st).P.Get l j
        = some (1 * r l + beta * p l) := by
    intro l hl
    have e : (CG_iteration (base.exact_arithmetic sqrt) uplo (A.map some) k none itn st).P.Get
        l j
        = (base.exact_arithmetic sqrt).add
            ((base.exact_arithmetic sqrt).mul (some 1) (st.R.Get l j))
            ((base.exact_arithmetic sqrt).mul
              ((if itn = 0 then fun _ => (base.exact_arithmetic sqrt).zero
                else fun i => (base.exact_arithmetic sqrt).div (st.ressqr i) (st.rho0 i)) j)
              (st.P.Get l j)) := rfl
    rw [e, hbeta', hr l hl, hp l hl]
    rfl
  have hQ' : ∀ i, i < A.Height →
      (CG_iteration (base.exact_arithmetic sqrt) uplo (A.map some) k none itn st).Q.Get i j
        = some (1 * (∑ l ∈ Finset.range A.Height, A.Get i l * (1 * r l + beta * p l))
            + 0 * q i) := by
    intro i hi
    exact exact_Symm_Get sqrt uplo 1 0 A _ st.Q hsym i j hi _ (q i) hP' (hq i hi)
  have hPh : (CG_iteration (base.exact_arithmetic sqrt) uplo (A.map some) k none itn
      st).P.Height = A.Height := hP
  refine ⟨hP', hQ', hrho, ?_⟩
  intro tau htau
  have hdot : base.ColumnDot (base.exact_arithmetic sqrt)
      (CG_iteration (base.exact_arithmetic sqrt) uplo (A.map some) k none itn st).P
      (CG_iteration (base.exact_arithmetic sqrt) uplo (A.map some) k none itn st).Q j
      = some tau := by
    rw [exact_ColumnDot sqrt _ _ j _ _ (by rw [hPh]; exact hP') (by rw [hPh]; exact hQ'),
      hPh, htau]
  have eX : ∀ l, (CG_iteration (base.exact_arithmetic sqrt) uplo (A.map some) k none itn
      st).X.Get l j
      = (base.exact_arithmetic sqrt).add ((base.exact_arithmetic sqrt).mul
          ((base.exact_arithmetic sqrt).div (st.ressqr j)
            (base.ColumnDot (base.exact_arithmetic sqrt)
              (CG_iteration (base.exact_arithmetic sqrt) uplo (A.map some) k none itn st).P
              (CG_iteration (base.exact_arithmetic sqrt) uplo (A.map some) k none itn st).Q j))
          ((CG_iteration (base.exact_arithmetic sqrt) uplo (A.map some) k none itn
            st).P.Get l j)) (st.X.Get l j) := fun _ => rfl
  have eR : ∀ i, (CG_iteration (base.exact_arithmetic sqrt) uplo (A.map some) k none itn
      st).R.Get i j
      = (base.exact_arithmetic sqrt).add ((base.exact_arithmetic sqrt).mul
          ((base.exact_arithmetic sqrt).neg
            ((base.exact_arithmetic sqrt).div (st.ressqr j)
              (base.ColumnDot (base.exact_arithmetic sqrt)
                (CG_iteration (base.exact_arithmetic sqrt) uplo (A.map some) k none itn st).P
                (CG_iteration (base.exact_arithmetic sqrt) uplo (A.map some) k none itn
                  st).Q j)))
          ((CG_iteration (base.exact_arithmetic sqrt) uplo (A.map some) k none itn
            st).Q.Get i j)) (st.R.Get i j) := fun _ => rfl
  refine ⟨hdot, ?_, ?_⟩
  · intro hne
    have ha : (base.exact_arithmetic sqrt).div (some rho) (some tau)
        = some (rho / tau) := by
      show (if tau = 0 then none else some _) = _
      rw [if_neg hne]
    constructor
    · intro l hl
      rw [eX, hdot, hrho, ha, hP' l hl, hx l hl]
      rfl
    · intro i hi
      rw [eR, hdot, hrho, ha, hQ' i hi, hr i hi]
      rfl
  · intro h0 i
    have ha : (base.exact_arithmetic sqrt).div (some rho) (some tau) = none := by
      show (if tau = 0 then none else some _) = _
      rw [if_pos h0]
    constructor
    · rw [eX, hdot, hrho, ha]
      rfl
    · rw [eR, hdot, hrho, ha]
      rfl

/-- Once a column of `R` holds something that is not a number, it does so after every
later pass, and so does the squared residual of the column. -/
theorem CG_exact_poisoned [LinearOrderedField α] (sqrt : α → α) (uplo : base.UpperOrLower)
    (A B X : El.Matrix (Option α)) (M : Option (El.Matrix (Option α) → El.Matrix (Option α)))
    (i j t0 : Nat) (hi : i < B.Height)
    (h0 : (CG_after (base.exact_arithmetic sqrt) uplo A B X M t0).R.Get i j = none)
    (t : Nat) (ht : t0 ≤ t) :
    (CG_after (base.exact_arithmetic sqrt) uplo A B X M t).R.Get i j = none ∧
    (CG_after (base.exact_arithmetic sqrt) uplo A B X M t).ressqr j = none := by
  have hR : ∀ t, t0 ≤ t →
      (CG_after (base.exact_arithmetic sqrt) uplo A B X M t).R.Get i j = none := by
    intro t ht
    induction t with
    | zero =>
      have : t0 = 0 := by omega
      rw [← this]
      exact h0
    | succ t ih =>
      by_cases h : t0 = t + 1
      · rw [← h]
        exact h0
      · have ih' := ih (by omega)
        obtain ⟨z, hz⟩ : ∃ z,
            (CG_after (base.exact_arithmetic sqrt) uplo A B X M (t + 1)).R.Get i j
              = (base.exact_arithmetic sqrt).add z
                  ((CG_after (base.exact_arithmetic sqrt) uplo A B X M t).R.Get i j) :=
          ⟨_, rfl⟩
        rw [hz, ih']
        cases z <;> rfl
  refine ⟨hR t ht, ?_⟩
  rw [CG_after_ressqr]
  cases hs : base.ColumnDot (base.exact_arithmetic sqrt)
    (CG_after (base.exact_arithmetic sqrt) uplo A B X M t).R
    (CG_after (base.exact_arithmetic sqrt) uplo A B X M t).R j with
  | none => rfl
  | some v =>
    obtain ⟨a, _, ha, _⟩ := exact_ColumnDot_terms sqrt _ _ j v hs i (by
      rw [(CG_after_Height _ uplo A B X M t).2.2.1]
      exact hi)
    rw [hR t ht] at ha
    exact absurd ha (by intro h'; cases h')

end algorithms

end skylark

namespace skylark

namespace algorithms

theorem CG_example_sym :
    ∀ i l, i < (sketch.ofColumns 2 [[(1 : ℚ), 0], [0, 2]]).Height → l < (sketch.ofColumns 2 [[(1 : ℚ), 0], [0, 2]]).Height →
      (sketch.ofColumns 2 [[(1 : ℚ), 0], [0, 2]]).Get i l = (sketch.ofColumns 2 [[(1 : ℚ), 0], [0, 2]]).Get l i := by
  intro i l hi hl
  have hi' : i < 2 := hi
  have hl' : l < 2 := hl
  interval_cases i <;> interval_cases l <;> rfl

/-- The first pass of `CG` on the system `A = diag(1, 2)` with the right-hand sides
`[1, 0]` and `[1, 1]`, started from `X = 0`, in exact arithmetic: column 0 is solved
exactly (its residual is 0), column 1 has the squared residual `2 / 9`. -/
theorem CG_example_first_pass (s : ℚ → ℚ) :
    (∀ i, i < 2 → (CG_after (base.exact_arithmetic s) .LOWER
      ((sketch.ofColumns 2 [[(1 : ℚ), 0], [0, 2]]).map some)
      ((sketch.ofColumns 2 [[(1 : ℚ), 0], [1, 1]]).map some)
      ((sketch.ofColumns 2 [[(0 : ℚ), 0], [0, 0]]).map some) none 1).R.Get i 0 = some 0) ∧
    (∃ x p q : Nat → ℚ,
      (∀ l, l < 2 → (CG_after (base.exact_arithmetic s) .LOWER
      ((sketch.ofColumns 2 [[(1 : ℚ), 0], [0, 2]]).map some)
      ((sketch.ofColumns 2 [[(1 : ℚ), 0], [1, 1]]).map some)
      ((sketch.ofColumns 2 [[(0 : ℚ), 0], [0, 0]]).map some) none 1).X.Get l 0 = some (x l)) ∧
      (∀ l, l < 2 → (CG_after (base.exact_arithmetic s) .LOWER
      ((sketch.ofColumns 2 [[(1 : ℚ), 0], [0, 2]]).map some)
      ((sketch.ofColumns 2 [[(1 : ℚ), 0], [1, 1]]).map some)
      ((sketch.ofColumns 2 [[(0 : ℚ), 0], [0, 0]]).map some) none 1).P.Get l 0 = some (p l)) ∧
      (∀ l, l < 2 → (CG_after (base.exact_arithmetic s) .LOWER
      ((sketch.ofColumns 2 [[(1 : ℚ), 0], [0, 2]]).map some)
      ((sketch.ofColumns 2 [[(1 : ℚ), 0], [1, 1]]).map some)
      ((sketch.ofColumns 2 [[(0 : ℚ), 0], [0, 0]]).map some) none 1).Q.Get l 0 = some (q l))) ∧
    (CG_after (base.exact_arithmetic s) .LOWER
      ((sketch.ofColumns 2 [[(1 : ℚ), 0], [0, 2]]).map some)
      ((sketch.ofColumns 2 [[(1 : ℚ), 0], [1, 1]]).map some)
      ((sketch.ofColumns 2 [[(0 : ℚ), 0], [0, 0]]).map some) none 1).ressqr 0 = some 0 ∧
    (CG_after (base.exact_arithmetic s) .LOWER
      ((sketch.ofColumns 2 [[(1 : ℚ), 0], [0, 2]]).map some)
      ((sketch.ofColumns 2 [[(1 : ℚ), 0], [1, 1]]).map some)
      ((sketch.ofColumns 2 [[(0 : ℚ), 0], [0, 0]]).map some) none 1).rho0 0 = some 1 ∧
    (CG_after (base.exact_arithmetic s) .LOWER
      ((sketch.ofColumns 2 [[(1 : ℚ), 0], [0, 2]]).map some)
      ((sketch.ofColumns 2 [[(1 : ℚ), 0], [1, 1]]).map some)
      ((sketch.ofColumns 2 [[(0 : ℚ), 0], [0, 0]]).map some) none 1).ressqr 1 = some (2 / 9) := by
  have hR0 : ∀ j i, i < (sketch.ofColumns 2 [[(1 : ℚ), 0], [0, 2]]).Height →
      (CG_after (base.exact_arithmetic s) .LOWER
      ((sketch.ofColumns 2 [[(1 : ℚ), 0], [0, 2]]).map some)
      ((sketch.ofColumns 2 [[(1 : ℚ), 0], [1, 1]]).map some)
      ((sketch.ofColumns 2 [[(0 : ℚ), 0], [0, 0]]).map some) none 0).R.Get i j
        = some (-1 * (∑ l ∈ Finset.range (sketch.ofColumns 2 [[(1 : ℚ), 0], [0, 2]]).Height,
            (sketch.ofColumns 2 [[(1 : ℚ), 0], [0, 2]]).Get i l * (sketch.ofColumns 2 [[(0 : ℚ), 0], [0, 0]]).Get l j) + 1 * (sketch.ofColumns 2 [[(1 : ℚ), 0], [1, 1]]).Get i j) := by
    intro j i hi
    exact exact_Symm_Get s .LOWER (-1) 1 (sketch.ofColumns 2 [[(1 : ℚ), 0], [0, 2]])
      ((sketch.ofColumns 2 [[(0 : ℚ), 0], [0, 0]]).map some)
      ((sketch.ofColumns 2 [[(1 : ℚ), 0], [1, 1]]).map some) CG_example_sym i j hi
      (fun l => (sketch.ofColumns 2 [[(0 : ℚ), 0], [0, 0]]).Get l j) _ (fun l _ => rfl) rfl
  have hress0 : ∀ j, (CG_after (base.exact_arithmetic s) .LOWER
      ((sketch.ofColumns 2 [[(1 : ℚ), 0], [0, 2]]).map some)
      ((sketch.ofColumns 2 [[(1 : ℚ), 0], [1, 1]]).map some)
      ((sketch.ofColumns 2 [[(0 : ℚ), 0], [0, 0]]).map some) none 0).ressqr j
      = some (∑ i ∈ Finset.range (sketch.ofColumns 2 [[(1 : ℚ), 0], [0, 2]]).Height,
          (-1 * (∑ l ∈ Finset.range (sketch.ofColumns 2 [[(1 : ℚ), 0], [0, 2]]).Height,
            (sketch.ofColumns 2 [[(1 : ℚ), 0], [0, 2]]).Get i l * (sketch.ofColumns 2 [[(0 : ℚ), 0], [0, 0]]).Get l j) + 1 * (sketch.ofColumns 2 [[(1 : ℚ), 0], [1, 1]]).Get i j)
          * (-1 * (∑ l ∈ Finset.range (sketch.ofColumns 2 [[(1 : ℚ), 0], [0, 2]]).Height,
            (sketch.ofColumns 2 [[(1 : ℚ), 0], [0, 2]]).Get i l * (sketch.ofColumns 2 [[(0 : ℚ), 0], [0, 0]]).Get l j) + 1 * (sketch.ofColumns 2 [[(1 : ℚ), 0], [1, 1]]).Get i j)) := by
    intro j
    exact exact_ColumnDot s (CG_after (base.exact_arithmetic s) .LOWER
      ((sketch.ofColumns 2 [[(1 : ℚ), 0], [0, 2]]).map some)
      ((sketch.ofColumns 2 [[(1 : ℚ), 0], [1, 1]]).map some)
      ((sketch.ofColumns 2 [[(0 : ℚ), 0], [0, 0]]).map some) none 0).R
      (CG_after (base.exact_arithmetic s) .LOWER
      ((sketch.ofColumns 2 [[(1 : ℚ), 0], [0, 2]]).map some)
      ((sketch.ofColumns 2 [[(1 : ℚ), 0], [1, 1]]).map some)
      ((sketch.ofColumns 2 [[(0 : ℚ), 0], [0, 0]]).map some) none 0).R j _ _ (hR0 j) (hR0 j)
  have hstep := fun j => CG_exact_step s .LOWER (sketch.ofColumns 2 [[(1 : ℚ), 0], [0, 2]]) 2 0
    (CG_after (base.exact_arithmetic s) .LOWER
      ((sketch.ofColumns 2 [[(1 : ℚ), 0], [0, 2]]).map some)
      ((sketch.ofColumns 2 [[(1 : ℚ), 0], [1, 1]]).map some)
      ((sketch.ofColumns 2 [[(0 : ℚ), 0], [0, 0]]).map some) none 0) CG_example_sym rfl j
    (fun l => (sketch.ofColumns 2 [[(0 : ℚ), 0], [0, 0]]).Get l j)
    (fun l => (sketch.ofColumns 2 [[(0 : ℚ), 0], [0, 0]]).Get l j)
    (fun i => -1 * (∑ l ∈ Finset.range (sketch.ofColumns 2 [[(1 : ℚ), 0], [0, 2]]).Height,
      (sketch.ofColumns 2 [[(1 : ℚ), 0], [0, 2]]).Get i l * (sketch.ofColumns 2 [[(0 : ℚ), 0], [0, 0]]).Get l j) + 1 * (sketch.ofColumns 2 [[(1 : ℚ), 0], [1, 1]]).Get i j)
    (fun l => (sketch.ofColumns 2 [[(1 : ℚ), 0], [1, 1]]).Get l j) _ 0
    (fun l _ => rfl) (fun l _ => rfl) (hR0 j) (fun l _ => rfl) (hress0 j) rfl
  have hS1 : (CG_after (base.exact_arithmetic s) .LOWER
      ((sketch.ofColumns 2 [[(1 : ℚ), 0], [0, 2]]).map some)
      ((sketch.ofColumns 2 [[(1 : ℚ), 0], [1, 1]]).map some)
      ((sketch.ofColumns 2 [[(0 : ℚ), 0], [0, 0]]).map some) none 1)
      = CG_iteration (base.exact_arithmetic s) .LOWER ((sketch.ofColumns 2 [[(1 : ℚ), 0], [0, 2]]).map some) 2 none 0
          (CG_after (base.exact_arithmetic s) .LOWER
      ((sketch.ofColumns 2 [[(1 : ℚ), 0], [0, 2]]).map some)
      ((sketch.ofColumns 2 [[(1 : ℚ), 0], [1, 1]]).map some)
      ((sketch.ofColumns 2 [[(0 : ℚ), 0], [0, 0]]).map some) none 0) := rfl
  rw [hS1]
  obtain ⟨hP, hQ, hrho0, hrest⟩ := hstep 0
  obtain ⟨_, _, _, hrest1⟩ := hstep 1
  obtain ⟨hdot, hne, _⟩ := hrest 1 (by
    simp [Finset.sum_range_succ, sketch.ofColumns, El.Matrix.map])
  obtain ⟨hX, hR⟩ := hne (by norm_num)
  obtain ⟨hdot1, hne1, _⟩ := hrest1 3 (by
    simp [Finset.sum_range_succ, sketch.ofColumns, El.Matrix.map]
    norm_num)
  obtain ⟨hX1, hR1⟩ := hne1 (by norm_num)
  have hR' : ∀ i, i < 2 →
      (CG_iteration (base.exact_arithmetic s) .LOWER ((sketch.ofColumns 2 [[(1 : ℚ), 0], [0, 2]]).map some) 2 none 0
        (CG_after (base.exact_arithmetic s) .LOWER
      ((sketch.ofColumns 2 [[(1 : ℚ), 0], [0, 2]]).map some)
      ((sketch.ofColumns 2 [[(1 : ℚ), 0], [1, 1]]).map some)
      ((sketch.ofColumns 2 [[(0 : ℚ), 0], [0, 0]]).map some) none 0)).R.Get i 0 = some 0 := by
    intro i hi
    rw [hR i hi]
    congr 1
    interval_cases i <;> simp [Finset.sum_range_succ, sketch.ofColumns, El.Matrix.map]
  have hR1' : ∀ i, i < 2 →
      (CG_iteration (base.exact_arithmetic s) .LOWER ((sketch.ofColumns 2 [[(1 : ℚ), 0], [0, 2]]).map some) 2 none 0
        (CG_after (base.exact_arithmetic s) .LOWER
      ((sketch.ofColumns 2 [[(1 : ℚ), 0], [0, 2]]).map some)
      ((sketch.ofColumns 2 [[(1 : ℚ), 0], [1, 1]]).map some)
      ((sketch.ofColumns 2 [[(0 : ℚ), 0], [0, 0]]).map some) none 0)).R.Get i 1 = some (if i = 0 then 1 / 3 else -1 / 3) := by
    intro i hi
    rw [hR1 i hi]
    congr 1
    interval_cases i <;> simp [Finset.sum_range_succ, sketch.ofColumns, El.Matrix.map] <;> norm_num
  refine ⟨hR', ⟨_, _, _, hX, hP, hQ⟩, ?_, ?_, ?_⟩
  · show base.ColumnDot (base.exact_arithmetic s) _ _ 0 = _
    rw [exact_ColumnDot s _ _ 0 (fun _ => 0) (fun _ => 0) hR' hR']
    simp
  · rw [hrho0]
    congr 1
    simp [Finset.sum_range_succ, sketch.ofColumns, El.Matrix.map]
  · show base.ColumnDot (base.exact_arithmetic s) _ _ 1 = _
    rw [exact_ColumnDot s _ _ 1 _ _ hR1' hR1']
    congr 1
    show ∑ l ∈ Finset.range 2, _ = _
    simp [Finset.sum_range_succ]
    norm_num

/-- The second pass on the same system: column 0 has `rho = 0`, so `P = 0`, `rhotmp = 0`
and `alpha = 0 / 0`; its residual is not a number any more. -/
theorem CG_example_second_pass (s : ℚ → ℚ) (i : Nat) :
    (CG_after (base.exact_arithmetic s) .LOWER
      ((sketch.ofColumns 2 [[(1 : ℚ), 0], [0, 2]]).map some)
      ((sketch.ofColumns 2 [[(1 : ℚ), 0], [1, 1]]).map some)
      ((sketch.ofColumns 2 [[(0 : ℚ), 0], [0, 0]]).map some) none 2).R.Get i 0 = none := by
  obtain ⟨hR, ⟨x, p, q, hX, hP, hQ⟩, hress, hrho0, _⟩ := CG_example_first_pass s
  have hstep := CG_exact_step s .LOWER (sketch.ofColumns 2 [[(1 : ℚ), 0], [0, 2]]) 2 1
    (CG_after (base.exact_arithmetic s) .LOWER
      ((sketch.ofColumns 2 [[(1 : ℚ), 0], [0, 2]]).map some)
      ((sketch.ofColumns 2 [[(1 : ℚ), 0], [1, 1]]).map some)
      ((sketch.ofColumns 2 [[(0 : ℚ), 0], [0, 0]]).map some) none 1) CG_example_sym rfl 0 x p (fun _ => 0) q 0 0 hX hP hR hQ hress (by
      rw [if_neg (by decide), hress, hrho0]
      show (if (1 : ℚ) = 0 then none else some ((0 : ℚ) / 1)) = some 0
      rw [if_neg (by norm_num)]
      norm_num)
  obtain ⟨_, _, _, hrest⟩ := hstep
  obtain ⟨_, _, hz⟩ := hrest 0 (by simp)
  exact (hz rfl i).2

/-- On the system `A = diag(1, 2)`, `B = [[1, 0], [1, 1]]`, `X0 = 0`, in exact arithmetic
with any function for `sqrt`: when the test of column 1 fails after the first pass
(`sqrt(2 / 9) < tolerance * sqrt(2)` is false), `CG` returns `-6` for every iteration
limit, because from the second pass on the residual of column 0 is not a number and its
test is false. -/
theorem CG_example_returns (s : ℚ → ℚ) (eps : Option ℚ)
    (params : krylov_iter_params_t (Option ℚ))
    (hT : (base.exact_arithmetic s).lt ((base.exact_arithmetic s).sqrt (some (2 / 9)))
      ((base.exact_arithmetic s).mul (CG_tolerance (base.exact_arithmetic s) eps params) (some (s 2))) = false) :
    (CG (base.exact_arithmetic s) eps .LOWER ((sketch.ofColumns 2 [[(1 : ℚ), 0], [0, 2]]).map some)
      ((sketch.ofColumns 2 [[(1 : ℚ), 0], [1, 1]]).map some)
      ((sketch.ofColumns 2 [[(0 : ℚ), 0], [0, 0]]).map some) params none).ret = -6 := by
  have hspec := CG_loop_spec (base.exact_arithmetic s) .LOWER ((sketch.ofColumns 2 [[(1 : ℚ), 0], [0, 2]]).map some)
    ((sketch.ofColumns 2 [[(1 : ℚ), 0], [1, 1]]).map some)
    ((sketch.ofColumns 2 [[(0 : ℚ), 0], [0, 0]]).map some) none (CG_tolerance (base.exact_arithmetic s) eps params)
    (base.ColumnNrm2 (base.exact_arithmetic s) ((sketch.ofColumns 2 [[(1 : ℚ), 0], [1, 1]]).map some))
    params.iter_lim.toNat 0
  have hCG : CG (base.exact_arithmetic s) eps .LOWER ((sketch.ofColumns 2 [[(1 : ℚ), 0], [0, 2]]).map some)
      ((sketch.ofColumns 2 [[(1 : ℚ), 0], [1, 1]]).map some)
      ((sketch.ofColumns 2 [[(0 : ℚ), 0], [0, 0]]).map some) params none
      = CG_loop (base.exact_arithmetic s) .LOWER ((sketch.ofColumns 2 [[(1 : ℚ), 0], [0, 2]]).map some)
          ((sketch.ofColumns 2 [[(1 : ℚ), 0], [1, 1]]).map some).Width none
          (CG_tolerance (base.exact_arithmetic s) eps params)
          (base.ColumnNrm2 (base.exact_arithmetic s) ((sketch.ofColumns 2 [[(1 : ℚ), 0], [1, 1]]).map some))
          params.iter_lim.toNat 0 (CG_after (base.exact_arithmetic s) .LOWER
      ((sketch.ofColumns 2 [[(1 : ℚ), 0], [0, 2]]).map some)
      ((sketch.ofColumns 2 [[(1 : ℚ), 0], [1, 1]]).map some)
      ((sketch.ofColumns 2 [[(0 : ℚ), 0], [0, 0]]).map some) none 0) := rfl
  rw [← hCG] at hspec
  rcases hspec with ⟨_, t', _, _, hconv, _⟩ | ⟨h, _⟩
  · exfalso
    have hall := (CG_convg_spec (base.exact_arithmetic s) _ _ _ _).2.1 hconv
    by_cases h0 : t' = 0
    · subst h0
      have h1 := hall 1 (by decide)
      rw [(CG_example_first_pass s).2.2.2.2] at h1
      have hn : base.ColumnNrm2 (base.exact_arithmetic s) ((sketch.ofColumns 2 [[(1 : ℚ), 0], [1, 1]]).map some) 1
          = some (s 2) := by
        show (base.exact_arithmetic s).sqrt (base.ColumnDot (base.exact_arithmetic s)
          ((sketch.ofColumns 2 [[(1 : ℚ), 0], [1, 1]]).map some) ((sketch.ofColumns 2 [[(1 : ℚ), 0], [1, 1]]).map some) 1) = _
        rw [exact_ColumnDot s _ _ 1 (fun l => (sketch.ofColumns 2 [[(1 : ℚ), 0], [1, 1]]).Get l 1)
          (fun l => (sketch.ofColumns 2 [[(1 : ℚ), 0], [1, 1]]).Get l 1) (fun _ _ => rfl) (fun _ _ => rfl)]
        show some (s _) = some (s 2)
        congr 2
        show ∑ l ∈ Finset.range 2, _ = _
        simp [Finset.sum_range_succ, sketch.ofColumns]
        norm_num
      rw [hn, hT] at h1
      exact absurd h1 (by decide)
    · have h1 := hall 0 (by decide)
      rw [(CG_exact_poisoned s .LOWER _ _ _ none 0 0 2 (by decide)
        (CG_example_second_pass s 0) (t' + 1) (by omega)).2] at h1
      exact Bool.noConfusion (show false = true from h1)
  · exact h

/-- The same with the tolerance `1 / 10`, `eps = 1 / 100`, five iterations allowed and the
identity standing in for `sqrt`. -/
theorem CG_example_returns_at :
    (CG (base.exact_arithmetic (fun x => x)) (some (1 / 100)) .LOWER
      ((sketch.ofColumns 2 [[(1 : ℚ), 0], [0, 2]]).map some)
      ((sketch.ofColumns 2 [[(1 : ℚ), 0], [1, 1]]).map some)
      ((sketch.ofColumns 2 [[(0 : ℚ), 0], [0, 0]]).map some)
      ⟨some (1 / 10), 5⟩ none).ret = -6 :=
  CG_example_returns (fun x => x) (some (1 / 100)) ⟨some (1 / 10), 5⟩ (by
    simp [CG_tolerance, base.exact_arithmetic]
    norm_num)

end algorithms

end skylark
